import Mathlib

/-!
ApkCloner: the package-identity rewrite job of `src/base/utils.cpp`

A shallow embedding of `ApkCloner::ApkCloner` and `ApkCloner::start`
(`utils.cpp`, lines 408-546) together with a small model of the Qt calls
the job makes (`QString::replace`, `QFile::open`, `QDirIterator`,
`QDir::entryList`, `QDir::exists`, `QDir::mkpath`, `QDir::rename`,
`QFileInfo::path`).

Modelling decisions:

* a `QString` is a list of characters; a file holds text (the UTF-8
  decoding and encoding around `readAll` and `write` is not modelled);
* the package root (`contentsPath`) is a flat table of entries, each a path
  (list of segment names, relative to the root) with a node: a regular
  file (its text, and whether `open(ReadWrite)` succeeds on it) or a
  directory; symbolic links and hidden entries are not modelled;
* the job body passed to `QtConcurrent::run` is run sequentially; the
  outcome is the list of events in the order they happen (signals emitted
  and file-system effects performed) and the final tree;
* the constructor-like `portApk` fragment pasted into the body of `start`
  (lines 464-496) is not well-formed C++ and is left out: the model is the
  pipeline resources, manifest, smali roots.

Two smaller pieces of the program are embedded as well:

* `Utils::roundToNearest` (`utils.cpp`, lines 22-51): `int` values are
  integers, the sum `prev + next` wraps around on 32 bits, and the test
  against `(prev + next) / 2.0`, exact in `double`, is the comparison of
  `2 * number` with the sum; `std::sort` is a sort into ascending order;
* the loop that turns Markdown links into HTML links in the About dialog
  (`aboutdialog.cpp`, lines 113-125 and 158-170): the regular expression
  `\[(.+?)\]\((.+?)\)` is matched by a backtracking matcher with lazy
  quantifiers, `.` being any character but the newline; the `forever`
  loop is run with a bound on the number of turns.
-/

namespace ApkEditorStudio

/-! ## Strings -/

/-- A `QString`, as its list of characters. -/
abbrev QString := List Char

/-- The overload `QString::replace(QChar before, QChar after)`: every
character equal to `before` becomes `after`. -/
def replaceChar (before after : Char) (s : QString) : QString :=
  s.map (fun ch => if ch = before then after else ch)

/-- The scanning loop of `QString::replace(before, after)` for a non-empty
`before`: matches are searched left to right and the search resumes right
after each match (`index += blen`). `skip` counts the characters of the
current match that are still to be stepped over. -/
def replaceScan (before after : QString) : Nat → QString → QString
  | _, [] => []
  | skip + 1, _ :: cs => replaceScan before after skip cs
  | 0, ch :: cs =>
    if before.isPrefixOf (ch :: cs) then
      after ++ replaceScan before after (before.length - 1) cs
    else
      ch :: replaceScan before after 0 cs

/-- The loop of `QString::replace` for an empty `before`: the empty string
matches at every index from `0` to the size of the text (`index++`), so
`after` is put in front of every character and at the end. -/
def replaceEmpty (after : QString) : QString → QString
  | [] => after
  | ch :: cs => after ++ ch :: replaceEmpty after cs

/-- The call `s.replace(before, after)` of `QString`, case sensitive and literal. -/
def qReplace (s before after : QString) : QString :=
  if before = [] then
    (if after = [] then s else replaceEmpty after s)
  else
    replaceScan before after 0 s

/-- Splitting a path string at every `/`. -/
def splitSlash : QString → List QString
  | [] => [[]]
  | ch :: cs =>
    if ch = '/' then [] :: splitSlash cs
    else
      match splitSlash cs with
      | [] => [[ch]]
      | s :: ss => (ch :: s) :: ss

/-- The segments a path string names: the file system ignores empty
segments (repeated, leading and trailing slashes). -/
def segments (s : QString) : List QString :=
  (splitSlash s).filter (fun seg => seg ≠ [])

/-- Joining segment names with `/`. -/
def joinSlash : List QString → QString
  | [] => []
  | [s] => s
  | s :: t :: rest => s ++ '/' :: joinSlash (t :: rest)

/-- The text before the last `/` of `s`, if `s` has a slash. -/
def beforeLastSlash : QString → Option QString
  | [] => none
  | ch :: cs =>
    match beforeLastSlash cs with
    | some r => some (ch :: r)
    | none => if ch = '/' then some [] else none

/-- The call `QFileInfo(s).path()`: the text before the last `/` (the whole
text without its final slash when `s` ends in a slash); `.` when `s` has no
slash and `/` when the only slash is the first character. -/
def fileInfoPath (s : QString) : QString :=
  match beforeLastSlash s with
  | none => ['.']
  | some [] => ['/']
  | some (ch :: cs) => ch :: cs

/-! ## The package tree -/

/-- A path inside the package root: the list of its segment names; `[]` is
the package root itself. -/
abbrev Path := List QString

/-- An entry of the tree: a regular file with its text and whether
`QFile::open(QFile::ReadWrite)` succeeds on it, or a directory. -/
inductive Node where
  | file (text : QString) (rw : Bool)
  | dir
  deriving DecidableEq, Repr

/-- The package tree under `contentsPath`, in directory-listing order, and
what the environment allows: `locked` lists the entries the system refuses
to move, `canCreate` tells whether new entries may be created. -/
structure FS where
  entries : List (Path × Node)
  locked : List Path
  canCreate : Bool
  deriving DecidableEq, Repr

namespace FS

/-- The node at path `p`, if any. -/
def find (fs : FS) (p : Path) : Option Node :=
  (fs.entries.find? (fun e => decide (e.1 = p))).map Prod.snd

/-- The call `QDir().exists(p)` (which is `QFile::exists`): true for a file
or a directory; the package root itself exists. -/
def pathExists (fs : FS) (p : Path) : Bool :=
  p.isEmpty || (fs.find p).isSome

/-- Whether `p` is a directory. -/
def isDir (fs : FS) (p : Path) : Bool :=
  p.isEmpty || decide (fs.find p = some Node.dir)

/-- Whether `p` lies strictly below the directory `d`. -/
def below (d p : Path) : Bool :=
  d.isPrefixOf p && decide (p ≠ d)

/-- The paths a `QDirIterator(d, QDir::Files, QDirIterator::Subdirectories)`
yields: the regular files below `d`, in listing order. -/
def filesUnder (fs : FS) (d : Path) : List Path :=
  fs.entries.filterMap (fun e =>
    match e.2 with
    | Node.file _ _ => if below d e.1 then some e.1 else none
    | Node.dir => none)

/-- The calls `file.resize(0); file.write(data)` on the open file at `p`. -/
def write (fs : FS) (p : Path) (data : QString) : FS :=
  { fs with entries := fs.entries.map (fun e =>
      if e.1 = p then
        match e.2 with
        | Node.file _ rw => (e.1, Node.file data rw)
        | Node.dir => e
      else e) }

/-- The call `QFile(p).open(QFile::ReadWrite)` followed by `readAll()`: the
text of the file when it opens. A file that does not exist is created
empty when the environment allows it and its parent is a directory. -/
def openReadWrite (fs : FS) (p : Path) : Option (QString × FS) :=
  match fs.find p with
  | some (Node.file text rw) => if rw then some (text, fs) else none
  | some Node.dir => none
  | none =>
    if fs.canCreate && fs.isDir p.dropLast then
      some ([], { fs with entries := fs.entries ++ [(p, Node.file [] true)] })
    else none

/-- The loop of `QDir::mkpath`: the directories `done ++ [s1]`,
`done ++ [s1, s2]`, ... are created one after the other where missing; it
stops at the first one that cannot be made. -/
def mkpathFrom (fs : FS) (done : Path) : List QString → FS
  | [] => fs
  | s :: rest =>
    match fs.find (done ++ [s]) with
    | some Node.dir => mkpathFrom fs (done ++ [s]) rest
    | some (Node.file _ _) => fs
    | none =>
      if fs.canCreate then
        mkpathFrom { fs with entries := fs.entries ++ [(done ++ [s], Node.dir)] } (done ++ [s]) rest
      else fs

/-- The call `QDir().mkpath(p)`; its result is not looked at by the job. -/
def mkpath (fs : FS) (p : Path) : FS :=
  mkpathFrom fs [] p

/-- The call `QDir().rename(src, dst)`: it fails when `src` does not exist,
when something already exists at `dst`, when the parent of `dst` is not a
directory, when `dst` lies inside `src`, or when the system refuses;
otherwise the whole subtree at `src` is moved to `dst`. -/
def rename (fs : FS) (src dst : Path) : Option FS :=
  if fs.pathExists src && !fs.pathExists dst && fs.isDir dst.dropLast
      && !src.isPrefixOf dst && !fs.locked.contains src then
    some { fs with entries := fs.entries.map (fun e =>
      if src.isPrefixOf e.1 then (dst ++ e.1.drop src.length, e.2) else e) }
  else none

/-- The name filter `smali*` of `QDir::entryList`, which ignores case unless
`QDir::CaseSensitive` is given. -/
def matchesSmali (name : QString) : Bool :=
  ['s', 'm', 'a', 'l', 'i'].isPrefixOf (name.map Char.toLower)

/-- The call `QDir(contentsPath).entryList(«smali*», QDir::Dirs)`: the names
of the directories directly under the package root that match the filter,
in the order of the listing (the model leaves that order free). -/
def smaliDirs (fs : FS) : List QString :=
  fs.entries.filterMap (fun e =>
    match e with
    | ([name], Node.dir) => if matchesSmali name then some name else none
    | _ => none)

end FS

/-! ## The job -/

/-- What a run does, in order: the signals `started`, `progressed` and
`finished` it emits, and the effects it has on the tree. -/
inductive Event where
  | started
  | progressed (text : QString) (path : QString)
  | finished (ok : Bool)
  | written (file : Path) (data : QString)
  | mkpath (dir : Path)
  | rename (src dst : Path) (ok : Bool)
  deriving DecidableEq, Repr

/-- The fields of the class `ApkCloner`. -/
structure ApkCloner where
  contentsPath : QString
  originalPackageName : QString
  newPackageName : QString
  newPackagePath : QString
  originalPackagePath : QString
  deriving DecidableEq, Repr

/-- The constructor `ApkCloner::ApkCloner`. -/
def ApkCloner.new (contentsPath originalPackageName newPackageName : QString) : ApkCloner :=
  { contentsPath := contentsPath
    originalPackageName := originalPackageName
    newPackageName := newPackageName
    newPackagePath := replaceChar '.' '/' newPackageName
    originalPackagePath := replaceChar '.' '/' originalPackageName }

/-- The entry of the tree a full path string designates: the part after
`contentsPath`, cut into segments. -/
def ApkCloner.resolve (c : ApkCloner) (full : QString) : Path :=
  segments (full.drop c.contentsPath.length)

/-- The block `if (file.open(QFile::ReadWrite))` shared by the three
stages: read the text, substitute, and truncate and write only when the
text changed. A file that does not open is left alone. -/
def rewriteFile (subst : QString → QString) (p : Path) (fs : FS) : List Event × FS :=
  match fs.openReadWrite p with
  | some (data, fs1) =>
    let newData := subst data
    if newData ≠ data then ([Event.written p newData], fs1.write p newData)
    else ([], fs1)
  | none => ([], fs)

/-- The `while (files.hasNext())` loop of the resource and smali stages
over the files the iterator yields under the directory `dir`, whose path
string is `dirStr`. -/
def rewriteTree (c : ApkCloner) (text : QString) (dirStr : QString) (dir : Path)
    (subst : QString → QString) : List Path → FS → List Event × FS
  | [], fs => ([], fs)
  | p :: ps, fs =>
    let path := dirStr ++ joinSlash (p.drop dir.length)
    let ev := Event.progressed text (path.drop (c.contentsPath.length + 1))
    let r := rewriteFile subst p fs
    let rest := rewriteTree c text dirStr dir subst ps r.2
    (ev :: r.1 ++ rest.1, rest.2)

/-- The substitution of the resource and manifest stages. -/
def ApkCloner.substName (c : ApkCloner) (data : QString) : QString :=
  qReplace data c.originalPackageName c.newPackageName

/-- The two substitutions of the smali stage, on one buffer. -/
def ApkCloner.substSmali (c : ApkCloner) (data : QString) : QString :=
  qReplace (qReplace data ('L' :: c.originalPackagePath) ('L' :: c.newPackagePath))
    c.originalPackageName c.newPackageName

/-- The text `tr("Updating resource references...")`, untranslated. -/
def trResources : QString := "Updating resource references...".toList

/-- The text `tr("Updating AndroidManifest.xml...")`, untranslated. -/
def trManifest : QString := "Updating AndroidManifest.xml...".toList

/-- The text `tr("Updating Smali references...")`, untranslated. -/
def trSmali : QString := "Updating Smali references...".toList

/-- The text `tr("Updating directory structure...")`, untranslated. -/
def trStructure : QString := "Updating directory structure...".toList

/-- The resource stage. -/
def ApkCloner.resourceStage (c : ApkCloner) (fs : FS) : List Event × FS :=
  let resourcesPath := c.contentsPath ++ "/res/".toList
  rewriteTree c trResources resourcesPath (c.resolve resourcesPath) c.substName
    (fs.filesUnder (c.resolve resourcesPath)) fs

/-- The manifest stage. -/
def ApkCloner.manifestStage (c : ApkCloner) (fs : FS) : List Event × FS :=
  let manifestPath := c.contentsPath ++ "/AndroidManifest.xml".toList
  let r := rewriteFile c.substName (c.resolve manifestPath) fs
  (Event.progressed trManifest (manifestPath.drop (c.contentsPath.length + 1)) :: r.1, r.2)

/-- The body of the loop `for (const auto &smaliDir : smaliDirs)` for one
directory. The boolean is false when the body left the job through
`emit finished(false); return;`. -/
def ApkCloner.smaliDirStep (c : ApkCloner) (smaliDir : QString) (fs : FS) : List Event × FS × Bool :=
  let smaliPath := c.contentsPath ++ '/' :: smaliDir ++ ['/']
  let r := rewriteTree c trSmali smaliPath (c.resolve smaliPath) c.substSmali
    (fs.filesUnder (c.resolve smaliPath)) fs
  let ev := Event.progressed trStructure smaliDir
  let fullPackagePath := smaliPath ++ c.newPackagePath
  let fullOriginalPackagePath := smaliPath ++ c.originalPackagePath
  if !r.2.pathExists (c.resolve fullOriginalPackagePath) then
    (r.1 ++ [ev], r.2, true)
  else
    let parent := c.resolve (fileInfoPath fullPackagePath)
    let fs2 := r.2.mkpath parent
    match fs2.rename (c.resolve fullOriginalPackagePath) (c.resolve fullPackagePath) with
    | none =>
      (r.1 ++ [ev, Event.mkpath parent,
        Event.rename (c.resolve fullOriginalPackagePath) (c.resolve fullPackagePath) false,
        Event.finished false], fs2, false)
    | some fs3 =>
      (r.1 ++ [ev, Event.mkpath parent,
        Event.rename (c.resolve fullOriginalPackagePath) (c.resolve fullPackagePath) true],
        fs3, true)

/-- The loop `for (const auto &smaliDir : smaliDirs)`: the directories are
taken in order, and the loop stops at the first body that returned from
the job. The boolean tells whether the loop ran to its end. -/
def ApkCloner.smaliLoop (c : ApkCloner) : List QString → FS → List Event × FS × Bool
  | [], fs => ([], fs, true)
  | smaliDir :: rest, fs =>
    let s := c.smaliDirStep smaliDir fs
    if s.2.2 then
      let k := ApkCloner.smaliLoop c rest s.2.1
      (s.1 ++ k.1, k.2)
    else s

/-- The body of `ApkCloner::start`: the events of the run and the tree it leaves. -/
def ApkCloner.start (c : ApkCloner) (fs : FS) : List Event × FS :=
  let r1 := c.resourceStage fs
  let r2 := c.manifestStage r1.2
  let r3 := c.smaliLoop r2.2.smaliDirs r2.2
  (Event.started :: r1.1 ++ r2.1 ++ r3.1 ++ (if r3.2.2 then [Event.finished true] else []), r3.2.1)

/-! ## Sample data -/

/-- The old package name of the examples. -/
def comExampleApp : QString := "com.example.app".toList

/-- The new package name of the examples. -/
def comExampleClone : QString := "com.example.clone".toList

/-- The job of the examples. -/
def sampleCloner : ApkCloner := ApkCloner.new "/tmp/apk".toList comExampleApp comExampleClone

/-- A small decompiled package: one resource file, the manifest, and one
smali directory with one class of the old package. -/
def sampleTree : FS :=
  { entries := [
      (["res".toList], Node.dir),
      (["res".toList, "values".toList], Node.dir),
      (["res".toList, "values".toList, "a.xml".toList],
        Node.file "package=\"com.example.app\"".toList true),
      (["AndroidManifest.xml".toList], Node.file "package=\"com.example.app\"".toList true),
      (["smali".toList], Node.dir),
      (["smali".toList, "com".toList], Node.dir),
      (["smali".toList, "com".toList, "example".toList], Node.dir),
      (["smali".toList, "com".toList, "example".toList, "app".toList], Node.dir),
      (["smali".toList, "com".toList, "example".toList, "app".toList, "MainActivity.smali".toList],
        Node.file ".class public Lcom/example/app/MainActivity;".toList true)]
    locked := []
    canCreate := true }



/-! ## Notions used to state the results -/

/-- The node found at `p` in a table of entries. -/
def lookupNode (l : List (Path × Node)) (p : Path) : Option Node :=
  (l.find? (fun e => decide (e.1 = p))).map Prod.snd

/-- Whether the first segment of `p` is `t`. -/
def headIs (t : QString) (p : Path) : Bool :=
  decide (p.head? = some t)

/-- The entries at or below the top-level name `t`, in listing order. -/
def FS.top (fs : FS) (t : QString) : List (Path × Node) :=
  fs.entries.filter (fun e => headIs t e.1)

/-- The tree cut down to what lies at or below the top-level name `t`. -/
def FS.restrict (fs : FS) (t : QString) : FS :=
  { fs with entries := fs.top t }

/-- What the shared rewrite block makes of a node: the text of a file that
opens is substituted, anything else is left as it is. -/
def rewriteNode (subst : QString → QString) : Node → Node
  | Node.file text true => Node.file (subst text) true
  | n => n

/-- The tree in which every file below `d` that opens has its text substituted. -/
def FS.rewriteUnder (fs : FS) (d : Path) (subst : QString → QString) : FS :=
  { fs with entries := fs.entries.map (fun e =>
      if FS.below d e.1 then (e.1, rewriteNode subst e.2) else e) }

/-- The progress event of a visited file. -/
def visitEvent (c : ApkCloner) (text dirStr : QString) (dir p : Path) : Event :=
  Event.progressed text ((dirStr ++ joinSlash (p.drop dir.length)).drop (c.contentsPath.length + 1))

/-- Two trees in the same environment. -/
def FS.sameEnv (a b : FS) : Prop :=
  a.locked = b.locked ∧ a.canCreate = b.canCreate

/-- The tree after the resource and manifest stages. -/
def ApkCloner.afterManifest (c : ApkCloner) (fs : FS) : FS :=
  (c.manifestStage (c.resourceStage fs).2).2

/-- The write a file visit performs, if any, given the node found at `p`. -/
def fileEvents (subst : QString → QString) (p : Path) : Option Node → List Event
  | some (Node.file text true) =>
    if subst text ≠ text then [Event.written p (subst text)] else []
  | _ => []

/-- The old-package subdirectory of the smali directory `r`. -/
def ApkCloner.oldDir (c : ApkCloner) (r : QString) : Path :=
  r :: segments c.originalPackagePath

/-- The new-package subdirectory of the smali directory `r`. -/
def ApkCloner.newDir (c : ApkCloner) (r : QString) : Path :=
  r :: segments c.newPackagePath

/-- The path string of the smali directory `r`. -/
def ApkCloner.smaliPath (c : ApkCloner) (r : QString) : QString :=
  c.contentsPath ++ '/' :: r ++ ['/']

/-- The directory the job hands to `mkpath` for the smali directory `r`. -/
def ApkCloner.newParent (c : ApkCloner) (r : QString) : Path :=
  c.resolve (fileInfoPath (c.smaliPath r ++ c.newPackagePath))

/-- The events of the file walk of the smali directory `r`. -/
def ApkCloner.smaliWalk (c : ApkCloner) (r : QString) (fs : FS) : List Event × FS :=
  rewriteTree c trSmali (c.smaliPath r) [r] c.substSmali (fs.filesUnder [r]) fs

/-- The loop body for the smali directory `r`, run on the part of the tree
at or below `r`. -/
def ApkCloner.stepAt (c : ApkCloner) (fs : FS) (r : QString) : List Event × FS × Bool :=
  c.smaliDirStep r (fs.restrict r)

/-- The events of the loop over the smali directories and whether it ran to
its end, each directory being handled on its own part of the tree. -/
def ApkCloner.loopAt (c : ApkCloner) (fs : FS) : List QString → List Event × Bool
  | [] => ([], true)
  | r :: rest =>
    if (c.stepAt fs r).2.2 then
      ((c.stepAt fs r).1 ++ (ApkCloner.loopAt c fs rest).1, (ApkCloner.loopAt c fs rest).2)
    else ((c.stepAt fs r).1, false)

/-- Every ancestor of an existing entry exists. -/
def FS.Closed (fs : FS) : Prop :=
  ∀ p q : Path, fs.find p ≠ none → q <+: p → fs.pathExists q = true

/-- The events of the file walk of the smali directory `r`, read off the
starting tree: for each file a progress event and, when the text changes,
a write. -/
def ApkCloner.walkEventsAt (c : ApkCloner) (fs : FS) (r : QString) : List Event :=
  (fs.filesUnder [r]).flatMap (fun p =>
    visitEvent c trSmali (c.smaliPath r) [r] p :: fileEvents c.substSmali p (fs.find p))

/-- The part of the tree below the smali directory `r` after its file walk. -/
def ApkCloner.walkedAt (c : ApkCloner) (fs : FS) (r : QString) : FS :=
  (fs.restrict r).rewriteUnder [r] c.substSmali

/-- The move of the old-package subdirectory of `r`, after the file walk
and `mkpath`. -/
def ApkCloner.movedAt (c : ApkCloner) (fs : FS) (r : QString) : Option FS :=
  ((c.walkedAt fs r).mkpath (c.newParent r)).rename (c.oldDir r) (c.newDir r)

/-- The bytecode file of the sample tree. -/
def sampleSmaliFile : Path :=
  ["smali".toList, "com".toList, "example".toList, "app".toList, "MainActivity.smali".toList]

/-- Where the bytecode file of the sample tree is after the job. -/
def sampleMovedFile : Path :=
  ["smali".toList, "com".toList, "example".toList, "clone".toList, "MainActivity.smali".toList]

/-- A tree with one bytecode file of the single-segment package `app`. -/
def appTree : FS :=
  { entries := [
      (["smali".toList], Node.dir),
      (["smali".toList, "app".toList], Node.dir),
      (["smali".toList, "app".toList, "Main.smali".toList], Node.file "Lapp/Main;".toList true)]
    locked := []
    canCreate := true }

/-- The sample tree with a manifest that does not open. -/
def shutManifestTree : FS :=
  { sampleTree with entries := sampleTree.entries.map (fun e =>
      if e.1 = ["AndroidManifest.xml".toList] then
        (e.1, Node.file "package=\"com.example.app\"".toList false)
      else e) }

/-- Two smali directories; the move of the first one fails because the
new-package subdirectory is already there. -/
def blockedTree : FS :=
  { entries := [
      (["smali".toList], Node.dir),
      (["smali".toList, "com".toList], Node.dir),
      (["smali".toList, "com".toList, "example".toList], Node.dir),
      (["smali".toList, "com".toList, "example".toList, "app".toList], Node.dir),
      (["smali".toList, "com".toList, "example".toList, "app".toList, "A.smali".toList],
        Node.file "Lcom/example/app/A;".toList true),
      (["smali".toList, "com".toList, "example".toList, "clone".toList], Node.dir),
      (["smali_classes2".toList], Node.dir),
      (["smali_classes2".toList, "B.smali".toList], Node.file "Lcom/example/app/A;".toList true)]
    locked := []
    canCreate := true }

/-- Two smali directories, none of which holds the old package. -/
def otherTree : FS :=
  { entries := [
      (["smali".toList], Node.dir),
      (["smali".toList, "org".toList], Node.dir),
      (["smali".toList, "org".toList, "X.smali".toList],
        Node.file "Lcom/example/app/A;".toList true),
      (["smali_classes2".toList], Node.dir)]
    locked := []
    canCreate := true }

/-- The sample tree with a bytecode file that does not open. -/
def shutSmaliTree : FS :=
  { sampleTree with entries := sampleTree.entries.map (fun e =>
      if e.1 = sampleSmaliFile then
        (e.1, Node.file ".class public Lcom/example/app/MainActivity;".toList false)
      else e) }

/-- The sample tree with a second resource file, which does not open. -/
def shutResTree : FS :=
  { sampleTree with entries := sampleTree.entries ++
      [(["res".toList, "values".toList, "b.xml".toList],
        Node.file "package=\"com.example.app\"".toList false)] }

/-- The same tree with the second resource file opening. -/
def openResTree : FS :=
  { sampleTree with entries := sampleTree.entries ++
      [(["res".toList, "values".toList, "b.xml".toList],
        Node.file "package=\"com.example.app\"".toList true)] }

/-- The name of the resource directory. -/
def resName : QString := "res".toList

/-- The name of the manifest file. -/
def manifestName : QString := "AndroidManifest.xml".toList

/-- The entries of a tree outside `res/`, in listing order. -/
def FS.outsideRes (fs : FS) : List (Path × Node) :=
  fs.entries.filter (fun e => !headIs resName e.1)

/-! ## Well-formed trees -/

/-- A segment name is not empty and holds no slash. -/
def validName (s : QString) : Bool :=
  !s.isEmpty && !s.contains '/'

/-- What every real tree satisfies: no path is listed twice, no entry is
the root itself, segment names are valid, and the parent of every entry is
a directory. -/
def FS.WF (fs : FS) : Prop :=
  (fs.entries.map Prod.fst).Nodup ∧
  ∀ e ∈ fs.entries, e.1 ≠ [] ∧ (∀ s ∈ e.1, validName s = true) ∧ fs.isDir e.1.dropLast = true

instance (fs : FS) : Decidable fs.WF := by
  unfold FS.WF; infer_instance

/-- The text `t` is `s` with the occurrences of `before` replaced by
`after`, taken from left to right without overlap: either `s` has no
occurrence, or `s` is `u ++ before ++ rest` where no occurrence starts
inside `u`, and the rest is replaced in the same way. -/
inductive ReplacedAll (before after : QString) : QString → QString → Prop
  | clean (s : QString) : ¬ before <:+: s → ReplacedAll before after s s
  | occurrence (u rest out : QString) :
      ¬ before <:+: u ++ before.dropLast →
      ReplacedAll before after rest out →
      ReplacedAll before after (u ++ before ++ rest) (u ++ after ++ out)

/-! ## Notions for the order of the events, repeated runs and occurrence counts -/

/-- Whether an event is a progress signal with the stage text `text`. -/
def isProgress (text : QString) : Event → Bool
  | Event.progressed t _ => decide (t = text)
  | _ => false

/-- The events of the directory move of the smali directory `r`: none when
the old-package subdirectory is absent, else the `mkpath` and the `rename`
with its result. -/
def ApkCloner.moveEventsAt (c : ApkCloner) (fs : FS) (r : QString) : List Event :=
  if fs.pathExists (c.oldDir r) then
    [Event.mkpath (c.newParent r), Event.rename (c.oldDir r) (c.newDir r) (c.movedAt fs r).isSome]
  else []

/-- The events of the loop body for the smali directory `r`, the terminal
signal apart: the file walk, the directory-structure progress event, the
move. -/
def ApkCloner.rootEventsAt (c : ApkCloner) (fs : FS) (r : QString) : List Event :=
  c.walkEventsAt fs r ++ Event.progressed trStructure r :: c.moveEventsAt fs r

/-- The stage an event belongs to: `0` for `started`, `1` for the resource
stage, `2` for the manifest stage, `3` for the bytecode stage, `4` for the
terminal signal. -/
def stageOf : Event → Nat
  | Event.started => 0
  | Event.progressed t _ => if t = trResources then 1 else if t = trManifest then 2 else 3
  | Event.written p _ => if headIs resName p then 1 else if p = [manifestName] then 2 else 3
  | Event.mkpath _ => 3
  | Event.rename _ _ _ => 3
  | Event.finished _ => 4

/-- Whether an event is the directory-structure progress event of the
smali directory `r` or a step of the move inside `r`. -/
def movesIn (r : QString) : Event → Bool
  | Event.progressed t x => decide (t = trStructure ∧ x = r)
  | Event.mkpath d => headIs r d
  | Event.rename src _ _ => headIs r src
  | _ => false

/-- Whether an event is a write to a file at or below the top-level name `r`. -/
def writesIn (r : QString) : Event → Bool
  | Event.written p _ => headIs r p
  | _ => false

/-- Whether a node is a directory. -/
def Node.isDirNode : Node → Bool
  | Node.dir => true
  | Node.file _ _ => false

/-- The shape of a tree: its paths in listing order, each with whether it
is a directory. -/
def FS.shape (fs : FS) : List (Path × Bool) :=
  fs.entries.map (fun e => (e.1, e.2.isDirNode))

/-- A node with its access flag forgotten. -/
def Node.anyAccess : Node → Node
  | Node.file text _ => Node.file text true
  | Node.dir => Node.dir

/-- Two trees that differ only in which files open: the same entries in the
same order with the same texts, in the same environment. -/
def FS.sameButAccess (a b : FS) : Prop :=
  a.entries.map (fun e => (e.1, e.2.anyAccess)) = b.entries.map (fun e => (e.1, e.2.anyAccess))
  ∧ a.locked = b.locked ∧ a.canCreate = b.canCreate

instance (a b : FS) : Decidable (a.sameButAccess b) := by
  unfold FS.sameButAccess; infer_instance

/-- The job that renames the sample package to itself. -/
def sameNameCloner : ApkCloner := ApkCloner.new "/tmp/apk".toList comExampleApp comExampleApp

/-- What a run without directory move makes of the node it finds at `p`:
the substitution of the resource and manifest stages below `res/` and at
the manifest, the two substitutions of the smali stage at or below a smali
directory, nothing elsewhere. -/
def ApkCloner.rewriteAt (c : ApkCloner) (fs : FS) (p : Path) (n : Node) : Node :=
  if FS.below [resName] p = true ∨ p = [manifestName] then rewriteNode c.substName n
  else if fs.smaliDirs.any (fun r => headIs r p) then rewriteNode c.substSmali n
  else n

/-- A job whose new package name contains the old one. -/
def nestedNameCloner : ApkCloner :=
  ApkCloner.new "/tmp/apk".toList comExampleApp "com.example.app2".toList

/-- Whether a proper non-empty suffix of `w` is also a prefix of `w`: two
occurrences of `w` can then overlap. -/
def selfOverlaps (w : QString) : Bool :=
  (List.range w.length).any (fun i => decide (0 < i) && (w.drop i).isPrefixOf w)

/-- A tree with a resource file that mentions the package `x.y` after the
text `a.` and a smali directory that holds the package. -/
def roundTripTree : FS :=
  { entries := [
      (["res".toList], Node.dir),
      (["res".toList, "a.xml".toList], Node.file "a.x.y".toList true),
      (["smali".toList], Node.dir),
      (["smali".toList, "x".toList], Node.dir),
      (["smali".toList, "x".toList, "y".toList], Node.dir),
      (["smali".toList, "x".toList, "y".toList, "F.smali".toList], Node.file "F".toList true)]
    locked := []
    canCreate := true }

/-- Whether an occurrence of `b` can begin inside an occurrence of `a` or at
its first character: some suffix of `a` that starts inside `a` is a prefix
of `b` or has `b` as a prefix. -/
def overlaps (a b : QString) : Bool :=
  (List.range a.length).any (fun i => (a.drop i).isPrefixOf b || b.isPrefixOf (a.drop i))

/-- The call `s.count(pat)` of `QString`: the number of occurrences of
`pat` in `s`, overlapping ones included. -/
def countOcc (pat : QString) : QString → Nat
  | [] => if pat.isPrefixOf [] then 1 else 0
  | ch :: cs => (if pat.isPrefixOf (ch :: cs) then 1 else 0) + countOcc pat cs

/-! ## `Utils::roundToNearest` -/

/-- The value an `int` computation leaves when the exact result is `x`:
two's-complement wrap-around on 32 bits. -/
def wrapInt (x : Int) : Int :=
  (x + 2147483648) % 4294967296 - 2147483648

/-- The test `number <= middle` for `middle = sum / 2.0`. The division and
the comparison are done in `qreal` (`double`), which holds every `int` and
every half of an `int` exactly, so the test is the comparison of
`2 * number` with `sum`. -/
def leHalf (number sum : Int) : Bool :=
  decide (2 * number ≤ sum)

/-- The `for` loop of `Utils::roundToNearest` over the adjacent pairs of the
sorted list; `none` when the loop ends without `return`. -/
def Utils.roundLoop (number : Int) : List Int → Option Int
  | prev :: next :: rest =>
    if number < prev ∨ number > next then Utils.roundLoop number (next :: rest)
    else if leHalf number (wrapInt (prev + next)) then some prev else some next
  | _ => none

/-- The body of `Utils::roundToNearest` for a list that is not empty, from
`std::sort` to the end of the `for` loop; `none` when control reaches the
final `return number`. -/
def Utils.roundSearch (number : Int) (numbers : List Int) : Option Int :=
  match (numbers.insertionSort (fun a b => a ≤ b)).head?,
      (numbers.insertionSort (fun a b => a ≤ b)).getLast? with
  | some first, some last =>
    if number ≤ first then some first
    else if number ≥ last then some last
    else Utils.roundLoop number (numbers.insertionSort (fun a b => a ≤ b))
  | _, _ => none

/-- The function `Utils::roundToNearest`. -/
def Utils.roundToNearest (number : Int) (numbers : List Int) : Int :=
  if numbers.isEmpty then number
  else (Utils.roundSearch number numbers).getD number

/-- Whether `prev + next` stays in the range of `int` for every two
adjacent elements of the list. -/
def sumsFit : List Int → Bool
  | prev :: next :: rest =>
    decide (-2147483648 ≤ prev + next ∧ prev + next ≤ 2147483647) && sumsFit (next :: rest)
  | _ => true

/-! ## The Markdown links of the About dialog -/

/-- The lazy quantifier `.+?` followed by the rest of the pattern, `k`: one
character that is not a newline is taken and `k` is tried on what follows;
when `k` fails there, one more character is taken. The result is the text
the quantifier matched and what `k` gave. -/
def lazyDots {α : Type} (k : QString → Option α) : QString → Option (QString × α)
  | [] => none
  | ch :: cs =>
    if ch = '\n' then none
    else
      match k cs with
      | some r => some ([ch], r)
      | none => (lazyDots k cs).map (fun x => (ch :: x.1, x.2))

/-- The end `\)` of the pattern: a closing parenthesis; the result is the
text after it. -/
def closeParen : QString → Option QString
  | [] => none
  | ch :: rest => if ch = ')' then some rest else none

/-- The part `\]\((.+?)\)` of the pattern: the second capture and the text
after the match. -/
def hrefPart : QString → Option (QString × QString)
  | ch :: ch2 :: rest => if ch = ']' ∧ ch2 = '(' then lazyDots closeParen rest else none
  | _ => none

/-- The pattern `\[(.+?)\]\((.+?)\)` tried at the first character of the
text: the two captures and the text after the match. -/
def matchLinkAt : QString → Option (QString × QString × QString)
  | [] => none
  | ch :: rest => if ch = '[' then lazyDots hrefPart rest else none

/-- The call `regex.match(line)`: the pattern is tried at every position
from left to right; the result is the text before the first match, the two
captures and the text after the match. -/
def matchLink : QString → Option (QString × QString × QString × QString)
  | [] => none
  | ch :: cs =>
    match matchLinkAt (ch :: cs) with
    | some m => some ([], m)
    | none => (matchLink cs).map (fun x => (ch :: x.1, x.2))

/-- The text `QString("<a href=\"%1\">%2</a>").arg(href, title)`. -/
def linkHtml (href title : QString) : QString :=
  "<a href=\"".toList ++ href ++ "\">".toList ++ title ++ "</a>".toList

/-- One turn of the `forever` loop: the first match is replaced by the
link; `none` when there is no match and the loop is left with `break`. -/
def linkStep (line : QString) : Option QString :=
  (matchLink line).map (fun m => m.1 ++ linkHtml m.2.2.1 m.2.1 ++ m.2.2.2)

/-- The `forever` loop, run for at most `fuel` turns: the line the loop
leaves, `none` when the loop is still running after `fuel` turns. -/
def parseLinks : Nat → QString → Option QString
  | 0, _ => none
  | fuel + 1, line =>
    match linkStep line with
    | some next => parseLinks fuel next
    | none => some line

/-- The two characters `](` that separate title and target of a link. -/
def linkSeparator : QString := [']', '(']

/-- The line holds a match of the pattern `\[(.+?)\]\((.+?)\)`: a `[`, a
title, `](`, a target and `)`, title and target not empty and without
newline. -/
def HasLink (line : QString) : Prop :=
  ∃ pre title href post : QString,
    line = pre ++ ('[' :: (title ++ (']' :: '(' :: (href ++ (')' :: post)))))
    ∧ title ≠ [] ∧ href ≠ [] ∧ '\n' ∉ title ∧ '\n' ∉ href

/-! ## Facts about `QString::replace` -/

theorem replaceScan_skip (before after : QString) :
    ∀ (k : Nat) (s : QString), replaceScan before after k s = replaceScan before after 0 (s.drop k) := by
  intro k
  induction k with
  | zero => intro s; simp
  | succ k ih =>
    intro s
    cases s with
    | nil => simp [replaceScan]
    | cons ch cs => simp [replaceScan, ih cs]

theorem replaceScan_miss (before after : QString) (ch : Char) (cs : QString)
    (h : ¬ before <+: ch :: cs) :
    replaceScan before after 0 (ch :: cs) = ch :: replaceScan before after 0 cs := by
  have h1 : before.isPrefixOf (ch :: cs) = false := by
    rw [Bool.eq_false_iff]; intro hp; exact h (List.isPrefixOf_iff_prefix.mp hp)
  simp [replaceScan, h1]

theorem replaceScan_hit (before after rest : QString) (hne : before ≠ []) :
    replaceScan before after 0 (before ++ rest) = after ++ replaceScan before after 0 rest := by
  cases before with
  | nil => exact absurd rfl hne
  | cons b bs =>
    have h1 : (b :: bs).isPrefixOf (b :: (bs ++ rest)) = true :=
      List.isPrefixOf_iff_prefix.mpr ⟨rest, by simp⟩
    show replaceScan (b :: bs) after 0 (b :: (bs ++ rest)) = _
    rw [replaceScan, if_pos h1, replaceScan_skip]
    simp

theorem replaceScan_clean (before after : QString) :
    ∀ s : QString, ¬ before <:+: s → replaceScan before after 0 s = s := by
  intro s
  induction s with
  | nil => intro _; rfl
  | cons ch cs ih =>
    intro h
    rw [replaceScan_miss before after ch cs (fun hp => h hp.isInfix),
      ih (fun hi => h (List.infix_cons hi))]

theorem qReplace_clean (s before after : QString) (h : ¬ before <:+: s) :
    qReplace s before after = s := by
  have hne : before ≠ [] := by
    intro he; subst he; exact h List.nil_infix
  simp [qReplace, hne, replaceScan_clean before after s h]

theorem qReplace_hit (before after rest : QString) (hne : before ≠ []) :
    qReplace (before ++ rest) before after = after ++ qReplace rest before after := by
  simp [qReplace, hne, replaceScan_hit before after rest hne]

theorem replacedAll_cons (before after : QString) (ch : Char) (cs out : QString)
    (hmiss : ¬ before <+: ch :: cs) (h : ReplacedAll before after cs out) :
    ReplacedAll before after (ch :: cs) (ch :: out) := by
  cases h with
  | clean _ hc =>
    refine ReplacedAll.clean _ ?_
    intro hi
    rcases List.infix_cons_iff.mp hi with hp | ht
    · exact hmiss hp
    · exact hc ht
  | occurrence u rest out2 hu hr =>
    have := @ReplacedAll.occurrence before after (ch :: u) rest out2 (by
      intro hi
      rcases List.infix_cons_iff.mp hi with hp | ht
      · apply hmiss
        refine hp.trans ?_
        refine ⟨before.getLast?.toList ++ rest, ?_⟩
        have hb : before.dropLast ++ before.getLast?.toList = before := by
          cases hbe : before.getLast? with
          | none => simp [List.getLast?_eq_none_iff.mp hbe]
          | some x =>
            have := List.dropLast_append_getLast? x (by simpa using hbe)
            simpa using this
        calc (ch :: u ++ before.dropLast) ++ (before.getLast?.toList ++ rest)
            = ch :: (u ++ (before.dropLast ++ before.getLast?.toList) ++ rest) := by simp
          _ = ch :: (u ++ before ++ rest) := by rw [hb]
      · exact hu ht) hr
    simpa using this

theorem replaceScan_replacedAll (before after : QString) (hne : before ≠ []) :
    ∀ (n : Nat) (s : QString), s.length ≤ n →
      ReplacedAll before after s (replaceScan before after 0 s) := by
  intro n
  induction n with
  | zero =>
    intro s hs
    have : s = [] := List.length_eq_zero.mp (Nat.le_zero.mp hs)
    subst this
    refine ReplacedAll.clean _ ?_
    intro hi
    exact hne (List.infix_nil.mp hi)
  | succ n ih =>
    intro s hs
    cases s with
    | nil =>
      refine ReplacedAll.clean _ ?_
      intro hi
      exact hne (List.infix_nil.mp hi)
    | cons ch cs =>
      by_cases hp : before <+: ch :: cs
      · obtain ⟨rest, hrest⟩ := hp
        rw [← hrest, replaceScan_hit before after rest hne]
        have hlen : rest.length ≤ n := by
          have h1 : (before ++ rest).length = (ch :: cs).length := by rw [hrest]
          have h2 : 0 < before.length := List.length_pos.mpr hne
          simp only [List.length_append, List.length_cons] at h1 hs
          omega
        have := @ReplacedAll.occurrence before after [] rest _ (by
          intro hi
          have h1 := hi.length_le
          have h2 : 0 < before.length := List.length_pos.mpr hne
          simp at h1
          omega) (ih rest hlen)
        simpa using this
      · rw [replaceScan_miss before after ch cs hp]
        exact replacedAll_cons before after ch cs _ hp
          (ih cs (by simpa using hs))

/-- The model of `QString::replace` meets the description "every occurrence,
left to right, without overlap" for a non-empty `before`. -/
theorem qReplace_replacedAll (s before after : QString) (hne : before ≠ []) :
    ReplacedAll before after s (qReplace s before after) := by
  simp only [qReplace, hne, if_false]
  exact replaceScan_replacedAll before after hne s.length s (Nat.le_refl _)


/-! ## Facts about path strings -/

theorem splitSlash_ne_nil (s : QString) : splitSlash s ≠ [] := by
  cases s with
  | nil => simp [splitSlash]
  | cons ch cs =>
    unfold splitSlash
    split
    · simp
    · split <;> simp

theorem splitSlash_name_slash (r x : QString) (hr : '/' ∉ r) :
    splitSlash (r ++ '/' :: x) = r :: splitSlash x := by
  induction r with
  | nil => simp [splitSlash]
  | cons ch cs ih =>
    have hch : ch ≠ '/' := fun h => hr (by simp [h])
    have hcs : '/' ∉ cs := fun h => hr (by simp [h])
    show splitSlash (ch :: (cs ++ '/' :: x)) = _
    rw [splitSlash, if_neg hch, ih hcs]

theorem splitSlash_name (r : QString) (hr : '/' ∉ r) : splitSlash r = [r] := by
  induction r with
  | nil => rfl
  | cons ch cs ih =>
    have hch : ch ≠ '/' := fun h => hr (by simp [h])
    have hcs : '/' ∉ cs := fun h => hr (by simp [h])
    rw [splitSlash, if_neg hch, ih hcs]

theorem validName_iff (r : QString) : validName r = true ↔ r ≠ [] ∧ '/' ∉ r := by
  cases r <;> simp [validName, List.contains_iff_exists_mem_beq]

theorem segments_slash (x : QString) : segments ('/' :: x) = segments x := by
  simp [segments, splitSlash]

theorem segments_name_slash (r x : QString) (hr : validName r = true) :
    segments (r ++ '/' :: x) = r :: segments x := by
  obtain ⟨hne, hs⟩ := (validName_iff r).mp hr
  simp [segments, splitSlash_name_slash r x hs, hne]

theorem segments_name (r : QString) (hr : validName r = true) : segments r = [r] := by
  obtain ⟨hne, hs⟩ := (validName_iff r).mp hr
  simp [segments, splitSlash_name r hs, hne]

theorem resolve_append (c : ApkCloner) (x : QString) :
    c.resolve (c.contentsPath ++ x) = segments x := by
  simp [ApkCloner.resolve]

/-- The directory a smali path string designates. -/
theorem resolve_smaliPath (c : ApkCloner) (r : QString) (hr : validName r = true) :
    c.resolve (c.contentsPath ++ '/' :: r ++ ['/']) = [r] := by
  have : c.contentsPath ++ '/' :: r ++ ['/'] = c.contentsPath ++ ('/' :: (r ++ '/' :: [])) := by simp
  rw [this, resolve_append, segments_slash, segments_name_slash r [] hr]
  simp [segments, splitSlash]

/-- The entry a package path below a smali directory designates. -/
theorem resolve_package (c : ApkCloner) (r x : QString) (hr : validName r = true) :
    c.resolve (c.contentsPath ++ '/' :: r ++ ['/'] ++ x) = r :: segments x := by
  have : c.contentsPath ++ '/' :: r ++ ['/'] ++ x = c.contentsPath ++ ('/' :: (r ++ '/' :: x)) := by simp
  rw [this, resolve_append, segments_slash, segments_name_slash r x hr]

theorem beforeLastSlash_append_slash (a x : QString) :
    beforeLastSlash (a ++ '/' :: x) =
      some (a ++ (match beforeLastSlash x with
        | some y => '/' :: y
        | none => [])) := by
  induction a with
  | nil =>
    show beforeLastSlash ('/' :: x) = _
    rw [beforeLastSlash]
    cases beforeLastSlash x <;> simp
  | cons ch cs ih =>
    show beforeLastSlash (ch :: (cs ++ '/' :: x)) = _
    rw [beforeLastSlash, ih]
    simp

theorem fileInfoPath_of_some (s t : QString) (h : beforeLastSlash s = some t) (ht : t ≠ []) :
    fileInfoPath s = t := by
  rw [fileInfoPath, h]
  cases t with
  | nil => exact absurd rfl ht
  | cons a as => rfl

/-- The directory handed to `mkpath` lies at or below the smali directory. -/
theorem resolve_fileInfoPath (c : ApkCloner) (r x : QString) (hr : validName r = true) :
    ∃ rest, c.resolve (fileInfoPath (c.contentsPath ++ '/' :: r ++ ['/'] ++ x)) = r :: rest := by
  obtain ⟨hne, hs⟩ := (validName_iff r).mp hr
  have e1 : c.contentsPath ++ '/' :: r ++ ['/'] ++ x = (c.contentsPath ++ '/' :: r) ++ '/' :: x := by simp
  have key : ∃ t, (t = [] ∨ ∃ y, t = '/' :: y) ∧
      fileInfoPath (c.contentsPath ++ '/' :: r ++ ['/'] ++ x) = c.contentsPath ++ ('/' :: (r ++ t)) := by
    rw [e1]
    cases hb : beforeLastSlash x with
    | none =>
      refine ⟨[], Or.inl rfl, ?_⟩
      rw [fileInfoPath_of_some _ (c.contentsPath ++ '/' :: r)
        (by rw [beforeLastSlash_append_slash, hb]; simp) (by simp)]
      simp
    | some y =>
      refine ⟨'/' :: y, Or.inr ⟨y, rfl⟩, ?_⟩
      rw [fileInfoPath_of_some _ (c.contentsPath ++ '/' :: r ++ '/' :: y)
        (by rw [beforeLastSlash_append_slash, hb]) (by simp)]
      simp
  obtain ⟨t, ht, hf⟩ := key
  rw [hf, resolve_append, segments_slash]
  rcases ht with rfl | ⟨y, rfl⟩
  · exact ⟨[], by simp [segments_name r hr]⟩
  · exact ⟨segments y, segments_name_slash r y hr⟩


/-! ## Looking entries up -/

theorem FS.find_eq (fs : FS) (p : Path) : fs.find p = lookupNode fs.entries p := rfl

theorem lookupNode_eq_none_iff (l : List (Path × Node)) (p : Path) :
    lookupNode l p = none ↔ ∀ e ∈ l, e.1 ≠ p := by
  simp only [lookupNode, Option.map_eq_none', List.find?_eq_none, decide_eq_true_eq]

theorem mem_of_lookupNode (l : List (Path × Node)) (p : Path) (n : Node)
    (h : lookupNode l p = some n) : (p, n) ∈ l := by
  simp only [lookupNode, Option.map_eq_some'] at h
  obtain ⟨e, he, hn⟩ := h
  have h1 := List.mem_of_find?_eq_some he
  have h2 := List.find?_some he
  simp only [decide_eq_true_eq] at h2
  cases e with
  | mk q m =>
    simp only at h2 hn
    subst h2; subst hn
    exact h1

theorem lookupNode_of_mem (l : List (Path × Node)) (hnd : (l.map Prod.fst).Nodup)
    (p : Path) (n : Node) (h : (p, n) ∈ l) : lookupNode l p = some n := by
  induction l with
  | nil => simp at h
  | cons e es ih =>
    rw [List.map_cons, List.nodup_cons] at hnd
    rcases List.mem_cons.mp h with h1 | h1
    · subst h1; simp [lookupNode]
    · have hne : e.1 ≠ p := by
        intro he
        apply hnd.1
        rw [he]
        exact List.mem_map_of_mem Prod.fst h1
      have := ih hnd.2 h1
      simp only [lookupNode] at this ⊢
      rw [List.find?_cons_of_neg _ (by simpa using hne)]
      exact this

theorem lookupNode_map (l : List (Path × Node)) (f : Path × Node → Path × Node)
    (hf : ∀ e, (f e).1 = e.1) (p : Path) :
    lookupNode (l.map f) p = (l.find? (fun e => decide (e.1 = p))).map (fun e => (f e).2) := by
  induction l with
  | nil => rfl
  | cons e es ih =>
    simp only [lookupNode, List.map_cons] at ih ⊢
    by_cases h : e.1 = p
    · rw [List.find?_cons_of_pos _ (by simpa [hf] using h), List.find?_cons_of_pos _ (by simpa using h)]
      rfl
    · rw [List.find?_cons_of_neg _ (by simpa [hf] using h), List.find?_cons_of_neg _ (by simpa using h)]
      exact ih

theorem lookupNode_append (l x : List (Path × Node)) (p : Path) :
    lookupNode (l ++ x) p = (lookupNode l p).or (lookupNode x p) := by
  simp only [lookupNode, List.find?_append]
  cases List.find? (fun e => decide (e.1 = p)) l <;> simp

theorem lookupNode_filter (l : List (Path × Node)) (q : Path × Node → Bool) (p : Path)
    (h : ∀ e, e.1 = p → q e = true) :
    lookupNode (l.filter q) p = lookupNode l p := by
  simp only [lookupNode, List.find?_filter]
  congr 2
  funext e
  by_cases he : e.1 = p
  · simp [he, h e he]
  · simp [he]

theorem FS.find_rewriteUnder (fs : FS) (d : Path) (subst : QString → QString) (q : Path) :
    (fs.rewriteUnder d subst).find q =
      (fs.find q).map (fun n => if FS.below d q then rewriteNode subst n else n) := by
  rw [FS.find_eq, FS.find_eq, FS.rewriteUnder]
  simp only
  rw [lookupNode_map _ _ (by intro e; split <;> rfl)]
  simp only [lookupNode]
  cases h : List.find? (fun e => decide (e.1 = q)) fs.entries with
  | none => rfl
  | some e =>
    have h2 := List.find?_some h
    simp only [decide_eq_true_eq] at h2
    simp only [Option.map_some', h2]
    split <;> rfl


/-! ## The shared rewrite block and the file walk -/

theorem node_unique (l : List (Path × Node)) (hnd : (l.map Prod.fst).Nodup) (p : Path) (n : Node)
    (h : lookupNode l p = some n) (e : Path × Node) (he : e ∈ l) (hp : e.1 = p) : e.2 = n := by
  have h1 : lookupNode l e.1 = some e.2 := lookupNode_of_mem l hnd e.1 e.2 he
  rw [hp, h] at h1
  exact (Option.some.inj h1).symm

theorem rewriteFile_dir (subst : QString → QString) (p : Path) (fs : FS)
    (h : fs.find p = some Node.dir) : rewriteFile subst p fs = ([], fs) := by
  simp [rewriteFile, FS.openReadWrite, h]

theorem rewriteFile_shut (subst : QString → QString) (p : Path) (fs : FS) (t : QString)
    (h : fs.find p = some (Node.file t false)) : rewriteFile subst p fs = ([], fs) := by
  simp [rewriteFile, FS.openReadWrite, h]

theorem rewriteFile_same (subst : QString → QString) (p : Path) (fs : FS) (t : QString)
    (h : fs.find p = some (Node.file t true)) (hc : subst t = t) :
    rewriteFile subst p fs = ([], fs) := by
  simp [rewriteFile, FS.openReadWrite, h, hc]

theorem rewriteFile_changed (subst : QString → QString) (p : Path) (fs : FS) (t : QString)
    (h : fs.find p = some (Node.file t true)) (hc : subst t ≠ t) :
    rewriteFile subst p fs = ([Event.written p (subst t)], fs.write p (subst t)) := by
  simp [rewriteFile, FS.openReadWrite, h, hc]

theorem rewriteFile_eq (subst : QString → QString) (p : Path) (fs : FS)
    (hnd : (fs.entries.map Prod.fst).Nodup) (n : Node) (h : fs.find p = some n) :
    rewriteFile subst p fs = (fileEvents subst p (some n),
      { fs with entries := fs.entries.map (fun e =>
          if e.1 = p then (e.1, rewriteNode subst e.2) else e) }) := by
  have huniq := node_unique fs.entries hnd p n h
  have hid : ∀ (g : Path × Node → Path × Node), (∀ e ∈ fs.entries, g e = e) →
      fs = { fs with entries := fs.entries.map g } := by
    intro g hg
    have : fs.entries.map g = fs.entries := by
      conv => rhs; rw [← List.map_id fs.entries]
      exact List.map_congr_left (by intro e he; simpa using hg e he)
    rw [this]
  cases n with
  | dir =>
    rw [rewriteFile_dir subst p fs h]
    simp only [fileEvents]
    congr 1
    apply hid
    intro e he
    by_cases hp : e.1 = p
    · have := huniq e he hp
      rw [if_pos hp]
      cases e with
      | mk q m => simp only at this; subst this; rfl
    · rw [if_neg hp]
  | file t rw =>
    cases rw with
    | false =>
      rw [rewriteFile_shut subst p fs t h]
      simp only [fileEvents]
      congr 1
      apply hid
      intro e he
      by_cases hp : e.1 = p
      · have := huniq e he hp
        rw [if_pos hp]
        cases e with
        | mk q m => simp only at this; subst this; rfl
      · rw [if_neg hp]
    | true =>
      by_cases hc : subst t = t
      · rw [rewriteFile_same subst p fs t h hc]
        simp only [fileEvents, hc, ne_eq, not_true_eq_false, if_false]
        congr 1
        apply hid
        intro e he
        by_cases hp : e.1 = p
        · have := huniq e he hp
          rw [if_pos hp]
          cases e with
          | mk q m => simp only at this; subst this; simp [rewriteNode, hc]
        · rw [if_neg hp]
      · rw [rewriteFile_changed subst p fs t h hc]
        simp only [fileEvents, hc, ne_eq, not_false_eq_true, if_true, FS.write]
        congr 2
        apply List.map_congr_left
        intro e he
        by_cases hp : e.1 = p
        · have := huniq e he hp
          rw [if_pos hp, if_pos hp]
          cases e with
          | mk q m => simp only at this; subst this; rfl
        · rw [if_neg hp, if_neg hp]

theorem rewriteTree_eq (c : ApkCloner) (text dirStr : QString) (dir : Path)
    (subst : QString → QString) :
    ∀ (ps : List Path) (fs : FS), (fs.entries.map Prod.fst).Nodup → ps.Nodup →
      (∀ p ∈ ps, fs.find p ≠ none) →
      rewriteTree c text dirStr dir subst ps fs =
        (ps.flatMap (fun p => visitEvent c text dirStr dir p :: fileEvents subst p (fs.find p)),
         { fs with entries := fs.entries.map (fun e =>
            if e.1 ∈ ps then (e.1, rewriteNode subst e.2) else e) }) := by
  intro ps
  induction ps with
  | nil =>
    intro fs _ _ _
    simp only [rewriteTree, List.flatMap_nil, List.not_mem_nil, if_false, List.map_id']
  | cons p ps ih =>
    intro fs hnd hps hex
    rw [List.nodup_cons] at hps
    obtain ⟨n, hn⟩ := Option.ne_none_iff_exists'.mp (hex p (List.mem_cons_self _ _))
    have hstep := rewriteFile_eq subst p fs hnd n hn
    have hpath : ∀ e : Path × Node, (if e.1 = p then (e.1, rewriteNode subst e.2) else e).1 = e.1 := by
      intro e; split <;> rfl
    have hfind : ∀ q, q ≠ p →
        FS.find { fs with entries := fs.entries.map (fun e =>
          if e.1 = p then (e.1, rewriteNode subst e.2) else e) } q = fs.find q := by
      intro q hq
      rw [FS.find_eq, FS.find_eq]
      simp only
      rw [lookupNode_map _ _ hpath]
      simp only [lookupNode]
      cases h : List.find? (fun e => decide (e.1 = q)) fs.entries with
      | none => rfl
      | some e =>
        have h2 := List.find?_some h
        simp only [decide_eq_true_eq] at h2
        have : e.1 ≠ p := by rw [h2]; exact hq
        simp [this]
    have hnd2 : (List.map Prod.fst (FS.entries { fs with entries := fs.entries.map (fun e =>
          if e.1 = p then (e.1, rewriteNode subst e.2) else e) })).Nodup := by
      simp only [List.map_map]
      have : (Prod.fst ∘ fun e : Path × Node => if e.1 = p then (e.1, rewriteNode subst e.2) else e)
          = Prod.fst := by
        funext e; exact hpath e
      rw [this]; exact hnd
    have hne : ∀ q ∈ ps, q ≠ p := fun q hq he => hps.1 (he ▸ hq)
    have ih2 := ih _ hnd2 hps.2 (by
      intro q hq
      rw [hfind q (hne q hq)]
      exact hex q (List.mem_cons_of_mem _ hq))
    rw [rewriteTree, hstep]
    simp only
    rw [ih2]
    simp only [visitEvent, List.flatMap_cons, List.cons_append, hn, List.map_map]
    congr 1
    · congr 2
      apply List.flatMap_congr
      intro q hq
      rw [hfind q (hne q hq)]
    · congr 1
      apply List.map_congr_left
      intro e _
      simp only [Function.comp]
      by_cases h1 : e.1 = p
      · have : e.1 ∉ ps := by rw [h1]; exact hps.1
        simp [h1, hps.1]
      · simp [h1]


theorem FS.mem_filesUnder (fs : FS) (d p : Path) :
    p ∈ fs.filesUnder d ↔ FS.below d p = true ∧ ∃ t rw, (p, Node.file t rw) ∈ fs.entries := by
  simp only [FS.filesUnder, List.mem_filterMap]
  constructor
  · rintro ⟨⟨q, n⟩, he, hq⟩
    cases n with
    | dir => simp at hq
    | file t rw =>
      simp only at hq
      split at hq
      · rename_i hb
        simp only [Option.some.injEq] at hq
        subst hq
        exact ⟨hb, t, rw, he⟩
      · simp at hq
  · rintro ⟨hb, t, rw, he⟩
    exact ⟨(p, Node.file t rw), he, by simp [hb]⟩

theorem FS.filesUnder_sublist (fs : FS) (d : Path) :
    (fs.filesUnder d).Sublist (fs.entries.map Prod.fst) := by
  unfold FS.filesUnder
  induction fs.entries with
  | nil => simp
  | cons e es ih =>
    rw [List.filterMap_cons, List.map_cons]
    split
    · exact ih.cons _
    · rename_i b hb
      have : b = e.1 := by
        cases h2 : e.2 with
        | dir => simp [h2] at hb
        | file t rw =>
          simp only [h2] at hb
          split at hb
          · exact (Option.some.inj hb).symm
          · simp at hb
      rw [this]
      exact ih.cons₂ _

/-- The file walk over a directory of a tree without double entries: the
events of the visits, and the tree with every file below the directory
that opens rewritten. -/
theorem rewriteTree_filesUnder (c : ApkCloner) (text dirStr : QString) (dir d : Path)
    (subst : QString → QString) (fs : FS) (hnd : (fs.entries.map Prod.fst).Nodup) :
    rewriteTree c text dirStr dir subst (fs.filesUnder d) fs =
      ((fs.filesUnder d).flatMap
          (fun p => visitEvent c text dirStr dir p :: fileEvents subst p (fs.find p)),
        fs.rewriteUnder d subst) := by
  rw [rewriteTree_eq c text dirStr dir subst _ fs hnd ((fs.filesUnder_sublist d).nodup hnd)]
  · congr 1
    unfold FS.rewriteUnder
    congr 1
    apply List.map_congr_left
    intro e he
    by_cases hb : FS.below d e.1 = true
    · rw [if_pos hb]
      cases hn : e.2 with
      | dir =>
        split
        · rfl
        · cases e with
          | mk q m => simp only at hn; subst hn; rfl
      | file t rw =>
        have : e.1 ∈ fs.filesUnder d := by
          rw [FS.mem_filesUnder]
          refine ⟨hb, t, rw, ?_⟩
          rw [← hn]; exact he
        rw [if_pos this]
    · have : e.1 ∉ fs.filesUnder d := by
        rw [FS.mem_filesUnder]
        intro h; exact hb h.1
      rw [if_neg this, if_neg hb]
  · intro p hp
    obtain ⟨_, t, rw, he⟩ := (FS.mem_filesUnder fs d p).mp hp
    rw [FS.find_eq, Ne, lookupNode_eq_none_iff]
    intro h
    exact h _ he rfl

/-! ## What the environment allows never changes -/

theorem FS.sameEnv_refl (a : FS) : a.sameEnv a := ⟨rfl, rfl⟩

theorem FS.sameEnv_trans (a b c : FS) (h1 : a.sameEnv b) (h2 : b.sameEnv c) : a.sameEnv c :=
  ⟨h1.1.trans h2.1, h1.2.trans h2.2⟩

theorem FS.ext_entries (a b : FS) (he : a.entries = b.entries) (h : a.sameEnv b) : a = b := by
  cases a; cases b
  obtain ⟨h1, h2⟩ := h
  simp only at he h1 h2
  subst he; subst h1; subst h2
  rfl

theorem FS.openReadWrite_sameEnv (fs fs1 : FS) (p : Path) (data : QString)
    (heq : fs.openReadWrite p = some (data, fs1)) : fs1.sameEnv fs := by
  unfold FS.openReadWrite at heq
  split at heq
  · split at heq
    · simp only [Option.some.injEq, Prod.mk.injEq] at heq
      rw [← heq.2]; exact FS.sameEnv_refl _
    · simp at heq
  · simp at heq
  · split at heq
    · simp only [Option.some.injEq, Prod.mk.injEq] at heq
      rw [← heq.2]; exact ⟨rfl, rfl⟩
    · simp at heq

theorem rewriteFile_sameEnv (subst : QString → QString) (p : Path) (fs : FS) :
    (rewriteFile subst p fs).2.sameEnv fs := by
  unfold rewriteFile
  cases ho : fs.openReadWrite p with
  | none => exact FS.sameEnv_refl _
  | some x =>
    obtain ⟨data, fs1⟩ := x
    have h1 := FS.openReadWrite_sameEnv fs fs1 p data ho
    by_cases hc : subst data = data
    · simpa [hc] using h1
    · simp only [ne_eq, hc, not_false_eq_true, if_true]
      exact ⟨h1.1, h1.2⟩

theorem rewriteTree_sameEnv (c : ApkCloner) (text dirStr : QString) (dir : Path)
    (subst : QString → QString) :
    ∀ (ps : List Path) (fs : FS), (rewriteTree c text dirStr dir subst ps fs).2.sameEnv fs := by
  intro ps
  induction ps with
  | nil => intro fs; exact FS.sameEnv_refl _
  | cons p ps ih =>
    intro fs
    rw [rewriteTree]
    exact FS.sameEnv_trans _ _ _ (ih _) (rewriteFile_sameEnv subst p fs)

theorem FS.mkpathFrom_sameEnv :
    ∀ (segs : List QString) (fs : FS) (done : Path), (fs.mkpathFrom done segs).sameEnv fs := by
  intro segs
  induction segs with
  | nil => intro fs done; exact FS.sameEnv_refl _
  | cons s rest ih =>
    intro fs done
    rw [FS.mkpathFrom]
    split
    · exact ih _ _
    · exact FS.sameEnv_refl _
    · split
      · exact FS.sameEnv_trans _ _ _ (ih _ _) ⟨rfl, rfl⟩
      · exact FS.sameEnv_refl _

theorem FS.rename_sameEnv (fs fs2 : FS) (src dst : Path) (h : fs.rename src dst = some fs2) :
    fs2.sameEnv fs := by
  unfold FS.rename at h
  split at h
  · simp only [Option.some.injEq] at h
    rw [← h]; exact ⟨rfl, rfl⟩
  · simp at h

theorem smaliDirStep_sameEnv (c : ApkCloner) (r : QString) (fs : FS) :
    (c.smaliDirStep r fs).2.1.sameEnv fs := by
  have h1 := rewriteTree_sameEnv c trSmali (c.contentsPath ++ '/' :: r ++ ['/'])
    (c.resolve (c.contentsPath ++ '/' :: r ++ ['/'])) c.substSmali
    (fs.filesUnder (c.resolve (c.contentsPath ++ '/' :: r ++ ['/']))) fs
  unfold ApkCloner.smaliDirStep
  simp only
  split
  · exact h1
  · split
    · exact FS.sameEnv_trans _ _ _ (FS.mkpathFrom_sameEnv _ _ _) h1
    · rename_i fs3 h3
      exact FS.sameEnv_trans _ _ _ (FS.rename_sameEnv _ _ _ _ h3)
        (FS.sameEnv_trans _ _ _ (FS.mkpathFrom_sameEnv _ _ _) h1)

theorem smaliLoop_sameEnv (c : ApkCloner) :
    ∀ (rs : List QString) (fs : FS), (c.smaliLoop rs fs).2.1.sameEnv fs := by
  intro rs
  induction rs with
  | nil => intro fs; exact FS.sameEnv_refl _
  | cons r rs ih =>
    intro fs
    rw [ApkCloner.smaliLoop]
    simp only
    split
    · exact FS.sameEnv_trans _ _ _ (ih _) (smaliDirStep_sameEnv c r fs)
    · exact smaliDirStep_sameEnv c r fs


/-! ## Frame: a step below one top-level name leaves the others alone -/

theorem headIs_cons (t r : QString) (rest : Path) : headIs t (r :: rest) = decide (r = t) := by
  simp [headIs]

theorem headIs_nil (t : QString) : headIs t [] = false := by
  simp [headIs]

theorem headIs_cons_append (t r : QString) (a b : Path) :
    headIs t ((r :: a) ++ b) = headIs t (r :: a) := by
  simp [headIs]

theorem headIs_of_isPrefixOf (t r : QString) (a p : Path) (h : (r :: a).isPrefixOf p = true) :
    headIs t p = decide (r = t) := by
  obtain ⟨x, hx⟩ := List.isPrefixOf_iff_prefix.mp h
  rw [← hx, headIs_cons_append, headIs_cons]

theorem filter_map_comm (l : List (Path × Node)) (f : Path × Node → Path × Node) (t : QString)
    (h1 : ∀ e, headIs t (f e).1 = headIs t e.1) :
    (l.map f).filter (fun e => headIs t e.1) = (l.filter (fun e => headIs t e.1)).map f := by
  rw [List.filter_map]
  congr 1
  congr 1
  funext e
  exact h1 e

theorem filter_map_frame (l : List (Path × Node)) (f : Path × Node → Path × Node) (t : QString)
    (h1 : ∀ e, headIs t (f e).1 = headIs t e.1) (h2 : ∀ e, headIs t e.1 = true → f e = e) :
    (l.map f).filter (fun e => headIs t e.1) = l.filter (fun e => headIs t e.1) := by
  rw [filter_map_comm l f t h1]
  conv => rhs; rw [← List.map_id (l.filter (fun e => headIs t e.1))]
  apply List.map_congr_left
  intro e he
  simp only [id]
  exact h2 e (by simpa using (List.mem_filter.mp he).2)

theorem write_headIs (p : Path) (d : QString) (t : QString) (e : Path × Node) :
    headIs t (if e.1 = p then
        match e.2 with
        | Node.file _ rw => (e.1, Node.file d rw)
        | Node.dir => e
      else e).1 = headIs t e.1 := by
  split
  · split <;> rfl
  · rfl

theorem FS.write_top (fs : FS) (p : Path) (d : QString) (t : QString)
    (h : headIs t p = false) : (fs.write p d).top t = fs.top t := by
  unfold FS.top FS.write
  simp only
  apply filter_map_frame _ _ _ (write_headIs p d t)
  intro e he
  have : e.1 ≠ p := by
    intro hp; rw [hp, h] at he; exact absurd he (by simp)
  rw [if_neg this]

theorem FS.top_append (fs : FS) (x : List (Path × Node)) (t : QString)
    (h : ∀ e ∈ x, headIs t e.1 = false) :
    FS.top { fs with entries := fs.entries ++ x } t = fs.top t := by
  unfold FS.top
  simp only [List.filter_append]
  have : x.filter (fun e => headIs t e.1) = [] := by
    rw [List.filter_eq_nil_iff]
    intro e he
    simp [h e he]
  rw [this, List.append_nil]

theorem FS.openReadWrite_top (fs fs1 : FS) (p : Path) (data : QString) (t : QString)
    (h : headIs t p = false) (heq : fs.openReadWrite p = some (data, fs1)) :
    fs1.top t = fs.top t := by
  unfold FS.openReadWrite at heq
  split at heq
  · split at heq
    · simp only [Option.some.injEq, Prod.mk.injEq] at heq
      rw [← heq.2]
    · simp at heq
  · simp at heq
  · split at heq
    · simp only [Option.some.injEq, Prod.mk.injEq] at heq
      rw [← heq.2]
      apply FS.top_append
      intro e he
      simp only [List.mem_singleton] at he
      rw [he]; exact h
    · simp at heq

theorem rewriteFile_top (subst : QString → QString) (p : Path) (fs : FS) (t : QString)
    (h : headIs t p = false) : (rewriteFile subst p fs).2.top t = fs.top t := by
  unfold rewriteFile
  cases ho : fs.openReadWrite p with
  | none => rfl
  | some x =>
    obtain ⟨data, fs1⟩ := x
    have h1 := FS.openReadWrite_top fs fs1 p data t h ho
    by_cases hc : subst data = data
    · simpa [hc] using h1
    · simp only [ne_eq, hc, not_false_eq_true, if_true]
      rw [FS.write_top _ _ _ _ h, h1]

theorem rewriteTree_top (c : ApkCloner) (text dirStr : QString) (dir : Path)
    (subst : QString → QString) (t : QString) :
    ∀ (ps : List Path) (fs : FS), (∀ p ∈ ps, headIs t p = false) →
      (rewriteTree c text dirStr dir subst ps fs).2.top t = fs.top t := by
  intro ps
  induction ps with
  | nil => intro fs _; rfl
  | cons p ps ih =>
    intro fs h
    rw [rewriteTree]
    simp only
    rw [ih _ (fun q hq => h q (List.mem_cons_of_mem _ hq)),
      rewriteFile_top subst p fs t (h p (List.mem_cons_self _ _))]

theorem FS.mkpathFrom_top (t : QString) :
    ∀ (segs : List QString) (fs : FS) (done : Path),
      (segs = [] ∨ headIs t (done ++ segs) = false) →
      (fs.mkpathFrom done segs).top t = fs.top t := by
  intro segs
  induction segs with
  | nil => intro fs done _; rfl
  | cons s rest ih =>
    intro fs done h
    have h1 : headIs t (done ++ s :: rest) = false := by
      rcases h with h | h
      · simp at h
      · exact h
    have h2 : headIs t (done ++ [s]) = false := by
      cases done with
      | nil => simpa [headIs] using h1
      | cons a as => simpa [headIs] using h1
    have h3 : rest = [] ∨ headIs t ((done ++ [s]) ++ rest) = false := by
      right; simpa using h1
    rw [FS.mkpathFrom]
    split
    · exact ih _ _ h3
    · rfl
    · split
      · rw [ih _ _ h3]
        apply FS.top_append
        intro e he
        simp only [List.mem_singleton] at he
        rw [he]; exact h2
      · rfl

theorem rename_headIs (r : QString) (a b : Path) (t : QString) (e : Path × Node) :
    headIs t (if (r :: a).isPrefixOf e.1 then ((r :: b) ++ e.1.drop (r :: a).length, e.2) else e).1
      = headIs t e.1 := by
  split
  · rename_i h
    rw [headIs_of_isPrefixOf t r a e.1 h]
    simp [headIs]
  · rfl

theorem FS.rename_top (fs fs2 : FS) (r : QString) (a b : Path) (t : QString) (hne : r ≠ t)
    (h : fs.rename (r :: a) (r :: b) = some fs2) : fs2.top t = fs.top t := by
  unfold FS.rename at h
  split at h
  · simp only [Option.some.injEq] at h
    rw [← h]
    unfold FS.top
    simp only
    apply filter_map_frame _ _ _ (rename_headIs r a b t)
    intro e he
    have : ¬ (r :: a).isPrefixOf e.1 = true := by
      intro hp
      rw [headIs_of_isPrefixOf t r a e.1 hp] at he
      exact hne (by simpa using he)
    rw [if_neg this]
  · simp at h


/-! ## Locality: a step below one top-level name only looks below that name -/

theorem FS.find_restrict (fs : FS) (t : QString) (p : Path) (h : headIs t p = true) :
    (fs.restrict t).find p = fs.find p := by
  rw [FS.find_eq, FS.find_eq]
  exact lookupNode_filter _ _ _ (by intro e he; rw [he]; exact h)

theorem FS.pathExists_restrict (fs : FS) (t : QString) (p : Path)
    (h : p = [] ∨ headIs t p = true) : (fs.restrict t).pathExists p = fs.pathExists p := by
  rcases h with h | h
  · subst h; rfl
  · simp only [FS.pathExists, FS.find_restrict fs t p h]

theorem FS.isDir_restrict (fs : FS) (t : QString) (p : Path)
    (h : p = [] ∨ headIs t p = true) : (fs.restrict t).isDir p = fs.isDir p := by
  rcases h with h | h
  · subst h; rfl
  · simp only [FS.isDir, FS.find_restrict fs t p h]

theorem headIs_dropLast (t : QString) (p : Path) (h : headIs t p = true) :
    p.dropLast = [] ∨ headIs t p.dropLast = true := by
  cases p with
  | nil => left; rfl
  | cons a as =>
    cases as with
    | nil => left; rfl
    | cons b bs =>
      right
      simpa [headIs, List.dropLast] using h

theorem FS.filesUnder_restrict (fs : FS) (t : QString) (a : Path) :
    (fs.restrict t).filesUnder (t :: a) = fs.filesUnder (t :: a) := by
  unfold FS.filesUnder FS.restrict FS.top
  simp only [List.filterMap_filter]
  apply List.filterMap_congr
  intro e _
  by_cases h : headIs t e.1 = true
  · simp [h]
  · simp only [h, if_false, Bool.false_eq_true]
    cases e.2 with
    | dir => rfl
    | file x rw =>
      simp only
      split
      · rename_i hb
        exfalso
        apply h
        simp only [FS.below, Bool.and_eq_true] at hb
        rw [headIs_of_isPrefixOf t t a e.1 hb.1]
        simp
      · rfl

theorem FS.write_restrict (fs : FS) (p : Path) (d : QString) (t : QString) :
    (fs.write p d).restrict t = (fs.restrict t).write p d := by
  unfold FS.restrict FS.top FS.write
  simp only
  rw [filter_map_comm _ _ _ (write_headIs p d t)]

theorem FS.restrict_append (fs : FS) (x : List (Path × Node)) (t : QString)
    (h : ∀ e ∈ x, headIs t e.1 = true) :
    FS.restrict { fs with entries := fs.entries ++ x } t =
      { entries := (fs.restrict t).entries ++ x, locked := fs.locked,
        canCreate := fs.canCreate } := by
  unfold FS.restrict FS.top
  simp only [List.filter_append]
  have : x.filter (fun e => headIs t e.1) = x := by
    rw [List.filter_eq_self]
    intro e he
    exact h e he
  rw [this]

theorem FS.openReadWrite_restrict (fs : FS) (p : Path) (t : QString) (h : headIs t p = true) :
    (fs.restrict t).openReadWrite p =
      (fs.openReadWrite p).map (fun x => (x.1, x.2.restrict t)) := by
  unfold FS.openReadWrite
  rw [FS.find_restrict fs t p h, FS.isDir_restrict fs t _ (headIs_dropLast t p h)]
  cases hf : fs.find p with
  | none =>
    simp only
    have hc : (fs.restrict t).canCreate = fs.canCreate := rfl
    rw [hc]
    split
    · simp only [Option.map_some', Option.some.injEq, Prod.mk.injEq, true_and]
      rw [FS.restrict_append _ _ _ (by
        intro e he
        simp only [List.mem_singleton] at he
        rw [he]; exact h)]
      rfl
    · rfl
  | some n =>
    cases n with
    | dir => rfl
    | file x rw =>
      simp only
      split <;> rfl

theorem rewriteFile_restrict (subst : QString → QString) (p : Path) (fs : FS) (t : QString)
    (h : headIs t p = true) :
    rewriteFile subst p (fs.restrict t) =
      ((rewriteFile subst p fs).1, (rewriteFile subst p fs).2.restrict t) := by
  unfold rewriteFile
  rw [FS.openReadWrite_restrict fs p t h]
  cases fs.openReadWrite p with
  | none => rfl
  | some x =>
    obtain ⟨data, fs1⟩ := x
    simp only [Option.map_some']
    by_cases hc : subst data = data
    · simp [hc]
    · simp [hc, FS.write_restrict]

theorem rewriteTree_restrict (c : ApkCloner) (text dirStr : QString) (dir : Path)
    (subst : QString → QString) (t : QString) :
    ∀ (ps : List Path) (fs : FS), (∀ p ∈ ps, headIs t p = true) →
      rewriteTree c text dirStr dir subst ps (fs.restrict t) =
        ((rewriteTree c text dirStr dir subst ps fs).1,
         (rewriteTree c text dirStr dir subst ps fs).2.restrict t) := by
  intro ps
  induction ps with
  | nil => intro fs _; rfl
  | cons p ps ih =>
    intro fs h
    rw [rewriteTree, rewriteTree, rewriteFile_restrict subst p fs t (h p (List.mem_cons_self _ _))]
    simp only
    rw [ih _ (fun q hq => h q (List.mem_cons_of_mem _ hq))]

theorem FS.mkpathFrom_restrict (t : QString) :
    ∀ (segs : List QString) (fs : FS) (done : Path),
      (segs = [] ∨ headIs t (done ++ segs) = true) →
      (fs.restrict t).mkpathFrom done segs = (fs.mkpathFrom done segs).restrict t := by
  intro segs
  induction segs with
  | nil => intro fs done _; rfl
  | cons s rest ih =>
    intro fs done h
    have h1 : headIs t (done ++ s :: rest) = true := by
      rcases h with h | h
      · simp at h
      · exact h
    have h2 : headIs t (done ++ [s]) = true := by
      cases done with
      | nil => simpa [headIs] using h1
      | cons a as => simpa [headIs] using h1
    have h3 : rest = [] ∨ headIs t ((done ++ [s]) ++ rest) = true := by
      right; simpa using h1
    rw [FS.mkpathFrom, FS.mkpathFrom, FS.find_restrict fs t _ h2]
    cases hf : fs.find (done ++ [s]) with
    | none =>
      simp only
      have hc : (fs.restrict t).canCreate = fs.canCreate := rfl
      rw [hc]
      split
      · rw [← ih _ _ h3, FS.restrict_append _ _ _ (by
          intro e he
          simp only [List.mem_singleton] at he
          rw [he]; exact h2)]
        rfl
      · rfl
    | some n =>
      cases n with
      | dir => exact ih _ _ h3
      | file x rw => rfl

theorem FS.rename_restrict (fs : FS) (t : QString) (a b : Path) :
    (fs.restrict t).rename (t :: a) (t :: b) =
      (fs.rename (t :: a) (t :: b)).map (fun x => x.restrict t) := by
  unfold FS.rename
  rw [FS.pathExists_restrict fs t (t :: a) (Or.inr (by simp [headIs])),
    FS.pathExists_restrict fs t (t :: b) (Or.inr (by simp [headIs])),
    FS.isDir_restrict fs t _ (headIs_dropLast t (t :: b) (by simp [headIs]))]
  have hl : (fs.restrict t).locked = fs.locked := rfl
  rw [hl]
  split
  · simp only [Option.map_some', Option.some.injEq]
    unfold FS.restrict FS.top
    simp only
    rw [filter_map_comm _ _ _ (rename_headIs t a b t)]
  · rfl


/-! ## One smali directory -/

/-- The loop body for a directory with a valid name, with the path strings resolved. -/
theorem smaliDirStep_eq (c : ApkCloner) (r : QString) (fs : FS) (hr : validName r = true) :
    c.smaliDirStep r fs =
      if !(c.smaliWalk r fs).2.pathExists (c.oldDir r) then
        ((c.smaliWalk r fs).1 ++ [Event.progressed trStructure r], (c.smaliWalk r fs).2, true)
      else
        match ((c.smaliWalk r fs).2.mkpath (c.newParent r)).rename (c.oldDir r) (c.newDir r) with
        | none =>
          ((c.smaliWalk r fs).1 ++ [Event.progressed trStructure r, Event.mkpath (c.newParent r),
            Event.rename (c.oldDir r) (c.newDir r) false, Event.finished false],
            (c.smaliWalk r fs).2.mkpath (c.newParent r), false)
        | some fs3 =>
          ((c.smaliWalk r fs).1 ++ [Event.progressed trStructure r, Event.mkpath (c.newParent r),
            Event.rename (c.oldDir r) (c.newDir r) true], fs3, true) := by
  unfold ApkCloner.smaliDirStep ApkCloner.smaliWalk ApkCloner.oldDir ApkCloner.newDir ApkCloner.newParent
    ApkCloner.smaliPath
  simp only [resolve_smaliPath c r hr, resolve_package c r _ hr]

theorem FS.below_headIs (t : QString) (a p : Path) (h : FS.below (t :: a) p = true) :
    headIs t p = true := by
  simp only [FS.below, Bool.and_eq_true] at h
  rw [headIs_of_isPrefixOf t t a p h.1]
  simp

theorem FS.filesUnder_headIs (fs : FS) (t : QString) (a : Path) (p : Path)
    (h : p ∈ fs.filesUnder (t :: a)) : headIs t p = true :=
  FS.below_headIs t a p ((FS.mem_filesUnder fs (t :: a) p).mp h).1

theorem headIs_ne (t r : QString) (p : Path) (hne : r ≠ t) (h : headIs r p = true) :
    headIs t p = false := by
  cases p with
  | nil => rfl
  | cons a as =>
    simp only [headIs_cons, decide_eq_true_eq] at h
    simp only [headIs_cons, decide_eq_false_iff_not]
    rw [h]; exact hne

theorem smaliWalk_top (c : ApkCloner) (r t : QString) (fs : FS) (hne : r ≠ t) :
    (c.smaliWalk r fs).2.top t = fs.top t := by
  unfold ApkCloner.smaliWalk
  apply rewriteTree_top
  intro p hp
  exact headIs_ne t r p hne (FS.filesUnder_headIs fs r [] p hp)

theorem smaliWalk_restrict (c : ApkCloner) (r : QString) (fs : FS) :
    c.smaliWalk r (fs.restrict r) = ((c.smaliWalk r fs).1, (c.smaliWalk r fs).2.restrict r) := by
  unfold ApkCloner.smaliWalk
  rw [FS.filesUnder_restrict]
  apply rewriteTree_restrict
  intro p hp
  exact FS.filesUnder_headIs fs r [] p hp

theorem newParent_cons (c : ApkCloner) (r : QString) (hr : validName r = true) :
    ∃ rest, c.newParent r = r :: rest := by
  unfold ApkCloner.newParent ApkCloner.smaliPath
  exact resolve_fileInfoPath c r c.newPackagePath hr

/-- Frame of the loop body: nothing outside the smali directory changes. -/
theorem smaliDirStep_top (c : ApkCloner) (r t : QString) (fs : FS) (hr : validName r = true)
    (hne : r ≠ t) : (c.smaliDirStep r fs).2.1.top t = fs.top t := by
  obtain ⟨rest, hp⟩ := newParent_cons c r hr
  have hm : ((c.smaliWalk r fs).2.mkpath (c.newParent r)).top t = fs.top t := by
    rw [FS.mkpath, FS.mkpathFrom_top t _ _ _ (Or.inr (by
      rw [hp]; simp only [List.nil_append, headIs_cons, decide_eq_false_iff_not]; exact hne))]
    exact smaliWalk_top c r t fs hne
  rw [smaliDirStep_eq c r fs hr]
  split
  · exact smaliWalk_top c r t fs hne
  · split
    · exact hm
    · rename_i fs3 h3
      simp only
      rw [FS.rename_top _ _ r _ _ t hne h3, hm]

/-- Locality of the loop body: it behaves as on the tree cut down to the
smali directory. -/
theorem smaliDirStep_restrict (c : ApkCloner) (r : QString) (fs : FS) (hr : validName r = true) :
    c.smaliDirStep r (fs.restrict r) =
      ((c.smaliDirStep r fs).1, (c.smaliDirStep r fs).2.1.restrict r, (c.smaliDirStep r fs).2.2) := by
  obtain ⟨rest, hp⟩ := newParent_cons c r hr
  rw [smaliDirStep_eq c r _ hr, smaliDirStep_eq c r fs hr, smaliWalk_restrict]
  simp only
  rw [FS.pathExists_restrict _ r (c.oldDir r) (Or.inr (by simp [ApkCloner.oldDir, headIs]))]
  split
  · rfl
  · have hm : ((c.smaliWalk r fs).2.restrict r).mkpath (c.newParent r) =
        ((c.smaliWalk r fs).2.mkpath (c.newParent r)).restrict r := by
      rw [FS.mkpath, FS.mkpath, FS.mkpathFrom_restrict r _ _ _ (Or.inr (by
        rw [hp]; simp [headIs]))]
    rw [hm]
    unfold ApkCloner.oldDir ApkCloner.newDir
    rw [FS.rename_restrict]
    cases ((c.smaliWalk r fs).2.mkpath (c.newParent r)).rename
      (r :: segments c.originalPackagePath) (r :: segments c.newPackagePath) with
    | none => rfl
    | some fs3 => rfl


/-! ## The loop over the smali directories, directory by directory -/

theorem FS.restrict_eq_of_top (a b : FS) (t : QString) (h : a.top t = b.top t)
    (he : a.sameEnv b) : a.restrict t = b.restrict t :=
  FS.ext_entries _ _ h he

theorem FS.top_of_restrict_eq (a b : FS) (t : QString) (h : a.restrict t = b.restrict t) :
    a.top t = b.top t :=
  congrArg FS.entries h

theorem smaliDirStep_restrict_other (c : ApkCloner) (r t : QString) (fs : FS)
    (hr : validName r = true) (hne : r ≠ t) :
    (c.smaliDirStep r fs).2.1.restrict t = fs.restrict t :=
  FS.restrict_eq_of_top _ _ t (smaliDirStep_top c r t fs hr hne) (smaliDirStep_sameEnv c r fs)

theorem smaliDirStep_congr (c : ApkCloner) (r : QString) (fs fs0 : FS) (hr : validName r = true)
    (h : fs.restrict r = fs0.restrict r) :
    (c.smaliDirStep r fs).1 = (c.stepAt fs0 r).1 ∧
    (c.smaliDirStep r fs).2.2 = (c.stepAt fs0 r).2.2 ∧
    (c.smaliDirStep r fs).2.1.restrict r = (c.stepAt fs0 r).2.1 := by
  have h1 := smaliDirStep_restrict c r fs hr
  unfold ApkCloner.stepAt
  rw [← h, h1]
  exact ⟨rfl, rfl, rfl⟩

/-- The events and the outcome of the loop are those of the directories
handled one by one on the starting tree. -/
theorem smaliLoop_eq_loopAt (c : ApkCloner) (fs0 : FS) :
    ∀ (rs : List QString) (fs : FS), rs.Nodup → (∀ r ∈ rs, validName r = true) →
      (∀ r ∈ rs, fs.restrict r = fs0.restrict r) →
      (c.smaliLoop rs fs).1 = (c.loopAt fs0 rs).1 ∧ (c.smaliLoop rs fs).2.2 = (c.loopAt fs0 rs).2 := by
  intro rs
  induction rs with
  | nil => intro fs _ _ _; exact ⟨rfl, rfl⟩
  | cons r rs ih =>
    intro fs hnd hv hres
    rw [List.nodup_cons] at hnd
    have hr := hv r (List.mem_cons_self _ _)
    obtain ⟨e1, e2, _⟩ := smaliDirStep_congr c r fs fs0 hr (hres r (List.mem_cons_self _ _))
    rw [ApkCloner.smaliLoop, ApkCloner.loopAt]
    simp only
    rw [e2]
    split
    · have ih2 := ih (c.smaliDirStep r fs).2.1 hnd.2
        (fun q hq => hv q (List.mem_cons_of_mem _ hq))
        (fun q hq => by
          rw [smaliDirStep_restrict_other c r q fs hr (fun he => hnd.1 (he ▸ hq))]
          exact hres q (List.mem_cons_of_mem _ hq))
      simp only
      rw [ih2.1, ih2.2, e1]
      exact ⟨rfl, rfl⟩
    · exact ⟨e1, by rw [e2]; simpa using ‹¬ (c.stepAt fs0 r).2.2 = true›⟩

theorem smaliLoop_restrict_other (c : ApkCloner) (t : QString) :
    ∀ (rs : List QString) (fs : FS), (∀ r ∈ rs, validName r = true) → t ∉ rs →
      (c.smaliLoop rs fs).2.1.restrict t = fs.restrict t := by
  intro rs
  induction rs with
  | nil => intro fs _ _; rfl
  | cons r rs ih =>
    intro fs hv ht
    have hr := hv r (List.mem_cons_self _ _)
    have hne : r ≠ t := fun he => ht (he ▸ List.mem_cons_self _ _)
    rw [ApkCloner.smaliLoop]
    simp only
    split
    · rw [ih _ (fun q hq => hv q (List.mem_cons_of_mem _ hq))
        (fun h => ht (List.mem_cons_of_mem _ h))]
      exact smaliDirStep_restrict_other c r t fs hr hne
    · exact smaliDirStep_restrict_other c r t fs hr hne

/-- Where the loop leaves the part of the tree below a smali directory:
as its own loop body left it when the loop got that far, untouched
otherwise. -/
theorem smaliLoop_restrict (c : ApkCloner) (fs0 : FS) :
    ∀ (pre : List QString) (r : QString) (post : List QString) (fs : FS),
      (pre ++ r :: post).Nodup → (∀ q ∈ pre ++ r :: post, validName q = true) →
      (∀ q ∈ pre ++ r :: post, fs.restrict q = fs0.restrict q) →
      (c.smaliLoop (pre ++ r :: post) fs).2.1.restrict r =
        if (c.loopAt fs0 pre).2 then (c.stepAt fs0 r).2.1 else fs0.restrict r := by
  intro pre
  induction pre with
  | nil =>
    intro r post fs hnd hv hres
    simp only [List.nil_append] at hnd hv hres ⊢
    rw [List.nodup_cons] at hnd
    have hr := hv r (List.mem_cons_self _ _)
    obtain ⟨_, _, e3⟩ := smaliDirStep_congr c r fs fs0 hr (hres r (List.mem_cons_self _ _))
    rw [ApkCloner.smaliLoop]
    simp only [ApkCloner.loopAt, if_true]
    split
    · rw [smaliLoop_restrict_other c r post _ (fun q hq => hv q (List.mem_cons_of_mem _ hq)) hnd.1]
      exact e3
    · exact e3
  | cons a pre ih =>
    intro r post fs hnd hv hres
    simp only [List.cons_append] at hnd hv hres ⊢
    rw [List.nodup_cons] at hnd
    have ha := hv a (List.mem_cons_self _ _)
    have hne : a ≠ r := fun he => hnd.1 (by rw [he]; simp)
    obtain ⟨_, e2, _⟩ := smaliDirStep_congr c a fs fs0 ha (hres a (List.mem_cons_self _ _))
    rw [ApkCloner.smaliLoop, ApkCloner.loopAt]
    simp only
    rw [e2]
    split
    · simp only
      exact ih r post _ hnd.2 (fun q hq => hv q (List.mem_cons_of_mem _ hq))
        (fun q hq => by
          rw [smaliDirStep_restrict_other c a q fs ha (fun he => hnd.1 (he ▸ hq))]
          exact hres q (List.mem_cons_of_mem _ hq))
    · simp only [Bool.false_eq_true, if_false]
      rw [smaliDirStep_restrict_other c a r fs ha hne]
      exact hres r (by simp)


/-! ## The list of smali directories -/

theorem FS.mem_smaliDirs (fs : FS) (r : QString) :
    r ∈ fs.smaliDirs ↔ ([r], Node.dir) ∈ fs.entries ∧ FS.matchesSmali r = true := by
  simp only [FS.smaliDirs, List.mem_filterMap]
  constructor
  · rintro ⟨e, he, h⟩
    split at h
    · rename_i name
      split at h
      · rename_i hm
        simp only [Option.some.injEq] at h
        subst h
        exact ⟨he, hm⟩
      · simp at h
    · simp at h
  · rintro ⟨he, hm⟩
    exact ⟨([r], Node.dir), he, by simp [hm]⟩

theorem smaliDirs_map (l : List (Path × Node)) (f : Path × Node → Path × Node)
    (hf : ∀ e, (f e).1 = e.1 ∧ ((f e).2 = Node.dir ↔ e.2 = Node.dir)) (fs : FS) :
    FS.smaliDirs { fs with entries := l.map f } = FS.smaliDirs { fs with entries := l } := by
  simp only [FS.smaliDirs, List.filterMap_map]
  apply List.filterMap_congr
  intro e _
  obtain ⟨h1, h2⟩ := hf e
  simp only [Function.comp]
  cases hfe : f e with
  | mk q m =>
    cases e with
    | mk q2 m2 =>
      simp only [hfe] at h1 h2
      subst h1
      cases m with
      | dir =>
        have := h2.mp rfl
        subst this
        rfl
      | file x rw =>
        cases m2 with
        | dir => simp at h2
        | file y rw2 =>
          cases q with
          | nil => rfl
          | cons a as => cases as <;> rfl

theorem FS.write_smaliDirs (fs : FS) (p : Path) (d : QString) :
    (fs.write p d).smaliDirs = fs.smaliDirs := by
  unfold FS.write
  exact smaliDirs_map fs.entries _ (by
    intro e
    split
    · cases h : e.2 with
      | dir => simp [h]
      | file x rw => simp [h]
    · simp) fs

theorem smaliDirs_append_file (fs : FS) (p : Path) (x : QString) (rw : Bool) :
    FS.smaliDirs { fs with entries := fs.entries ++ [(p, Node.file x rw)] } = fs.smaliDirs := by
  simp only [FS.smaliDirs, List.filterMap_append]
  have : List.filterMap (fun e : Path × Node =>
      match e with
      | ([name], Node.dir) => if FS.matchesSmali name then some name else none
      | _ => none) [(p, Node.file x rw)] = [] := by
    cases p with
    | nil => rfl
    | cons a as => cases as <;> rfl
  rw [this, List.append_nil]

theorem rewriteFile_smaliDirs (subst : QString → QString) (p : Path) (fs : FS) :
    (rewriteFile subst p fs).2.smaliDirs = fs.smaliDirs := by
  unfold rewriteFile
  cases ho : fs.openReadWrite p with
  | none => rfl
  | some x =>
    obtain ⟨data, fs1⟩ := x
    have h1 : fs1.smaliDirs = fs.smaliDirs := by
      unfold FS.openReadWrite at ho
      split at ho
      · split at ho
        · simp only [Option.some.injEq, Prod.mk.injEq] at ho
          rw [← ho.2]
        · simp at ho
      · simp at ho
      · split at ho
        · simp only [Option.some.injEq, Prod.mk.injEq] at ho
          rw [← ho.2]
          exact smaliDirs_append_file fs p [] true
        · simp at ho
    by_cases hc : subst data = data
    · simpa [hc] using h1
    · simp only [ne_eq, hc, not_false_eq_true, if_true]
      rw [FS.write_smaliDirs, h1]

theorem rewriteTree_smaliDirs (c : ApkCloner) (text dirStr : QString) (dir : Path)
    (subst : QString → QString) :
    ∀ (ps : List Path) (fs : FS),
      (rewriteTree c text dirStr dir subst ps fs).2.smaliDirs = fs.smaliDirs := by
  intro ps
  induction ps with
  | nil => intro fs; rfl
  | cons p ps ih =>
    intro fs
    rw [rewriteTree]
    simp only
    rw [ih, rewriteFile_smaliDirs]

theorem FS.smaliDirs_sublist (fs : FS) :
    (fs.smaliDirs.map (fun r => [r])).Sublist (fs.entries.map Prod.fst) := by
  unfold FS.smaliDirs
  induction fs.entries with
  | nil => simp
  | cons e es ih =>
    rw [List.filterMap_cons, List.map_cons]
    split
    · exact ih.cons _
    · rename_i b hb
      have : e.1 = [b] := by
        split at hb
        · split at hb
          · simp only [Option.some.injEq] at hb
            subst hb; rfl
          · simp at hb
        · simp at hb
      rw [List.map_cons, this]
      exact ih.cons₂ _

theorem FS.smaliDirs_nodup (fs : FS) (hnd : (fs.entries.map Prod.fst).Nodup) :
    fs.smaliDirs.Nodup :=
  List.Nodup.of_map _ (fs.smaliDirs_sublist.nodup hnd)

theorem FS.smaliDirs_valid (fs : FS) (hwf : fs.WF) (r : QString) (h : r ∈ fs.smaliDirs) :
    validName r = true := by
  obtain ⟨he, _⟩ := (fs.mem_smaliDirs r).mp h
  exact (hwf.2 _ he).2.1 r (by simp)

theorem matchesSmali_ne_res (r : QString) (h : FS.matchesSmali r = true) : r ≠ resName := by
  intro he
  rw [he] at h
  exact absurd h (by decide)

theorem matchesSmali_ne_manifest (r : QString) (h : FS.matchesSmali r = true) :
    r ≠ manifestName := by
  intro he
  rw [he] at h
  exact absurd h (by decide)


/-! ## The resource and manifest stages -/

theorem resolve_res (c : ApkCloner) : c.resolve (c.contentsPath ++ "/res/".toList) = [resName] := by
  rw [resolve_append]; rfl

theorem resolve_manifest (c : ApkCloner) :
    c.resolve (c.contentsPath ++ "/AndroidManifest.xml".toList) = [manifestName] := by
  rw [resolve_append]; rfl

/-- The resource stage on a tree without double entries. -/
theorem resourceStage_eq (c : ApkCloner) (fs : FS) (hnd : (fs.entries.map Prod.fst).Nodup) :
    c.resourceStage fs =
      ((fs.filesUnder [resName]).flatMap (fun p =>
          visitEvent c trResources (c.contentsPath ++ "/res/".toList) [resName] p ::
            fileEvents c.substName p (fs.find p)),
        fs.rewriteUnder [resName] c.substName) := by
  unfold ApkCloner.resourceStage
  simp only [resolve_res]
  exact rewriteTree_filesUnder c trResources _ [resName] [resName] c.substName fs hnd

theorem resourceStage_sameEnv (c : ApkCloner) (fs : FS) : (c.resourceStage fs).2.sameEnv fs := by
  unfold ApkCloner.resourceStage
  exact rewriteTree_sameEnv _ _ _ _ _ _ _

theorem resourceStage_restrict_other (c : ApkCloner) (fs : FS) (t : QString) (hne : resName ≠ t) :
    (c.resourceStage fs).2.restrict t = fs.restrict t := by
  apply FS.restrict_eq_of_top _ _ t _ (resourceStage_sameEnv c fs)
  unfold ApkCloner.resourceStage
  simp only [resolve_res]
  apply rewriteTree_top
  intro p hp
  exact headIs_ne t resName p hne (FS.filesUnder_headIs fs resName [] p hp)

theorem resourceStage_smaliDirs (c : ApkCloner) (fs : FS) :
    (c.resourceStage fs).2.smaliDirs = fs.smaliDirs := by
  unfold ApkCloner.resourceStage
  exact rewriteTree_smaliDirs _ _ _ _ _ _ _

theorem manifestStage_eq (c : ApkCloner) (fs : FS) :
    c.manifestStage fs =
      (Event.progressed trManifest
          (("/AndroidManifest.xml".toList).drop 1) ::
          (rewriteFile c.substName [manifestName] fs).1,
        (rewriteFile c.substName [manifestName] fs).2) := by
  unfold ApkCloner.manifestStage
  simp only [resolve_manifest]
  congr 2
  rw [List.drop_append_eq_append_drop]
  simp

theorem manifestStage_sameEnv (c : ApkCloner) (fs : FS) : (c.manifestStage fs).2.sameEnv fs := by
  rw [manifestStage_eq]
  exact rewriteFile_sameEnv _ _ _

theorem manifestStage_restrict_other (c : ApkCloner) (fs : FS) (t : QString)
    (hne : manifestName ≠ t) : (c.manifestStage fs).2.restrict t = fs.restrict t := by
  apply FS.restrict_eq_of_top _ _ t _ (manifestStage_sameEnv c fs)
  rw [manifestStage_eq]
  apply rewriteFile_top
  simp only [headIs_cons, decide_eq_false_iff_not]
  exact hne

theorem manifestStage_smaliDirs (c : ApkCloner) (fs : FS) :
    (c.manifestStage fs).2.smaliDirs = fs.smaliDirs := by
  rw [manifestStage_eq]
  exact rewriteFile_smaliDirs _ _ _

/-! ## The whole job on a well-formed tree -/

theorem afterManifest_smaliDirs (c : ApkCloner) (fs : FS) :
    (c.afterManifest fs).smaliDirs = fs.smaliDirs := by
  unfold ApkCloner.afterManifest
  rw [manifestStage_smaliDirs, resourceStage_smaliDirs]

theorem afterManifest_restrict (c : ApkCloner) (fs : FS) (r : QString)
    (h : FS.matchesSmali r = true) : (c.afterManifest fs).restrict r = fs.restrict r := by
  unfold ApkCloner.afterManifest
  rw [manifestStage_restrict_other _ _ _ (fun he => matchesSmali_ne_manifest r h he.symm),
    resourceStage_restrict_other _ _ _ (fun he => matchesSmali_ne_res r h he.symm)]

theorem start_fst (c : ApkCloner) (fs : FS) :
    (c.start fs).1 = Event.started :: (c.resourceStage fs).1 ++
      (c.manifestStage (c.resourceStage fs).2).1 ++
      (c.smaliLoop (c.afterManifest fs).smaliDirs (c.afterManifest fs)).1 ++
      (if (c.smaliLoop (c.afterManifest fs).smaliDirs (c.afterManifest fs)).2.2
        then [Event.finished true] else []) := rfl

theorem start_snd (c : ApkCloner) (fs : FS) :
    (c.start fs).2 = (c.smaliLoop (c.afterManifest fs).smaliDirs (c.afterManifest fs)).2.1 := rfl

/-- The events of a run on a well-formed tree, stage by stage. -/
theorem start_events (c : ApkCloner) (fs : FS) (hwf : fs.WF) :
    (c.start fs).1 = Event.started :: (c.resourceStage fs).1 ++
      (c.manifestStage (c.resourceStage fs).2).1 ++
      (c.loopAt fs fs.smaliDirs).1 ++
      (if (c.loopAt fs fs.smaliDirs).2 then [Event.finished true] else []) := by
  have h := smaliLoop_eq_loopAt c fs (c.afterManifest fs).smaliDirs (c.afterManifest fs)
    (by rw [afterManifest_smaliDirs]; exact fs.smaliDirs_nodup hwf.1)
    (by rw [afterManifest_smaliDirs]; exact fs.smaliDirs_valid hwf)
    (by
      rw [afterManifest_smaliDirs]
      intro r hr
      exact afterManifest_restrict c fs r ((fs.mem_smaliDirs r).mp hr).2)
  rw [start_fst, h.1, h.2, afterManifest_smaliDirs]


theorem FS.find_of_restrict_eq (a b : FS) (t : QString) (p : Path)
    (h : a.restrict t = b.restrict t) (hp : headIs t p = true) : a.find p = b.find p := by
  rw [← FS.find_restrict a t p hp, ← FS.find_restrict b t p hp, h]

theorem FS.find_write (fs : FS) (p : Path) (d : QString) (q : Path) :
    (fs.write p d).find q = (fs.find q).map (fun n =>
      if q = p then
        match n with
        | Node.file _ rw => Node.file d rw
        | Node.dir => Node.dir
      else n) := by
  rw [FS.find_eq, FS.find_eq, FS.write]
  simp only
  rw [lookupNode_map _ _ (by intro e; split <;> [split <;> rfl; rfl])]
  simp only [lookupNode]
  cases h : List.find? (fun e => decide (e.1 = q)) fs.entries with
  | none => rfl
  | some e =>
    have h2 := List.find?_some h
    simp only [decide_eq_true_eq] at h2
    simp only [Option.map_some', h2]
    split
    · split <;> simp_all
    · rfl

theorem rewriteFile_find_open (subst : QString → QString) (p : Path) (fs : FS) (t : QString)
    (h : fs.find p = some (Node.file t true)) :
    (rewriteFile subst p fs).2.find p = some (Node.file (subst t) true) := by
  by_cases hc : subst t = t
  · rw [rewriteFile_same subst p fs t h hc, h, hc]
  · rw [rewriteFile_changed subst p fs t h hc]
    simp only [FS.find_write, h, Option.map_some', if_true]

theorem rewriteFile_find_shut (subst : QString → QString) (p : Path) (fs : FS) (t : QString)
    (h : fs.find p = some (Node.file t false)) :
    (rewriteFile subst p fs).2.find p = some (Node.file t false) := by
  rw [rewriteFile_shut subst p fs t h, h]

/-- What lies outside the smali directories is, at the end of the job, as
the manifest stage left it. -/
theorem start_find_other (c : ApkCloner) (fs : FS) (hwf : fs.WF) (t : QString) (p : Path)
    (ht : t ∉ fs.smaliDirs) (hp : headIs t p = true) :
    (c.start fs).2.find p = (c.afterManifest fs).find p := by
  rw [start_snd]
  apply FS.find_of_restrict_eq _ _ t p _ hp
  apply smaliLoop_restrict_other
  · rw [afterManifest_smaliDirs]; exact fs.smaliDirs_valid hwf
  · rw [afterManifest_smaliDirs]; exact ht

theorem res_not_smaliDir (fs : FS) : resName ∉ fs.smaliDirs := by
  intro h
  exact matchesSmali_ne_res _ ((fs.mem_smaliDirs _).mp h).2 rfl

theorem manifest_not_smaliDir (fs : FS) : manifestName ∉ fs.smaliDirs := by
  intro h
  exact matchesSmali_ne_manifest _ ((fs.mem_smaliDirs _).mp h).2 rfl

/-- The node of a resource file at the end of the job. -/
theorem start_find_res (c : ApkCloner) (fs : FS) (hwf : fs.WF) (p : Path)
    (hp : FS.below [resName] p = true) :
    (c.start fs).2.find p = (fs.find p).map (rewriteNode c.substName) := by
  have hh := FS.below_headIs resName [] p hp
  rw [start_find_other c fs hwf resName p (res_not_smaliDir fs) hh]
  unfold ApkCloner.afterManifest
  rw [FS.find_of_restrict_eq _ _ resName p
    (manifestStage_restrict_other c _ resName (by decide)) hh,
    resourceStage_eq c fs hwf.1, FS.find_rewriteUnder]
  simp only [hp, if_true]

/-- The node of the manifest at the end of the job, when it existed as a file. -/
theorem start_find_manifest (c : ApkCloner) (fs : FS) (hwf : fs.WF) (text : QString) (rw : Bool)
    (h : fs.find [manifestName] = some (Node.file text rw)) :
    (c.start fs).2.find [manifestName] = some (rewriteNode c.substName (Node.file text rw)) := by
  have hh : headIs manifestName [manifestName] = true := by simp [headIs]
  rw [start_find_other c fs hwf manifestName _ (manifest_not_smaliDir fs) hh]
  unfold ApkCloner.afterManifest
  rw [manifestStage_eq]
  have h1 : (c.resourceStage fs).2.find [manifestName] = some (Node.file text rw) := by
    rw [FS.find_of_restrict_eq _ _ manifestName _
      (resourceStage_restrict_other c fs manifestName (by decide)) hh]
    exact h
  cases rw with
  | true => exact rewriteFile_find_open _ _ _ _ h1
  | false => exact rewriteFile_find_shut _ _ _ _ h1

/-- C1: on a well-formed tree, every regular file below `res/` and the file
`AndroidManifest.xml`, when it opens read-write, holds after
`ApkCloner::start` its original text with the occurrences of the old
package name replaced by the new one (the result of `QString::replace`,
which for a non-empty name replaces every occurrence, left to right,
without overlap); and `package="com.example.app"` becomes
`package="com.example.clone"`. -/
theorem C1_resource_and_manifest_text (contentsPath oldName newName : QString) (fs : FS)
    (hwf : fs.WF) (p : Path) (text : QString)
    (hp : FS.below [resName] p = true ∨ p = [manifestName])
    (hfile : fs.find p = some (Node.file text true)) :
    ((ApkCloner.new contentsPath oldName newName).start fs).2.find p
        = some (Node.file (qReplace text oldName newName) true)
    ∧ (oldName ≠ [] → ReplacedAll oldName newName text (qReplace text oldName newName))
    ∧ qReplace "package=\"com.example.app\"".toList comExampleApp comExampleClone
        = "package=\"com.example.clone\"".toList := by
  refine ⟨?_, fun hne => qReplace_replacedAll text oldName newName hne, by decide⟩
  rcases hp with hp | hp
  · rw [start_find_res _ fs hwf p hp, hfile]
    rfl
  · subst hp
    rw [start_find_manifest _ fs hwf text true hfile]
    rfl

theorem sampleTree_wf : sampleTree.WF := by decide

/-- C1 on the sample tree: the resource file `res/values/a.xml`. -/
theorem C1_resource_and_manifest_text_witness :
    (sampleCloner.start sampleTree).2.find ["res".toList, "values".toList, "a.xml".toList]
        = some (Node.file "package=\"com.example.clone\"".toList true) :=
  (C1_resource_and_manifest_text "/tmp/apk".toList comExampleApp comExampleClone sampleTree
    sampleTree_wf ["res".toList, "values".toList, "a.xml".toList]
    "package=\"com.example.app\"".toList (Or.inl (by decide)) (by decide)).1.trans (by decide)


/-! ## Ancestors, `mkpath` and `rename` -/

theorem FS.pathExists_of_find (fs : FS) (p : Path) (h : fs.find p ≠ none) :
    fs.pathExists p = true := by
  unfold FS.pathExists
  cases hf : fs.find p with
  | none => exact absurd hf h
  | some n => simp

theorem FS.find_of_pathExists (fs : FS) (p : Path) (hne : p ≠ []) (h : fs.pathExists p = true) :
    fs.find p ≠ none := by
  unfold FS.pathExists at h
  cases p with
  | nil => exact absurd rfl hne
  | cons a as =>
    simp only [List.isEmpty_cons, Bool.false_or] at h
    intro hf
    rw [hf] at h
    simp at h

theorem FS.closed_of_wf (fs : FS) (hwf : fs.WF) : fs.Closed := by
  have key : ∀ (n : Nat) (p : Path), p.length = n → fs.find p ≠ none →
      ∀ q, q <+: p → fs.pathExists q = true := by
    intro n
    induction n with
    | zero =>
      intro p hl _ q hq
      have : p = [] := List.length_eq_zero.mp hl
      subst this
      rw [List.prefix_nil.mp hq]
      rfl
    | succ n ih =>
      intro p hl hf q hq
      have hne : p ≠ [] := by
        intro h; subst h; simp at hl
      obtain ⟨m, hm⟩ := Option.ne_none_iff_exists'.mp hf
      have hmem := mem_of_lookupNode fs.entries p m hm
      have hpar := (hwf.2 _ hmem).2.2
      simp only at hpar
      have hsplit : p.dropLast ++ [p.getLast hne] = p := List.dropLast_append_getLast hne
      rw [← hsplit] at hq
      rcases List.prefix_concat_iff.mp hq with h1 | h1
      · have : q = p := by
          rw [h1]
          simpa [List.concat_eq_append] using hsplit
        rw [this]
        exact fs.pathExists_of_find p hf
      · by_cases hd : p.dropLast = []
        · rw [hd] at h1
          rw [List.prefix_nil.mp h1]
          rfl
        · have hfd : fs.find p.dropLast ≠ none := by
            unfold FS.isDir at hpar
            cases hdl : p.dropLast with
            | nil => exact absurd hdl hd
            | cons a as =>
              rw [hdl] at hpar
              simp only [List.isEmpty_cons, Bool.false_or, decide_eq_true_eq] at hpar
              rw [hpar]
              simp
          exact ih p.dropLast (by simp [hl]) hfd q h1
  intro p q hf hq
  exact key p.length p rfl hf q hq

theorem FS.wf_restrict (fs : FS) (hwf : fs.WF) (t : QString) : (fs.restrict t).WF := by
  constructor
  · exact (List.Sublist.map Prod.fst (List.filter_sublist _)).nodup hwf.1
  · intro e he
    have hmem : e ∈ fs.entries := List.mem_of_mem_filter he
    have hh : headIs t e.1 = true := by
      simpa using (List.mem_filter.mp he).2
    obtain ⟨h1, h2, h3⟩ := hwf.2 e hmem
    refine ⟨h1, h2, ?_⟩
    rw [FS.isDir_restrict fs t _ (headIs_dropLast t e.1 hh)]
    exact h3

theorem FS.pathExists_rewriteUnder (fs : FS) (d : Path) (subst : QString → QString) (q : Path) :
    (fs.rewriteUnder d subst).pathExists q = fs.pathExists q := by
  unfold FS.pathExists
  rw [FS.find_rewriteUnder]
  cases fs.find q <;> rfl

theorem FS.closed_rewriteUnder (fs : FS) (d : Path) (subst : QString → QString)
    (h : fs.Closed) : (fs.rewriteUnder d subst).Closed := by
  intro p q hf hq
  rw [FS.pathExists_rewriteUnder]
  apply h p q _ hq
  intro hn
  apply hf
  rw [FS.find_rewriteUnder, hn]
  rfl

theorem FS.find_append_dir (fs : FS) (p q : Path) (hp : fs.find p = none) :
    FS.find { fs with entries := fs.entries ++ [(p, Node.dir)] } q =
      if q = p then some Node.dir else fs.find q := by
  rw [FS.find_eq, FS.find_eq] at *
  simp only
  rw [lookupNode_append]
  by_cases hq : q = p
  · subst hq
    rw [hp, if_pos rfl]
    simp [lookupNode]
  · rw [if_neg hq]
    have : lookupNode [(p, Node.dir)] q = none := by
      simp [lookupNode, Ne.symm hq]
    rw [this]
    cases lookupNode fs.entries q <;> rfl

/-- What `mkpath` does to the nodes: existing entries stay, and a path
that did not exist is still missing or now a directory. -/
theorem FS.mkpathFrom_find :
    ∀ (segs : List QString) (fs : FS) (done : Path) (q : Path),
      (fs.mkpathFrom done segs).find q = fs.find q ∨
      (fs.find q = none ∧ (fs.mkpathFrom done segs).find q = some Node.dir) := by
  intro segs
  induction segs with
  | nil => intro fs done q; left; rfl
  | cons s rest ih =>
    intro fs done q
    rw [FS.mkpathFrom]
    cases hf : fs.find (done ++ [s]) with
    | none =>
      simp only
      split
      · rcases ih { fs with entries := fs.entries ++ [(done ++ [s], Node.dir)] } (done ++ [s]) q
          with h | h
        · rw [h, FS.find_append_dir fs _ q hf]
          by_cases hq : q = done ++ [s]
          · right
            rw [if_pos hq, hq]
            exact ⟨hf, rfl⟩
          · left
            rw [if_neg hq]
        · right
          rw [FS.find_append_dir fs _ q hf] at h
          by_cases hq : q = done ++ [s]
          · rw [if_pos hq] at h
            exact absurd h.1 (by simp)
          · rw [if_neg hq] at h
            exact h
      · left; rfl
    | some n =>
      cases n with
      | dir => exact ih fs (done ++ [s]) q
      | file x rw => left; rfl

theorem FS.mkpath_find_of_some (fs : FS) (d q : Path) (n : Node) (h : fs.find q = some n) :
    (fs.mkpath d).find q = some n := by
  rcases FS.mkpathFrom_find d fs [] q with h1 | h1
  · rw [FS.mkpath, h1, h]
  · rw [h] at h1
    exact absurd h1.1 (by simp)

theorem FS.mkpath_pathExists (fs : FS) (d q : Path) (h : fs.pathExists q = true) :
    (fs.mkpath d).pathExists q = true := by
  cases q with
  | nil => rfl
  | cons a as =>
    obtain ⟨n, hn⟩ := Option.ne_none_iff_exists'.mp (fs.find_of_pathExists _ (by simp) h)
    apply FS.pathExists_of_find
    rw [FS.mkpath_find_of_some fs d _ n hn]
    simp

theorem FS.mkpathFrom_closed :
    ∀ (segs : List QString) (fs : FS) (done : Path), fs.Closed → fs.pathExists done = true →
      (fs.mkpathFrom done segs).Closed := by
  intro segs
  induction segs with
  | nil => intro fs done h _; exact h
  | cons s rest ih =>
    intro fs done hc hd
    rw [FS.mkpathFrom]
    cases hf : fs.find (done ++ [s]) with
    | none =>
      simp only
      split
      · apply ih
        · intro p q hp hq
          rw [FS.find_append_dir fs _ p hf] at hp
          have hex : ∀ x, fs.pathExists x = true →
              FS.pathExists { fs with entries := fs.entries ++ [(done ++ [s], Node.dir)] } x = true := by
            intro x hx
            cases x with
            | nil => rfl
            | cons a as =>
              apply FS.pathExists_of_find
              rw [FS.find_append_dir fs _ _ hf]
              split
              · simp
              · exact fs.find_of_pathExists _ (by simp) hx
          by_cases hpe : p = done ++ [s]
          · rw [hpe] at hq
            rcases List.prefix_concat_iff.mp hq with h1 | h1
            · apply FS.pathExists_of_find
              rw [FS.find_append_dir fs _ _ hf, if_pos (by simpa [List.concat_eq_append] using h1)]
              simp
            · apply hex
              cases hdd : done with
              | nil =>
                rw [hdd] at h1
                rw [List.prefix_nil.mp h1]; rfl
              | cons a as =>
                exact hc done q (fs.find_of_pathExists _ (by rw [hdd]; simp) hd) h1
          · rw [if_neg hpe] at hp
            exact hex q (hc p q hp hq)
        · apply FS.pathExists_of_find
          rw [FS.find_append_dir fs _ _ hf, if_pos rfl]
          simp
      · exact hc
    | some n =>
      cases n with
      | dir =>
        exact ih fs (done ++ [s]) hc (fs.pathExists_of_find _ (by rw [hf]; simp))
      | file x rw => exact hc

theorem FS.mkpath_closed (fs : FS) (d : Path) (h : fs.Closed) : (fs.mkpath d).Closed :=
  FS.mkpathFrom_closed d fs [] h rfl


theorem FS.rename_some (fs fs2 : FS) (src dst : Path) (h : fs.rename src dst = some fs2) :
    fs.pathExists src = true ∧ fs.pathExists dst = false ∧ fs.isDir dst.dropLast = true ∧
    src.isPrefixOf dst = false ∧ fs.locked.contains src = false ∧
    fs2 = { fs with entries := fs.entries.map (fun e =>
      if src.isPrefixOf e.1 then (dst ++ e.1.drop src.length, e.2) else e) } := by
  unfold FS.rename at h
  split at h
  · rename_i hc
    simp only [Bool.and_eq_true, Bool.not_eq_true'] at hc
    simp only [Option.some.injEq] at h
    exact ⟨hc.1.1.1.1, hc.1.1.1.2, hc.1.1.2, hc.1.2, hc.2, h.symm⟩
  · simp at h

theorem find?_congr_mem {α : Type} (l : List α) (f g : α → Bool) (h : ∀ x ∈ l, f x = g x) :
    l.find? f = l.find? g := by
  induction l with
  | nil => rfl
  | cons a as ih =>
    rw [List.find?_cons, List.find?_cons, h a (List.mem_cons_self _ _),
      ih (fun x hx => h x (List.mem_cons_of_mem _ hx))]

theorem lookupNode_map_path (l : List (Path × Node)) (g : Path × Node → Path × Node)
    (hg : ∀ e, (g e).2 = e.2) (p q : Path) (h : ∀ e ∈ l, ((g e).1 = p ↔ e.1 = q)) :
    lookupNode (l.map g) p = lookupNode l q := by
  simp only [lookupNode, List.find?_map, Option.map_map]
  rw [find?_congr_mem l ((fun e => decide (e.1 = p)) ∘ g) (fun e => decide (e.1 = q)) (by
    intro e he
    simp only [Function.comp]
    rw [decide_eq_decide]
    exact h e he)]
  cases List.find? (fun e => decide (e.1 = q)) l with
  | none => rfl
  | some e => simp [hg e]

theorem lookupNode_map_none (l : List (Path × Node)) (g : Path × Node → Path × Node)
    (p : Path) (h : ∀ e ∈ l, (g e).1 ≠ p) : lookupNode (l.map g) p = none := by
  rw [lookupNode_eq_none_iff]
  intro e he
  obtain ⟨e0, h0, h1⟩ := List.mem_map.mp he
  rw [← h1]
  exact h e0 h0

theorem FS.find_ne_none_of_mem (fs : FS) (e : Path × Node) (he : e ∈ fs.entries) :
    fs.find e.1 ≠ none := by
  rw [FS.find_eq, Ne, lookupNode_eq_none_iff]
  intro h
  exact h e he rfl

theorem FS.not_pathExists (fs : FS) (p : Path) (h : fs.pathExists p = false) :
    p ≠ [] ∧ fs.find p = none := by
  unfold FS.pathExists at h
  cases p with
  | nil => simp at h
  | cons a as =>
    simp only [List.isEmpty_cons, Bool.false_or] at h
    refine ⟨by simp, ?_⟩
    cases hf : fs.find (a :: as) with
    | none => rfl
    | some n => rw [hf] at h; simp at h

/-- After a successful move, what was at `src ++ x` is at `dst ++ x`. -/
theorem FS.rename_find_moved (fs fs2 : FS) (src dst : Path) (hc : fs.Closed)
    (h : fs.rename src dst = some fs2) (x : Path) :
    fs2.find (dst ++ x) = fs.find (src ++ x) := by
  obtain ⟨_, h2, _, _, _, h6⟩ := fs.rename_some fs2 src dst h
  rw [h6, FS.find_eq, FS.find_eq]
  simp only
  apply lookupNode_map_path
  · intro e; split <;> rfl
  · intro e he
    split
    · rename_i hp
      obtain ⟨y, hy⟩ := List.isPrefixOf_iff_prefix.mp hp
      simp only
      rw [← hy]
      simp
    · rename_i hp
      constructor
      · intro h1
        exfalso
        have := hc e.1 dst (fs.find_ne_none_of_mem e he) ⟨x, h1.symm⟩
        rw [h2] at this
        exact absurd this (by simp)
      · intro h1
        exfalso
        apply hp
        exact List.isPrefixOf_iff_prefix.mpr ⟨x, h1.symm⟩

/-- After a successful move, nothing is left at or below `src`. -/
theorem FS.rename_find_gone (fs fs2 : FS) (src dst : Path) (hc : fs.Closed)
    (h : fs.rename src dst = some fs2) (x : Path) :
    fs2.find (src ++ x) = none := by
  obtain ⟨h1, h2, _, h4, _, h6⟩ := fs.rename_some fs2 src dst h
  have hsrc : src ≠ [] := by
    intro he
    rw [he] at h4
    simp at h4
  rw [h6, FS.find_eq]
  simp only
  apply lookupNode_map_none
  intro e he
  split
  · rename_i hp
    simp only
    intro heq
    have p1 : dst <+: src ++ x := ⟨_, heq⟩
    have p2 : src <+: src ++ x := List.prefix_append _ _
    rcases List.prefix_or_prefix_of_prefix p1 p2 with h7 | h7
    · have := hc src dst (fs.find_of_pathExists src hsrc h1) h7
      rw [h2] at this
      exact absurd this (by simp)
    · rw [Bool.eq_false_iff] at h4
      exact h4 (List.isPrefixOf_iff_prefix.mpr h7)
  · rename_i hp
    intro heq
    apply hp
    exact List.isPrefixOf_iff_prefix.mpr ⟨x, heq.symm⟩

/-- A successful move leaves what is neither below `src` nor below `dst` in place. -/
theorem FS.rename_find_other (fs fs2 : FS) (src dst : Path)
    (h : fs.rename src dst = some fs2) (q : Path) (h1 : ¬ src <+: q) (h2 : ¬ dst <+: q) :
    fs2.find q = fs.find q := by
  obtain ⟨_, _, _, _, _, h6⟩ := fs.rename_some fs2 src dst h
  rw [h6, FS.find_eq, FS.find_eq]
  simp only
  apply lookupNode_map_path
  · intro e; split <;> rfl
  · intro e _
    split
    · rename_i hp
      simp only
      constructor
      · intro heq
        exact absurd ⟨_, heq⟩ h2
      · intro heq
        rw [heq] at hp
        exact absurd (List.isPrefixOf_iff_prefix.mp hp) h1
    · rfl


/-! ## The loop body on a well-formed tree -/

theorem smaliWalk_at (c : ApkCloner) (fs : FS) (hwf : fs.WF) (r : QString) :
    c.smaliWalk r (fs.restrict r) = (c.walkEventsAt fs r, c.walkedAt fs r) := by
  unfold ApkCloner.smaliWalk ApkCloner.walkEventsAt ApkCloner.walkedAt
  rw [rewriteTree_filesUnder c trSmali _ [r] [r] c.substSmali _ (fs.wf_restrict hwf r).1,
    FS.filesUnder_restrict]
  congr 1
  apply List.flatMap_congr
  intro p hp
  rw [FS.find_restrict fs r p (FS.filesUnder_headIs fs r [] p hp)]

theorem oldDir_headIs (c : ApkCloner) (r : QString) : headIs r (c.oldDir r) = true := by
  simp [ApkCloner.oldDir, headIs]

theorem newDir_headIs (c : ApkCloner) (r : QString) : headIs r (c.newDir r) = true := by
  simp [ApkCloner.newDir, headIs]

theorem walkedAt_pathExists (c : ApkCloner) (fs : FS) (r : QString) (p : Path)
    (hp : headIs r p = true) : (c.walkedAt fs r).pathExists p = fs.pathExists p := by
  unfold ApkCloner.walkedAt
  rw [FS.pathExists_rewriteUnder, FS.pathExists_restrict fs r p (Or.inr hp)]

/-- The three ways the loop body goes for a smali directory of a
well-formed tree: nothing to move, a move that fails, a move that succeeds. -/
theorem stepAt_eq (c : ApkCloner) (fs : FS) (hwf : fs.WF) (r : QString) (hr : validName r = true) :
    c.stepAt fs r =
      if fs.pathExists (c.oldDir r) = false then
        (c.walkEventsAt fs r ++ [Event.progressed trStructure r], c.walkedAt fs r, true)
      else
        match c.movedAt fs r with
        | none =>
          (c.walkEventsAt fs r ++ [Event.progressed trStructure r, Event.mkpath (c.newParent r),
            Event.rename (c.oldDir r) (c.newDir r) false, Event.finished false],
            (c.walkedAt fs r).mkpath (c.newParent r), false)
        | some fs3 =>
          (c.walkEventsAt fs r ++ [Event.progressed trStructure r, Event.mkpath (c.newParent r),
            Event.rename (c.oldDir r) (c.newDir r) true], fs3, true) := by
  unfold ApkCloner.stepAt
  rw [smaliDirStep_eq c r _ hr, smaliWalk_at c fs hwf r]
  simp only
  rw [walkedAt_pathExists c fs r _ (oldDir_headIs c r)]
  unfold ApkCloner.movedAt
  cases fs.pathExists (c.oldDir r) <;> simp


/-! ## The events of the loop -/

theorem loopAt_cons (c : ApkCloner) (fs : FS) (r : QString) (post : List QString) :
    c.loopAt fs (r :: post) =
      if (c.stepAt fs r).2.2 then
        ((c.stepAt fs r).1 ++ (c.loopAt fs post).1, (c.loopAt fs post).2)
      else ((c.stepAt fs r).1, false) := rfl

theorem loopAt_append (c : ApkCloner) (fs : FS) :
    ∀ (pre post : List QString), c.loopAt fs (pre ++ post) =
      if (c.loopAt fs pre).2 then
        ((c.loopAt fs pre).1 ++ (c.loopAt fs post).1, (c.loopAt fs post).2)
      else c.loopAt fs pre := by
  intro pre
  induction pre with
  | nil => intro post; simp [ApkCloner.loopAt]
  | cons a pre ih =>
    intro post
    rw [List.cons_append, loopAt_cons, loopAt_cons, ih post]
    by_cases h : (c.stepAt fs a).2.2 = true
    · by_cases h2 : (c.loopAt fs pre).2 = true
      · simp [h, h2]
      · simp [h, h2]
    · simp [h]

/-- Every event of the loop is an event of the body of a directory the loop
got to. -/
theorem mem_loopAt (c : ApkCloner) (fs : FS) (e : Event) :
    ∀ rs : List QString, e ∈ (c.loopAt fs rs).1 →
      ∃ pre r post, rs = pre ++ r :: post ∧ (c.loopAt fs pre).2 = true ∧ e ∈ (c.stepAt fs r).1 := by
  intro rs
  induction rs with
  | nil => intro h; simp [ApkCloner.loopAt] at h
  | cons a rs ih =>
    intro h
    rw [loopAt_cons] at h
    by_cases hb : (c.stepAt fs a).2.2 = true
    · simp only [hb, if_true, List.mem_append] at h
      rcases h with h | h
      · exact ⟨[], a, rs, rfl, rfl, h⟩
      · obtain ⟨pre, r, post, h1, h2, h3⟩ := ih h
        refine ⟨a :: pre, r, post, by rw [h1]; rfl, ?_, h3⟩
        rw [loopAt_cons]
        simp only [hb, if_true]
        exact h2
    · simp only [hb, if_false, Bool.false_eq_true] at h
      exact ⟨[], a, rs, rfl, rfl, h⟩

theorem loopAt_mem (c : ApkCloner) (fs : FS) (e : Event) (pre : List QString) (r : QString)
    (post : List QString) (h1 : (c.loopAt fs pre).2 = true) (h2 : e ∈ (c.stepAt fs r).1) :
    e ∈ (c.loopAt fs (pre ++ r :: post)).1 := by
  rw [loopAt_append]
  simp only [h1, if_true, List.mem_append]
  right
  rw [loopAt_cons]
  split
  · exact List.mem_append_left _ h2
  · exact h2

theorem loopAt_true_iff (c : ApkCloner) (fs : FS) :
    ∀ rs : List QString, (c.loopAt fs rs).2 = true ↔ ∀ r ∈ rs, (c.stepAt fs r).2.2 = true := by
  intro rs
  induction rs with
  | nil => simp [ApkCloner.loopAt]
  | cons a rs ih =>
    rw [loopAt_cons]
    by_cases hb : (c.stepAt fs a).2.2 = true
    · simp only [hb, if_true, List.mem_cons, forall_eq_or_imp, true_and]
      exact ih
    · simp [hb]

/-- When the loop does not run to its end, it stops right after the body of
the first directory whose body returned from the job. -/
theorem loopAt_false (c : ApkCloner) (fs : FS) :
    ∀ rs : List QString, (c.loopAt fs rs).2 = false →
      ∃ pre r post, rs = pre ++ r :: post ∧ (c.loopAt fs pre).2 = true ∧
        (c.stepAt fs r).2.2 = false ∧
        (c.loopAt fs rs).1 = (c.loopAt fs pre).1 ++ (c.stepAt fs r).1 := by
  intro rs
  induction rs with
  | nil => intro h; simp [ApkCloner.loopAt] at h
  | cons a rs ih =>
    intro h
    rw [loopAt_cons] at h ⊢
    by_cases hb : (c.stepAt fs a).2.2 = true
    · simp only [hb, if_true] at h ⊢
      obtain ⟨pre, r, post, h1, h2, h3, h4⟩ := ih h
      refine ⟨a :: pre, r, post, by rw [h1]; rfl, ?_, h3, ?_⟩
      · rw [loopAt_cons]; simp only [hb, if_true]; exact h2
      · rw [h4, loopAt_cons]; simp only [hb, if_true, List.append_assoc]
    · simp only [hb, if_false, Bool.false_eq_true]
      exact ⟨[], a, rs, rfl, rfl, by simpa using hb, by simp [ApkCloner.loopAt]⟩

/-- The events of a file walk: progress events, and writes of the
substituted text to files that open and whose text changes. -/
theorem mem_visits (c : ApkCloner) (text dirStr : QString) (dir d : Path)
    (subst : QString → QString) (fs : FS) (e : Event)
    (h : e ∈ (fs.filesUnder d).flatMap (fun p =>
      visitEvent c text dirStr dir p :: fileEvents subst p (fs.find p))) :
    (∃ x, e = Event.progressed text x) ∨
    (∃ p t, FS.below d p = true ∧ fs.find p = some (Node.file t true) ∧
      subst t ≠ t ∧ e = Event.written p (subst t)) := by
  obtain ⟨p, hp, he⟩ := List.mem_flatMap.mp h
  rcases List.mem_cons.mp he with he | he
  · left; exact ⟨_, he⟩
  · right
    have hb := ((FS.mem_filesUnder fs d p).mp hp).1
    cases hf : fs.find p with
    | none => rw [hf] at he; simp [fileEvents] at he
    | some n =>
      rw [hf] at he
      cases n with
      | dir => simp [fileEvents] at he
      | file t rw =>
        cases rw with
        | false => simp [fileEvents] at he
        | true =>
          simp only [fileEvents] at he
          split at he
          · rename_i hc
            simp only [List.mem_singleton] at he
            exact ⟨p, t, hb, hf, hc, he⟩
          · simp at he

/-- The events of the file walk of a smali directory. -/
theorem mem_walkEventsAt (c : ApkCloner) (fs : FS) (r : QString) (e : Event)
    (h : e ∈ c.walkEventsAt fs r) :
    (∃ x, e = Event.progressed trSmali x) ∨
    (∃ p t, FS.below [r] p = true ∧ fs.find p = some (Node.file t true) ∧
      c.substSmali t ≠ t ∧ e = Event.written p (c.substSmali t)) :=
  mem_visits c trSmali (c.smaliPath r) [r] [r] c.substSmali fs e h

/-- The events of the body of a smali directory of a well-formed tree. -/
theorem mem_stepAt (c : ApkCloner) (fs : FS) (hwf : fs.WF) (r : QString) (hr : validName r = true)
    (e : Event) (h : e ∈ (c.stepAt fs r).1) :
    e ∈ c.walkEventsAt fs r ∨ e = Event.progressed trStructure r ∨
    (fs.pathExists (c.oldDir r) = true ∧
      (e = Event.mkpath (c.newParent r) ∨
       (e = Event.rename (c.oldDir r) (c.newDir r) true ∧ (c.movedAt fs r).isSome = true) ∨
       (e = Event.rename (c.oldDir r) (c.newDir r) false ∧ c.movedAt fs r = none) ∨
       (e = Event.finished false ∧ c.movedAt fs r = none))) := by
  rw [stepAt_eq c fs hwf r hr] at h
  by_cases hx : fs.pathExists (c.oldDir r) = false
  · simp only [hx, if_true, List.mem_append, List.mem_singleton] at h
    rcases h with h | h
    · exact Or.inl h
    · exact Or.inr (Or.inl h)
  · have hx2 : fs.pathExists (c.oldDir r) = true := by simpa using hx
    simp only [hx, if_false] at h
    cases hm : c.movedAt fs r with
    | none =>
      rw [hm] at h
      simp only [Bool.true_eq_false, if_false, List.mem_append, List.mem_cons, List.mem_singleton, List.not_mem_nil,
        or_false] at h
      rcases h with h | h | h | h | h
      · exact Or.inl h
      · exact Or.inr (Or.inl h)
      · exact Or.inr (Or.inr ⟨hx2, Or.inl h⟩)
      · exact Or.inr (Or.inr ⟨hx2, Or.inr (Or.inr (Or.inl ⟨h, rfl⟩))⟩)
      · exact Or.inr (Or.inr ⟨hx2, Or.inr (Or.inr (Or.inr ⟨h, rfl⟩))⟩)
    | some g =>
      rw [hm] at h
      simp only [Bool.true_eq_false, if_false, List.mem_append, List.mem_cons, List.mem_singleton, List.not_mem_nil,
        or_false] at h
      rcases h with h | h | h | h
      · exact Or.inl h
      · exact Or.inr (Or.inl h)
      · exact Or.inr (Or.inr ⟨hx2, Or.inl h⟩)
      · exact Or.inr (Or.inr ⟨hx2, Or.inr (Or.inl ⟨h, rfl⟩)⟩)

theorem stepAt_ok_iff (c : ApkCloner) (fs : FS) (hwf : fs.WF) (r : QString) (hr : validName r = true) :
    (c.stepAt fs r).2.2 = false ↔
      fs.pathExists (c.oldDir r) = true ∧ c.movedAt fs r = none := by
  rw [stepAt_eq c fs hwf r hr]
  by_cases hx : fs.pathExists (c.oldDir r) = false
  · simp [hx]
  · have hx2 : fs.pathExists (c.oldDir r) = true := by simpa using hx
    simp only [hx, if_false, hx2, true_and]
    cases c.movedAt fs r <;> simp


/-! ## The events of the first two stages, and the tree below a smali directory -/

theorem mem_resourceStage (c : ApkCloner) (fs : FS) (hwf : fs.WF) (e : Event)
    (h : e ∈ (c.resourceStage fs).1) :
    (∃ x, e = Event.progressed trResources x) ∨
    (∃ p t, FS.below [resName] p = true ∧ fs.find p = some (Node.file t true) ∧
      c.substName t ≠ t ∧ e = Event.written p (c.substName t)) := by
  rw [resourceStage_eq c fs hwf.1] at h
  exact mem_visits c trResources _ [resName] [resName] c.substName fs e h

theorem mem_rewriteFile (subst : QString → QString) (p : Path) (fs : FS) (e : Event)
    (h : e ∈ (rewriteFile subst p fs).1) :
    ∃ t, (fs.find p = some (Node.file t true) ∨ (fs.find p = none ∧ t = [])) ∧
      subst t ≠ t ∧ e = Event.written p (subst t) := by
  unfold rewriteFile FS.openReadWrite at h
  cases hf : fs.find p with
  | none =>
    rw [hf] at h
    by_cases hcc : (fs.canCreate && fs.isDir (List.dropLast p)) = true
    · simp only [hcc, if_true] at h
      by_cases hc : subst [] = []
      · simp [hc] at h
      · simp only [ne_eq, hc, not_false_eq_true, if_true, List.mem_singleton] at h
        exact ⟨[], Or.inr ⟨rfl, rfl⟩, hc, h⟩
    · simp [hcc] at h
  | some n =>
    rw [hf] at h
    cases n with
    | dir => simp at h
    | file t rw =>
      cases rw with
      | false => simp at h
      | true =>
        by_cases hc : subst t = t
        · simp [hc] at h
        · simp only [if_true, ne_eq, hc, not_false_eq_true, List.mem_singleton] at h
          exact ⟨t, Or.inl rfl, hc, h⟩

theorem mem_manifestStage (c : ApkCloner) (fs : FS) (e : Event)
    (h : e ∈ (c.manifestStage (c.resourceStage fs).2).1) :
    e = Event.progressed trManifest manifestName ∨
    ∃ t, (fs.find [manifestName] = some (Node.file t true) ∨
        (fs.find [manifestName] = none ∧ t = [])) ∧
      c.substName t ≠ t ∧ e = Event.written [manifestName] (c.substName t) := by
  rw [manifestStage_eq] at h
  rcases List.mem_cons.mp h with h | h
  · left; exact h
  · right
    have hh : headIs manifestName [manifestName] = true := by simp [headIs]
    have := mem_rewriteFile c.substName [manifestName] _ e h
    rw [FS.find_of_restrict_eq _ _ manifestName _
      (resourceStage_restrict_other c fs manifestName (by decide)) hh] at this
    exact this

/-- Where the job leaves the part of the tree below a smali directory. -/
theorem start_restrict_smali (c : ApkCloner) (fs : FS) (hwf : fs.WF) (pre : List QString)
    (r : QString) (post : List QString) (hd : fs.smaliDirs = pre ++ r :: post) :
    (c.start fs).2.restrict r =
      if (c.loopAt fs pre).2 then (c.stepAt fs r).2.1 else fs.restrict r := by
  rw [start_snd, afterManifest_smaliDirs, hd]
  apply smaliLoop_restrict c fs pre r post
  · rw [← hd]; exact fs.smaliDirs_nodup hwf.1
  · rw [← hd]; exact fs.smaliDirs_valid hwf
  · rw [← hd]
    intro q hq
    exact afterManifest_restrict c fs q ((fs.mem_smaliDirs q).mp hq).2

/-- The events of a run on a well-formed tree. -/
theorem mem_start (c : ApkCloner) (fs : FS) (hwf : fs.WF) (e : Event) (h : e ∈ (c.start fs).1) :
    e = Event.started ∨ e ∈ (c.resourceStage fs).1 ∨
    e ∈ (c.manifestStage (c.resourceStage fs).2).1 ∨ e ∈ (c.loopAt fs fs.smaliDirs).1 ∨
    (e = Event.finished true ∧ (c.loopAt fs fs.smaliDirs).2 = true) := by
  rw [start_events c fs hwf] at h
  by_cases hb : (c.loopAt fs fs.smaliDirs).2 = true
  · simp only [hb, if_true, List.mem_cons, List.mem_append, List.cons_append,
      List.mem_singleton, List.not_mem_nil, or_false] at h
    rcases h with h | h
    · exact Or.inl h
    · rcases h with ((h | h) | h) | h
      · exact Or.inr (Or.inl h)
      · exact Or.inr (Or.inr (Or.inl h))
      · exact Or.inr (Or.inr (Or.inr (Or.inl h)))
      · exact Or.inr (Or.inr (Or.inr (Or.inr ⟨h, hb⟩)))
  · simp only [hb, if_false, List.mem_cons, List.mem_append, List.cons_append,
      List.append_nil, Bool.false_eq_true] at h
    rcases h with h | h
    · exact Or.inl h
    · rcases h with (h | h) | h
      · exact Or.inr (Or.inl h)
      · exact Or.inr (Or.inr (Or.inl h))
      · exact Or.inr (Or.inr (Or.inr (Or.inl h)))


/-- A write event of a run on a well-formed tree belongs to one of the three
stages and carries the substituted text of the file, which differs from the
text the file had at the start. -/
theorem start_written (c : ApkCloner) (fs : FS) (hwf : fs.WF) (p : Path) (d : QString)
    (h : Event.written p d ∈ (c.start fs).1) :
    (FS.below [resName] p = true ∧ ∃ t, fs.find p = some (Node.file t true) ∧
        c.substName t ≠ t ∧ d = c.substName t) ∨
    (p = [manifestName] ∧ ∃ t, (fs.find p = some (Node.file t true) ∨
        (fs.find p = none ∧ t = [])) ∧ c.substName t ≠ t ∧ d = c.substName t) ∨
    (∃ r ∈ fs.smaliDirs, FS.below [r] p = true ∧ ∃ t, fs.find p = some (Node.file t true) ∧
        c.substSmali t ≠ t ∧ d = c.substSmali t) := by
  rcases mem_start c fs hwf _ h with h | h | h | h | h
  · simp at h
  · rcases mem_resourceStage c fs hwf _ h with ⟨x, hx⟩ | ⟨q, t, h1, h2, h3, h4⟩
    · simp at hx
    · simp only [Event.written.injEq] at h4
      obtain ⟨rfl, rfl⟩ := h4
      exact Or.inl ⟨h1, t, h2, h3, rfl⟩
  · rcases mem_manifestStage c fs _ h with hx | ⟨t, h1, h2, h3⟩
    · simp at hx
    · simp only [Event.written.injEq] at h3
      obtain ⟨rfl, rfl⟩ := h3
      exact Or.inr (Or.inl ⟨rfl, t, h1, h2, rfl⟩)
  · obtain ⟨pre, r, post, h1, _, h3⟩ := mem_loopAt c fs _ _ h
    have hr : r ∈ fs.smaliDirs := by rw [h1]; simp
    rcases mem_stepAt c fs hwf r (fs.smaliDirs_valid hwf r hr) _ h3 with h4 | h4 | ⟨_, h4⟩
    · rcases mem_walkEventsAt c fs r _ h4 with ⟨x, hx⟩ | ⟨q, t, h5, h6, h7, h8⟩
      · simp at hx
      · simp only [Event.written.injEq] at h8
        obtain ⟨rfl, rfl⟩ := h8
        exact Or.inr (Or.inr ⟨r, hr, h5, t, h6, h7, rfl⟩)
    · simp at h4
    · rcases h4 with h4 | ⟨h4, _⟩ | ⟨h4, _⟩ | ⟨h4, _⟩ <;> simp at h4
  · exact absurd h.1 (by simp)

/-! ## The tree below a smali directory at the end of the job -/

theorem FS.find_smaliDir (fs : FS) (hwf : fs.WF) (r : QString) (hr : r ∈ fs.smaliDirs) :
    fs.find [r] = some Node.dir :=
  lookupNode_of_mem fs.entries hwf.1 [r] Node.dir ((fs.mem_smaliDirs r).mp hr).1

theorem headIs_not_below (r : QString) (p : Path) (hp : headIs r p = true)
    (hb : FS.below [r] p = false) : p = [r] := by
  cases p with
  | nil => simp [headIs] at hp
  | cons a as =>
    simp only [headIs_cons, decide_eq_true_eq] at hp
    subst hp
    by_contra hne
    have : FS.below [a] (a :: as) = true := by
      simp only [FS.below, Bool.and_eq_true, decide_eq_true_eq]
      exact ⟨List.isPrefixOf_iff_prefix.mpr ⟨as, rfl⟩, hne⟩
    rw [this] at hb
    exact absurd hb (by simp)

/-- After the file walk of a smali directory, every node below it is the
rewritten one. -/
theorem walkedAt_find (c : ApkCloner) (fs : FS) (hwf : fs.WF) (r : QString)
    (hr : r ∈ fs.smaliDirs) (p : Path) (hp : headIs r p = true) :
    (c.walkedAt fs r).find p = (fs.find p).map (rewriteNode c.substSmali) := by
  unfold ApkCloner.walkedAt
  rw [FS.find_rewriteUnder, FS.find_restrict fs r p hp]
  by_cases hb : FS.below [r] p = true
  · simp only [hb, if_true]
  · have hb2 : FS.below [r] p = false := by simpa using hb
    have := headIs_not_below r p hp hb2
    subst this
    rw [fs.find_smaliDir hwf r hr]
    simp [rewriteNode]

theorem walkedAt_closed (c : ApkCloner) (fs : FS) (hwf : fs.WF) (r : QString) :
    (c.walkedAt fs r).Closed :=
  FS.closed_rewriteUnder _ _ _ (FS.closed_of_wf _ (fs.wf_restrict hwf r))

/-- The loop got as far as the smali directory `r`. -/
theorem start_find_reached (c : ApkCloner) (fs : FS) (hwf : fs.WF) (pre : List QString)
    (r : QString) (post : List QString) (hd : fs.smaliDirs = pre ++ r :: post)
    (hpre : (c.loopAt fs pre).2 = true) (p : Path) (hp : headIs r p = true) :
    (c.start fs).2.find p = (c.stepAt fs r).2.1.find p := by
  rw [← FS.find_restrict _ r p hp, start_restrict_smali c fs hwf pre r post hd, hpre]
  rfl

/-- A smali directory the loop did not get to is left as it was. -/
theorem start_find_unreached (c : ApkCloner) (fs : FS) (hwf : fs.WF) (pre : List QString)
    (r : QString) (post : List QString) (hd : fs.smaliDirs = pre ++ r :: post)
    (hpre : (c.loopAt fs pre).2 = false) (p : Path) (hp : headIs r p = true) :
    (c.start fs).2.find p = fs.find p := by
  rw [← FS.find_restrict _ r p hp, start_restrict_smali c fs hwf pre r post hd, hpre]
  exact FS.find_restrict fs r p hp

theorem stepAt_skip (c : ApkCloner) (fs : FS) (hwf : fs.WF) (r : QString) (hr : validName r = true)
    (hx : fs.pathExists (c.oldDir r) = false) :
    c.stepAt fs r =
      (c.walkEventsAt fs r ++ [Event.progressed trStructure r], c.walkedAt fs r, true) := by
  rw [stepAt_eq c fs hwf r hr, if_pos hx]

theorem stepAt_fail (c : ApkCloner) (fs : FS) (hwf : fs.WF) (r : QString) (hr : validName r = true)
    (hx : fs.pathExists (c.oldDir r) = true) (hm : c.movedAt fs r = none) :
    c.stepAt fs r =
      (c.walkEventsAt fs r ++ [Event.progressed trStructure r, Event.mkpath (c.newParent r),
        Event.rename (c.oldDir r) (c.newDir r) false, Event.finished false],
        (c.walkedAt fs r).mkpath (c.newParent r), false) := by
  rw [stepAt_eq c fs hwf r hr, if_neg (by simp [hx]), hm]

theorem stepAt_moved (c : ApkCloner) (fs : FS) (hwf : fs.WF) (r : QString) (hr : validName r = true)
    (hx : fs.pathExists (c.oldDir r) = true) (g : FS) (hm : c.movedAt fs r = some g) :
    c.stepAt fs r =
      (c.walkEventsAt fs r ++ [Event.progressed trStructure r, Event.mkpath (c.newParent r),
        Event.rename (c.oldDir r) (c.newDir r) true], g, true) := by
  rw [stepAt_eq c fs hwf r hr, if_neg (by simp [hx]), hm]

/-- The nodes below a smali directory after a body that moved nothing
(nothing to move, or a move that failed): every entry is in place, rewritten. -/
theorem stepAt_find_unmoved (c : ApkCloner) (fs : FS) (hwf : fs.WF) (r : QString)
    (hr : r ∈ fs.smaliDirs) (hm : fs.pathExists (c.oldDir r) = false ∨ c.movedAt fs r = none)
    (p : Path) (hp : headIs r p = true) (n : Node) (hn : fs.find p = some n) :
    (c.stepAt fs r).2.1.find p = some (rewriteNode c.substSmali n) := by
  have hv := fs.smaliDirs_valid hwf r hr
  have hw : (c.walkedAt fs r).find p = some (rewriteNode c.substSmali n) := by
    rw [walkedAt_find c fs hwf r hr p hp, hn]; rfl
  by_cases hx : fs.pathExists (c.oldDir r) = false
  · rw [stepAt_skip c fs hwf r hv hx]
    exact hw
  · have hx2 : fs.pathExists (c.oldDir r) = true := by simpa using hx
    rcases hm with hm | hm
    · exact absurd hm hx
    · rw [stepAt_fail c fs hwf r hv hx2 hm]
      exact FS.mkpath_find_of_some _ _ _ _ hw

/-- The nodes below a smali directory after a body whose move succeeded. -/
theorem stepAt_find_moved (c : ApkCloner) (fs : FS) (hwf : fs.WF) (r : QString)
    (hr : r ∈ fs.smaliDirs) (g : FS) (hm : c.movedAt fs r = some g) :
    (∀ x n, fs.find (c.oldDir r ++ x) = some n →
      g.find (c.newDir r ++ x) = some (rewriteNode c.substSmali n)) ∧
    (∀ x, g.find (c.oldDir r ++ x) = none) ∧
    (∀ p n, headIs r p = true → ¬ c.oldDir r <+: p → fs.find p = some n →
      g.find p = some (rewriteNode c.substSmali n)) ∧
    g.isDir (c.newDir r).dropLast = true := by
  have hcl : ((c.walkedAt fs r).mkpath (c.newParent r)).Closed :=
    FS.mkpath_closed _ _ (walkedAt_closed c fs hwf r)
  unfold ApkCloner.movedAt at hm
  obtain ⟨_, h2, h3, _, _, h6⟩ := FS.rename_some _ _ _ _ hm
  have hw : ∀ p n, headIs r p = true → fs.find p = some n →
      ((c.walkedAt fs r).mkpath (c.newParent r)).find p = some (rewriteNode c.substSmali n) := by
    intro p n hp hn
    apply FS.mkpath_find_of_some
    rw [walkedAt_find c fs hwf r hr p hp, hn]; rfl
  refine ⟨?_, ?_, ?_, ?_⟩
  · intro x n hn
    rw [FS.rename_find_moved _ _ _ _ hcl hm x]
    exact hw _ n (by simp [ApkCloner.oldDir, headIs]) hn
  · intro x
    exact FS.rename_find_gone _ _ _ _ hcl hm x
  · intro p n hp hnp hn
    have hex := hw p n hp hn
    rw [FS.rename_find_other _ _ _ _ hm p hnp ?_]
    · exact hex
    · intro hpre
      have := hcl p (c.newDir r) (by rw [hex]; simp) hpre
      rw [h2] at this
      exact absurd this (by simp)
  · rw [h6]
    unfold FS.isDir at h3 ⊢
    cases hdl : (c.newDir r).dropLast with
    | nil => rfl
    | cons a as =>
      rw [hdl] at h3
      simp only [List.isEmpty_cons, Bool.false_or, decide_eq_true_eq] at h3 ⊢
      have hne : ¬ c.oldDir r <+: a :: as := by
        intro hp
        have h4 := (FS.rename_some _ _ _ _ hm).2.2.2.1
        rw [Bool.eq_false_iff] at h4
        apply h4
        apply List.isPrefixOf_iff_prefix.mpr
        rw [← hdl] at hp
        exact hp.trans (List.dropLast_prefix _)
      have hne2 : ¬ c.newDir r <+: a :: as := by
        intro hp
        have h5 := hp.length_le
        rw [← hdl] at h5
        simp only [List.length_dropLast] at h5
        have : 0 < (c.newDir r).length := by simp [ApkCloner.newDir]
        omega
      rw [← h6, FS.rename_find_other _ _ _ _ hm _ hne hne2]
      exact h3


/-! ## The terminal signal -/

theorem stepAt_valid (fs : FS) (hwf : fs.WF) (pre : List QString) (r : QString)
    (post : List QString) (hd : fs.smaliDirs = pre ++ r :: post) :
    r ∈ fs.smaliDirs ∧ validName r = true := by
  have hr : r ∈ fs.smaliDirs := by rw [hd]; simp
  exact ⟨hr, fs.smaliDirs_valid hwf r hr⟩

/-- A `finished` signal inside the loop is `finished(false)`, and the loop
then does not run to its end. -/
theorem finished_mem_loopAt (c : ApkCloner) (fs : FS) (hwf : fs.WF) (b : Bool)
    (h : Event.finished b ∈ (c.loopAt fs fs.smaliDirs).1) :
    b = false ∧ (c.loopAt fs fs.smaliDirs).2 = false := by
  obtain ⟨pre, r, post, h1, _, h3⟩ := mem_loopAt c fs _ _ h
  obtain ⟨hr, hv⟩ := stepAt_valid fs hwf pre r post h1
  rcases mem_stepAt c fs hwf r hv _ h3 with h4 | h4 | ⟨hx, h4⟩
  · rcases mem_walkEventsAt c fs r _ h4 with ⟨x, hx⟩ | ⟨q, t, _, _, _, h8⟩
    · simp at hx
    · simp at h8
  · simp at h4
  · rcases h4 with h4 | ⟨h4, _⟩ | ⟨h4, _⟩ | ⟨h4, hm⟩
    · simp at h4
    · simp at h4
    · simp at h4
    · simp only [Event.finished.injEq] at h4
      refine ⟨h4, ?_⟩
      have hs : (c.stepAt fs r).2.2 = false := (stepAt_ok_iff c fs hwf r hv).mpr ⟨hx, hm⟩
      cases hb : (c.loopAt fs fs.smaliDirs).2 with
      | false => rfl
      | true =>
        have := (loopAt_true_iff c fs fs.smaliDirs).mp hb r hr
        rw [hs] at this
        exact absurd this (by simp)

theorem not_finished_first_stages (c : ApkCloner) (fs : FS) (hwf : fs.WF) (b : Bool) :
    Event.finished b ∉ (c.resourceStage fs).1 ∧
    Event.finished b ∉ (c.manifestStage (c.resourceStage fs).2).1 := by
  constructor
  · intro h
    rcases mem_resourceStage c fs hwf _ h with ⟨x, hx⟩ | ⟨q, t, _, _, _, h8⟩
    · simp at hx
    · simp at h8
  · intro h
    rcases mem_manifestStage c fs _ h with hx | ⟨t, _, _, h3⟩
    · simp at hx
    · simp at h3

/-- The job emits `finished(true)` exactly when the loop ran to its end. -/
theorem start_finished_true_iff (c : ApkCloner) (fs : FS) (hwf : fs.WF) :
    Event.finished true ∈ (c.start fs).1 ↔ (c.loopAt fs fs.smaliDirs).2 = true := by
  constructor
  · intro h
    rcases mem_start c fs hwf _ h with h | h | h | h | h
    · simp at h
    · exact absurd h (not_finished_first_stages c fs hwf true).1
    · exact absurd h (not_finished_first_stages c fs hwf true).2
    · exact absurd (finished_mem_loopAt c fs hwf true h).1 (by simp)
    · exact h.2
  · intro h
    rw [start_events c fs hwf, h]
    simp

/-- The job emits `finished(false)` exactly when the loop stopped early. -/
theorem start_finished_false_iff (c : ApkCloner) (fs : FS) (hwf : fs.WF) :
    Event.finished false ∈ (c.start fs).1 ↔ (c.loopAt fs fs.smaliDirs).2 = false := by
  constructor
  · intro h
    rcases mem_start c fs hwf _ h with h | h | h | h | h
    · simp at h
    · exact absurd h (not_finished_first_stages c fs hwf false).1
    · exact absurd h (not_finished_first_stages c fs hwf false).2
    · exact (finished_mem_loopAt c fs hwf false h).2
    · exact absurd h.1 (by simp)
  · intro h
    obtain ⟨pre, r, post, h1, h2, h3, h4⟩ := loopAt_false c fs _ h
    obtain ⟨hr, hv⟩ := stepAt_valid fs hwf pre r post h1
    obtain ⟨hx, hm⟩ := (stepAt_ok_iff c fs hwf r hv).mp h3
    rw [start_events c fs hwf, h4, stepAt_fail c fs hwf r hv hx hm]
    simp

/-- A rename event of a run belongs to the body of a smali directory the
loop got to, whose old-package subdirectory exists. -/
theorem start_rename (c : ApkCloner) (fs : FS) (hwf : fs.WF) (src dst : Path) (b : Bool)
    (h : Event.rename src dst b ∈ (c.start fs).1) :
    ∃ pre r post, fs.smaliDirs = pre ++ r :: post ∧ (c.loopAt fs pre).2 = true ∧
      src = c.oldDir r ∧ dst = c.newDir r ∧ fs.pathExists (c.oldDir r) = true ∧
      (c.movedAt fs r).isSome = b := by
  rcases mem_start c fs hwf _ h with h | h | h | h | h
  · simp at h
  · rcases mem_resourceStage c fs hwf _ h with ⟨x, hx⟩ | ⟨q, t, _, _, _, h8⟩
    · simp at hx
    · simp at h8
  · rcases mem_manifestStage c fs _ h with hx | ⟨t, _, _, h3⟩
    · simp at hx
    · simp at h3
  · obtain ⟨pre, r, post, h1, h2, h3⟩ := mem_loopAt c fs _ _ h
    obtain ⟨hr, hv⟩ := stepAt_valid fs hwf pre r post h1
    refine ⟨pre, r, post, h1, h2, ?_⟩
    rcases mem_stepAt c fs hwf r hv _ h3 with h4 | h4 | ⟨hx, h4⟩
    · rcases mem_walkEventsAt c fs r _ h4 with ⟨x, hx⟩ | ⟨q, t, _, _, _, h8⟩
      · simp at hx
      · simp at h8
    · simp at h4
    · rcases h4 with h4 | ⟨h4, hm⟩ | ⟨h4, hm⟩ | ⟨h4, _⟩
      · simp at h4
      · simp only [Event.rename.injEq] at h4
        obtain ⟨rfl, rfl, rfl⟩ := h4
        exact ⟨rfl, rfl, hx, hm⟩
      · simp only [Event.rename.injEq] at h4
        obtain ⟨rfl, rfl, rfl⟩ := h4
        exact ⟨rfl, rfl, hx, by rw [hm]; rfl⟩
      · simp at h4
  · exact absurd h.1 (by simp)

/-- In a list without repetition, an element splits the list in one way only. -/
theorem split_unique {α : Type} (l : List α) (hnd : l.Nodup) (a : α)
    (p1 s1 p2 s2 : List α) (h1 : l = p1 ++ a :: s1) (h2 : l = p2 ++ a :: s2) :
    p1 = p2 ∧ s1 = s2 := by
  induction p1 generalizing l p2 with
  | nil =>
    cases p2 with
    | nil =>
      rw [h1] at h2
      simp at h2
      exact ⟨rfl, h2⟩
    | cons b p2 =>
      rw [h1] at h2
      simp only [List.nil_append, List.cons_append, List.cons.injEq] at h2
      obtain ⟨rfl, h3⟩ := h2
      rw [h1, h3] at hnd
      simp at hnd
  | cons b p1 ih =>
    cases p2 with
    | nil =>
      rw [h1] at h2
      simp only [List.nil_append, List.cons_append, List.cons.injEq] at h2
      obtain ⟨rfl, h3⟩ := h2
      rw [h1] at hnd
      simp at hnd
    | cons b2 p2 =>
      rw [h1] at h2
      simp only [List.cons_append, List.cons.injEq] at h2
      obtain ⟨rfl, h3⟩ := h2
      rw [h1] at hnd
      simp only [List.cons_append, List.nodup_cons] at hnd
      obtain ⟨e1, e2⟩ := ih (p1 ++ a :: s1) hnd.2 p2 rfl h3
      exact ⟨by rw [e1], e2⟩


/-! ## Where the entries below a smali directory end up -/

theorem loopAt_prefix_true (c : ApkCloner) (fs : FS) (pre : List QString) (rest : List QString)
    (h : (c.loopAt fs (pre ++ rest)).2 = true) : (c.loopAt fs pre).2 = true := by
  rw [loopAt_true_iff] at h ⊢
  intro r hr
  exact h r (List.mem_append_left _ hr)

/-- Once the loop got to a smali directory, an entry below it is found
rewritten, in place or, when it lay in the old-package subdirectory and the
move succeeded, at the matching place of the new-package subdirectory. -/
theorem start_find_smali_reached (c : ApkCloner) (fs : FS) (hwf : fs.WF) (pre : List QString)
    (r : QString) (post : List QString) (hd : fs.smaliDirs = pre ++ r :: post)
    (hpre : (c.loopAt fs pre).2 = true) (p : Path) (n : Node)
    (hp : headIs r p = true) (hn : fs.find p = some n) :
    (c.start fs).2.find p = some (rewriteNode c.substSmali n) ∨
    (c.oldDir r <+: p ∧ (c.start fs).2.find p = none ∧
      (c.start fs).2.find (c.newDir r ++ p.drop (c.oldDir r).length)
        = some (rewriteNode c.substSmali n)) := by
  obtain ⟨hr, hv⟩ := stepAt_valid fs hwf pre r post hd
  have hfin : ∀ q, headIs r q = true → (c.start fs).2.find q = (c.stepAt fs r).2.1.find q :=
    fun q hq => start_find_reached c fs hwf pre r post hd hpre q hq
  by_cases hx : fs.pathExists (c.oldDir r) = false
  · left
    rw [hfin p hp]
    exact stepAt_find_unmoved c fs hwf r hr (Or.inl hx) p hp n hn
  · have hx2 : fs.pathExists (c.oldDir r) = true := by simpa using hx
    cases hm : c.movedAt fs r with
    | none =>
      left
      rw [hfin p hp]
      exact stepAt_find_unmoved c fs hwf r hr (Or.inr hm) p hp n hn
    | some g =>
      obtain ⟨m1, m2, m3, _⟩ := stepAt_find_moved c fs hwf r hr g hm
      have hg : (c.stepAt fs r).2.1 = g := by rw [stepAt_moved c fs hwf r hv hx2 g hm]
      by_cases hpre2 : c.oldDir r <+: p
      · right
        obtain ⟨x, hx3⟩ := hpre2
        have hdrop : p.drop (c.oldDir r).length = x := by
          rw [← hx3]; simp
        refine ⟨⟨x, hx3⟩, ?_, ?_⟩
        · rw [hfin p hp, hg, ← hx3]
          exact m2 x
        · rw [hdrop, hfin _ (by simp [ApkCloner.newDir, headIs]), hg]
          exact m1 x n (by rw [hx3]; exact hn)
      · left
        rw [hfin p hp, hg]
        exact m3 p n hp hpre2 hn

/-- An entry below a smali directory at the end of the job: untouched when
the loop stopped before the directory, otherwise rewritten, in place or moved. -/
theorem start_find_smali (c : ApkCloner) (fs : FS) (hwf : fs.WF) (r : QString)
    (hr : r ∈ fs.smaliDirs) (p : Path) (n : Node)
    (hp : headIs r p = true) (hn : fs.find p = some n) :
    (c.start fs).2.find p = some n ∨
    (c.start fs).2.find p = some (rewriteNode c.substSmali n) ∨
    (c.oldDir r <+: p ∧ (c.start fs).2.find p = none ∧
      (c.start fs).2.find (c.newDir r ++ p.drop (c.oldDir r).length)
        = some (rewriteNode c.substSmali n)) := by
  obtain ⟨pre, post, hd⟩ := List.append_of_mem hr
  cases hpre : (c.loopAt fs pre).2 with
  | false =>
    left
    rw [start_find_unreached c fs hwf pre r post hd hpre p hp]
    exact hn
  | true =>
    right
    exact start_find_smali_reached c fs hwf pre r post hd hpre p n hp hn

/-- C2: for a file below a smali directory of a well-formed tree that opens,
every write the job makes to it carries the text with both substitutions
applied (descriptor form first, dotted form second), and at the end of the
job the file holds either its original text (the loop stopped before its
directory) or the text with both substitutions, in place or moved with the
old-package subdirectory; after `finished(true)` it is the latter. With
`com.example.app` and `com.example.clone`, the line
`.class public Lcom/example/app/MainActivity;` becomes
`.class public Lcom/example/clone/MainActivity;`. -/
theorem C2_smali_both_substitutions (contentsPath oldName newName : QString) (fs : FS)
    (hwf : fs.WF) (r : QString) (hr : r ∈ fs.smaliDirs) (p : Path)
    (hp : FS.below [r] p = true) (text : QString)
    (hfile : fs.find p = some (Node.file text true)) :
    (∀ data, Event.written p data ∈ ((ApkCloner.new contentsPath oldName newName).start fs).1 →
      data = qReplace (qReplace text ('L' :: replaceChar '.' '/' oldName)
        ('L' :: replaceChar '.' '/' newName)) oldName newName ∧ data ≠ text)
    ∧ (((ApkCloner.new contentsPath oldName newName).start fs).2.find p
          = some (Node.file text true)
      ∨ ((ApkCloner.new contentsPath oldName newName).start fs).2.find p
          = some (Node.file (qReplace (qReplace text ('L' :: replaceChar '.' '/' oldName)
              ('L' :: replaceChar '.' '/' newName)) oldName newName) true)
      ∨ ((ApkCloner.new contentsPath oldName newName).start fs).2.find
          ((ApkCloner.new contentsPath oldName newName).newDir r ++
            p.drop ((ApkCloner.new contentsPath oldName newName).oldDir r).length)
          = some (Node.file (qReplace (qReplace text ('L' :: replaceChar '.' '/' oldName)
              ('L' :: replaceChar '.' '/' newName)) oldName newName) true))
    ∧ (Event.finished true ∈ ((ApkCloner.new contentsPath oldName newName).start fs).1 →
        ((ApkCloner.new contentsPath oldName newName).start fs).2.find p
          = some (Node.file (qReplace (qReplace text ('L' :: replaceChar '.' '/' oldName)
              ('L' :: replaceChar '.' '/' newName)) oldName newName) true)
      ∨ ((ApkCloner.new contentsPath oldName newName).start fs).2.find
          ((ApkCloner.new contentsPath oldName newName).newDir r ++
            p.drop ((ApkCloner.new contentsPath oldName newName).oldDir r).length)
          = some (Node.file (qReplace (qReplace text ('L' :: replaceChar '.' '/' oldName)
              ('L' :: replaceChar '.' '/' newName)) oldName newName) true))
    ∧ qReplace (qReplace ".class public Lcom/example/app/MainActivity;".toList
          ('L' :: replaceChar '.' '/' comExampleApp) ('L' :: replaceChar '.' '/' comExampleClone))
        comExampleApp comExampleClone
        = ".class public Lcom/example/clone/MainActivity;".toList := by
  have hh := FS.below_headIs r [] p hp
  refine ⟨?_, ?_, ?_, by decide⟩
  · intro data hw
    rcases start_written _ fs hwf p data hw with ⟨hb, _⟩ | ⟨he, _⟩ | ⟨r2, hr2, hb, t, h1, h2, h3⟩
    · exfalso
      have := FS.below_headIs resName [] p hb
      cases p with
      | nil => simp [headIs] at hh
      | cons a as =>
        simp only [headIs_cons, decide_eq_true_eq] at hh this
        exact res_not_smaliDir fs (by rw [← this, hh]; exact hr)
    · exfalso
      rw [he] at hh
      simp only [headIs_cons, decide_eq_true_eq] at hh
      exact manifest_not_smaliDir fs (by rw [hh]; exact hr)
    · rw [hfile] at h1
      simp only [Option.some.injEq, Node.file.injEq, and_true] at h1
      subst h1
      exact ⟨h3, by rw [h3]; exact h2⟩
  · rcases start_find_smali _ fs hwf r hr p _ hh hfile with h | h | ⟨_, _, h⟩
    · exact Or.inl h
    · exact Or.inr (Or.inl h)
    · exact Or.inr (Or.inr h)
  · intro hok
    obtain ⟨pre, post, hd⟩ := List.append_of_mem hr
    have hl := (start_finished_true_iff _ fs hwf).mp hok
    rw [hd] at hl
    rcases start_find_smali_reached _ fs hwf pre r post hd
      (loopAt_prefix_true _ fs pre _ hl) p _ hh hfile with h | ⟨_, _, h⟩
    · exact Or.inl h
    · exact Or.inr h


/-- C2 on the sample tree: after the job the bytecode file holds the
rewritten line, in the new-package subdirectory. -/
theorem C2_smali_both_substitutions_witness :
    (sampleCloner.start sampleTree).2.find sampleMovedFile
      = some (Node.file ".class public Lcom/example/clone/MainActivity;".toList true) := by
  rcases (C2_smali_both_substitutions "/tmp/apk".toList comExampleApp comExampleClone sampleTree
    sampleTree_wf "smali".toList (by decide) sampleSmaliFile (by decide)
    ".class public Lcom/example/app/MainActivity;".toList (by decide)).2.2.1 (by decide) with h | h
  · exact absurd h (by decide)
  · exact h.trans (by decide)


/-- C3, as stated, fails: renaming the package `app` to `myapp`, the
bytecode file whose content is the descriptor `Lapp/Main;` ends up holding
`Lmymyapp/Main;` and not `Lmyapp/Main;`, because the dotted substitution
runs over the text the descriptor substitution produced. -/
theorem C3_counterexample :
    "app".toList ≠ "myapp".toList
    ∧ appTree.find ["smali".toList, "app".toList, "Main.smali".toList]
        = some (Node.file ('L' :: replaceChar '.' '/' "app".toList ++ '/' :: "Main".toList ++ [';']) true)
    ∧ ((ApkCloner.new "/tmp/apk".toList "app".toList "myapp".toList).start appTree).2.find
        ["smali".toList, "myapp".toList, "Main.smali".toList]
        = some (Node.file "Lmymyapp/Main;".toList true)
    ∧ "Lmymyapp/Main;".toList
        ≠ 'L' :: replaceChar '.' '/' "myapp".toList ++ '/' :: "Main".toList ++ [';'] := by
  decide

/-- C3 (amended): when `L` + from.path does not occur in `/` + s + `;` and
the dotted name `from` does not occur in `L` + to.path + `/` + s + `;`, a
bytecode file whose content is the descriptor `L` + from.path + `/` + s + `;`
is rewritten to exactly `L` + to.path + `/` + s + `;`: the descriptor
substitution gives that text and the dotted substitution leaves it as it is. -/
theorem C3_descriptor_rewrite (contentsPath oldName newName s : QString)
    (_hne : oldName ≠ newName)
    (h1 : ¬ ('L' :: replaceChar '.' '/' oldName) <:+: '/' :: s ++ [';'])
    (h2 : ¬ oldName <:+: 'L' :: replaceChar '.' '/' newName ++ '/' :: s ++ [';'])
    (p : Path) (fs : FS)
    (hfile : fs.find p
      = some (Node.file ('L' :: replaceChar '.' '/' oldName ++ '/' :: s ++ [';']) true)) :
    qReplace ('L' :: replaceChar '.' '/' oldName ++ '/' :: s ++ [';'])
        ('L' :: replaceChar '.' '/' oldName) ('L' :: replaceChar '.' '/' newName)
      = 'L' :: replaceChar '.' '/' newName ++ '/' :: s ++ [';']
    ∧ qReplace ('L' :: replaceChar '.' '/' newName ++ '/' :: s ++ [';']) oldName newName
      = 'L' :: replaceChar '.' '/' newName ++ '/' :: s ++ [';']
    ∧ (rewriteFile (ApkCloner.new contentsPath oldName newName).substSmali p fs).2.find p
      = some (Node.file ('L' :: replaceChar '.' '/' newName ++ '/' :: s ++ [';']) true) := by
  have e1 : qReplace ('L' :: replaceChar '.' '/' oldName ++ '/' :: s ++ [';'])
        ('L' :: replaceChar '.' '/' oldName) ('L' :: replaceChar '.' '/' newName)
      = 'L' :: replaceChar '.' '/' newName ++ '/' :: s ++ [';'] := by
    have := qReplace_hit ('L' :: replaceChar '.' '/' oldName) ('L' :: replaceChar '.' '/' newName)
      ('/' :: s ++ [';']) (by simp)
    rw [qReplace_clean _ _ _ h1] at this
    simpa using this
  have e2 := qReplace_clean ('L' :: replaceChar '.' '/' newName ++ '/' :: s ++ [';'])
    oldName newName h2
  refine ⟨e1, e2, ?_⟩
  rw [rewriteFile_find_open _ p fs _ hfile]
  show some (Node.file (qReplace (qReplace _ ('L' :: replaceChar '.' '/' oldName)
    ('L' :: replaceChar '.' '/' newName)) oldName newName) true) = _
  rw [e1, e2]

/-- C3 (amended) on the sample identifiers and the suffix `MainActivity`. -/
theorem C3_descriptor_rewrite_witness :
    (rewriteFile sampleCloner.substSmali sampleSmaliFile
      { entries := [(sampleSmaliFile, Node.file "Lcom/example/app/MainActivity;".toList true)],
        locked := [], canCreate := true }).2.find sampleSmaliFile
      = some (Node.file "Lcom/example/clone/MainActivity;".toList true) :=
  (C3_descriptor_rewrite "/tmp/apk".toList comExampleApp comExampleClone "MainActivity".toList
    (by decide) (by decide) (by decide) sampleSmaliFile
    { entries := [(sampleSmaliFile, Node.file "Lcom/example/app/MainActivity;".toList true)],
      locked := [], canCreate := true } (by decide)).2.2


/-! ## Counting the events of one smali directory -/

theorem count_loopAt (c : ApkCloner) (fs : FS) (e : Event) (r : QString) :
    ∀ rs : List QString, rs.Nodup → r ∈ rs → (c.loopAt fs rs).2 = true →
      (∀ q ∈ rs, q ≠ r → e ∉ (c.stepAt fs q).1) →
      (c.loopAt fs rs).1.count e = (c.stepAt fs r).1.count e := by
  intro rs
  induction rs with
  | nil => intro _ h; simp at h
  | cons a rs ih =>
    intro hnd hr hok hother
    rw [List.nodup_cons] at hnd
    have hall := (loopAt_true_iff c fs (a :: rs)).mp hok
    have ha : (c.stepAt fs a).2.2 = true := hall a (List.mem_cons_self _ _)
    have hrest : (c.loopAt fs rs).2 = true :=
      (loopAt_true_iff c fs rs).mpr (fun q hq => hall q (List.mem_cons_of_mem _ hq))
    rw [loopAt_cons]
    simp only [ha, if_true, List.count_append]
    by_cases har : a = r
    · subst har
      have : e ∉ (c.loopAt fs rs).1 := by
        intro hm
        obtain ⟨pre, q, post, h1, _, h3⟩ := mem_loopAt c fs e rs hm
        have hq : q ∈ rs := by rw [h1]; simp
        exact hother q (List.mem_cons_of_mem _ hq) (fun he => hnd.1 (he ▸ hq)) h3
      rw [List.count_eq_zero.mpr this, Nat.add_zero]
    · have hr2 : r ∈ rs := by
        rcases List.mem_cons.mp hr with h | h
        · exact absurd h.symm har
        · exact h
      rw [List.count_eq_zero.mpr (hother a (List.mem_cons_self _ _) har), Nat.zero_add]
      exact ih hnd.2 hr2 hrest (fun q hq hne => hother q (List.mem_cons_of_mem _ hq) hne)

theorem mem_start_of_loopAt (c : ApkCloner) (fs : FS) (hwf : fs.WF) (e : Event)
    (h : e ∈ (c.loopAt fs fs.smaliDirs).1) : e ∈ (c.start fs).1 := by
  rw [start_events c fs hwf]
  simp only [List.cons_append, List.mem_cons, List.mem_append]
  tauto

/-- The events of the body of a smali directory the loop got to are events
of the run. -/
theorem mem_start_of_stepAt (c : ApkCloner) (fs : FS) (hwf : fs.WF) (pre : List QString)
    (r : QString) (post : List QString) (hd : fs.smaliDirs = pre ++ r :: post)
    (hpre : (c.loopAt fs pre).2 = true) (e : Event) (h : e ∈ (c.stepAt fs r).1) :
    e ∈ (c.start fs).1 := by
  apply mem_start_of_loopAt c fs hwf
  rw [hd]
  exact loopAt_mem c fs e pre r post hpre h

theorem oldDir_inj (c : ApkCloner) (q r : QString) (h : c.oldDir q = c.oldDir r) : q = r := by
  simp only [ApkCloner.oldDir, List.cons.injEq] at h
  exact h.1

theorem rename_not_walk (c : ApkCloner) (fs : FS) (r : QString) (src dst : Path) (b : Bool) :
    Event.rename src dst b ∉ c.walkEventsAt fs r := by
  intro h
  rcases mem_walkEventsAt c fs r _ h with ⟨x, hx⟩ | ⟨q, t, _, _, _, h8⟩
  · simp at hx
  · simp at h8

theorem structure_mem_stepAt (c : ApkCloner) (fs : FS) (hwf : fs.WF) (r : QString)
    (hv : validName r = true) : Event.progressed trStructure r ∈ (c.stepAt fs r).1 := by
  rw [stepAt_eq c fs hwf r hv]
  split
  · simp
  · split <;> simp

/-- The manifest progress event is emitted in every run. -/
theorem start_manifest_progress (c : ApkCloner) (fs : FS) (hwf : fs.WF) :
    Event.progressed trManifest manifestName ∈ (c.start fs).1 := by
  rw [start_events c fs hwf, manifestStage_eq]
  simp only [List.cons_append, List.mem_cons, List.mem_append]
  exact Or.inr (Or.inl (Or.inl (Or.inr (Or.inl rfl))))

/-- The body of the first smali directory is run in every run. -/
theorem start_first_root (c : ApkCloner) (fs : FS) (hwf : fs.WF) :
    ∀ r ∈ fs.smaliDirs.head?, Event.progressed trStructure r ∈ (c.start fs).1 := by
  intro r hr
  cases hd : fs.smaliDirs with
  | nil => rw [hd] at hr; simp at hr
  | cons a rest =>
    rw [hd] at hr
    simp only [List.head?_cons, Option.mem_def, Option.some.injEq] at hr
    subst hr
    have hd2 : fs.smaliDirs = [] ++ a :: rest := by rw [hd]; rfl
    exact mem_start_of_stepAt c fs hwf [] a rest hd2 rfl _
      (structure_mem_stepAt c fs hwf a (stepAt_valid fs hwf [] a rest hd2).2)

/-! ## Failure comes from a directory move only -/

/-- The job emits a failed move exactly when the loop stopped early. -/
theorem start_rename_false_iff (c : ApkCloner) (fs : FS) (hwf : fs.WF) :
    (∃ src dst, Event.rename src dst false ∈ (c.start fs).1) ↔
      (c.loopAt fs fs.smaliDirs).2 = false := by
  constructor
  · rintro ⟨src, dst, h⟩
    obtain ⟨pre, r, post, h1, _, _, _, hx, hm⟩ := start_rename c fs hwf src dst false h
    obtain ⟨hr, hv⟩ := stepAt_valid fs hwf pre r post h1
    have hm2 : c.movedAt fs r = none := by
      cases hmm : c.movedAt fs r with
      | none => rfl
      | some g => rw [hmm] at hm; simp at hm
    have hs := (stepAt_ok_iff c fs hwf r hv).mpr ⟨hx, hm2⟩
    cases hb : (c.loopAt fs fs.smaliDirs).2 with
    | false => rfl
    | true =>
      have := (loopAt_true_iff c fs fs.smaliDirs).mp hb r hr
      rw [hs] at this
      exact absurd this (by simp)
  · intro h
    obtain ⟨pre, r, post, h1, h2, h3, _⟩ := loopAt_false c fs _ h
    obtain ⟨hr, hv⟩ := stepAt_valid fs hwf pre r post h1
    obtain ⟨hx, hm⟩ := (stepAt_ok_iff c fs hwf r hv).mp h3
    refine ⟨c.oldDir r, c.newDir r, mem_start_of_stepAt c fs hwf pre r post h1 h2 _ ?_⟩
    rw [stepAt_fail c fs hwf r hv hx hm]
    simp

/-- The terminal signal of a run on a well-formed tree: `finished(false)`
when a directory move failed, `finished(true)` otherwise. -/
theorem start_result (c : ApkCloner) (fs : FS) (hwf : fs.WF) :
    (Event.finished true ∈ (c.start fs).1 ↔
      ∀ src dst, Event.rename src dst false ∉ (c.start fs).1) ∧
    (Event.finished false ∈ (c.start fs).1 ↔
      ∃ src dst, Event.rename src dst false ∈ (c.start fs).1) := by
  rw [start_finished_true_iff c fs hwf, start_finished_false_iff c fs hwf,
    start_rename_false_iff c fs hwf]
  constructor
  · constructor
    · intro h src dst hmem
      have := (start_rename_false_iff c fs hwf).mp ⟨src, dst, hmem⟩
      rw [h] at this
      exact absurd this (by simp)
    · intro h
      cases hb : (c.loopAt fs fs.smaliDirs).2 with
      | true => rfl
      | false =>
        obtain ⟨src, dst, hmem⟩ := (start_rename_false_iff c fs hwf).mpr hb
        exact absurd hmem (h src dst)
  · exact Iff.rfl

theorem openReadWrite_none_of_restrict (a b : FS) (t : QString) (p : Path)
    (h : a.restrict t = b.restrict t) (hp : headIs t p = true)
    (hb : b.openReadWrite p = none) : a.openReadWrite p = none := by
  have h1 := FS.openReadWrite_restrict a p t hp
  have h2 := FS.openReadWrite_restrict b p t hp
  rw [h, h2, hb] at h1
  simp only [Option.map_none'] at h1
  cases ha : a.openReadWrite p with
  | none => rfl
  | some x => rw [ha] at h1; simp at h1

theorem rewriteFile_of_not_open (subst : QString → QString) (p : Path) (fs : FS)
    (h : fs.openReadWrite p = none) : rewriteFile subst p fs = ([], fs) := by
  simp [rewriteFile, h]

/-- C5, as stated, fails: on the sample tree with a manifest that does not
open, the job still rewrites and moves the bytecode and ends with
`finished(true)`. -/
theorem C5_counterexample :
    shutManifestTree.openReadWrite [manifestName] = none
    ∧ Event.written sampleSmaliFile ".class public Lcom/example/clone/MainActivity;".toList
        ∈ (sampleCloner.start shutManifestTree).1
    ∧ Event.rename ["smali".toList, "com".toList, "example".toList, "app".toList]
        ["smali".toList, "com".toList, "example".toList, "clone".toList] true
        ∈ (sampleCloner.start shutManifestTree).1
    ∧ Event.finished false ∉ (sampleCloner.start shutManifestTree).1
    ∧ (sampleCloner.start shutManifestTree).1.getLast? = some (Event.finished true) := by
  decide

/-- C5 (amended): when `AndroidManifest.xml` cannot be opened read-write,
nothing is written to the manifest and it is left as it was; the manifest
progress event is emitted and the job goes on with the bytecode stage (the
structure event of the first smali directory is emitted), and the terminal
result is `finished(false)` exactly when a directory move fails and
`finished(true)` otherwise. -/
theorem C5_manifest_skipped (contentsPath oldName newName : QString) (fs : FS) (hwf : fs.WF)
    (hshut : fs.openReadWrite [manifestName] = none) :
    (∀ data, Event.written [manifestName] data
        ∉ ((ApkCloner.new contentsPath oldName newName).start fs).1)
    ∧ ((ApkCloner.new contentsPath oldName newName).start fs).2.find [manifestName]
        = fs.find [manifestName]
    ∧ Event.progressed trManifest manifestName
        ∈ ((ApkCloner.new contentsPath oldName newName).start fs).1
    ∧ (∀ r ∈ fs.smaliDirs.head?, Event.progressed trStructure r
        ∈ ((ApkCloner.new contentsPath oldName newName).start fs).1)
    ∧ (Event.finished true ∈ ((ApkCloner.new contentsPath oldName newName).start fs).1 ↔
        ∀ src dst, Event.rename src dst false
          ∉ ((ApkCloner.new contentsPath oldName newName).start fs).1)
    ∧ (Event.finished false ∈ ((ApkCloner.new contentsPath oldName newName).start fs).1 ↔
        ∃ src dst, Event.rename src dst false
          ∈ ((ApkCloner.new contentsPath oldName newName).start fs).1) := by
  generalize ApkCloner.new contentsPath oldName newName = c at *
  have hh : headIs manifestName [manifestName] = true := by simp [headIs]
  have hres := resourceStage_restrict_other c fs manifestName (by decide)
  have hshut2 : (c.resourceStage fs).2.openReadWrite [manifestName] = none :=
    openReadWrite_none_of_restrict _ _ manifestName _ hres hh hshut
  have hman : c.manifestStage (c.resourceStage fs).2 =
      ([Event.progressed trManifest manifestName], (c.resourceStage fs).2) := by
    rw [manifestStage_eq, rewriteFile_of_not_open _ _ _ hshut2]
    rfl
  have hfind : fs.find [manifestName] ≠ none →
      ∃ n, fs.find [manifestName] = some n ∧ ∀ t, n ≠ Node.file t true := by
    intro hne
    obtain ⟨n, hn⟩ := Option.ne_none_iff_exists'.mp hne
    refine ⟨n, hn, ?_⟩
    intro t ht
    rw [ht] at hn
    simp [FS.openReadWrite, hn] at hshut
  refine ⟨?_, ?_, start_manifest_progress c fs hwf, start_first_root c fs hwf,
    (start_result c fs hwf).1, (start_result c fs hwf).2⟩
  · intro data hw
    rcases start_written c fs hwf _ data hw with ⟨hb, _⟩ | ⟨_, t, h1, h2, _⟩ | ⟨r, hr, hb, _⟩
    · exact absurd hb (by decide)
    · rcases h1 with h1 | ⟨h1, _⟩
      · obtain ⟨n, hn, hnot⟩ := hfind (by rw [h1]; simp)
        rw [h1] at hn
        exact hnot t (Option.some.inj hn).symm
      · have hm := mem_manifestStage c fs (Event.written [manifestName] data)
        rw [hman] at hm
        rcases mem_start c fs hwf _ hw with h | h | h | h | h
        · simp at h
        · rcases mem_resourceStage c fs hwf _ h with ⟨x, hx⟩ | ⟨q, t2, hq, _, _, h8⟩
          · simp at hx
          · simp only [Event.written.injEq] at h8
            rw [← h8.1] at hq
            exact absurd hq (by decide)
        · rw [hman] at h
          simp at h
        · obtain ⟨pre, r, post, h1, _, h3⟩ := mem_loopAt c fs _ _ h
          obtain ⟨hr, hv⟩ := stepAt_valid fs hwf pre r post h1
          rcases mem_stepAt c fs hwf r hv _ h3 with h4 | h4 | ⟨_, h4⟩
          · rcases mem_walkEventsAt c fs r _ h4 with ⟨x, hx⟩ | ⟨q, t2, hq, _, _, h8⟩
            · simp at hx
            · simp only [Event.written.injEq] at h8
              rw [← h8.1] at hq
              have := FS.below_headIs r [] _ hq
              simp only [headIs_cons, decide_eq_true_eq] at this
              exact manifest_not_smaliDir fs (this ▸ hr)
          · simp at h4
          · rcases h4 with h4 | ⟨h4, _⟩ | ⟨h4, _⟩ | ⟨h4, _⟩ <;> simp at h4
        · exact absurd h.1 (by simp)
    · have := FS.below_headIs r [] _ hb
      simp only [headIs_cons, decide_eq_true_eq] at this
      exact manifest_not_smaliDir fs (this ▸ hr)
  · rw [start_find_other c fs hwf manifestName _ (manifest_not_smaliDir fs) hh]
    unfold ApkCloner.afterManifest
    rw [hman]
    exact FS.find_of_restrict_eq _ _ manifestName _ hres hh

/-- C5 (amended) on the sample tree with a manifest that does not open. -/
theorem C5_manifest_skipped_witness :
    (sampleCloner.start shutManifestTree).2.find [manifestName]
      = some (Node.file "package=\"com.example.app\"".toList false) :=
  (C5_manifest_skipped "/tmp/apk".toList comExampleApp comExampleClone shutManifestTree
    (by decide) (by decide)).2.1.trans (by decide)


/-! ## A failed move, and directories with nothing to move -/

theorem not_finished_walk (c : ApkCloner) (fs : FS) (r : QString) (b : Bool) :
    Event.finished b ∉ c.walkEventsAt fs r := by
  intro h
  rcases mem_walkEventsAt c fs r _ h with ⟨x, hx⟩ | ⟨q, t, _, _, _, h8⟩
  · simp at hx
  · simp at h8

/-- While the loop runs on, it emits no `finished` signal. -/
theorem not_finished_loopAt_true (c : ApkCloner) (fs : FS) (hwf : fs.WF) (pre : List QString)
    (hsub : ∀ q ∈ pre, q ∈ fs.smaliDirs) (hpre : (c.loopAt fs pre).2 = true) (b : Bool) :
    Event.finished b ∉ (c.loopAt fs pre).1 := by
  intro h
  obtain ⟨p1, q, p2, h1, _, h3⟩ := mem_loopAt c fs _ _ h
  have hq : q ∈ pre := by rw [h1]; simp
  have hv := fs.smaliDirs_valid hwf q (hsub q hq)
  have hs := (loopAt_true_iff c fs pre).mp hpre q hq
  rcases mem_stepAt c fs hwf q hv _ h3 with h4 | h4 | ⟨hx, h4⟩
  · exact not_finished_walk c fs q b h4
  · simp at h4
  · rcases h4 with h4 | ⟨h4, _⟩ | ⟨h4, _⟩ | ⟨_, hm⟩
    · simp at h4
    · simp at h4
    · simp at h4
    · have := (stepAt_ok_iff c fs hwf q hv).mpr ⟨hx, hm⟩
      rw [hs] at this
      exact absurd this (by simp)

/-- C6: on a well-formed tree, when the move of the old-package
subdirectory of a smali directory fails, `finished(false)` follows at once
and ends the run, no `finished` signal comes before it (so `finished(true)`
is never emitted), the smali directories that come later are left exactly
as they were, and in the failing directory the old-package subdirectory is
still there while every file that opens holds its rewritten text. -/
theorem C6_move_failure (contentsPath oldName newName : QString) (fs : FS) (hwf : fs.WF)
    (src dst : Path)
    (hfail : Event.rename src dst false ∈ ((ApkCloner.new contentsPath oldName newName).start fs).1) :
    ∃ pre r post evs, fs.smaliDirs = pre ++ r :: post
      ∧ src = (ApkCloner.new contentsPath oldName newName).oldDir r
      ∧ dst = (ApkCloner.new contentsPath oldName newName).newDir r
      ∧ ((ApkCloner.new contentsPath oldName newName).start fs).1
          = evs ++ [Event.rename src dst false, Event.finished false]
      ∧ (∀ b, Event.finished b ∉ evs)
      ∧ Event.finished true ∉ ((ApkCloner.new contentsPath oldName newName).start fs).1
      ∧ (∀ q ∈ post, ∀ p, headIs q p = true →
          ((ApkCloner.new contentsPath oldName newName).start fs).2.find p = fs.find p)
      ∧ ((ApkCloner.new contentsPath oldName newName).start fs).2.pathExists src = true
      ∧ (∀ p n, headIs r p = true → fs.find p = some n →
          ((ApkCloner.new contentsPath oldName newName).start fs).2.find p
            = some (rewriteNode (ApkCloner.new contentsPath oldName newName).substSmali n)) := by
  generalize ApkCloner.new contentsPath oldName newName = c at *
  obtain ⟨pre, r, post, hd, hpre, hsrc, hdst, hx, hm⟩ := start_rename c fs hwf src dst false hfail
  obtain ⟨hr, hv⟩ := stepAt_valid fs hwf pre r post hd
  have hm2 : c.movedAt fs r = none := by
    cases hmm : c.movedAt fs r with
    | none => rfl
    | some g => rw [hmm] at hm; simp at hm
  have hstep := stepAt_fail c fs hwf r hv hx hm2
  have hs : (c.stepAt fs r).2.2 = false := by rw [hstep]
  have hloop : c.loopAt fs fs.smaliDirs = ((c.loopAt fs pre).1 ++ (c.stepAt fs r).1, false) := by
    rw [hd, loopAt_append, hpre, loopAt_cons, hs]
    simp
  have hfinal : ∀ p n, headIs r p = true → fs.find p = some n →
      (c.start fs).2.find p = some (rewriteNode c.substSmali n) := by
    intro p n hp hn
    rw [start_find_reached c fs hwf pre r post hd hpre p hp]
    exact stepAt_find_unmoved c fs hwf r hr (Or.inr hm2) p hp n hn
  have hevs : (c.start fs).1 =
      (Event.started :: (c.resourceStage fs).1 ++ (c.manifestStage (c.resourceStage fs).2).1 ++
        (c.loopAt fs pre).1 ++ c.walkEventsAt fs r ++
        [Event.progressed trStructure r, Event.mkpath (c.newParent r)])
      ++ [Event.rename src dst false, Event.finished false] := by
    rw [start_events c fs hwf, hloop, hstep, hsrc, hdst]
    simp
  have hnofin : ∀ b, Event.finished b ∉
      (Event.started :: (c.resourceStage fs).1 ++ (c.manifestStage (c.resourceStage fs).2).1 ++
        (c.loopAt fs pre).1 ++ c.walkEventsAt fs r ++
        [Event.progressed trStructure r, Event.mkpath (c.newParent r)]) := by
    intro b hmem
    simp only [List.cons_append, List.mem_cons, List.mem_append, List.mem_singleton,
      List.not_mem_nil, or_false] at hmem
    rcases hmem with h | ((((h | h) | h) | h) | h)
    · simp at h
    · exact (not_finished_first_stages c fs hwf b).1 h
    · exact (not_finished_first_stages c fs hwf b).2 h
    · exact not_finished_loopAt_true c fs hwf pre
        (fun q hq => by rw [hd]; exact List.mem_append_left _ hq) hpre b h
    · exact not_finished_walk c fs r b h
    · rcases h with h | h <;> simp at h
  refine ⟨pre, r, post, _, hd, hsrc, hdst, hevs, hnofin, ?_, ?_, ?_, hfinal⟩
  · rw [start_finished_true_iff c fs hwf, hloop]
    simp
  · intro q hq p hp
    obtain ⟨a, b, hab⟩ := List.append_of_mem hq
    have hd2 : fs.smaliDirs = (pre ++ r :: a) ++ q :: b := by
      rw [hd, hab]; simp
    have hfalse : (c.loopAt fs (pre ++ r :: a)).2 = false := by
      cases hb : (c.loopAt fs (pre ++ r :: a)).2 with
      | false => rfl
      | true =>
        have := (loopAt_true_iff c fs _).mp hb r (by simp)
        rw [hs] at this
        exact absurd this (by simp)
    exact start_find_unreached c fs hwf _ q b hd2 hfalse p hp
  · rw [hsrc]
    have hne : fs.find (c.oldDir r) ≠ none := fs.find_of_pathExists _ (by simp [ApkCloner.oldDir]) hx
    obtain ⟨n, hn⟩ := Option.ne_none_iff_exists'.mp hne
    apply FS.pathExists_of_find
    rw [hfinal _ n (oldDir_headIs c r) hn]
    simp

/-- C6 on a tree whose first smali directory already holds the new-package
subdirectory: the later directory `smali_classes2` keeps its file unrewritten. -/
theorem C6_move_failure_witness :
    ∃ pre r post evs, blockedTree.smaliDirs = pre ++ r :: post
      ∧ ["smali".toList, "com".toList, "example".toList, "app".toList] = sampleCloner.oldDir r
      ∧ ["smali".toList, "com".toList, "example".toList, "clone".toList] = sampleCloner.newDir r
      ∧ (sampleCloner.start blockedTree).1
          = evs ++ [Event.rename ["smali".toList, "com".toList, "example".toList, "app".toList]
              ["smali".toList, "com".toList, "example".toList, "clone".toList] false,
            Event.finished false]
      ∧ (∀ b, Event.finished b ∉ evs)
      ∧ Event.finished true ∉ (sampleCloner.start blockedTree).1
      ∧ (∀ q ∈ post, ∀ p, headIs q p = true →
          (sampleCloner.start blockedTree).2.find p = blockedTree.find p)
      ∧ (sampleCloner.start blockedTree).2.pathExists
          ["smali".toList, "com".toList, "example".toList, "app".toList] = true
      ∧ (∀ p n, headIs r p = true → blockedTree.find p = some n →
          (sampleCloner.start blockedTree).2.find p
            = some (rewriteNode sampleCloner.substSmali n)) :=
  C6_move_failure "/tmp/apk".toList comExampleApp comExampleClone blockedTree (by decide)
    ["smali".toList, "com".toList, "example".toList, "app".toList]
    ["smali".toList, "com".toList, "example".toList, "clone".toList] (by decide)


/-- A `mkpath` event of a run belongs to the body of a smali directory the
loop got to, whose old-package subdirectory exists. -/
theorem start_mkpath (c : ApkCloner) (fs : FS) (hwf : fs.WF) (d : Path)
    (h : Event.mkpath d ∈ (c.start fs).1) :
    ∃ r, r ∈ fs.smaliDirs ∧ d = c.newParent r ∧ fs.pathExists (c.oldDir r) = true := by
  rcases mem_start c fs hwf _ h with h | h | h | h | h
  · simp at h
  · rcases mem_resourceStage c fs hwf _ h with ⟨x, hx⟩ | ⟨q, t, _, _, _, h8⟩
    · simp at hx
    · simp at h8
  · rcases mem_manifestStage c fs _ h with hx | ⟨t, _, _, h3⟩
    · simp at hx
    · simp at h3
  · obtain ⟨pre, r, post, h1, h2, h3⟩ := mem_loopAt c fs _ _ h
    obtain ⟨hr, hv⟩ := stepAt_valid fs hwf pre r post h1
    refine ⟨r, hr, ?_⟩
    rcases mem_stepAt c fs hwf r hv _ h3 with h4 | h4 | ⟨hx, h4⟩
    · rcases mem_walkEventsAt c fs r _ h4 with ⟨x, hx⟩ | ⟨q, t, _, _, _, h8⟩
      · simp at hx
      · simp at h8
    · simp at h4
    · rcases h4 with h4 | ⟨h4, _⟩ | ⟨h4, _⟩ | ⟨h4, _⟩
      · simp only [Event.mkpath.injEq] at h4
        exact ⟨h4, hx⟩
      · simp at h4
      · simp at h4
      · simp at h4
  · exact absurd h.1 (by simp)

/-- The structure event of a smali directory is emitted by its own loop body only. -/
theorem start_structure (c : ApkCloner) (fs : FS) (hwf : fs.WF) (r : QString)
    (h : Event.progressed trStructure r ∈ (c.start fs).1) :
    ∃ pre post, fs.smaliDirs = pre ++ r :: post ∧ (c.loopAt fs pre).2 = true := by
  rcases mem_start c fs hwf _ h with h | h | h | h | h
  · simp at h
  · rcases mem_resourceStage c fs hwf _ h with ⟨x, hx⟩ | ⟨q, t, _, _, _, h8⟩
    · simp only [Event.progressed.injEq] at hx
      exact absurd hx.1 (by decide)
    · simp at h8
  · rcases mem_manifestStage c fs _ h with hx | ⟨t, _, _, h3⟩
    · simp only [Event.progressed.injEq] at hx
      exact absurd hx.1 (by decide)
    · simp at h3
  · obtain ⟨pre, q, post, h1, h2, h3⟩ := mem_loopAt c fs _ _ h
    obtain ⟨hr, hv⟩ := stepAt_valid fs hwf pre q post h1
    rcases mem_stepAt c fs hwf q hv _ h3 with h4 | h4 | ⟨hx, h4⟩
    · rcases mem_walkEventsAt c fs q _ h4 with ⟨x, hx⟩ | ⟨p, t, _, _, _, h8⟩
      · simp only [Event.progressed.injEq] at hx
        exact absurd hx.1 (by decide)
      · simp at h8
    · simp only [Event.progressed.injEq, true_and] at h4
      subst h4
      exact ⟨pre, post, h1, h2⟩
    · rcases h4 with h4 | ⟨h4, _⟩ | ⟨h4, _⟩ | ⟨h4, _⟩ <;> simp at h4
  · exact absurd h.1 (by simp)

/-- C7: on a well-formed tree, for a smali directory in which the
old-package subdirectory does not exist, the job calls neither `mkpath` nor
`rename` below that directory, leaves its layout as it was (every entry
stays in place, only file texts may be rewritten), and goes on with the
next smali directory; when the old subdirectory is absent from every smali
directory, the run makes no `mkpath` and no move at all and ends with
`finished(true)`. -/
theorem C7_nothing_to_move (contentsPath oldName newName : QString) (fs : FS) (hwf : fs.WF) :
    (∀ r ∈ fs.smaliDirs,
      fs.pathExists ((ApkCloner.new contentsPath oldName newName).oldDir r) = false →
        (∀ d, Event.mkpath d ∈ ((ApkCloner.new contentsPath oldName newName).start fs).1 →
          headIs r d = false)
        ∧ (∀ src dst b,
            Event.rename src dst b ∈ ((ApkCloner.new contentsPath oldName newName).start fs).1 →
            headIs r src = false)
        ∧ (∀ p, headIs r p = true →
            ((ApkCloner.new contentsPath oldName newName).start fs).2.find p = fs.find p
            ∨ ((ApkCloner.new contentsPath oldName newName).start fs).2.find p
                = (fs.find p).map (rewriteNode (ApkCloner.new contentsPath oldName newName).substSmali))
        ∧ (∀ pre next post, fs.smaliDirs = pre ++ r :: next :: post →
            Event.progressed trStructure r
              ∈ ((ApkCloner.new contentsPath oldName newName).start fs).1 →
            Event.progressed trStructure next
              ∈ ((ApkCloner.new contentsPath oldName newName).start fs).1))
    ∧ ((∀ r ∈ fs.smaliDirs,
          fs.pathExists ((ApkCloner.new contentsPath oldName newName).oldDir r) = false) →
        ((ApkCloner.new contentsPath oldName newName).start fs).1.getLast?
            = some (Event.finished true)
        ∧ Event.finished false ∉ ((ApkCloner.new contentsPath oldName newName).start fs).1
        ∧ (∀ d, Event.mkpath d ∉ ((ApkCloner.new contentsPath oldName newName).start fs).1)
        ∧ (∀ src dst b,
            Event.rename src dst b ∉ ((ApkCloner.new contentsPath oldName newName).start fs).1)) := by
  generalize ApkCloner.new contentsPath oldName newName = c at *
  constructor
  · intro r hr hx
    have hv := fs.smaliDirs_valid hwf r hr
    refine ⟨?_, ?_, ?_, ?_⟩
    · intro d hm
      obtain ⟨q, hq, hd, hxq⟩ := start_mkpath c fs hwf d hm
      obtain ⟨rest, hrest⟩ := newParent_cons c q (fs.smaliDirs_valid hwf q hq)
      rw [hd, hrest, headIs_cons, decide_eq_false_iff_not]
      intro he
      rw [he, hx] at hxq
      exact absurd hxq (by simp)
    · intro src dst b hm
      obtain ⟨pre, q, post, _, _, hs, _, hxq, _⟩ := start_rename c fs hwf src dst b hm
      rw [hs]
      simp only [ApkCloner.oldDir, headIs_cons, decide_eq_false_iff_not]
      intro he
      rw [he, hx] at hxq
      exact absurd hxq (by simp)
    · intro p hp
      obtain ⟨pre, post, hd⟩ := List.append_of_mem hr
      cases hpre : (c.loopAt fs pre).2 with
      | false => exact Or.inl (start_find_unreached c fs hwf pre r post hd hpre p hp)
      | true =>
        right
        rw [start_find_reached c fs hwf pre r post hd hpre p hp, stepAt_skip c fs hwf r hv hx]
        exact walkedAt_find c fs hwf r hr p hp
    · intro pre next post hd hs
      obtain ⟨pre2, post2, hd2, hpre2⟩ := start_structure c fs hwf r hs
      have hu := split_unique fs.smaliDirs (fs.smaliDirs_nodup hwf.1) r pre2 post2 pre
        (next :: post) hd2 hd
      rw [hu.1] at hpre2
      have hstep : (c.stepAt fs r).2.2 = true := by rw [stepAt_skip c fs hwf r hv hx]
      have hpre3 : (c.loopAt fs (pre ++ [r])).2 = true := by
        rw [loopAt_append, hpre2, loopAt_cons, hstep]
        simp [ApkCloner.loopAt]
      have hd3 : fs.smaliDirs = (pre ++ [r]) ++ next :: post := by rw [hd]; simp
      have hvn := (stepAt_valid fs hwf _ next post hd3).2
      exact mem_start_of_stepAt c fs hwf _ next post hd3 hpre3 _
        (structure_mem_stepAt c fs hwf next hvn)
  · intro hall
    have hl : (c.loopAt fs fs.smaliDirs).2 = true := by
      rw [loopAt_true_iff]
      intro r hr
      rw [stepAt_skip c fs hwf r (fs.smaliDirs_valid hwf r hr) (hall r hr)]
    refine ⟨?_, ?_, ?_, ?_⟩
    · rw [start_events c fs hwf, hl]
      simp only [if_true]
      exact List.getLast?_concat _
    · rw [start_finished_false_iff c fs hwf, hl]
      simp
    · intro d hm
      obtain ⟨q, hq, _, hxq⟩ := start_mkpath c fs hwf d hm
      rw [hall q hq] at hxq
      exact absurd hxq (by simp)
    · intro src dst b hm
      obtain ⟨pre, q, post, hd, _, _, _, hxq, _⟩ := start_rename c fs hwf src dst b hm
      rw [hall q (stepAt_valid fs hwf pre q post hd).1] at hxq
      exact absurd hxq (by simp)

/-- C7 on a tree whose two smali directories do not hold the old package:
the run ends with `finished(true)`. -/
theorem C7_nothing_to_move_witness :
    (sampleCloner.start otherTree).1.getLast? = some (Event.finished true)
    ∧ Event.finished false ∉ (sampleCloner.start otherTree).1
    ∧ (∀ d, Event.mkpath d ∉ (sampleCloner.start otherTree).1)
    ∧ (∀ src dst b, Event.rename src dst b ∉ (sampleCloner.start otherTree).1) :=
  (C7_nothing_to_move "/tmp/apk".toList comExampleApp comExampleClone otherTree (by decide)).2
    (by decide)


/-! ## Files that do not open -/

theorem smali_not_first_stages (fs : FS) (r : QString) (hr : r ∈ fs.smaliDirs) (p : Path)
    (hp : FS.below [r] p = true) : FS.below [resName] p = false ∧ p ≠ [manifestName] := by
  have hh := FS.below_headIs r [] p hp
  constructor
  · cases hb : FS.below [resName] p with
    | false => rfl
    | true =>
      exfalso
      have := FS.below_headIs resName [] p hb
      cases p with
      | nil => simp [headIs] at hh
      | cons a as =>
        simp only [headIs_cons, decide_eq_true_eq] at hh this
        exact res_not_smaliDir fs (by rw [← this, hh]; exact hr)
  · intro he
    rw [he] at hh
    simp only [headIs_cons, decide_eq_true_eq] at hh
    exact manifest_not_smaliDir fs (by rw [hh]; exact hr)

/-- A write to a file below a smali directory carries the text with both
substitutions of the text the file had at the start, which opened. -/
theorem start_written_smali (c : ApkCloner) (fs : FS) (hwf : fs.WF) (r : QString)
    (hr : r ∈ fs.smaliDirs) (p : Path) (hp : FS.below [r] p = true) (d : QString)
    (h : Event.written p d ∈ (c.start fs).1) :
    ∃ t, fs.find p = some (Node.file t true) ∧ c.substSmali t ≠ t ∧ d = c.substSmali t := by
  obtain ⟨n1, n2⟩ := smali_not_first_stages fs r hr p hp
  rcases start_written c fs hwf p d h with ⟨hb, _⟩ | ⟨he, _⟩ | ⟨_, _, _, t, h1, h2, h3⟩
  · rw [n1] at hb; exact absurd hb (by simp)
  · exact absurd he n2
  · exact ⟨t, h1, h2, h3⟩

/-- C8, as stated, fails: on the sample tree with a bytecode file that does
not open, the job leaves the file with its old text, moves its directory and
ends with `finished(true)`. -/
theorem C8_counterexample :
    shutSmaliTree.openReadWrite sampleSmaliFile = none
    ∧ (sampleCloner.start shutSmaliTree).2.find sampleMovedFile
        = some (Node.file ".class public Lcom/example/app/MainActivity;".toList false)
    ∧ Event.finished false ∉ (sampleCloner.start shutSmaliTree).1
    ∧ (sampleCloner.start shutSmaliTree).1.getLast? = some (Event.finished true) := by
  decide

/-- C8 (amended): on a well-formed tree, a file below a smali directory that
does not open is skipped: the job never writes to it and at the end it holds
its old text, in place or moved with the old-package subdirectory; the
terminal result is `finished(false)` exactly when a directory move fails
and `finished(true)` otherwise. -/
theorem C8_smali_file_skipped (contentsPath oldName newName : QString) (fs : FS) (hwf : fs.WF)
    (r : QString) (hr : r ∈ fs.smaliDirs) (p : Path) (hp : FS.below [r] p = true)
    (text : QString) (hfile : fs.find p = some (Node.file text false)) :
    (∀ data, Event.written p data ∉ ((ApkCloner.new contentsPath oldName newName).start fs).1)
    ∧ (((ApkCloner.new contentsPath oldName newName).start fs).2.find p
          = some (Node.file text false)
      ∨ ((ApkCloner.new contentsPath oldName newName).start fs).2.find
          ((ApkCloner.new contentsPath oldName newName).newDir r ++
            p.drop ((ApkCloner.new contentsPath oldName newName).oldDir r).length)
          = some (Node.file text false))
    ∧ (Event.finished true ∈ ((ApkCloner.new contentsPath oldName newName).start fs).1 ↔
        ∀ src dst, Event.rename src dst false
          ∉ ((ApkCloner.new contentsPath oldName newName).start fs).1)
    ∧ (Event.finished false ∈ ((ApkCloner.new contentsPath oldName newName).start fs).1 ↔
        ∃ src dst, Event.rename src dst false
          ∈ ((ApkCloner.new contentsPath oldName newName).start fs).1) := by
  generalize ApkCloner.new contentsPath oldName newName = c at *
  refine ⟨?_, ?_, (start_result c fs hwf).1, (start_result c fs hwf).2⟩
  · intro data hw
    obtain ⟨t, h1, _, _⟩ := start_written_smali c fs hwf r hr p hp data hw
    rw [hfile] at h1
    simp at h1
  · rcases start_find_smali c fs hwf r hr p _ (FS.below_headIs r [] p hp) hfile
      with h | h | ⟨_, _, h⟩
    · exact Or.inl h
    · exact Or.inl h
    · exact Or.inr h

/-- C8 (amended) on the sample tree with a bytecode file that does not open. -/
theorem C8_smali_file_skipped_witness :
    (∀ data, Event.written sampleSmaliFile data ∉ (sampleCloner.start shutSmaliTree).1)
    ∧ (Event.finished true ∈ (sampleCloner.start shutSmaliTree).1 ↔
        ∀ src dst, Event.rename src dst false ∉ (sampleCloner.start shutSmaliTree).1) :=
  ⟨(C8_smali_file_skipped "/tmp/apk".toList comExampleApp comExampleClone shutSmaliTree
      (by decide) "smali".toList (by decide) sampleSmaliFile (by decide)
      ".class public Lcom/example/app/MainActivity;".toList (by decide)).1,
   (C8_smali_file_skipped "/tmp/apk".toList comExampleApp comExampleClone shutSmaliTree
      (by decide) "smali".toList (by decide) sampleSmaliFile (by decide)
      ".class public Lcom/example/app/MainActivity;".toList (by decide)).2.2.1⟩


/-! ## Two trees that differ below `res/` only -/

theorem rewriteTree_no_finished (c : ApkCloner) (text dirStr : QString) (dir : Path)
    (subst : QString → QString) (b : Bool) :
    ∀ (ps : List Path) (fs : FS),
      Event.finished b ∉ (rewriteTree c text dirStr dir subst ps fs).1 := by
  intro ps
  induction ps with
  | nil => intro fs h; simp [rewriteTree] at h
  | cons p ps ih =>
    intro fs h
    rw [rewriteTree] at h
    dsimp only at h
    rw [List.mem_append, List.mem_cons] at h
    rcases h with (h | h) | h
    · simp at h
    · obtain ⟨t, _, _, h3⟩ := mem_rewriteFile subst p fs _ h
      simp at h3
    · exact ih _ h

theorem first_stages_no_finished (c : ApkCloner) (fs : FS) (b : Bool) :
    Event.finished b ∉ (c.resourceStage fs).1 ∧
    Event.finished b ∉ (c.manifestStage (c.resourceStage fs).2).1 := by
  constructor
  · exact rewriteTree_no_finished _ _ _ _ _ _ _ _
  · rw [manifestStage_eq]
    intro h
    rcases List.mem_cons.mp h with h | h
    · simp at h
    · obtain ⟨t, _, _, h3⟩ := mem_rewriteFile _ _ _ _ h
      simp at h3

theorem FS.top_of_outsideRes (a b : FS) (h : a.outsideRes = b.outsideRes) (t : QString)
    (ht : t ≠ resName) : a.top t = b.top t := by
  have key : ∀ fs : FS, fs.top t = fs.outsideRes.filter (fun e => headIs t e.1) := by
    intro fs
    unfold FS.top FS.outsideRes
    rw [List.filter_filter]
    congr 1
    funext e
    by_cases h1 : headIs t e.1 = true
    · have := headIs_ne resName t e.1 ht h1
      simp [h1, this]
    · simp [h1]
  rw [key a, key b, h]

theorem FS.smaliDirs_of_outsideRes (a b : FS) (h : a.outsideRes = b.outsideRes) :
    a.smaliDirs = b.smaliDirs := by
  have key : ∀ fs : FS, fs.smaliDirs = fs.outsideRes.filterMap (fun e =>
      match e with
      | ([name], Node.dir) => if FS.matchesSmali name then some name else none
      | _ => none) := by
    intro fs
    unfold FS.smaliDirs FS.outsideRes
    rw [List.filterMap_filter]
    apply List.filterMap_congr
    intro e he
    by_cases h1 : headIs resName e.1 = true
    · simp only [h1, Bool.not_true, Bool.false_eq_true, if_false]
      split
      · rename_i name
        have : name = resName := by simpa [headIs] using h1
        subst this
        rfl
      · rfl
    · simp [h1]
  rw [key a, key b, h]

/-- Two trees with the same entries outside `res/` and the same environment
get the same `finished` signals. -/
theorem start_finished_congr (c : ApkCloner) (fs fs2 : FS) (hwf : fs.WF)
    (h : fs2.outsideRes = fs.outsideRes) (he : fs2.sameEnv fs) (b : Bool) :
    Event.finished b ∈ (c.start fs2).1 ↔ Event.finished b ∈ (c.start fs).1 := by
  have hdirs := FS.smaliDirs_of_outsideRes fs2 fs h
  have hloop := smaliLoop_eq_loopAt c fs (c.afterManifest fs2).smaliDirs (c.afterManifest fs2)
    (by rw [afterManifest_smaliDirs, hdirs]; exact fs.smaliDirs_nodup hwf.1)
    (by rw [afterManifest_smaliDirs, hdirs]; exact fs.smaliDirs_valid hwf)
    (by
      rw [afterManifest_smaliDirs, hdirs]
      intro r hr
      have hm := ((fs.mem_smaliDirs r).mp hr).2
      rw [afterManifest_restrict c fs2 r hm]
      exact FS.restrict_eq_of_top _ _ r
        (FS.top_of_outsideRes fs2 fs h r (matchesSmali_ne_res r hm)) he)
  rw [afterManifest_smaliDirs, hdirs] at hloop
  have e2 : (c.start fs2).1 = Event.started :: (c.resourceStage fs2).1 ++
      (c.manifestStage (c.resourceStage fs2).2).1 ++ (c.loopAt fs fs.smaliDirs).1 ++
      (if (c.loopAt fs fs.smaliDirs).2 then [Event.finished true] else []) := by
    rw [start_fst, afterManifest_smaliDirs, hdirs, hloop.1, hloop.2]
  have n2 := first_stages_no_finished c fs2 b
  have n1 := first_stages_no_finished c fs b
  rw [e2, start_events c fs hwf]
  simp only [List.cons_append, List.mem_cons, List.mem_append]
  constructor
  · rintro (h1 | ((h1 | h1) | h1) | h1)
    · exact Or.inl h1
    · exact absurd h1 n2.1
    · exact absurd h1 n2.2
    · exact Or.inr (Or.inl (Or.inr h1))
    · exact Or.inr (Or.inr h1)
  · rintro (h1 | ((h1 | h1) | h1) | h1)
    · exact Or.inl h1
    · exact absurd h1 n1.1
    · exact absurd h1 n1.2
    · exact Or.inr (Or.inl (Or.inr h1))
    · exact Or.inr (Or.inr h1)

/-- C9: on a well-formed tree, a resource file that does not open is
skipped (never written, its text left as it was) while every resource file
that opens is still rewritten; the manifest stage and the bytecode stage
still run (the manifest progress event and the structure event of the first
smali directory are emitted); and the terminal signal is the one of any
tree that differs from this one below `res/` only, so the resource failure
alone never turns the result into a failure. -/
theorem C9_resource_file_skipped (contentsPath oldName newName : QString) (fs : FS)
    (hwf : fs.WF) (p : Path) (hp : FS.below [resName] p = true) (text : QString)
    (hfile : fs.find p = some (Node.file text false)) :
    (∀ data, Event.written p data ∉ ((ApkCloner.new contentsPath oldName newName).start fs).1)
    ∧ ((ApkCloner.new contentsPath oldName newName).start fs).2.find p
        = some (Node.file text false)
    ∧ (∀ q t, FS.below [resName] q = true → fs.find q = some (Node.file t true) →
        ((ApkCloner.new contentsPath oldName newName).start fs).2.find q
          = some (Node.file (qReplace t oldName newName) true))
    ∧ Event.progressed trManifest manifestName
        ∈ ((ApkCloner.new contentsPath oldName newName).start fs).1
    ∧ (∀ r ∈ fs.smaliDirs.head?, Event.progressed trStructure r
        ∈ ((ApkCloner.new contentsPath oldName newName).start fs).1)
    ∧ (∀ fs2 : FS, fs2.outsideRes = fs.outsideRes → fs2.sameEnv fs → ∀ b,
        (Event.finished b ∈ ((ApkCloner.new contentsPath oldName newName).start fs2).1 ↔
          Event.finished b ∈ ((ApkCloner.new contentsPath oldName newName).start fs).1)) := by
  generalize hc : ApkCloner.new contentsPath oldName newName = c at *
  refine ⟨?_, ?_, ?_, ?_, ?_, ?_⟩
  · intro data hw
    rcases start_written c fs hwf p data hw with ⟨_, t, h1, _⟩ | ⟨he, _⟩ | ⟨r, hr, hb, _⟩
    · rw [hfile] at h1
      simp at h1
    · rw [he] at hp
      exact absurd hp (by decide)
    · have := (smali_not_first_stages fs r hr p hb).1
      rw [hp] at this
      exact absurd this (by simp)
  · rw [start_find_res c fs hwf p hp, hfile]
    rfl
  · intro q t hq hf
    rw [start_find_res c fs hwf q hq, hf, ← hc]
    rfl
  · exact start_manifest_progress c fs hwf
  · exact start_first_root c fs hwf
  · intro fs2 h he b
    exact start_finished_congr c fs fs2 hwf h he b

/-- C9 on the sample tree with a second resource file that does not open:
the file is left as it was, and the terminal signal is the one of the run in
which the file opens. -/
theorem C9_resource_file_skipped_witness :
    (sampleCloner.start shutResTree).2.find ["res".toList, "values".toList, "b.xml".toList]
        = some (Node.file "package=\"com.example.app\"".toList false)
    ∧ (Event.finished true ∈ (sampleCloner.start openResTree).1 ↔
        Event.finished true ∈ (sampleCloner.start shutResTree).1) :=
  ⟨(C9_resource_file_skipped "/tmp/apk".toList comExampleApp comExampleClone shutResTree
      (by decide) ["res".toList, "values".toList, "b.xml".toList] (by decide)
      "package=\"com.example.app\"".toList (by decide)).2.1,
   (C9_resource_file_skipped "/tmp/apk".toList comExampleApp comExampleClone shutResTree
      (by decide) ["res".toList, "values".toList, "b.xml".toList] (by decide)
      "package=\"com.example.app\"".toList (by decide)).2.2.2.2.2 openResTree (by decide)
      ⟨rfl, rfl⟩ true⟩


/-! ## Write-if-changed -/

theorem substName_clean (c : ApkCloner) (text : QString) (h : ¬ c.originalPackageName <:+: text) :
    c.substName text = text :=
  qReplace_clean text _ _ h

theorem substSmali_clean (c : ApkCloner) (text : QString) (h : ¬ c.originalPackageName <:+: text)
    (h2 : ¬ ('L' :: c.originalPackagePath) <:+: text) : c.substSmali text = text := by
  unfold ApkCloner.substSmali
  rw [qReplace_clean text _ _ h2, qReplace_clean text _ _ h]

theorem rewriteNode_same (subst : QString → QString) (text : QString) (rw : Bool)
    (h : subst text = text) : rewriteNode subst (Node.file text rw) = Node.file text rw := by
  cases rw with
  | false => rfl
  | true => simp [rewriteNode, h]

/-- C10: on a well-formed tree, every write of the job replaces the text a
file had when it was read (the empty text for a manifest the open call just
created) by the substituted text, and only when the two differ; a file of
the resource tree, the manifest, or a file below a smali directory whose
text holds no occurrence of the dotted name (and, below a smali directory,
none of `L` + from.path) is never written, and at the end of the job it
holds exactly the text it had, in place or, for a bytecode file of the
old-package subdirectory, moved with that subdirectory. -/
theorem C10_write_if_changed (contentsPath oldName newName : QString) (fs : FS) (hwf : fs.WF) :
    (∀ p data, Event.written p data ∈ ((ApkCloner.new contentsPath oldName newName).start fs).1 →
      ∃ t, (fs.find p = some (Node.file t true) ∨ (fs.find p = none ∧ t = []))
        ∧ data ≠ t
        ∧ (data = qReplace t oldName newName
          ∨ data = qReplace (qReplace t ('L' :: replaceChar '.' '/' oldName)
              ('L' :: replaceChar '.' '/' newName)) oldName newName))
    ∧ (∀ p text rw, fs.find p = some (Node.file text rw) →
        (FS.below [resName] p = true ∨ p = [manifestName]) →
        ¬ oldName <:+: text →
        (∀ data, Event.written p data ∉ ((ApkCloner.new contentsPath oldName newName).start fs).1)
        ∧ ((ApkCloner.new contentsPath oldName newName).start fs).2.find p
            = some (Node.file text rw))
    ∧ (∀ r ∈ fs.smaliDirs, ∀ p text rw, FS.below [r] p = true →
        fs.find p = some (Node.file text rw) →
        ¬ oldName <:+: text → ¬ ('L' :: replaceChar '.' '/' oldName) <:+: text →
        (∀ data, Event.written p data ∉ ((ApkCloner.new contentsPath oldName newName).start fs).1)
        ∧ (((ApkCloner.new contentsPath oldName newName).start fs).2.find p
              = some (Node.file text rw)
          ∨ ((ApkCloner.new contentsPath oldName newName).start fs).2.find
              ((ApkCloner.new contentsPath oldName newName).newDir r ++
                p.drop ((ApkCloner.new contentsPath oldName newName).oldDir r).length)
              = some (Node.file text rw))) := by
  generalize hc : ApkCloner.new contentsPath oldName newName = c at *
  have hn : c.originalPackageName = oldName := by rw [← hc]; rfl
  have hpth : c.originalPackagePath = replaceChar '.' '/' oldName := by rw [← hc]; rfl
  have hs1 : ∀ t, c.substName t = qReplace t oldName newName := by
    intro t; rw [← hc]; rfl
  have hs2 : ∀ t, c.substSmali t = qReplace (qReplace t ('L' :: replaceChar '.' '/' oldName)
      ('L' :: replaceChar '.' '/' newName)) oldName newName := by
    intro t; rw [← hc]; rfl
  refine ⟨?_, ?_, ?_⟩
  · intro p data hw
    rcases start_written c fs hwf p data hw with
      ⟨_, t, h1, h2, h3⟩ | ⟨_, t, h1, h2, h3⟩ | ⟨_, _, _, t, h1, h2, h3⟩
    · exact ⟨t, Or.inl h1, by rw [h3]; exact h2, Or.inl (by rw [h3, hs1])⟩
    · exact ⟨t, h1, by rw [h3]; exact h2, Or.inl (by rw [h3, hs1])⟩
    · exact ⟨t, Or.inl h1, by rw [h3]; exact h2, Or.inr (by rw [h3, hs2])⟩
  · intro p text rw hf hp hno
    have hsame : c.substName text = text := substName_clean c text (by rw [hn]; exact hno)
    constructor
    · intro data hw
      rcases start_written c fs hwf p data hw with
        ⟨_, t, h1, h2, _⟩ | ⟨_, t, h1, h2, _⟩ | ⟨r, hr, hb, _⟩
      · rw [hf] at h1
        simp only [Option.some.injEq, Node.file.injEq] at h1
        rw [← h1.1] at h2
        exact h2 hsame
      · rcases h1 with h1 | ⟨h1, _⟩
        · rw [hf] at h1
          simp only [Option.some.injEq, Node.file.injEq] at h1
          rw [← h1.1] at h2
          exact h2 hsame
        · rw [hf] at h1
          simp at h1
      · obtain ⟨n1, n2⟩ := smali_not_first_stages fs r hr p hb
        rcases hp with hp | hp
        · rw [hp] at n1; exact absurd n1 (by simp)
        · exact n2 hp
    · rcases hp with hp | hp
      · rw [start_find_res c fs hwf p hp, hf]
        simp only [Option.map_some']
        rw [rewriteNode_same _ _ _ hsame]
      · subst hp
        rw [start_find_manifest c fs hwf text rw hf, rewriteNode_same _ _ _ hsame]
  · intro r hr p text rw hb hf hno hno2
    have hsame : c.substSmali text = text :=
      substSmali_clean c text (by rw [hn]; exact hno) (by rw [hpth]; exact hno2)
    constructor
    · intro data hw
      obtain ⟨t, h1, h2, _⟩ := start_written_smali c fs hwf r hr p hb data hw
      rw [hf] at h1
      simp only [Option.some.injEq, Node.file.injEq] at h1
      rw [← h1.1] at h2
      exact h2 hsame
    · rcases start_find_smali c fs hwf r hr p _ (FS.below_headIs r [] p hb) hf
        with h | h | ⟨_, _, h⟩
      · exact Or.inl h
      · rw [rewriteNode_same _ _ _ hsame] at h
        exact Or.inl h
      · rw [rewriteNode_same _ _ _ hsame] at h
        exact Or.inr h

/-- C10 on the tree whose smali directories do not hold the old package:
the file `smali/org/X.smali` mentions the descriptor form and is written
once, with a text that differs from the one it had. -/
theorem C10_write_if_changed_witness :
    ∃ t, (otherTree.find ["smali".toList, "org".toList, "X.smali".toList]
            = some (Node.file t true)
          ∨ (otherTree.find ["smali".toList, "org".toList, "X.smali".toList] = none ∧ t = []))
      ∧ "Lcom/example/clone/A;".toList ≠ t
      ∧ ("Lcom/example/clone/A;".toList = qReplace t comExampleApp comExampleClone
        ∨ "Lcom/example/clone/A;".toList
            = qReplace (qReplace t ('L' :: replaceChar '.' '/' comExampleApp)
                ('L' :: replaceChar '.' '/' comExampleClone)) comExampleApp comExampleClone) :=
  (C10_write_if_changed "/tmp/apk".toList comExampleApp comExampleClone otherTree
    (by decide)).1 ["smali".toList, "org".toList, "X.smali".toList]
    "Lcom/example/clone/A;".toList (by decide)

/-! ## The two forms of a package identifier -/

theorem replaceChar_length (a b : Char) (s : QString) : (replaceChar a b s).length = s.length := by
  simp [replaceChar]

theorem replaceChar_not_mem (a b : Char) (hne : b ≠ a) (s : QString) : a ∉ replaceChar a b s := by
  intro h
  simp only [replaceChar, List.mem_map] at h
  obtain ⟨ch, _, hch⟩ := h
  by_cases hc : ch = a
  · rw [if_pos hc] at hch; exact hne hch
  · rw [if_neg hc] at hch; exact hc hch

theorem replaceChar_get (a b : Char) (s : QString) (i : Nat) :
    (replaceChar a b s)[i]? = (s[i]?).map (fun ch => if ch = a then b else ch) := by
  simp [replaceChar]

theorem replaceChar_clean (a b : Char) (s : QString) (h : a ∉ s) : replaceChar a b s = s := by
  induction s with
  | nil => rfl
  | cons ch cs ih =>
    simp only [List.mem_cons, not_or] at h
    have hc : ¬ ch = a := fun e => h.1 e.symm
    simp only [replaceChar, List.map_cons, if_neg hc]
    exact congrArg _ (ih h.2)

/-- Claim C11. For every pair of names given to the constructor, the stored
names are the given ones and each stored path is the stored name with every
`.` replaced by `/` and nothing else changed: same length, no `.` left,
character by character either the `/` that stands for a `.` or the very
character of the name, and the name itself when it holds no `.`. A run of
the job only reads the four fields: on a well-formed tree the source and
the destination of every directory move are a smali directory followed by
the segments of these two paths. -/
theorem C11_path_is_name_transform (contentsPath oldName newName : QString) :
    (ApkCloner.new contentsPath oldName newName).originalPackageName = oldName
    ∧ (ApkCloner.new contentsPath oldName newName).newPackageName = newName
    ∧ (∀ name path : QString,
        (name = oldName ∧ path = (ApkCloner.new contentsPath oldName newName).originalPackagePath)
        ∨ (name = newName ∧ path = (ApkCloner.new contentsPath oldName newName).newPackagePath) →
        path.length = name.length
        ∧ '.' ∉ path
        ∧ (∀ i : Nat, path[i]? = (name[i]?).map (fun ch => if ch = '.' then '/' else ch))
        ∧ ('.' ∉ name → path = name))
    ∧ (∀ fs : FS, fs.WF → ∀ src dst b,
        Event.rename src dst b ∈ ((ApkCloner.new contentsPath oldName newName).start fs).1 →
        ∃ r ∈ fs.smaliDirs,
          src = r :: segments (replaceChar '.' '/' oldName)
          ∧ dst = r :: segments (replaceChar '.' '/' newName)) := by
  refine ⟨rfl, rfl, ?_, ?_⟩
  · intro name path h
    have hp : path = replaceChar '.' '/' name := by
      rcases h with ⟨h1, h2⟩ | ⟨h1, h2⟩
      · rw [h2, h1]; rfl
      · rw [h2, h1]; rfl
    subst hp
    exact ⟨replaceChar_length _ _ _, replaceChar_not_mem _ _ (by decide) _,
      replaceChar_get _ _ _, replaceChar_clean _ _ _⟩
  · intro fs hwf src dst b h
    obtain ⟨pre, r, post, hd, _, hs, hdst, _, _⟩ := start_rename _ fs hwf src dst b h
    refine ⟨r, ?_, hs, hdst⟩
    rw [hd]; simp

theorem C11_path_is_name_transform_witness :
    (sampleCloner.originalPackagePath = "com/example/app".toList
      ∧ sampleCloner.newPackagePath = "com/example/clone".toList)
    ∧ ∃ r ∈ sampleTree.smaliDirs,
        ["smali".toList, "com".toList, "example".toList, "app".toList]
          = r :: segments (replaceChar '.' '/' comExampleApp)
        ∧ ["smali".toList, "com".toList, "example".toList, "clone".toList]
          = r :: segments (replaceChar '.' '/' comExampleClone) :=
  ⟨by decide,
    (C11_path_is_name_transform "/tmp/apk".toList comExampleApp comExampleClone).2.2.2
      sampleTree (by decide)
      ["smali".toList, "com".toList, "example".toList, "app".toList]
      ["smali".toList, "com".toList, "example".toList, "clone".toList] true (by decide)⟩

/-! ## The terminal signal -/

theorem rewriteTree_kinds (c : ApkCloner) (text dirStr : QString) (dir : Path)
    (subst : QString → QString) :
    ∀ (ps : List Path) (fs : FS), ∀ e ∈ (rewriteTree c text dirStr dir subst ps fs).1,
      (∃ x, e = Event.progressed text x) ∨ ∃ p d, e = Event.written p d := by
  intro ps
  induction ps with
  | nil => intro fs e h; simp [rewriteTree] at h
  | cons p ps ih =>
    intro fs e h
    rw [rewriteTree] at h
    dsimp only at h
    rw [List.mem_append, List.mem_cons] at h
    rcases h with (h | h) | h
    · exact Or.inl ⟨_, h⟩
    · obtain ⟨t, _, _, h3⟩ := mem_rewriteFile subst p fs _ h
      exact Or.inr ⟨_, _, h3⟩
    · exact ih _ e h

theorem rewriteTree_no_started (c : ApkCloner) (text dirStr : QString) (dir : Path)
    (subst : QString → QString) (ps : List Path) (fs : FS) :
    Event.started ∉ (rewriteTree c text dirStr dir subst ps fs).1 := by
  intro h
  rcases rewriteTree_kinds c text dirStr dir subst ps fs _ h with ⟨x, hx⟩ | ⟨p, d, hx⟩
  · simp at hx
  · simp at hx

/-- The events of one loop body: nothing terminal, then `finished(false)`
when the body left the job. -/
theorem smaliDirStep_terminal (c : ApkCloner) (r : QString) (fs : FS) :
    ∃ body, (∀ b, Event.finished b ∉ body) ∧ Event.started ∉ body ∧
      (c.smaliDirStep r fs).1 =
        body ++ (if (c.smaliDirStep r fs).2.2 then [] else [Event.finished false]) := by
  unfold ApkCloner.smaliDirStep
  dsimp only
  split
  · simp only [if_true, List.append_nil]
    refine ⟨_, ?_, ?_, rfl⟩
    · intro b h
      rcases List.mem_append.mp h with h | h
      · exact rewriteTree_no_finished _ _ _ _ _ _ _ _ h
      · simp at h
    · intro h
      rcases List.mem_append.mp h with h | h
      · exact rewriteTree_no_started _ _ _ _ _ _ _ h
      · simp at h
  · split
    · simp only [Bool.false_eq_true, if_false]
      refine ⟨?w ++ [?x, ?y, ?z], ?p1, ?p2, ?eq⟩
      case eq => exact (List.append_assoc _ [_, _, _] [_]).symm
      · intro b h
        rcases List.mem_append.mp h with h | h
        · exact rewriteTree_no_finished _ _ _ _ _ _ _ _ h
        · simp at h
      · intro h
        rcases List.mem_append.mp h with h | h
        · exact rewriteTree_no_started _ _ _ _ _ _ _ h
        · simp at h
    · simp only [if_true, List.append_nil]
      refine ⟨_, ?_, ?_, rfl⟩
      · intro b h
        rcases List.mem_append.mp h with h | h
        · exact rewriteTree_no_finished _ _ _ _ _ _ _ _ h
        · simp at h
      · intro h
        rcases List.mem_append.mp h with h | h
        · exact rewriteTree_no_started _ _ _ _ _ _ _ h
        · simp at h

/-- The events of the loop over the smali directories: nothing terminal,
then `finished(false)` when a body left the job. -/
theorem smaliLoop_terminal (c : ApkCloner) :
    ∀ (rs : List QString) (fs : FS),
      ∃ body, (∀ b, Event.finished b ∉ body) ∧ Event.started ∉ body ∧
        (c.smaliLoop rs fs).1 =
          body ++ (if (c.smaliLoop rs fs).2.2 then [] else [Event.finished false]) := by
  intro rs
  induction rs with
  | nil => intro fs; exact ⟨[], by simp, by simp, by simp [ApkCloner.smaliLoop]⟩
  | cons r rs ih =>
    intro fs
    obtain ⟨body, hb1, hb2, hb3⟩ := smaliDirStep_terminal c r fs
    rw [ApkCloner.smaliLoop]
    dsimp only
    by_cases hok : (c.smaliDirStep r fs).2.2 = true
    · rw [if_pos hok]
      rw [if_pos hok, List.append_nil] at hb3
      obtain ⟨rest, hr1, hr2, hr3⟩ := ih (c.smaliDirStep r fs).2.1
      refine ⟨body ++ rest, ?_, ?_, ?_⟩
      · intro b h
        rcases List.mem_append.mp h with h | h
        · exact hb1 b h
        · exact hr1 b h
      · intro h
        rcases List.mem_append.mp h with h | h
        · exact hb2 h
        · exact hr2 h
      · dsimp only
        rw [hb3, hr3, List.append_assoc]
    · rw [if_neg hok]
      exact ⟨body, hb1, hb2, hb3⟩

theorem start_terminal (c : ApkCloner) (fs : FS) :
    ∃ pre b, (c.start fs).1 = Event.started :: pre ++ [Event.finished b]
      ∧ (∀ b2, Event.finished b2 ∉ pre) ∧ Event.started ∉ pre := by
  obtain ⟨body, hb1, hb2, hb3⟩ := smaliLoop_terminal c (c.afterManifest fs).smaliDirs (c.afterManifest fs)
  have hf := first_stages_no_finished c fs
  have hs1 : Event.started ∉ (c.resourceStage fs).1 := rewriteTree_no_started _ _ _ _ _ _ _
  have hs2 : Event.started ∉ (c.manifestStage (c.resourceStage fs).2).1 := by
    rw [manifestStage_eq]
    intro h
    rcases List.mem_cons.mp h with h | h
    · simp at h
    · obtain ⟨t, _, _, h3⟩ := mem_rewriteFile _ _ _ _ h
      simp at h3
  refine ⟨(c.resourceStage fs).1 ++ (c.manifestStage (c.resourceStage fs).2).1 ++ body,
    (c.smaliLoop (c.afterManifest fs).smaliDirs (c.afterManifest fs)).2.2, ?_, ?_, ?_⟩
  · rw [start_fst, hb3]
    cases (c.smaliLoop (c.afterManifest fs).smaliDirs (c.afterManifest fs)).2.2 <;> simp
  · intro b2 h
    rcases List.mem_append.mp h with h | h
    · rcases List.mem_append.mp h with h | h
      · exact (hf b2).1 h
      · exact (hf b2).2 h
    · exact hb1 b2 h
  · intro h
    rcases List.mem_append.mp h with h | h
    · rcases List.mem_append.mp h with h | h
      · exact hs1 h
      · exact hs2 h
    · exact hb2 h

/-- Claim C16. Every run of `ApkCloner::start`, on any tree, emits exactly
one terminal signal: the list of events is `started`, then events none of
which is `started` or `finished`, then one `finished(b)`. So the run holds
exactly one `finished` event (`finished(true)` and `finished(false)`
together occur once, hence never both), this event is the last one, and the
single `started` event is the first one. -/
theorem C16_one_terminal_signal (contentsPath oldName newName : QString) (fs : FS) :
    (∃ pre b, ((ApkCloner.new contentsPath oldName newName).start fs).1
        = Event.started :: pre ++ [Event.finished b]
      ∧ (∀ b2, Event.finished b2 ∉ pre) ∧ Event.started ∉ pre)
    ∧ ((ApkCloner.new contentsPath oldName newName).start fs).1.count (Event.finished true)
        + ((ApkCloner.new contentsPath oldName newName).start fs).1.count (Event.finished false) = 1
    ∧ ((ApkCloner.new contentsPath oldName newName).start fs).1.count Event.started = 1
    ∧ ((ApkCloner.new contentsPath oldName newName).start fs).1.head? = some Event.started
    ∧ (∃ b, ((ApkCloner.new contentsPath oldName newName).start fs).1.getLast?
        = some (Event.finished b))
    ∧ ¬ (Event.finished true ∈ ((ApkCloner.new contentsPath oldName newName).start fs).1
        ∧ Event.finished false ∈ ((ApkCloner.new contentsPath oldName newName).start fs).1) := by
  obtain ⟨pre, b, h1, h2, h3⟩ := start_terminal (ApkCloner.new contentsPath oldName newName) fs
  have ct : pre.count (Event.finished true) = 0 := List.count_eq_zero.mpr (h2 true)
  have cf : pre.count (Event.finished false) = 0 := List.count_eq_zero.mpr (h2 false)
  have cs : pre.count Event.started = 0 := List.count_eq_zero.mpr h3
  refine ⟨⟨pre, b, h1, h2, h3⟩, ?_, ?_, ?_, ⟨b, ?_⟩, ?_⟩
  · rw [h1]
    cases b <;> simp [List.count_cons, List.count_append, ct, cf]
  · rw [h1]
    simp [List.count_cons, List.count_append, cs]
  · rw [h1]; rfl
  · rw [h1]
    exact List.getLast?_concat (Event.started :: pre)
  · rw [h1]
    rintro ⟨ht, hf⟩
    simp only [List.cons_append, List.mem_cons, List.mem_append, List.mem_singleton,
      Event.finished.injEq, false_or, reduceCtorEq, List.not_mem_nil, or_false] at ht hf
    rcases ht with ht | ht
    · exact h2 true ht
    · rcases hf with hf | hf
      · exact h2 false hf
      · rw [← ht] at hf; exact Bool.noConfusion hf

/-! ## Progress events of the resource and manifest stages -/

theorem segments_joinSlash :
    ∀ p : Path, (∀ s ∈ p, validName s = true) → segments (joinSlash p) = p := by
  intro p
  induction p with
  | nil => intro _; rfl
  | cons s rest ih =>
    intro h
    cases rest with
    | nil => exact segments_name s (h s (List.mem_cons_self _ _))
    | cons t rest2 =>
      rw [joinSlash, segments_name_slash s _ (h s (List.mem_cons_self _ _)),
        ih (fun x hx => h x (List.mem_cons_of_mem _ hx))]

theorem joinSlash_cons (s : QString) (q : Path) (hq : q ≠ []) :
    joinSlash (s :: q) = s ++ '/' :: joinSlash q := by
  cases q with
  | nil => exact absurd rfl hq
  | cons t rest => rfl

theorem below_cons (t : QString) (p : Path) (h : FS.below [t] p = true) :
    ∃ q, q ≠ [] ∧ p = t :: q := by
  simp only [FS.below, Bool.and_eq_true, decide_eq_true_eq] at h
  obtain ⟨h1, h2⟩ := h
  cases p with
  | nil => simp [List.isPrefixOf] at h1
  | cons a q =>
    simp only [List.isPrefixOf, Bool.and_eq_true, beq_iff_eq] at h1
    have ha : a = t := h1.1.symm
    subst ha
    refine ⟨q, ?_, rfl⟩
    intro hq
    subst hq
    exact h2 rfl

theorem visitEvent_top (c : ApkCloner) (text t : QString) (p : Path)
    (h : FS.below [t] p = true) :
    visitEvent c text (c.contentsPath ++ '/' :: t ++ ['/']) [t] p
      = Event.progressed text (joinSlash p) := by
  obtain ⟨q, hq, hp⟩ := below_cons t p h
  subst hp
  unfold visitEvent
  rw [joinSlash_cons t q hq]
  congr 1
  simp only [List.length_cons, List.length_nil, List.drop_succ_cons, List.drop_zero,
    List.append_assoc, List.cons_append, List.singleton_append, List.nil_append]
  rw [List.drop_append_eq_append_drop]
  simp

theorem filter_visits (text text2 : QString) (f : Path → Event) (g : Path → List Event)
    (hf : ∀ p, isProgress text2 (f p) = decide (text = text2))
    (hg : ∀ p, ∀ e ∈ g p, isProgress text2 e = false) :
    ∀ ps : List Path, (ps.flatMap (fun p => f p :: g p)).filter (isProgress text2)
      = if text = text2 then ps.map f else [] := by
  intro ps
  induction ps with
  | nil => simp
  | cons p ps ih =>
    rw [List.flatMap_cons, List.filter_append, ih, List.filter_cons, hf p]
    have hgp : (g p).filter (isProgress text2) = [] := by
      rw [List.filter_eq_nil_iff]
      intro e he
      rw [hg p e he]; simp
    rw [hgp]
    by_cases ht : text = text2
    · simp [ht]
    · simp [ht]

theorem fileEvents_not_progress (subst : QString → QString) (p : Path) (n : Option Node)
    (text : QString) : ∀ e ∈ fileEvents subst p n, isProgress text e = false := by
  intro e he
  unfold fileEvents at he
  split at he
  · split at he
    · simp only [List.mem_singleton] at he
      rw [he]; rfl
    · simp at he
  · simp at he

theorem resourceStage_progress (c : ApkCloner) (fs : FS) (hwf : fs.WF) (text : QString) :
    (c.resourceStage fs).1.filter (isProgress text)
      = if trResources = text then
          (fs.filesUnder [resName]).map (fun p => Event.progressed trResources (joinSlash p))
        else [] := by
  rw [resourceStage_eq c fs hwf.1]
  dsimp only
  rw [filter_visits trResources text
    (fun p => visitEvent c trResources (c.contentsPath ++ "/res/".toList) [resName] p)
    (fun p => fileEvents c.substName p (fs.find p)) (fun p => rfl)
    (fun p => fileEvents_not_progress _ _ _ _)]
  by_cases ht : trResources = text
  · rw [if_pos ht, if_pos ht]
    apply List.map_congr_left
    intro p hp
    have hb := ((FS.mem_filesUnder fs _ p).mp hp).1
    have e : c.contentsPath ++ "/res/".toList = c.contentsPath ++ '/' :: resName ++ ['/'] := by
      simp [resName]
    rw [e]
    exact visitEvent_top c trResources resName p hb
  · rw [if_neg ht, if_neg ht]

theorem manifestStage_progress (c : ApkCloner) (fs : FS) (text : QString) :
    (c.manifestStage fs).1.filter (isProgress text)
      = if trManifest = text then [Event.progressed trManifest manifestName] else [] := by
  rw [manifestStage_eq]
  dsimp only
  rw [List.filter_cons]
  have h2 : (rewriteFile c.substName [manifestName] fs).1.filter (isProgress text) = [] := by
    rw [List.filter_eq_nil_iff]
    intro e he
    obtain ⟨t, _, _, h3⟩ := mem_rewriteFile _ _ _ _ he
    rw [h3]; simp [isProgress]
  rw [h2]
  by_cases ht : trManifest = text
  · simp only [isProgress, ht, decide_True, if_true]
    rfl
  · simp [isProgress, ht]

theorem loopAt_progress (c : ApkCloner) (fs : FS) (hwf : fs.WF) (text : QString)
    (h1 : text ≠ trSmali) (h2 : text ≠ trStructure) :
    (c.loopAt fs fs.smaliDirs).1.filter (isProgress text) = [] := by
  rw [List.filter_eq_nil_iff]
  intro e he
  obtain ⟨pre, r, post, hd, _, hs⟩ := mem_loopAt c fs e _ he
  have hv := (stepAt_valid fs hwf pre r post hd).2
  rcases mem_stepAt c fs hwf r hv e hs with h | h | ⟨_, h | ⟨h, _⟩ | ⟨h, _⟩ | ⟨h, _⟩⟩
  · rcases mem_walkEventsAt c fs r e h with ⟨x, hx⟩ | ⟨p, t, _, _, _, hx⟩
    · rw [hx]; simp [isProgress]; exact fun e => h1 e.symm
    · rw [hx]; simp [isProgress]
  · rw [h]; simp [isProgress]; exact fun e => h2 e.symm
  · rw [h]; simp [isProgress]
  · rw [h]; simp [isProgress]
  · rw [h]; simp [isProgress]
  · rw [h]; simp [isProgress]

/-- The progress events of a whole run that carry a given stage text of the
first two stages. -/
theorem start_progress (c : ApkCloner) (fs : FS) (hwf : fs.WF) (text : QString)
    (h1 : text ≠ trSmali) (h2 : text ≠ trStructure) :
    (c.start fs).1.filter (isProgress text)
      = (if trResources = text then
          (fs.filesUnder [resName]).map (fun p => Event.progressed trResources (joinSlash p))
        else [])
        ++ (if trManifest = text then [Event.progressed trManifest manifestName] else []) := by
  rw [start_events c fs hwf]
  simp only [List.cons_append, List.filter_cons, List.filter_append]
  rw [resourceStage_progress c fs hwf, manifestStage_progress, loopAt_progress c fs hwf text h1 h2]
  have hfin : (if (c.loopAt fs fs.smaliDirs).2 = true then [Event.finished true] else []).filter
      (isProgress text) = [] := by
    split <;> simp [isProgress]
  rw [hfin]
  simp [isProgress]

theorem filesUnder_nodup (fs : FS) (hwf : fs.WF) (d : Path) : (fs.filesUnder d).Nodup :=
  (FS.filesUnder_sublist fs d).nodup hwf.1

theorem mem_filesUnder_valid (fs : FS) (hwf : fs.WF) (d p : Path) (h : p ∈ fs.filesUnder d) :
    ∀ s ∈ p, validName s = true := by
  obtain ⟨_, t, rw, hm⟩ := (FS.mem_filesUnder fs d p).mp h
  exact (hwf.2 _ hm).2.1

/-- Claim C18. On a well-formed tree the progress events of a run that
carry the resource-stage text are, in listing order, one event per regular
file below `res/` (whatever the file holds and whether or not it opens),
each event occurring once; the path of the event for the file `p` is the
segments of `p` joined with `/`, and `contentsPath` + `/` + that path is the
full path string the iterator gave and designates `p`. The run has exactly
one progress event with the manifest-stage text, and its path is
`AndroidManifest.xml`. -/
theorem C18_resource_progress (contentsPath oldName newName : QString) (fs : FS) (hwf : fs.WF) :
    ((ApkCloner.new contentsPath oldName newName).start fs).1.filter (isProgress trResources)
        = (fs.filesUnder [resName]).map (fun p => Event.progressed trResources (joinSlash p))
    ∧ (∀ p, p ∈ fs.filesUnder [resName] ↔
        FS.below [resName] p = true ∧ ∃ t rw, fs.find p = some (Node.file t rw))
    ∧ (∀ p ∈ fs.filesUnder [resName],
        ((ApkCloner.new contentsPath oldName newName).start fs).1.count
            (Event.progressed trResources (joinSlash p)) = 1
        ∧ contentsPath ++ '/' :: joinSlash p
            = (contentsPath ++ "/res/".toList) ++ joinSlash (p.drop 1)
        ∧ (ApkCloner.new contentsPath oldName newName).resolve
            (contentsPath ++ '/' :: joinSlash p) = p)
    ∧ ((ApkCloner.new contentsPath oldName newName).start fs).1.filter (isProgress trManifest)
        = [Event.progressed trManifest "AndroidManifest.xml".toList] := by
  have hres := start_progress (ApkCloner.new contentsPath oldName newName) fs hwf trResources
    (by decide) (by decide)
  rw [if_pos rfl, if_neg (by decide), List.append_nil] at hres
  have hman := start_progress (ApkCloner.new contentsPath oldName newName) fs hwf trManifest
    (by decide) (by decide)
  rw [if_neg (by decide), if_pos rfl, List.nil_append] at hman
  refine ⟨hres, ?_, ?_, hman⟩
  · intro p
    rw [FS.mem_filesUnder]
    constructor
    · rintro ⟨hb, t, rw, hm⟩
      exact ⟨hb, t, rw, lookupNode_of_mem _ hwf.1 _ _ hm⟩
    · rintro ⟨hb, t, rw, hf⟩
      exact ⟨hb, t, rw, mem_of_lookupNode _ _ _ hf⟩
  · intro p hp
    have hb := ((FS.mem_filesUnder fs _ p).mp hp).1
    obtain ⟨q, hq, hpq⟩ := below_cons resName p hb
    refine ⟨?_, ?_, ?_⟩
    · have hc : ((ApkCloner.new contentsPath oldName newName).start fs).1.count
          (Event.progressed trResources (joinSlash p))
          = (((ApkCloner.new contentsPath oldName newName).start fs).1.filter
              (isProgress trResources)).count (Event.progressed trResources (joinSlash p)) := by
        rw [List.count_filter]
        simp [isProgress]
      rw [hc, hres]
      apply List.count_eq_one_of_mem
      · apply List.Nodup.map_on _ (filesUnder_nodup fs hwf _)
        intro x hx y hy hxy
        have hxy2 : joinSlash x = joinSlash y := by
          simpa using hxy
        rw [← segments_joinSlash x (mem_filesUnder_valid fs hwf _ x hx),
          ← segments_joinSlash y (mem_filesUnder_valid fs hwf _ y hy), hxy2]
      · exact List.mem_map_of_mem _ hp
    · rw [hpq, joinSlash_cons resName q hq]
      simp [resName]
    · refine (resolve_append (ApkCloner.new contentsPath oldName newName)
        ('/' :: joinSlash p)).trans ?_
      rw [segments_slash, segments_joinSlash p (mem_filesUnder_valid fs hwf _ p hp)]

theorem C18_resource_progress_witness :
    (sampleCloner.start sampleTree).1.filter (isProgress trResources)
      = [Event.progressed trResources "res/values/a.xml".toList]
    ∧ (sampleCloner.start sampleTree).1.filter (isProgress trManifest)
      = [Event.progressed trManifest "AndroidManifest.xml".toList] :=
  ⟨(C18_resource_progress "/tmp/apk".toList comExampleApp comExampleClone sampleTree
      (by decide)).1.trans (by decide),
   (C18_resource_progress "/tmp/apk".toList comExampleApp comExampleClone sampleTree
      (by decide)).2.2.2⟩

/-! ## The order of the events -/

theorem stepAt_events (c : ApkCloner) (fs : FS) (hwf : fs.WF) (r : QString)
    (hv : validName r = true) :
    (c.stepAt fs r).1 = c.rootEventsAt fs r ++
      (if (c.stepAt fs r).2.2 then [] else [Event.finished false]) := by
  rw [stepAt_eq c fs hwf r hv]
  unfold ApkCloner.rootEventsAt ApkCloner.moveEventsAt
  by_cases hx : fs.pathExists (c.oldDir r) = false
  · rw [if_pos hx]
    simp [hx]
  · rw [if_neg hx]
    have hx2 : fs.pathExists (c.oldDir r) = true := by
      cases h : fs.pathExists (c.oldDir r)
      · exact absurd h hx
      · rfl
    rw [if_pos hx2]
    cases hm : c.movedAt fs r with
    | none => simp
    | some g => simp

theorem loopAt_blocks (c : ApkCloner) (fs : FS) (hwf : fs.WF) :
    ∀ rs : List QString, (∀ r ∈ rs, validName r = true) →
      ∃ done rest, rs = done ++ rest ∧ ((c.loopAt fs rs).2 = true → rest = []) ∧
        (c.loopAt fs rs).1 = done.flatMap (c.rootEventsAt fs) ++
          (if (c.loopAt fs rs).2 then [] else [Event.finished false]) := by
  intro rs
  induction rs with
  | nil => intro _; exact ⟨[], [], rfl, fun _ => rfl, by simp [ApkCloner.loopAt]⟩
  | cons r rs ih =>
    intro hv
    have hs := stepAt_events c fs hwf r (hv r (List.mem_cons_self _ _))
    rw [loopAt_cons]
    by_cases hok : (c.stepAt fs r).2.2 = true
    · rw [if_pos hok]
      rw [if_pos hok, List.append_nil] at hs
      obtain ⟨done, rest, h1, h2, h3⟩ := ih (fun x hx => hv x (List.mem_cons_of_mem _ hx))
      refine ⟨r :: done, rest, by rw [h1]; rfl, h2, ?_⟩
      dsimp only
      rw [hs, h3, List.flatMap_cons, List.append_assoc]
    · rw [if_neg hok]
      rw [if_neg hok] at hs
      refine ⟨[r], rs, rfl, fun h => absurd h (by simp), ?_⟩
      dsimp only
      rw [hs]
      simp

/-- The events of a run, stage by stage and smali directory by smali directory. -/
theorem start_blocks (c : ApkCloner) (fs : FS) (hwf : fs.WF) :
    ∃ done rest b, fs.smaliDirs = done ++ rest ∧ (b = true → rest = []) ∧
      (c.start fs).1 = Event.started :: (c.resourceStage fs).1 ++
        (c.manifestStage (c.resourceStage fs).2).1 ++
        done.flatMap (c.rootEventsAt fs) ++ [Event.finished b] := by
  obtain ⟨done, rest, h1, h2, h3⟩ := loopAt_blocks c fs hwf fs.smaliDirs
    (fun r hr => FS.smaliDirs_valid fs hwf r hr)
  refine ⟨done, rest, (c.loopAt fs fs.smaliDirs).2, h1, h2, ?_⟩
  rw [start_events c fs hwf, h3]
  cases (c.loopAt fs fs.smaliDirs).2 <;> simp

theorem pairwise_of_stage (f : Event → Nat) (k : Nat) (l1 l2 : List Event)
    (h1 : l1.Pairwise (fun x y => f x ≤ f y)) (h2 : l2.Pairwise (fun x y => f x ≤ f y))
    (a1 : ∀ x ∈ l1, f x ≤ k) (a2 : ∀ y ∈ l2, k ≤ f y) :
    (l1 ++ l2).Pairwise (fun x y => f x ≤ f y) :=
  List.pairwise_append.mpr ⟨h1, h2, fun x hx y hy => le_trans (a1 x hx) (a2 y hy)⟩

theorem pairwise_const (f : Event → Nat) (k : Nat) (l : List Event) (h : ∀ x ∈ l, f x = k) :
    l.Pairwise (fun x y => f x ≤ f y) := by
  rw [List.pairwise_iff_forall_sublist]
  intro a b hab
  have ha : a ∈ l := hab.subset (by simp)
  have hb : b ∈ l := hab.subset (by simp)
  rw [h a ha, h b hb]

theorem stageOf_resourceStage (c : ApkCloner) (fs : FS) (hwf : fs.WF) :
    ∀ e ∈ (c.resourceStage fs).1, stageOf e = 1 := by
  intro e he
  rcases mem_resourceStage c fs hwf e he with ⟨x, hx⟩ | ⟨p, t, hb, _, _, hx⟩
  · rw [hx]; rfl
  · rw [hx]
    simp only [stageOf, FS.below_headIs resName [] p hb, if_true]

theorem stageOf_manifestStage (c : ApkCloner) (fs : FS) :
    ∀ e ∈ (c.manifestStage (c.resourceStage fs).2).1, stageOf e = 2 := by
  intro e he
  rcases mem_manifestStage c fs e he with hx | ⟨t, _, _, hx⟩
  · rw [hx]; rfl
  · rw [hx]; rfl

theorem mem_rootEventsAt (c : ApkCloner) (fs : FS) (r : QString) (e : Event)
    (h : e ∈ c.rootEventsAt fs r) :
    (∃ x, e = Event.progressed trSmali x) ∨
    (∃ p d, FS.below [r] p = true ∧ e = Event.written p d) ∨
    e = Event.progressed trStructure r ∨ e = Event.mkpath (c.newParent r) ∨
    ∃ b, e = Event.rename (c.oldDir r) (c.newDir r) b := by
  unfold ApkCloner.rootEventsAt ApkCloner.moveEventsAt at h
  rcases List.mem_append.mp h with h | h
  · rcases mem_walkEventsAt c fs r e h with ⟨x, hx⟩ | ⟨p, t, hb, _, _, hx⟩
    · exact Or.inl ⟨x, hx⟩
    · exact Or.inr (Or.inl ⟨p, _, hb, hx⟩)
  · rcases List.mem_cons.mp h with h | h
    · exact Or.inr (Or.inr (Or.inl h))
    · split at h
      · simp only [List.mem_cons, List.mem_singleton, List.not_mem_nil, or_false] at h
        rcases h with h | h
        · exact Or.inr (Or.inr (Or.inr (Or.inl h)))
        · exact Or.inr (Or.inr (Or.inr (Or.inr ⟨_, h⟩)))
      · simp at h

theorem headIs_eq (q r : QString) (p : Path) (h1 : headIs q p = true) (h2 : headIs r p = true) :
    q = r := by
  by_contra hne
  rw [headIs_ne r q p hne h1] at h2
  exact Bool.noConfusion h2

theorem stageOf_rootEventsAt (c : ApkCloner) (fs : FS) (r : QString) (hr : r ∈ fs.smaliDirs) :
    ∀ e ∈ c.rootEventsAt fs r, stageOf e = 3 := by
  intro e he
  have hm := ((FS.mem_smaliDirs fs r).mp hr).2
  rcases mem_rootEventsAt c fs r e he with ⟨x, hx⟩ | ⟨p, d, hb, hx⟩ | hx | hx | ⟨b, hx⟩
  · rw [hx]; rfl
  · rw [hx]
    have h1 := smali_not_first_stages fs r hr p hb
    have h2 : headIs resName p = false := by
      cases h : headIs resName p
      · rfl
      · exact absurd (headIs_eq _ _ p (FS.below_headIs r [] p hb) h) (matchesSmali_ne_res r hm)
    simp only [stageOf, h2, Bool.false_eq_true, if_false, if_neg h1.2]
  · rw [hx]; rfl
  · rw [hx]; rfl
  · rw [hx]; rfl

theorem newParent_headIs (c : ApkCloner) (r : QString) (hv : validName r = true) :
    headIs r (c.newParent r) = true := by
  obtain ⟨rest, h⟩ := newParent_cons c r hv
  rw [h, headIs_cons]; simp

/-- In the events of one smali directory no write follows the
directory-structure event or a step of the move. -/
theorem rootEventsAt_pairwise (c : ApkCloner) (fs : FS) (r : QString) :
    (c.rootEventsAt fs r).Pairwise
      (fun x y => ∀ q, movesIn q x = true → writesIn q y = false) := by
  unfold ApkCloner.rootEventsAt
  rw [List.pairwise_append]
  refine ⟨?_, ?_, ?_⟩
  · rw [List.pairwise_iff_forall_sublist]
    intro a b hab q hq
    have ha : a ∈ c.walkEventsAt fs r := hab.subset (by simp)
    rcases mem_walkEventsAt c fs r a ha with ⟨x, hx⟩ | ⟨p, t, _, _, _, hx⟩
    · rw [hx] at hq
      simp [movesIn] at hq
      exact absurd hq.1 (by decide)
    · rw [hx] at hq
      simp [movesIn] at hq
  · have hmv : ∀ b ∈ c.moveEventsAt fs r, ∀ q, writesIn q b = false := by
      intro b hb q
      unfold ApkCloner.moveEventsAt at hb
      split at hb
      · simp only [List.mem_cons, List.mem_singleton, List.not_mem_nil, or_false] at hb
        rcases hb with hb | hb <;> rw [hb] <;> rfl
      · simp at hb
    rw [List.pairwise_cons]
    refine ⟨fun b hb q _ => hmv b hb q, ?_⟩
    rw [List.pairwise_iff_forall_sublist]
    intro a b hab q _
    exact hmv b (hab.subset (by simp)) q
  · intro a ha b _ q hq
    rcases mem_walkEventsAt c fs r a ha with ⟨x, hx⟩ | ⟨p, t, _, _, _, hx⟩
    · rw [hx] at hq
      simp [movesIn] at hq
      exact absurd hq.1 (by decide)
    · rw [hx] at hq
      simp [movesIn] at hq

theorem movesIn_rootEventsAt (c : ApkCloner) (fs : FS) (r : QString) (hv : validName r = true)
    (x : Event) (hx : x ∈ c.rootEventsAt fs r) (q : QString) (hq : movesIn q x = true) : q = r := by
  rcases mem_rootEventsAt c fs r x hx with ⟨t, h⟩ | ⟨p, d, _, h⟩ | h | h | ⟨b, h⟩
  · rw [h] at hq
    simp [movesIn] at hq
    exact absurd hq.1 (by decide)
  · rw [h] at hq
    simp [movesIn] at hq
  · rw [h] at hq
    simp [movesIn] at hq
    exact hq.symm
  · rw [h] at hq
    exact headIs_eq q r _ hq (newParent_headIs c r hv)
  · rw [h] at hq
    exact headIs_eq q r _ hq (oldDir_headIs c r)

theorem writesIn_rootEventsAt (c : ApkCloner) (fs : FS) (r : QString)
    (y : Event) (hy : y ∈ c.rootEventsAt fs r) (q : QString) (hq : q ≠ r) :
    writesIn q y = false := by
  rcases mem_rootEventsAt c fs r y hy with ⟨t, h⟩ | ⟨p, d, hb, h⟩ | h | h | ⟨b, h⟩
  · rw [h]; rfl
  · rw [h]
    exact headIs_ne q r p (fun e => hq e.symm) (FS.below_headIs r [] p hb)
  · rw [h]; rfl
  · rw [h]; rfl
  · rw [h]; rfl

theorem movesIn_first_stages (c : ApkCloner) (fs : FS) (hwf : fs.WF) (x : Event)
    (hx : x ∈ Event.started :: (c.resourceStage fs).1 ++ (c.manifestStage (c.resourceStage fs).2).1)
    (q : QString) : movesIn q x = false := by
  rw [List.mem_append, List.mem_cons] at hx
  rcases hx with (hx | hx) | hx
  · rw [hx]; rfl
  · rcases mem_resourceStage c fs hwf x hx with ⟨t, h⟩ | ⟨p, t, _, _, _, h⟩
    · rw [h]
      simp [movesIn]
      intro e
      exact absurd e (by decide)
    · rw [h]; rfl
  · rcases mem_manifestStage c fs x hx with h | ⟨t, _, _, h⟩
    · rw [h]
      simp [movesIn]
      intro e
      exact absurd e (by decide)
    · rw [h]; rfl

theorem pairwise_never {R : Event → Event → Prop} (l : List Event)
    (h : ∀ x ∈ l, ∀ y, R x y) : l.Pairwise R := by
  rw [List.pairwise_iff_forall_sublist]
  intro a b hab
  exact h a (hab.subset (by simp)) b

/-- No write into a smali directory follows the directory-structure event
or a step of the move of that directory. -/
theorem start_moves_pairwise (c : ApkCloner) (fs : FS) (hwf : fs.WF) :
    (c.start fs).1.Pairwise (fun x y => ∀ q, movesIn q x = true → writesIn q y = false) := by
  obtain ⟨done, rest, b, hd, _, hev⟩ := start_blocks c fs hwf
  have hnd : done.Nodup := by
    have := FS.smaliDirs_nodup fs hwf.1
    rw [hd] at this
    exact (List.nodup_append.mp this).1
  have hval : ∀ r ∈ done, validName r = true := by
    intro r hr
    exact FS.smaliDirs_valid fs hwf r (by rw [hd]; exact List.mem_append_left _ hr)
  rw [hev]
  have hfirst := movesIn_first_stages c fs hwf
  rw [List.pairwise_append]
  refine ⟨?_, by simp, ?_⟩
  · rw [List.pairwise_append]
    refine ⟨?_, ?_, ?_⟩
    · apply pairwise_never
      intro x hx y q hq
      rw [hfirst x hx q] at hq
      exact Bool.noConfusion hq
    · rw [List.pairwise_flatMap]
      refine ⟨fun r _ => rootEventsAt_pairwise c fs r, ?_⟩
      apply List.Nodup.pairwise_of_forall_ne hnd
      intro r1 h1 r2 _ hne x hx y hy q hq
      have hq1 := movesIn_rootEventsAt c fs r1 (hval r1 h1) x hx q hq
      rw [hq1]
      exact writesIn_rootEventsAt c fs r2 y hy r1 hne
    · intro x hx y _ q hq
      rw [hfirst x hx q] at hq
      exact Bool.noConfusion hq
  · intro x _ y hy q _
    simp only [List.mem_singleton] at hy
    rw [hy]; rfl

/-- The stages of the events of a run never go down. -/
theorem start_stage_pairwise (c : ApkCloner) (fs : FS) (hwf : fs.WF) :
    (c.start fs).1.Pairwise (fun x y => stageOf x ≤ stageOf y) := by
  obtain ⟨done, rest, b, hd, _, hev⟩ := start_blocks c fs hwf
  rw [hev]
  have h3 : ∀ e ∈ done.flatMap (c.rootEventsAt fs), stageOf e = 3 := by
    intro e he
    obtain ⟨r, hr, her⟩ := List.mem_flatMap.mp he
    exact stageOf_rootEventsAt c fs r (by rw [hd]; exact List.mem_append_left _ hr) e her
  have h1 := stageOf_resourceStage c fs hwf
  have h2 := stageOf_manifestStage c fs
  apply pairwise_of_stage stageOf 3
  · apply pairwise_of_stage stageOf 2
    · apply pairwise_of_stage stageOf 1
      · rw [List.pairwise_cons]
        refine ⟨fun y _ => Nat.zero_le _, pairwise_const stageOf 1 _ h1⟩
      · exact pairwise_const stageOf 2 _ h2
      · intro x hx
        rcases List.mem_cons.mp hx with hx | hx
        · rw [hx]; exact Nat.zero_le _
        · rw [h1 x hx]
      · intro y hy
        rw [h2 y hy]; decide
    · exact pairwise_const stageOf 3 _ h3
    · intro x hx
      rw [List.mem_append, List.mem_cons] at hx
      rcases hx with (hx | hx) | hx
      · rw [hx]; exact Nat.zero_le _
      · rw [h1 x hx]; decide
      · rw [h2 x hx]
    · intro y hy
      rw [h3 y hy]; decide
  · simp
  · intro x hx
    rw [List.mem_append, List.mem_append, List.mem_cons] at hx
    rcases hx with ((hx | hx) | hx) | hx
    · rw [hx]; exact Nat.zero_le _
    · rw [h1 x hx]; decide
    · rw [h2 x hx]; decide
    · rw [h3 x hx]
  · intro y hy
    simp only [List.mem_singleton] at hy
    rw [hy]; exact Nat.le_succ 3

/-- Claim C17. On a well-formed tree the events of a run are, in this
order: `started`; the events of the resource stage (resource progress
events and writes below `res/`); the single manifest progress event and the
writes to the manifest; then, for the smali directories reached, in
discovery order, the file-rewrite events of the directory (bytecode
progress events and writes below it), its directory-structure event and the
steps of its move; then the terminal signal. In particular no write into a
smali directory follows the directory-structure event or a step of the move
of that directory, and the stage of the events never goes down. -/
theorem C17_stage_order (contentsPath oldName newName : QString) (fs : FS) (hwf : fs.WF) :
    (∃ R M done rest b, fs.smaliDirs = done ++ rest ∧ (b = true → rest = [])
      ∧ ((ApkCloner.new contentsPath oldName newName).start fs).1
          = Event.started :: R ++ (Event.progressed trManifest manifestName :: M)
            ++ done.flatMap (fun r =>
                (ApkCloner.new contentsPath oldName newName).walkEventsAt fs r
                  ++ Event.progressed trStructure r
                    :: (ApkCloner.new contentsPath oldName newName).moveEventsAt fs r)
            ++ [Event.finished b]
      ∧ (∀ e ∈ R, (∃ x, e = Event.progressed trResources x)
          ∨ ∃ p d, FS.below [resName] p = true ∧ e = Event.written p d)
      ∧ (∀ e ∈ M, ∃ d, e = Event.written [manifestName] d)
      ∧ (∀ r ∈ done,
          (∀ e ∈ (ApkCloner.new contentsPath oldName newName).walkEventsAt fs r,
            (∃ x, e = Event.progressed trSmali x)
            ∨ ∃ p d, FS.below [r] p = true ∧ e = Event.written p d)
          ∧ (∀ e ∈ (ApkCloner.new contentsPath oldName newName).moveEventsAt fs r,
            (∃ d, e = Event.mkpath d ∧ headIs r d = true)
            ∨ ∃ src dst ok, e = Event.rename src dst ok ∧ headIs r src = true)))
    ∧ ((ApkCloner.new contentsPath oldName newName).start fs).1.Pairwise
        (fun x y => ∀ q, movesIn q x = true → writesIn q y = false)
    ∧ ((ApkCloner.new contentsPath oldName newName).start fs).1.Pairwise
        (fun x y => stageOf x ≤ stageOf y) := by
  refine ⟨?_, start_moves_pairwise _ fs hwf, start_stage_pairwise _ fs hwf⟩
  obtain ⟨done, rest, b, hd, hb, hev⟩ := start_blocks (ApkCloner.new contentsPath oldName newName) fs hwf
  refine ⟨((ApkCloner.new contentsPath oldName newName).resourceStage fs).1,
    (rewriteFile (ApkCloner.new contentsPath oldName newName).substName [manifestName]
      ((ApkCloner.new contentsPath oldName newName).resourceStage fs).2).1,
    done, rest, b, hd, hb, ?_, ?_, ?_, ?_⟩
  · rw [hev, manifestStage_eq]
    rfl
  · intro e he
    rcases mem_resourceStage _ fs hwf e he with ⟨x, hx⟩ | ⟨p, t, hb, _, _, hx⟩
    · exact Or.inl ⟨x, hx⟩
    · exact Or.inr ⟨p, _, hb, hx⟩
  · intro e he
    obtain ⟨t, _, _, h3⟩ := mem_rewriteFile _ _ _ _ he
    exact ⟨_, h3⟩
  · intro r hr
    have hv : validName r = true :=
      FS.smaliDirs_valid fs hwf r (by rw [hd]; exact List.mem_append_left _ hr)
    constructor
    · intro e he
      rcases mem_walkEventsAt _ fs r e he with ⟨x, hx⟩ | ⟨p, t, hb, _, _, hx⟩
      · exact Or.inl ⟨x, hx⟩
      · exact Or.inr ⟨p, _, hb, hx⟩
    · intro e he
      unfold ApkCloner.moveEventsAt at he
      split at he
      · simp only [List.mem_cons, List.mem_singleton, List.not_mem_nil, or_false] at he
        rcases he with he | he
        · exact Or.inl ⟨_, he, newParent_headIs _ r hv⟩
        · exact Or.inr ⟨_, _, _, he, oldDir_headIs _ r⟩
      · simp at he

theorem C17_stage_order_witness :
    (sampleCloner.start sampleTree).1.Pairwise
        (fun x y => ∀ q, movesIn q x = true → writesIn q y = false)
    ∧ (sampleCloner.start sampleTree).1.map stageOf = [0, 1, 1, 2, 2, 3, 3, 3, 3, 3, 4] :=
  ⟨(C17_stage_order "/tmp/apk".toList comExampleApp comExampleClone sampleTree (by decide)).2.1,
   by decide⟩

/-! ## The terminal result depends on the shape of the tree only -/

theorem FS.find_shape (fs : FS) (p : Path) :
    (fs.find p).map Node.isDirNode
      = (fs.shape.find? (fun e => decide (e.1 = p))).map Prod.snd := by
  unfold FS.find FS.shape
  rw [List.find?_map]
  simp only [Option.map_map]
  rfl

theorem FS.kind_of_shape (a b : FS) (h : a.shape = b.shape) (p : Path) :
    (a.find p).map Node.isDirNode = (b.find p).map Node.isDirNode := by
  rw [FS.find_shape, FS.find_shape, h]

theorem FS.pathExists_eq_kind (fs : FS) (p : Path) :
    fs.pathExists p = (p.isEmpty || ((fs.find p).map Node.isDirNode).isSome) := by
  unfold FS.pathExists
  cases fs.find p <;> rfl

theorem FS.isDir_eq_kind (fs : FS) (p : Path) :
    fs.isDir p = (p.isEmpty || decide ((fs.find p).map Node.isDirNode = some true)) := by
  unfold FS.isDir
  cases h : fs.find p with
  | none => simp
  | some n => cases n <;> simp [Node.isDirNode]

theorem FS.pathExists_of_shape (a b : FS) (h : a.shape = b.shape) (p : Path) :
    a.pathExists p = b.pathExists p := by
  rw [FS.pathExists_eq_kind, FS.pathExists_eq_kind, FS.kind_of_shape a b h]

theorem FS.isDir_of_shape (a b : FS) (h : a.shape = b.shape) (p : Path) :
    a.isDir p = b.isDir p := by
  rw [FS.isDir_eq_kind, FS.isDir_eq_kind, FS.kind_of_shape a b h]

theorem FS.paths_of_shape (fs : FS) : fs.entries.map Prod.fst = fs.shape.map Prod.fst := by
  unfold FS.shape
  rw [List.map_map]
  rfl

theorem FS.wf_of_shape (a b : FS) (h : a.shape = b.shape) (hwf : b.WF) : a.WF := by
  constructor
  · rw [FS.paths_of_shape, h, ← FS.paths_of_shape]; exact hwf.1
  · intro e he
    have hp : e.1 ∈ b.entries.map Prod.fst := by
      rw [FS.paths_of_shape, ← h, ← FS.paths_of_shape]
      exact List.mem_map_of_mem _ he
    obtain ⟨e2, he2, hp2⟩ := List.mem_map.mp hp
    have := hwf.2 e2 he2
    rw [hp2] at this
    exact ⟨this.1, this.2.1, by rw [FS.isDir_of_shape a b h]; exact this.2.2⟩

theorem FS.smaliDirs_shape (fs : FS) :
    fs.smaliDirs = fs.shape.filterMap (fun e =>
      match e with
      | ([name], true) => if FS.matchesSmali name then some name else none
      | _ => none) := by
  unfold FS.smaliDirs FS.shape
  rw [List.filterMap_map]
  congr 1
  funext e
  obtain ⟨p, n⟩ := e
  cases n with
  | dir =>
    cases p with
    | nil => rfl
    | cons a q => cases q <;> rfl
  | file t rw =>
    cases p with
    | nil => rfl
    | cons a q => cases q <;> rfl

theorem FS.smaliDirs_of_shape (a b : FS) (h : a.shape = b.shape) : a.smaliDirs = b.smaliDirs := by
  rw [FS.smaliDirs_shape, FS.smaliDirs_shape, h]

theorem FS.shape_restrict (fs : FS) (t : QString) :
    (fs.restrict t).shape = fs.shape.filter (fun e => headIs t e.1) := by
  unfold FS.restrict FS.top FS.shape
  simp only
  rw [List.filter_map]
  rfl

theorem rewriteNode_isDirNode (subst : QString → QString) (n : Node) :
    (rewriteNode subst n).isDirNode = n.isDirNode := by
  cases n with
  | dir => rfl
  | file t rw => cases rw <;> rfl

theorem FS.shape_rewriteUnder (fs : FS) (d : Path) (subst : QString → QString) :
    (fs.rewriteUnder d subst).shape = fs.shape := by
  unfold FS.rewriteUnder FS.shape
  simp only [List.map_map]
  apply List.map_congr_left
  intro e _
  simp only [Function.comp]
  split
  · simp [rewriteNode_isDirNode]
  · rfl

theorem walkedAt_shape (c : ApkCloner) (a b : FS) (h : a.shape = b.shape) (r : QString) :
    (c.walkedAt a r).shape = (c.walkedAt b r).shape := by
  unfold ApkCloner.walkedAt
  rw [FS.shape_rewriteUnder, FS.shape_rewriteUnder, FS.shape_restrict, FS.shape_restrict, h]

theorem FS.find_dir_of_kind (fs : FS) (p : Path)
    (h : (fs.find p).map Node.isDirNode = some true) : fs.find p = some Node.dir := by
  cases hf : fs.find p with
  | none => rw [hf] at h; simp at h
  | some n =>
    rw [hf] at h
    cases n with
    | dir => rfl
    | file t rw => simp [Node.isDirNode] at h

theorem FS.mkpathFrom_shape :
    ∀ (segs : List QString) (a b : FS) (done : Path), a.shape = b.shape → a.canCreate = b.canCreate →
      (a.mkpathFrom done segs).shape = (b.mkpathFrom done segs).shape := by
  intro segs
  induction segs with
  | nil => intro a b done h _; exact h
  | cons s rest ih =>
    intro a b done h hc
    have hk := FS.kind_of_shape a b h (done ++ [s])
    rw [FS.mkpathFrom, FS.mkpathFrom]
    cases ha : a.find (done ++ [s]) with
    | none =>
      rw [ha] at hk
      cases hb : b.find (done ++ [s]) with
      | some n => rw [hb] at hk; simp at hk
      | none =>
        dsimp only
        rw [← hc]
        by_cases hcc : a.canCreate = true
        · rw [if_pos hcc, if_pos hcc]
          apply ih
          · unfold FS.shape
            simp only [List.map_append]
            congr 1
          · rfl
        · rw [if_neg hcc, if_neg hcc]; exact h
    | some n =>
      rw [ha] at hk
      cases hb : b.find (done ++ [s]) with
      | none => rw [hb] at hk; simp at hk
      | some m =>
        rw [hb] at hk
        simp only [Option.map_some', Option.some.injEq] at hk
        cases n with
        | dir =>
          cases m with
          | dir => exact ih _ _ _ h hc
          | file t rw => simp [Node.isDirNode] at hk
        | file t rw =>
          cases m with
          | dir => simp [Node.isDirNode] at hk
          | file t2 rw2 => exact h

theorem FS.rename_isSome_of_shape (a b : FS) (h : a.shape = b.shape) (hl : a.locked = b.locked)
    (src dst : Path) : (a.rename src dst).isSome = (b.rename src dst).isSome := by
  unfold FS.rename
  rw [FS.pathExists_of_shape a b h, FS.pathExists_of_shape a b h, FS.isDir_of_shape a b h, hl]
  split <;> rfl

theorem movedAt_isSome_of_shape (c : ApkCloner) (a b : FS) (h : a.shape = b.shape)
    (he : a.sameEnv b) (r : QString) : (c.movedAt a r).isSome = (c.movedAt b r).isSome := by
  unfold ApkCloner.movedAt FS.mkpath
  apply FS.rename_isSome_of_shape
  · apply FS.mkpathFrom_shape
    · exact walkedAt_shape c a b h r
    · exact he.2
  · have h1 := (FS.mkpathFrom_sameEnv (c.newParent r) (c.walkedAt a r) []).1
    have h2 := (FS.mkpathFrom_sameEnv (c.newParent r) (c.walkedAt b r) []).1
    rw [h1, h2]
    exact he.1

theorem loopAt_of_shape (c : ApkCloner) (a b : FS) (hwf : b.WF) (h : a.shape = b.shape)
    (he : a.sameEnv b) : (c.loopAt a a.smaliDirs).2 = (c.loopAt b b.smaliDirs).2 := by
  have hwfa := FS.wf_of_shape a b h hwf
  rw [FS.smaliDirs_of_shape a b h]
  have key : ∀ r ∈ b.smaliDirs, (c.stepAt a r).2.2 = (c.stepAt b r).2.2 := by
    intro r hr
    have hv := FS.smaliDirs_valid b hwf r hr
    have ha := stepAt_ok_iff c a hwfa r hv
    have hb := stepAt_ok_iff c b hwf r hv
    rw [FS.pathExists_of_shape a b h] at ha
    have hm := movedAt_isSome_of_shape c a b h he r
    have hm2 : c.movedAt a r = none ↔ c.movedAt b r = none := by
      cases h1 : c.movedAt a r <;> cases h2 : c.movedAt b r <;> simp_all
    rw [hm2, ← hb] at ha
    cases h1 : (c.stepAt a r).2.2 <;> cases h2 : (c.stepAt b r).2.2 <;> simp_all
  have h1 := loopAt_true_iff c a b.smaliDirs
  have h2 := loopAt_true_iff c b b.smaliDirs
  have h3 : (∀ r ∈ b.smaliDirs, (c.stepAt a r).2.2 = true) ↔
      (∀ r ∈ b.smaliDirs, (c.stepAt b r).2.2 = true) := by
    constructor
    · intro hh r hr; rw [← key r hr]; exact hh r hr
    · intro hh r hr; rw [key r hr]; exact hh r hr
  rw [h3, ← h2] at h1
  cases x : (c.loopAt a b.smaliDirs).2 <;> cases y : (c.loopAt b b.smaliDirs).2 <;> simp_all

/-- Two trees of the same shape in the same environment end with the same
terminal signal. -/
theorem start_finished_shape (c : ApkCloner) (a b : FS) (hwf : b.WF) (h : a.shape = b.shape)
    (he : a.sameEnv b) (x : Bool) :
    Event.finished x ∈ (c.start a).1 ↔ Event.finished x ∈ (c.start b).1 := by
  have hwfa := FS.wf_of_shape a b h hwf
  have hl := loopAt_of_shape c a b hwf h he
  cases x
  · rw [start_finished_false_iff c a hwfa, start_finished_false_iff c b hwf, hl]
  · rw [start_finished_true_iff c a hwfa, start_finished_true_iff c b hwf, hl]

theorem anyAccess_isDirNode (n : Node) : n.anyAccess.isDirNode = n.isDirNode := by
  cases n <;> rfl

theorem FS.shape_of_sameButAccess (a b : FS) (h : a.sameButAccess b) : a.shape = b.shape := by
  have h1 := congrArg (List.map (fun e : Path × Node => (e.1, e.2.isDirNode))) h.1
  simp only [List.map_map] at h1
  unfold FS.shape
  have e : ((fun e : Path × Node => (e.1, e.2.isDirNode)) ∘ fun e => (e.1, e.2.anyAccess))
      = fun e : Path × Node => (e.1, e.2.isDirNode) := by
    funext e
    simp [anyAccess_isDirNode]
  rw [e] at h1
  exact h1

/-- Claim C20. On a well-formed tree the terminal result is determined by
the directory moves alone: `finished(false)` is emitted if and only if some
`rename` returned false, `finished(true)` if and only if none did, and
every `rename` the job calls is the move of an old-package subdirectory
that exists. A tree that differs only in which files open (same entries,
same texts, same environment) gives the same terminal result. -/
theorem C20_result_by_moves_alone (contentsPath oldName newName : QString) (fs : FS)
    (hwf : fs.WF) :
    (Event.finished false ∈ ((ApkCloner.new contentsPath oldName newName).start fs).1 ↔
        ∃ src dst, Event.rename src dst false
          ∈ ((ApkCloner.new contentsPath oldName newName).start fs).1)
    ∧ (Event.finished true ∈ ((ApkCloner.new contentsPath oldName newName).start fs).1 ↔
        ∀ src dst, Event.rename src dst false
          ∉ ((ApkCloner.new contentsPath oldName newName).start fs).1)
    ∧ (∀ src dst ok, Event.rename src dst ok
          ∈ ((ApkCloner.new contentsPath oldName newName).start fs).1 →
        fs.pathExists src = true
        ∧ ∃ r ∈ fs.smaliDirs, src = (ApkCloner.new contentsPath oldName newName).oldDir r)
    ∧ (∀ fs2 : FS, fs2.sameButAccess fs → ∀ b,
        (Event.finished b ∈ ((ApkCloner.new contentsPath oldName newName).start fs2).1 ↔
          Event.finished b ∈ ((ApkCloner.new contentsPath oldName newName).start fs).1)) := by
  have hr := start_result (ApkCloner.new contentsPath oldName newName) fs hwf
  refine ⟨hr.2, hr.1, ?_, ?_⟩
  · intro src dst ok h
    obtain ⟨pre, r, post, hd, _, hs, _, hx, _⟩ := start_rename _ fs hwf src dst ok h
    refine ⟨by rw [hs]; exact hx, r, ?_, hs⟩
    rw [hd]; simp
  · intro fs2 h2 b
    exact start_finished_shape _ fs2 fs hwf (FS.shape_of_sameButAccess fs2 fs h2) ⟨h2.2.1, h2.2.2⟩ b

theorem C20_result_by_moves_alone_witness :
    shutSmaliTree.sameButAccess sampleTree
    ∧ (Event.finished true ∈ (sampleCloner.start shutSmaliTree).1 ↔
        Event.finished true ∈ (sampleCloner.start sampleTree).1) :=
  ⟨by decide,
   (C20_result_by_moves_alone "/tmp/apk".toList comExampleApp comExampleClone sampleTree
      (by decide)).2.2.2 shutSmaliTree (by decide) true⟩

/-! ## What the job leaves of the entries it found -/

theorem rewriteFile_missing (subst : QString → QString) (p : Path) (fs : FS)
    (h : fs.find p = none) :
    (rewriteFile subst p fs).2 =
      if fs.canCreate && fs.isDir p.dropLast then
        { fs with entries := fs.entries ++ [(p, Node.file (subst []) true)] }
      else fs := by
  unfold rewriteFile FS.openReadWrite
  rw [h]
  dsimp only
  by_cases hc : (fs.canCreate && fs.isDir p.dropLast) = true
  · rw [if_pos hc, if_pos hc]
    dsimp only
    have hno : ∀ e ∈ fs.entries, e.1 ≠ p := (lookupNode_eq_none_iff _ _).mp h
    by_cases hs : subst [] = []
    · rw [if_neg (by simpa using hs), hs]
    · rw [if_pos (by simpa using hs)]
      unfold FS.write
      simp only [List.map_append, List.map_cons, List.map_nil, if_true]
      congr 2
      conv => rhs; rw [← List.map_id fs.entries]
      apply List.map_congr_left
      intro e he
      rw [if_neg (hno e he)]
      rfl
  · rw [if_neg hc, if_neg hc]

theorem lookupNode_append_some (l x : List (Path × Node)) (q : Path) (n : Node)
    (h : lookupNode l q = some n) : lookupNode (l ++ x) q = some n := by
  rw [lookupNode_append, h]; rfl

/-- The shared rewrite block leaves every entry it found where it was; only
the node at `p` is rewritten. -/
theorem rewriteFile_find (subst : QString → QString) (p : Path) (fs : FS)
    (hnd : (fs.entries.map Prod.fst).Nodup) (q : Path) (n : Node) (h : fs.find q = some n) :
    (rewriteFile subst p fs).2.find q = some (if q = p then rewriteNode subst n else n) := by
  cases hp : fs.find p with
  | some m =>
    rw [rewriteFile_eq subst p fs hnd m hp]
    rw [FS.find_eq]
    dsimp only
    rw [lookupNode_map _ _ (by intro e; split <;> rfl)]
    rw [FS.find_eq, lookupNode] at h
    cases hf : List.find? (fun e => decide (e.1 = q)) fs.entries with
    | none => rw [hf] at h; simp at h
    | some e =>
      rw [hf] at h
      simp only [Option.map_some', Option.some.injEq] at h
      have h2 := List.find?_some hf
      simp only [decide_eq_true_eq] at h2
      simp only [Option.map_some', h2]
      split
      · rw [h]
      · rw [h]
  | none =>
    have hqp : q ≠ p := by
      intro e; rw [e, hp] at h; exact Option.noConfusion h
    rw [rewriteFile_missing subst p fs hp, if_neg hqp]
    split
    · exact lookupNode_append_some _ _ _ _ h
    · exact h

theorem FS.rewriteUnder_nodup (fs : FS) (d : Path) (subst : QString → QString)
    (hnd : (fs.entries.map Prod.fst).Nodup) :
    ((fs.rewriteUnder d subst).entries.map Prod.fst).Nodup := by
  rw [FS.paths_of_shape, FS.shape_rewriteUnder, ← FS.paths_of_shape]
  exact hnd

/-- What the first two stages make of an entry. -/
theorem afterManifest_find (c : ApkCloner) (fs : FS) (hwf : fs.WF) (q : Path) (n : Node)
    (h : fs.find q = some n) :
    (c.afterManifest fs).find q =
      some (if FS.below [resName] q = true ∨ q = [manifestName] then rewriteNode c.substName n
        else n) := by
  unfold ApkCloner.afterManifest
  rw [manifestStage_eq, resourceStage_eq c fs hwf.1]
  dsimp only
  have h1 : (fs.rewriteUnder [resName] c.substName).find q
      = some (if FS.below [resName] q then rewriteNode c.substName n else n) := by
    rw [FS.find_rewriteUnder, h]; rfl
  rw [rewriteFile_find _ _ _ (FS.rewriteUnder_nodup fs _ _ hwf.1) q _ h1]
  by_cases hb : FS.below [resName] q = true
  · have hqm : q ≠ [manifestName] := by
      intro e
      rw [e] at hb
      exact absurd hb (by decide)
    simp [hb, hqm]
  · by_cases hqm : q = [manifestName]
    · rw [hqm] at hb
      simp [hb, hqm]
    · simp [hb, hqm]

theorem FS.find_nil (fs : FS) (hwf : fs.WF) : fs.find [] = none := by
  rw [FS.find_eq, lookupNode_eq_none_iff]
  intro e he
  exact (hwf.2 e he).1

theorem headIs_head (t : QString) (q : Path) : headIs t (t :: q) = true := by
  rw [headIs_cons]; simp

/-! ## A job whose source and target identifiers are equal -/

theorem replaceScan_same (a : QString) (hne : a ≠ []) :
    ∀ (n : Nat) (s : QString), s.length ≤ n → replaceScan a a 0 s = s := by
  intro n
  induction n with
  | zero =>
    intro s hs
    have : s = [] := List.length_eq_zero.mp (Nat.le_zero.mp hs)
    rw [this]; rfl
  | succ n ih =>
    intro s hs
    cases s with
    | nil => rfl
    | cons ch cs =>
      by_cases hp : a <+: ch :: cs
      · obtain ⟨rest, hrest⟩ := hp
        rw [← hrest, replaceScan_hit a a rest hne]
        congr 1
        apply ih
        have hl : (a ++ rest).length = (ch :: cs).length := by rw [hrest]
        rw [List.length_append] at hl
        have ha : 0 < a.length := List.length_pos.mpr hne
        omega
      · rw [replaceScan_miss a a ch cs hp]
        congr 1
        apply ih
        simp only [List.length_cons] at hs
        omega

theorem qReplace_same (s a : QString) : qReplace s a a = s := by
  unfold qReplace
  by_cases ha : a = []
  · rw [if_pos ha, if_pos ha]
  · rw [if_neg ha]
    exact replaceScan_same a ha s.length s (Nat.le_refl _)

theorem substName_same (contentsPath name : QString) (t : QString) :
    (ApkCloner.new contentsPath name name).substName t = t :=
  qReplace_same t name

theorem substSmali_same (contentsPath name : QString) (t : QString) :
    (ApkCloner.new contentsPath name name).substSmali t = t := by
  unfold ApkCloner.substSmali
  show qReplace (qReplace t ('L' :: replaceChar '.' '/' name) ('L' :: replaceChar '.' '/' name))
    name name = t
  rw [qReplace_same, qReplace_same]

theorem rewriteNode_id (subst : QString → QString) (h : ∀ t, subst t = t) (n : Node) :
    rewriteNode subst n = n := by
  cases n with
  | dir => rfl
  | file t rw => exact rewriteNode_same subst t rw (h t)

theorem FS.rename_self (fs : FS) (p : Path) : fs.rename p p = none := by
  unfold FS.rename
  cases h : fs.pathExists p <;> simp

theorem movedAt_same (contentsPath name : QString) (fs : FS) (r : QString) :
    (ApkCloner.new contentsPath name name).movedAt fs r = none :=
  FS.rename_self _ _

/-- The final node of an entry of a smali directory in a run without a
successful move of that directory. -/
theorem start_find_unmoved (c : ApkCloner) (fs : FS) (hwf : fs.WF) (r : QString)
    (hr : r ∈ fs.smaliDirs) (hm : fs.pathExists (c.oldDir r) = false ∨ c.movedAt fs r = none)
    (p : Path) (hp : headIs r p = true) (n : Node) (hn : fs.find p = some n) :
    (c.start fs).2.find p = some n ∨ (c.start fs).2.find p = some (rewriteNode c.substSmali n) := by
  obtain ⟨pre, post, hd⟩ := List.append_of_mem hr
  cases hpre : (c.loopAt fs pre).2 with
  | false =>
    left
    rw [start_find_unreached c fs hwf pre r post hd hpre p hp]
    exact hn
  | true =>
    right
    rw [start_find_reached c fs hwf pre r post hd hpre p hp]
    exact stepAt_find_unmoved c fs hwf r hr hm p hp n hn

/-- The final node of an entry outside the smali directories. -/
theorem start_find_outside (c : ApkCloner) (fs : FS) (hwf : fs.WF) (t : QString) (q : Path)
    (ht : t ∉ fs.smaliDirs) (n : Node) (h : fs.find (t :: q) = some n) :
    (c.start fs).2.find (t :: q) =
      some (if FS.below [resName] (t :: q) = true ∨ t :: q = [manifestName]
        then rewriteNode c.substName n else n) := by
  rw [start_find_other c fs hwf t _ ht (headIs_head t q)]
  exact afterManifest_find c fs hwf _ n h

/-- Claim C15, the counterexample. With the source and the target
identifier equal and the package subdirectory present in a smali directory,
the job moves the subdirectory onto itself, the move fails and the terminal
result is failure. -/
theorem C15_counterexample :
    sameNameCloner.originalPackageName = sameNameCloner.newPackageName
    ∧ sampleTree.WF
    ∧ Event.rename ["smali".toList, "com".toList, "example".toList, "app".toList]
        ["smali".toList, "com".toList, "example".toList, "app".toList] false
        ∈ (sameNameCloner.start sampleTree).1
    ∧ (sameNameCloner.start sampleTree).1.getLast? = some (Event.finished false)
    ∧ Event.finished true ∉ (sameNameCloner.start sampleTree).1 := by
  decide

/-- Claim C15, amended. When the source and the target identifier are
equal, on a well-formed tree no file's contents are written, every entry of
the tree stays where it was with the node it had, and no directory is
moved; the terminal result is success exactly when no smali directory holds
the package subdirectory, and failure exactly when one does (the move of
the subdirectory onto itself fails). -/
theorem C15_same_identifier (contentsPath name : QString) (fs : FS) (hwf : fs.WF) :
    (∀ p data, Event.written p data ∉ ((ApkCloner.new contentsPath name name).start fs).1)
    ∧ (∀ p n, fs.find p = some n →
        ((ApkCloner.new contentsPath name name).start fs).2.find p = some n)
    ∧ (∀ src dst, Event.rename src dst true ∉ ((ApkCloner.new contentsPath name name).start fs).1)
    ∧ (Event.finished true ∈ ((ApkCloner.new contentsPath name name).start fs).1 ↔
        ∀ r ∈ fs.smaliDirs,
          fs.pathExists ((ApkCloner.new contentsPath name name).oldDir r) = false)
    ∧ (Event.finished false ∈ ((ApkCloner.new contentsPath name name).start fs).1 ↔
        ∃ r ∈ fs.smaliDirs,
          fs.pathExists ((ApkCloner.new contentsPath name name).oldDir r) = true) := by
  have hN := substName_same contentsPath name
  have hS := substSmali_same contentsPath name
  have hstep : ∀ r ∈ fs.smaliDirs,
      ((ApkCloner.new contentsPath name name).stepAt fs r).2.2 = false ↔
        fs.pathExists ((ApkCloner.new contentsPath name name).oldDir r) = true := by
    intro r hr
    rw [stepAt_ok_iff _ fs hwf r (FS.smaliDirs_valid fs hwf r hr)]
    simp [movedAt_same]
  refine ⟨?_, ?_, ?_, ?_, ?_⟩
  · intro p data h
    rcases start_written _ fs hwf p data h with ⟨_, t, _, hc, _⟩ | ⟨_, t, _, hc, _⟩ |
      ⟨r, _, _, t, _, hc, _⟩
    · exact hc (hN t)
    · exact hc (hN t)
    · exact hc (hS t)
  · intro p n hn
    cases p with
    | nil => rw [FS.find_nil fs hwf] at hn; exact Option.noConfusion hn
    | cons t q =>
      by_cases ht : t ∈ fs.smaliDirs
      · rcases start_find_unmoved _ fs hwf t ht (Or.inr (movedAt_same contentsPath name fs t))
          (t :: q) (headIs_head t q) n hn with h | h
        · exact h
        · rw [h, rewriteNode_id _ hS]
      · rw [start_find_outside _ fs hwf t q ht n hn, rewriteNode_id _ hN]
        simp
  · intro src dst h
    obtain ⟨pre, r, post, _, _, _, _, _, hb⟩ := start_rename _ fs hwf src dst true h
    rw [movedAt_same] at hb
    exact Bool.noConfusion hb
  · rw [start_finished_true_iff _ fs hwf, loopAt_true_iff]
    constructor
    · intro h r hr
      have := hstep r hr
      cases hx : fs.pathExists ((ApkCloner.new contentsPath name name).oldDir r)
      · rfl
      · have h2 := h r hr
        rw [this.mpr hx] at h2
        exact Bool.noConfusion h2
    · intro h r hr
      have := hstep r hr
      cases hx : ((ApkCloner.new contentsPath name name).stepAt fs r).2.2
      · have h2 := h r hr
        rw [this.mp hx] at h2
        exact Bool.noConfusion h2
      · rfl
  · rw [start_finished_false_iff _ fs hwf]
    constructor
    · intro h
      obtain ⟨pre, r, post, hd, _, hf, _⟩ := loopAt_false _ fs _ h
      have hr : r ∈ fs.smaliDirs := by rw [hd]; simp
      exact ⟨r, hr, (hstep r hr).mp hf⟩
    · rintro ⟨r, hr, hx⟩
      cases hl : ((ApkCloner.new contentsPath name name).loopAt fs fs.smaliDirs).2
      · rfl
      · have := (loopAt_true_iff _ fs fs.smaliDirs).mp hl r hr
        rw [(hstep r hr).mpr hx] at this
        exact Bool.noConfusion this

theorem C15_same_identifier_witness :
    (∀ p data, Event.written p data ∉ (sameNameCloner.start sampleTree).1)
    ∧ (Event.finished false ∈ (sameNameCloner.start sampleTree).1 ↔
        ∃ r ∈ sampleTree.smaliDirs, sampleTree.pathExists (sameNameCloner.oldDir r) = true) :=
  ⟨(C15_same_identifier "/tmp/apk".toList comExampleApp sampleTree (by decide)).1,
   (C15_same_identifier "/tmp/apk".toList comExampleApp sampleTree (by decide)).2.2.2.2⟩

/-! ## The job keeps the tree well formed -/

theorem FS.find_append (fs : FS) (x : List (Path × Node)) (q : Path) :
    FS.find { fs with entries := fs.entries ++ x } q = (fs.find q).or (lookupNode x q) := by
  rw [FS.find_eq, FS.find_eq]
  exact lookupNode_append _ _ _

theorem FS.isDir_append (fs : FS) (x : List (Path × Node)) (p : Path) (h : fs.isDir p = true) :
    FS.isDir { fs with entries := fs.entries ++ x } p = true := by
  unfold FS.isDir at *
  cases p with
  | nil => rfl
  | cons a q =>
    simp only [List.isEmpty_cons, Bool.false_or, decide_eq_true_eq] at h ⊢
    rw [FS.find_append, h]
    rfl

theorem FS.wf_append (fs : FS) (hwf : fs.WF) (p : Path) (n : Node) (hp : fs.find p = none)
    (hne : p ≠ []) (hv : ∀ s ∈ p, validName s = true) (hd : fs.isDir p.dropLast = true) :
    FS.WF { fs with entries := fs.entries ++ [(p, n)] } := by
  have hno : ∀ e ∈ fs.entries, e.1 ≠ p := (lookupNode_eq_none_iff _ _).mp hp
  constructor
  · simp only [List.map_append, List.map_cons, List.map_nil]
    rw [List.nodup_append]
    refine ⟨hwf.1, List.nodup_singleton _, ?_⟩
    intro a ha hb
    simp only [List.mem_singleton] at hb
    obtain ⟨e, he, hea⟩ := List.mem_map.mp ha
    exact hno e he (by rw [hea, hb])
  · intro e he
    simp only [List.mem_append, List.mem_singleton] at he
    rcases he with he | he
    · have := hwf.2 e he
      exact ⟨this.1, this.2.1, FS.isDir_append fs _ _ this.2.2⟩
    · rw [he]
      exact ⟨hne, hv, FS.isDir_append fs _ _ hd⟩

theorem FS.wf_map (fs : FS) (hwf : fs.WF) (f : Path × Node → Path × Node)
    (hf : ∀ e, (f e).1 = e.1 ∧ (f e).2.isDirNode = e.2.isDirNode) :
    FS.WF { fs with entries := fs.entries.map f } := by
  apply FS.wf_of_shape _ fs _ hwf
  unfold FS.shape
  simp only [List.map_map]
  apply List.map_congr_left
  intro e _
  simp only [Function.comp, (hf e).1, (hf e).2]

theorem rewriteFile_wf (subst : QString → QString) (p : Path) (fs : FS) (hwf : fs.WF)
    (hne : p ≠ []) (hv : ∀ s ∈ p, validName s = true) : (rewriteFile subst p fs).2.WF := by
  cases hp : fs.find p with
  | some m =>
    rw [rewriteFile_eq subst p fs hwf.1 m hp]
    apply FS.wf_map fs hwf
    intro e
    split
    · exact ⟨rfl, rewriteNode_isDirNode _ _⟩
    · exact ⟨rfl, rfl⟩
  | none =>
    rw [rewriteFile_missing subst p fs hp]
    split
    · rename_i hc
      simp only [Bool.and_eq_true] at hc
      exact FS.wf_append fs hwf p _ hp hne hv hc.2
    · exact hwf

theorem resourceStage_wf (c : ApkCloner) (fs : FS) (hwf : fs.WF) : (c.resourceStage fs).2.WF := by
  rw [resourceStage_eq c fs hwf.1]
  exact FS.wf_of_shape _ fs (FS.shape_rewriteUnder _ _ _) hwf

theorem afterManifest_wf (c : ApkCloner) (fs : FS) (hwf : fs.WF) : (c.afterManifest fs).WF := by
  unfold ApkCloner.afterManifest
  rw [manifestStage_eq]
  apply rewriteFile_wf _ _ _ (resourceStage_wf c fs hwf)
  · simp
  · intro s hs
    simp only [List.mem_singleton] at hs
    rw [hs]; decide

theorem FS.mkpathFrom_wf :
    ∀ (segs : List QString) (fs : FS) (done : Path), fs.WF → fs.isDir done = true →
      (∀ s ∈ done, validName s = true) → (∀ s ∈ segs, validName s = true) →
      (fs.mkpathFrom done segs).WF := by
  intro segs
  induction segs with
  | nil => intro fs done hwf _ _ _; exact hwf
  | cons s rest ih =>
    intro fs done hwf hd hvd hvs
    have hvr : ∀ x ∈ rest, validName x = true := fun x hx => hvs x (List.mem_cons_of_mem _ hx)
    have hvn : ∀ x ∈ done ++ [s], validName x = true := by
      intro x hx
      rcases List.mem_append.mp hx with h | h
      · exact hvd x h
      · simp only [List.mem_singleton] at h
        rw [h]; exact hvs s (List.mem_cons_self _ _)
    rw [FS.mkpathFrom]
    cases hf : fs.find (done ++ [s]) with
    | some n =>
      cases n with
      | dir =>
        apply ih fs (done ++ [s]) hwf _ hvn hvr
        unfold FS.isDir
        rw [hf]; simp
      | file t rw => exact hwf
    | none =>
      dsimp only
      split
      · apply ih _ (done ++ [s]) _ _ hvn hvr
        · apply FS.wf_append fs hwf _ _ hf (by simp) hvn
          rw [List.dropLast_concat]
          exact hd
        · unfold FS.isDir
          rw [FS.find_append_dir fs _ _ hf, if_pos rfl]
          simp
      · exact hwf

theorem FS.mkpath_wf (fs : FS) (hwf : fs.WF) (d : Path) (hv : ∀ s ∈ d, validName s = true) :
    (fs.mkpath d).WF :=
  FS.mkpathFrom_wf d fs [] hwf rfl (by simp) hv

theorem segments_valid (x : QString) : ∀ s ∈ segments x, validName s = true := by
  intro s hs
  unfold segments at hs
  rw [List.mem_filter] at hs
  obtain ⟨hm, hne⟩ := hs
  simp only [ne_eq, decide_not, Bool.not_eq_true', decide_eq_false_iff_not] at hne
  rw [validName_iff]
  refine ⟨hne, ?_⟩
  clear hne
  induction x generalizing s with
  | nil =>
    simp only [splitSlash, List.mem_singleton] at hm
    rw [hm]; simp
  | cons ch cs ih =>
    rw [splitSlash] at hm
    by_cases hc : ch = '/'
    · rw [if_pos hc] at hm
      rcases List.mem_cons.mp hm with h | h
      · rw [h]; simp
      · exact ih s h
    · rw [if_neg hc] at hm
      cases hsp : splitSlash cs with
      | nil =>
        rw [hsp] at hm
        simp only [List.mem_singleton] at hm
        rw [hm]
        simp only [List.mem_singleton]
        exact fun e => hc e.symm
      | cons a as =>
        rw [hsp] at hm
        rcases List.mem_cons.mp hm with h | h
        · rw [h]
          intro hmem
          rcases List.mem_cons.mp hmem with h2 | h2
          · exact hc h2.symm
          · exact ih a (by rw [hsp]; exact List.mem_cons_self _ _) h2
        · exact ih s (by rw [hsp]; exact List.mem_cons_of_mem _ h)

theorem FS.dir_of_isDir (fs : FS) (p : Path) (hne : p ≠ []) (h : fs.isDir p = true) :
    fs.find p = some Node.dir := by
  unfold FS.isDir at h
  cases p with
  | nil => exact absurd rfl hne
  | cons a q => simpa using h

theorem FS.isDir_of_dir (fs : FS) (p : Path) (h : fs.find p = some Node.dir) :
    fs.isDir p = true := by
  unfold FS.isDir
  rw [h]; simp

theorem prefix_dropLast (q p : Path) (h : q <+: p.dropLast) : q <+: p :=
  h.trans (List.dropLast_prefix p)

theorem FS.rename_wf (fs fs2 : FS) (hwf : fs.WF) (src dst : Path)
    (h : fs.rename src dst = some fs2) (hv : ∀ s ∈ dst, validName s = true) : fs2.WF := by
  have hcl := FS.closed_of_wf fs hwf
  obtain ⟨hsrc, hdst, hpar, hnp, _, heq⟩ := fs.rename_some fs2 src dst h
  have hdne : dst ≠ [] := by
    intro e; rw [e] at hdst; exact Bool.noConfusion hdst
  have hsne : src ≠ [] := by
    intro e; rw [e] at hnp; simp at hnp
  have hnodst : ∀ q, fs.find q ≠ none → ¬ dst <+: q := by
    intro q hq hp
    have := hcl q dst hq hp
    rw [hdst] at this
    exact Bool.noConfusion this
  have hnsd : ¬ src <+: dst := by
    intro hp
    rw [List.isPrefixOf_iff_prefix.mpr hp] at hnp
    exact Bool.noConfusion hnp
  have hfind : ∀ e ∈ fs.entries, fs.find e.1 ≠ none := fun e he => fs.find_ne_none_of_mem e he
  rw [heq]
  constructor
  · -- no path is listed twice
    simp only [List.map_map]
    have hmap : (fs.entries.map ((Prod.fst : Path × Node → Path) ∘ fun e =>
          if src.isPrefixOf e.1 then (dst ++ e.1.drop src.length, e.2) else e))
        = (fs.entries.map Prod.fst).map (fun q =>
          if src.isPrefixOf q then dst ++ q.drop src.length else q) := by
      rw [List.map_map]
      apply List.map_congr_left
      intro e _
      simp only [Function.comp]
      split <;> rfl
    rw [hmap]
    apply List.Nodup.map_on _ hwf.1
    intro x hx y hy hxy
    obtain ⟨ex, hex, hex2⟩ := List.mem_map.mp hx
    obtain ⟨ey, hey, hey2⟩ := List.mem_map.mp hy
    have hfx : fs.find x ≠ none := by rw [← hex2]; exact hfind ex hex
    have hfy : fs.find y ≠ none := by rw [← hey2]; exact hfind ey hey
    by_cases hpx : src.isPrefixOf x = true
    · by_cases hpy : src.isPrefixOf y = true
      · rw [if_pos hpx, if_pos hpy] at hxy
        have hd := List.append_cancel_left hxy
        obtain ⟨x2, hx2⟩ := List.isPrefixOf_iff_prefix.mp hpx
        obtain ⟨y2, hy2⟩ := List.isPrefixOf_iff_prefix.mp hpy
        rw [← hx2, ← hy2] at hd ⊢
        simp only [List.drop_left] at hd
        rw [hd]
      · rw [if_pos hpx, if_neg hpy] at hxy
        exact absurd ⟨_, hxy⟩ (hnodst y hfy)
    · by_cases hpy : src.isPrefixOf y = true
      · rw [if_neg hpx, if_pos hpy] at hxy
        exact absurd ⟨_, hxy.symm⟩ (hnodst x hfx)
      · rw [if_neg hpx, if_neg hpy] at hxy
        exact hxy
  · intro e he
    obtain ⟨e0, he0, hee⟩ := List.mem_map.mp he
    have hw0 := hwf.2 e0 he0
    by_cases hp : src.isPrefixOf e0.1 = true
    · rw [if_pos hp] at hee
      obtain ⟨x, hx⟩ := List.isPrefixOf_iff_prefix.mp hp
      have hdrop : e0.1.drop src.length = x := by rw [← hx]; simp
      rw [hdrop] at hee
      rw [← hee]
      dsimp only
      refine ⟨by simp [hdne], ?_, ?_⟩
      · intro s hs
        rcases List.mem_append.mp hs with h1 | h1
        · exact hv s h1
        · exact hw0.2.1 s (by rw [← hx]; exact List.mem_append_right _ h1)
      · by_cases hxe : x = []
        · rw [hxe, List.append_nil]
          by_cases hdl : dst.dropLast = []
          · rw [hdl]; rfl
          · apply FS.isDir_of_dir
            have hd0 := fs.dir_of_isDir _ hdl hpar
            rw [← heq, FS.rename_find_other fs fs2 src dst h _ ?_ ?_]
            · exact hd0
            · intro hh; exact hnsd (prefix_dropLast _ _ hh)
            · intro hh
              have hl := hh.length_le
              rw [List.length_dropLast] at hl
              have : 0 < dst.length := List.length_pos.mpr hdne
              omega
        · rw [List.dropLast_append_of_ne_nil _ hxe]
          apply FS.isDir_of_dir
          rw [← heq, FS.rename_find_moved fs fs2 src dst hcl h]
          have hp0 := hw0.2.2
          rw [← hx, List.dropLast_append_of_ne_nil _ hxe] at hp0
          exact fs.dir_of_isDir _ (by simp [hsne]) hp0
    · rw [if_neg hp] at hee
      rw [← hee]
      refine ⟨hw0.1, hw0.2.1, ?_⟩
      by_cases hdl : e0.1.dropLast = []
      · rw [hdl]; rfl
      · apply FS.isDir_of_dir
        have hd0 := fs.dir_of_isDir _ hdl hw0.2.2
        rw [← heq, FS.rename_find_other fs fs2 src dst h _ ?_ ?_]
        · exact hd0
        · intro hh
          exact hp (List.isPrefixOf_iff_prefix.mpr (prefix_dropLast _ _ hh))
        · intro hh
          exact hnodst _ (by rw [hd0]; simp) hh

theorem smaliWalk_eq (c : ApkCloner) (r : QString) (fs : FS) (hnd : (fs.entries.map Prod.fst).Nodup) :
    (c.smaliWalk r fs).2 = fs.rewriteUnder [r] c.substSmali := by
  unfold ApkCloner.smaliWalk
  rw [rewriteTree_filesUnder _ _ _ _ _ _ _ hnd]

theorem newParent_valid (c : ApkCloner) (r : QString) : ∀ s ∈ c.newParent r, validName s = true :=
  segments_valid _

theorem newDir_valid (c : ApkCloner) (r : QString) (hv : validName r = true) :
    ∀ s ∈ c.newDir r, validName s = true := by
  intro s hs
  rcases List.mem_cons.mp hs with h | h
  · rw [h]; exact hv
  · exact segments_valid _ s h

theorem smaliDirStep_wf (c : ApkCloner) (r : QString) (fs : FS) (hwf : fs.WF)
    (hv : validName r = true) : (c.smaliDirStep r fs).2.1.WF := by
  have hw : (c.smaliWalk r fs).2.WF := by
    rw [smaliWalk_eq c r fs hwf.1]
    exact FS.wf_of_shape _ fs (FS.shape_rewriteUnder _ _ _) hwf
  have hm := FS.mkpath_wf _ hw (c.newParent r) (newParent_valid c r)
  rw [smaliDirStep_eq c r fs hv]
  split
  · exact hw
  · cases hren : ((c.smaliWalk r fs).2.mkpath (c.newParent r)).rename (c.oldDir r) (c.newDir r) with
    | none => exact hm
    | some fs3 => exact FS.rename_wf _ fs3 hm _ _ hren (newDir_valid c r hv)

theorem smaliLoop_wf (c : ApkCloner) :
    ∀ (rs : List QString) (fs : FS), fs.WF → (∀ r ∈ rs, validName r = true) →
      (c.smaliLoop rs fs).2.1.WF := by
  intro rs
  induction rs with
  | nil => intro fs hwf _; exact hwf
  | cons r rs ih =>
    intro fs hwf hv
    have hs := smaliDirStep_wf c r fs hwf (hv r (List.mem_cons_self _ _))
    rw [ApkCloner.smaliLoop]
    dsimp only
    split
    · exact ih _ hs (fun x hx => hv x (List.mem_cons_of_mem _ hx))
    · exact hs

/-- A run leaves a well-formed tree well formed. -/
theorem start_wf (c : ApkCloner) (fs : FS) (hwf : fs.WF) : (c.start fs).2.WF := by
  rw [start_snd]
  have h := afterManifest_wf c fs hwf
  exact smaliLoop_wf c _ _ h (fun r hr => FS.smaliDirs_valid _ h r hr)

/-! ## The tree a successful run leaves -/

/-- In a run that ends with `finished(true)` every smali directory is
reached, and its old-package subdirectory is either absent or moved. -/
theorem start_success_root (c : ApkCloner) (fs : FS) (hwf : fs.WF)
    (hok : (c.loopAt fs fs.smaliDirs).2 = true) (r : QString) (hr : r ∈ fs.smaliDirs) :
    (fs.pathExists (c.oldDir r) = false ∧
      ∀ p, headIs r p = true → (c.start fs).2.find p = (c.walkedAt fs r).find p)
    ∨ (fs.pathExists (c.oldDir r) = true ∧ ∃ g, c.movedAt fs r = some g ∧
      ∀ p, headIs r p = true → (c.start fs).2.find p = g.find p) := by
  have hv := FS.smaliDirs_valid fs hwf r hr
  obtain ⟨pre, post, hd⟩ := List.append_of_mem hr
  have hpre : (c.loopAt fs pre).2 = true := by
    rw [hd] at hok
    exact loopAt_prefix_true c fs pre _ hok
  have hstep : (c.stepAt fs r).2.2 = true := (loopAt_true_iff c fs _).mp hok r hr
  cases hx : fs.pathExists (c.oldDir r) with
  | false =>
    left
    refine ⟨rfl, fun p hp => ?_⟩
    rw [start_find_reached c fs hwf pre r post hd hpre p hp, stepAt_skip c fs hwf r hv hx]
  | true =>
    right
    cases hm : c.movedAt fs r with
    | none =>
      have := (stepAt_ok_iff c fs hwf r hv).mpr ⟨hx, hm⟩
      rw [this] at hstep
      exact Bool.noConfusion hstep
    | some g =>
      refine ⟨rfl, g, rfl, fun p hp => ?_⟩
      rw [start_find_reached c fs hwf pre r post hd hpre p hp, stepAt_moved c fs hwf r hv hx g hm]

theorem FS.find_none_of_not_pathExists (fs : FS) (p : Path) (h : fs.pathExists p = false) :
    fs.find p = none := (fs.not_pathExists p h).2

theorem oldDir_ne_nil (c : ApkCloner) (r : QString) : c.oldDir r ≠ [] := by
  unfold ApkCloner.oldDir; simp

/-- After a run that ends with `finished(true)` no smali directory of the
starting tree holds the old-package subdirectory. -/
theorem start_success_old_gone (c : ApkCloner) (fs : FS) (hwf : fs.WF)
    (hok : (c.loopAt fs fs.smaliDirs).2 = true) (r : QString) (hr : r ∈ fs.smaliDirs) :
    (c.start fs).2.pathExists (c.oldDir r) = false := by
  have hfind : (c.start fs).2.find (c.oldDir r) = none := by
    rcases start_success_root c fs hwf hok r hr with ⟨hx, hf⟩ | ⟨hx, g, hm, hf⟩
    · rw [hf _ (oldDir_headIs c r), walkedAt_find c fs hwf r hr _ (oldDir_headIs c r),
        fs.find_none_of_not_pathExists _ hx]
      rfl
    · rw [hf _ (oldDir_headIs c r)]
      have := (stepAt_find_moved c fs hwf r hr g hm).2.1 []
      rw [List.append_nil] at this
      exact this
  unfold FS.pathExists
  rw [hfind]
  cases h : c.oldDir r with
  | nil => exact absurd h (oldDir_ne_nil c r)
  | cons a q => rfl

theorem FS.mem_smaliDirs_find (fs : FS) (hwf : fs.WF) (r : QString) :
    r ∈ fs.smaliDirs ↔ fs.find [r] = some Node.dir ∧ FS.matchesSmali r = true := by
  rw [FS.mem_smaliDirs]
  constructor
  · rintro ⟨h1, h2⟩
    exact ⟨lookupNode_of_mem _ hwf.1 _ _ h1, h2⟩
  · rintro ⟨h1, h2⟩
    exact ⟨mem_of_lookupNode _ _ _ h1, h2⟩

/-- A run creates no smali directory. -/
theorem start_smaliDirs_sub (c : ApkCloner) (fs : FS) (hwf : fs.WF) (r : QString)
    (h : r ∈ (c.start fs).2.smaliDirs) : r ∈ fs.smaliDirs := by
  by_contra hn
  obtain ⟨h1, h2⟩ := (FS.mem_smaliDirs_find _ (start_wf c fs hwf) r).mp h
  rw [start_find_other c fs hwf r [r] hn (headIs_head r []),
    FS.find_of_restrict_eq _ _ r [r] (afterManifest_restrict c fs r h2) (headIs_head r [])] at h1
  exact hn ((FS.mem_smaliDirs_find fs hwf r).mpr ⟨h1, h2⟩)

/-! ## A run on a tree without old-package subdirectory -/

theorem rewriteAt_smali (c : ApkCloner) (fs : FS) (r : QString) (hr : r ∈ fs.smaliDirs)
    (p : Path) (hp : headIs r p = true) (n : Node) :
    c.rewriteAt fs p n = rewriteNode c.substSmali n := by
  have hm := ((FS.mem_smaliDirs fs r).mp hr).2
  have h1 : ¬ (FS.below [resName] p = true ∨ p = [manifestName]) := by
    rintro (h | h)
    · exact matchesSmali_ne_res r hm (headIs_eq _ _ p hp (FS.below_headIs resName [] p h))
    · rw [h, headIs_cons] at hp
      simp only [decide_eq_true_eq] at hp
      exact matchesSmali_ne_manifest r hm hp.symm
  unfold ApkCloner.rewriteAt
  rw [if_neg h1]
  have h2 : fs.smaliDirs.any (fun r => headIs r p) = true :=
    List.any_eq_true.mpr ⟨r, hr, hp⟩
  rw [if_pos h2]

theorem rewriteAt_outside (c : ApkCloner) (fs : FS) (t : QString) (q : Path)
    (ht : t ∉ fs.smaliDirs) (n : Node) :
    c.rewriteAt fs (t :: q) n =
      if FS.below [resName] (t :: q) = true ∨ t :: q = [manifestName]
        then rewriteNode c.substName n else n := by
  unfold ApkCloner.rewriteAt
  have h2 : ¬ (fs.smaliDirs.any (fun r => headIs r (t :: q)) = true) := by
    intro h
    obtain ⟨r, hr, hp⟩ := List.any_eq_true.mp h
    rw [headIs_cons] at hp
    simp only [decide_eq_true_eq] at hp
    rw [hp] at ht
    exact ht hr
  rw [if_neg h2]

theorem rewriteAt_clean (c : ApkCloner) (fs : FS) (p : Path) (text : QString) (rw : Bool)
    (h1 : ¬ c.originalPackageName <:+: text)
    (h2 : (∃ r ∈ fs.smaliDirs, headIs r p = true) → ¬ ('L' :: c.originalPackagePath) <:+: text) :
    c.rewriteAt fs p (Node.file text rw) = Node.file text rw := by
  unfold ApkCloner.rewriteAt
  split
  · exact rewriteNode_same _ _ _ (substName_clean c text h1)
  · split
    · rename_i h
      obtain ⟨r, hr, hp⟩ := List.any_eq_true.mp h
      exact rewriteNode_same _ _ _ (substSmali_clean c text h1 (h2 ⟨r, hr, hp⟩))
    · rfl

/-- A run on a tree in which no smali directory holds the old-package
subdirectory: nothing is created or moved, the run succeeds, and every
entry stays in place, rewritten by the stage that owns it. -/
theorem start_quiet (c : ApkCloner) (fs : FS) (hwf : fs.WF)
    (hq : ∀ r ∈ fs.smaliDirs, fs.pathExists (c.oldDir r) = false) :
    (∀ d, Event.mkpath d ∉ (c.start fs).1)
    ∧ (∀ src dst b, Event.rename src dst b ∉ (c.start fs).1)
    ∧ Event.finished true ∈ (c.start fs).1
    ∧ (∀ p n, fs.find p = some n → (c.start fs).2.find p = some (c.rewriteAt fs p n)) := by
  have hren : ∀ src dst b, Event.rename src dst b ∉ (c.start fs).1 := by
    intro src dst b h
    obtain ⟨pre, r, post, hd, _, _, _, hx, _⟩ := start_rename c fs hwf src dst b h
    rw [hq r (by rw [hd]; simp)] at hx
    exact Bool.noConfusion hx
  have hfin : Event.finished true ∈ (c.start fs).1 :=
    (start_result c fs hwf).1.mpr (fun src dst => hren src dst false)
  refine ⟨?_, hren, hfin, ?_⟩
  · intro d h
    obtain ⟨r, hr, _, hx⟩ := start_mkpath c fs hwf d h
    rw [hq r hr] at hx
    exact Bool.noConfusion hx
  · intro p n hn
    have hok := (start_finished_true_iff c fs hwf).mp hfin
    cases p with
    | nil => rw [FS.find_nil fs hwf] at hn; exact Option.noConfusion hn
    | cons t q =>
      by_cases ht : t ∈ fs.smaliDirs
      · rw [rewriteAt_smali c fs t ht _ (headIs_head t q)]
        rcases start_success_root c fs hwf hok t ht with ⟨_, hf⟩ | ⟨hx, _⟩
        · rw [hf _ (headIs_head t q), walkedAt_find c fs hwf t ht _ (headIs_head t q), hn]
          rfl
        · rw [hq t ht] at hx
          exact Bool.noConfusion hx
      · rw [rewriteAt_outside c fs t q ht]
        exact start_find_outside c fs hwf t q ht n hn

/-- Writes of a run, read on the node found at the written path. -/
theorem start_written_node (c : ApkCloner) (fs : FS) (hwf : fs.WF) (p : Path) (d : QString)
    (text : QString) (rw : Bool) (hf : fs.find p = some (Node.file text rw))
    (h : Event.written p d ∈ (c.start fs).1) :
    c.rewriteAt fs p (Node.file text rw) ≠ Node.file text rw := by
  rcases start_written c fs hwf p d h with ⟨hb, t, h1, h2, _⟩ | ⟨hb, t, h1, h2, _⟩ |
    ⟨r, hr, hb, t, h1, h2, _⟩
  · rw [hf] at h1
    simp only [Option.some.injEq, Node.file.injEq] at h1
    unfold ApkCloner.rewriteAt
    rw [if_pos (Or.inl hb), h1.1, h1.2]
    simp only [rewriteNode, ne_eq, Node.file.injEq, and_true]
    exact h2
  · rcases h1 with h1 | ⟨h1, _⟩
    · rw [hf] at h1
      simp only [Option.some.injEq, Node.file.injEq] at h1
      unfold ApkCloner.rewriteAt
      rw [if_pos (Or.inr hb), h1.1, h1.2]
      simp only [rewriteNode, ne_eq, Node.file.injEq, and_true]
      exact h2
    · rw [hf] at h1
      exact Option.noConfusion h1
  · rw [hf] at h1
    simp only [Option.some.injEq, Node.file.injEq] at h1
    rw [rewriteAt_smali c fs r hr p (FS.below_headIs r [] p hb), h1.1, h1.2]
    simp only [rewriteNode, ne_eq, Node.file.injEq, and_true]
    exact h2

/-! ## Running the job twice -/

/-- Claim C14, the counterexample. With `com.example.app` renamed to
`com.example.app2` the first run on the sample tree succeeds and leaves the
manifest with `com.example.app2`, in which the old name occurs again; the
second run rewrites the manifest to `com.example.app22`. -/
theorem C14_counterexample :
    Event.finished true ∈ (nestedNameCloner.start sampleTree).1
    ∧ (nestedNameCloner.start sampleTree).2.find [manifestName]
        = some (Node.file "package=\"com.example.app2\"".toList true)
    ∧ Event.written [manifestName] "package=\"com.example.app22\"".toList
        ∈ (nestedNameCloner.start (nestedNameCloner.start sampleTree).2).1
    ∧ (nestedNameCloner.start (nestedNameCloner.start sampleTree).2).2.find [manifestName]
        = some (Node.file "package=\"com.example.app22\"".toList true) := by
  decide

/-- Claim C14, amended. On the tree a first successful run leaves, a second
run with the same identifiers creates and moves no directory and reports
success: the old-package subdirectory is absent from every smali directory
and the loop body takes `continue`. Every entry stays where it is, and a
file in which the first run left no occurrence of the old name (nor, at or
below a smali directory, of `L` followed by the old path) is not written
and keeps its content. A file in which such an occurrence is left is
substituted again. -/
theorem C14_second_run (contentsPath oldName newName : QString) (fs : FS) (hwf : fs.WF)
    (hok : Event.finished true ∈ ((ApkCloner.new contentsPath oldName newName).start fs).1) :
    (∀ r ∈ ((ApkCloner.new contentsPath oldName newName).start fs).2.smaliDirs,
        ((ApkCloner.new contentsPath oldName newName).start fs).2.pathExists
          ((ApkCloner.new contentsPath oldName newName).oldDir r) = false)
    ∧ (∀ d, Event.mkpath d ∉ ((ApkCloner.new contentsPath oldName newName).start
        ((ApkCloner.new contentsPath oldName newName).start fs).2).1)
    ∧ (∀ src dst b, Event.rename src dst b ∉ ((ApkCloner.new contentsPath oldName newName).start
        ((ApkCloner.new contentsPath oldName newName).start fs).2).1)
    ∧ Event.finished true ∈ ((ApkCloner.new contentsPath oldName newName).start
        ((ApkCloner.new contentsPath oldName newName).start fs).2).1
    ∧ (∀ p n, ((ApkCloner.new contentsPath oldName newName).start fs).2.find p = some n →
        ((ApkCloner.new contentsPath oldName newName).start
          ((ApkCloner.new contentsPath oldName newName).start fs).2).2.find p
          = some ((ApkCloner.new contentsPath oldName newName).rewriteAt
              ((ApkCloner.new contentsPath oldName newName).start fs).2 p n))
    ∧ (∀ p text rw,
        ((ApkCloner.new contentsPath oldName newName).start fs).2.find p
          = some (Node.file text rw) →
        ¬ oldName <:+: text →
        ((∃ r ∈ ((ApkCloner.new contentsPath oldName newName).start fs).2.smaliDirs,
            headIs r p = true) → ¬ ('L' :: replaceChar '.' '/' oldName) <:+: text) →
        (∀ data, Event.written p data ∉ ((ApkCloner.new contentsPath oldName newName).start
          ((ApkCloner.new contentsPath oldName newName).start fs).2).1)
        ∧ ((ApkCloner.new contentsPath oldName newName).start
            ((ApkCloner.new contentsPath oldName newName).start fs).2).2.find p
            = some (Node.file text rw)) := by
  generalize hc : ApkCloner.new contentsPath oldName newName = c at *
  have hn : c.originalPackageName = oldName := by rw [← hc]; rfl
  have hpth : c.originalPackagePath = replaceChar '.' '/' oldName := by rw [← hc]; rfl
  have hwf1 := start_wf c fs hwf
  have hloop := (start_finished_true_iff c fs hwf).mp hok
  have hgone : ∀ r ∈ (c.start fs).2.smaliDirs, (c.start fs).2.pathExists (c.oldDir r) = false :=
    fun r hr => start_success_old_gone c fs hwf hloop r (start_smaliDirs_sub c fs hwf r hr)
  obtain ⟨q1, q2, q3, q4⟩ := start_quiet c (c.start fs).2 hwf1 hgone
  refine ⟨hgone, q1, q2, q3, q4, ?_⟩
  intro p text rw hf h1 h2
  have hclean := rewriteAt_clean c (c.start fs).2 p text rw (by rw [hn]; exact h1)
    (by rw [hpth]; exact h2)
  constructor
  · intro data hw
    exact start_written_node c _ hwf1 p data text rw hf hw hclean
  · rw [q4 p _ hf, hclean]

theorem C14_second_run_witness :
    Event.finished true ∈ (sampleCloner.start (sampleCloner.start sampleTree).2).1
    ∧ (∀ d, Event.mkpath d ∉ (sampleCloner.start (sampleCloner.start sampleTree).2).1)
    ∧ (sampleCloner.start (sampleCloner.start sampleTree).2).2.find [manifestName]
        = some (Node.file "package=\"com.example.clone\"".toList true) :=
  ⟨(C14_second_run "/tmp/apk".toList comExampleApp comExampleClone sampleTree (by decide)
      (by decide)).2.2.2.1,
   (C14_second_run "/tmp/apk".toList comExampleApp comExampleClone sampleTree (by decide)
      (by decide)).2.1,
   ((C14_second_run "/tmp/apk".toList comExampleApp comExampleClone sampleTree (by decide)
      (by decide)).2.2.2.2.2 [manifestName] "package=\"com.example.clone\"".toList true
        (by decide) (by decide) (fun _ => by decide)).2⟩

/-! ## Occurrences of an identifier that does not overlap itself -/

theorem selfOverlaps_of (w : QString) (i : Nat) (h0 : 0 < i) (h1 : i < w.length)
    (h : w.drop i <+: w) : selfOverlaps w = true := by
  unfold selfOverlaps
  rw [List.any_eq_true]
  refine ⟨i, List.mem_range.mpr h1, ?_⟩
  simp only [Bool.and_eq_true, decide_eq_true_eq]
  exact ⟨h0, List.isPrefixOf_iff_prefix.mpr h⟩

/-- An occurrence of a border-free `p` that starts inside `v` and reaches
into a following occurrence of `p` lies inside `v`. -/
theorem prefix_of_border_free (p v z : QString) (hp : selfOverlaps p = false) (hv : v ≠ [])
    (h : p <+: v ++ (p ++ z)) : p <+: v := by
  have hvp : v <+: v ++ (p ++ z) := List.prefix_append _ _
  by_cases hl : p.length ≤ v.length
  · exact List.prefix_of_prefix_length_le h hvp hl
  · exfalso
    have hl2 : v.length ≤ p.length := by omega
    obtain ⟨q, hq⟩ := List.prefix_of_prefix_length_le hvp h hl2
    have hqd : p.drop v.length = q := by rw [← hq]; simp
    have h2 : v ++ q <+: v ++ (p ++ z) := by rw [hq]; exact h
    have h3 : q <+: p ++ z := (List.prefix_append_right_inj v).mp h2
    have hvl : 0 < v.length := List.length_pos.mpr hv
    have hql : q.length ≤ p.length := by
      have := congrArg List.length hq
      rw [List.length_append] at this
      omega
    have h4 : q <+: p := List.prefix_of_prefix_length_le h3 (List.prefix_append _ _) hql
    have := selfOverlaps_of p v.length hvl (by omega) (by rw [hqd]; exact h4)
    rw [hp] at this
    exact Bool.noConfusion this

theorem infix_of_prefix_drop (p u : QString) (i : Nat) (h : p <+: u.drop i) : p <:+: u :=
  h.isInfix.trans (List.drop_suffix i u).isInfix

theorem no_match_inside (p u z : QString) (hp : selfOverlaps p = false) (hu : ¬ p <:+: u) :
    ∀ i, i < u.length → ¬ p <+: u.drop i ++ (p ++ z) := by
  intro i hi h
  have hv : u.drop i ≠ [] := by
    intro e
    have := congrArg List.length e
    simp at this
    omega
  exact hu (infix_of_prefix_drop p u i (prefix_of_border_free p _ z hp hv h))

theorem not_infix_append_left (p u v : QString) (h : ¬ p <:+: u ++ v) : ¬ p <:+: u :=
  fun hu => h (hu.trans (List.prefix_append u v).isInfix)

theorem not_infix_append_right (p u v : QString) (h : ¬ p <:+: u ++ v) : ¬ p <:+: v :=
  fun hv => h (hv.trans (List.suffix_append u v).isInfix)

theorem overlaps_of (a b : QString) (i : Nat) (hi : i < a.length)
    (h : a.drop i <+: b ∨ b <+: a.drop i) : overlaps a b = true := by
  unfold overlaps
  rw [List.any_eq_true]
  refine ⟨i, List.mem_range.mpr hi, ?_⟩
  rw [Bool.or_eq_true]
  rcases h with h | h
  · exact Or.inl (List.isPrefixOf_iff_prefix.mpr h)
  · exact Or.inr (List.isPrefixOf_iff_prefix.mpr h)

/-- Where an infix of `x ++ y` starts: inside `x`, or it lies in `y`. -/
theorem infix_append_cases (p y : QString) :
    ∀ x : QString, p <:+: x ++ y → (∃ i, i < x.length ∧ p <+: x.drop i ++ y) ∨ p <:+: y := by
  intro x
  induction x with
  | nil => intro h; exact Or.inr h
  | cons c x ih =>
    intro h
    rw [List.cons_append, List.infix_cons_iff] at h
    rcases h with h | h
    · exact Or.inl ⟨0, by simp, h⟩
    · rcases ih h with ⟨i, hi, hp⟩ | hy
      · exact Or.inl ⟨i + 1, by simp; omega, by simpa using hp⟩
      · exact Or.inr hy

/-- A prefix of `v ++ w` is a prefix of `v`, or `v` followed by a prefix of `w`. -/
theorem prefix_append_cases (p v w : QString) (h : p <+: v ++ w) :
    p <+: v ∨ ∃ q, p = v ++ q ∧ q <+: w := by
  by_cases hl : p.length ≤ v.length
  · exact Or.inl (List.prefix_of_prefix_length_le h (List.prefix_append _ _) hl)
  · right
    obtain ⟨q, hq⟩ := List.prefix_of_prefix_length_le (List.prefix_append v w) h (by omega)
    refine ⟨q, hq.symm, ?_⟩
    rw [← hq] at h
    exact (List.prefix_append_right_inj v).mp h

theorem prefix_or_prefix_of_append (p v w : QString) (h : p <+: v ++ w) : p <+: v ∨ v <+: p := by
  rcases prefix_append_cases p v w h with h | ⟨q, hq, _⟩
  · exact Or.inl h
  · exact Or.inr ⟨q, hq.symm⟩

theorem drop_ne_nil (u : QString) (i : Nat) (hi : i < u.length) : u.drop i ≠ [] := by
  intro e
  have := congrArg List.length e
  simp at this
  omega

theorem replacedAll_no_before (a b : QString) (h1 : overlaps a b = false)
    (h2 : overlaps b a = false) :
    ∀ t out : QString, ReplacedAll a b t out → ¬ a <:+: out := by
  intro t out h
  induction h with
  | clean s hs => exact hs
  | occurrence u rest out hu _ ih =>
    have hu2 : ¬ a <:+: u := not_infix_append_left a u a.dropLast hu
    rw [List.append_assoc]
    intro hin
    rcases infix_append_cases a (b ++ out) u hin with ⟨i, hi, hp⟩ | hin2
    · rcases prefix_append_cases a (u.drop i) (b ++ out) hp with hv | ⟨q, hq, hqb⟩
      · exact hu2 (infix_of_prefix_drop a u i hv)
      · have hvl : 0 < (u.drop i).length := List.length_pos.mpr (drop_ne_nil u i hi)
        have hqd : a.drop (u.drop i).length = q := by rw [hq]; simp
        by_cases hqn : q = []
        · rw [hqn, List.append_nil] at hq
          exact hu2 (infix_of_prefix_drop a u i (by rw [hq]))
        · have hlt : (u.drop i).length < a.length := by
            have := congrArg List.length hq
            rw [List.length_append] at this
            have : 0 < q.length := List.length_pos.mpr hqn
            omega
          have := overlaps_of a b (u.drop i).length hlt
            (by rw [hqd]; exact prefix_or_prefix_of_append q b out hqb)
          rw [h1] at this
          exact Bool.noConfusion this
    · rcases infix_append_cases a out b hin2 with ⟨j, hj, hp⟩ | hin3
      · have := overlaps_of b a j hj
          ((prefix_or_prefix_of_append a (b.drop j) out hp).symm)
        rw [h2] at this
        exact Bool.noConfusion this
      · exact ih hin3

/-- No occurrence of the old name is left by the replacement, when no
occurrence of one name can overlap an occurrence of the other. -/
theorem qReplace_no_before (t a b : QString) (ha : a ≠ []) (h1 : overlaps a b = false)
    (h2 : overlaps b a = false) : ¬ a <:+: qReplace t a b :=
  replacedAll_no_before a b h1 h2 t _ (qReplace_replacedAll t a b ha)

theorem countOcc_eq_zero (p : QString) (hp : p ≠ []) :
    ∀ s : QString, countOcc p s = 0 ↔ ¬ p <:+: s := by
  intro s
  induction s with
  | nil =>
    have h1 : p.isPrefixOf [] = false := by
      cases p with
      | nil => exact absurd rfl hp
      | cons a q => rfl
    simp only [countOcc, h1, Bool.false_eq_true, if_false, true_iff]
    intro h
    exact hp (List.infix_nil.mp h)
  | cons c cs ih =>
    rw [countOcc, List.infix_cons_iff, Nat.add_eq_zero_iff, ih]
    constructor
    · rintro ⟨h1, h2⟩ (h | h)
      · rw [if_pos (List.isPrefixOf_iff_prefix.mpr h)] at h1
        exact absurd h1 (by decide)
      · exact h2 h
    · intro h
      refine ⟨?_, fun hh => h (Or.inr hh)⟩
      rw [if_neg]
      intro hh
      exact h (Or.inl (List.isPrefixOf_iff_prefix.mp hh))

theorem countOcc_append_clean (p s : QString) :
    ∀ u : QString, (∀ i, i < u.length → ¬ p <+: u.drop i ++ s) →
      countOcc p (u ++ s) = countOcc p s := by
  intro u
  induction u with
  | nil => intro _; rfl
  | cons c cs ih =>
    intro h
    have h0 := h 0 (by simp)
    simp only [List.drop_zero, List.cons_append] at h0
    rw [List.cons_append, countOcc, if_neg (fun hh => h0 (List.isPrefixOf_iff_prefix.mp hh)),
      Nat.zero_add]
    apply ih
    intro i hi
    have := h (i + 1) (by simp; omega)
    simpa using this

theorem countOcc_self_append (p s : QString) (hs : selfOverlaps p = false) (hne : p ≠ []) :
    countOcc p (p ++ s) = 1 + countOcc p s := by
  cases p with
  | nil => exact absurd rfl hne
  | cons c q =>
    rw [List.cons_append, countOcc,
      if_pos (List.isPrefixOf_iff_prefix.mpr (by rw [← List.cons_append]; exact List.prefix_append _ _))]
    congr 1
    apply countOcc_append_clean
    intro i hi h
    have hd : q.drop i = (c :: q).drop (i + 1) := rfl
    rw [hd] at h
    have hpre : (c :: q).drop (i + 1) <+: c :: q := by
      rcases prefix_or_prefix_of_append (c :: q) _ s h with h3 | h3
      · have := h3.length_le
        simp at this
        omega
      · exact h3
    have := selfOverlaps_of (c :: q) (i + 1) (by omega) (by simp; omega) hpre
    rw [hs] at this
    exact Bool.noConfusion this

theorem replacedAll_count (a b : QString) (ha : a ≠ []) (hsa : selfOverlaps a = false)
    (hsb : selfOverlaps b = false) (hb : b ≠ []) :
    ∀ t out : QString, ReplacedAll a b t out → ¬ b <:+: t → countOcc b out = countOcc a t := by
  intro t out h
  induction h with
  | clean s hs =>
    intro hn
    rw [(countOcc_eq_zero b hb s).mpr hn, (countOcc_eq_zero a ha s).mpr hs]
  | occurrence u rest out hu _ ih =>
    intro hn
    have hua : ¬ a <:+: u := not_infix_append_left a u a.dropLast hu
    have hub : ¬ b <:+: u := by
      apply not_infix_append_left b u (a ++ rest)
      rw [← List.append_assoc]; exact hn
    have hrest : ¬ b <:+: rest := not_infix_append_right b (u ++ a) rest hn
    rw [List.append_assoc, List.append_assoc,
      countOcc_append_clean b (b ++ out) u (no_match_inside b u out hsb hub),
      countOcc_append_clean a (a ++ rest) u (no_match_inside a u rest hsa hua),
      countOcc_self_append b out hsb hb, countOcc_self_append a rest hsa ha, ih hrest]

/-- The new name occurs after the replacement as often as the old name
occurred before, when neither name overlaps itself and the text held no
occurrence of the new name. -/
theorem qReplace_count (t a b : QString) (ha : a ≠ []) (hsa : selfOverlaps a = false)
    (hsb : selfOverlaps b = false) (hn : ¬ b <:+: t) :
    countOcc b (qReplace t a b) = countOcc a t := by
  have hb : b ≠ [] := by
    intro e; rw [e] at hn; exact hn List.nil_infix
  exact replacedAll_count a b ha hsa hsb hb t _ (qReplace_replacedAll t a b ha) hn

/-- Claim C13, the counterexample. With `com.example.app` renamed to
`com.example.app2` the manifest of the sample tree, which holds the old
name once, is rewritten to a text that holds the old name once again: the
new name contains the old one. -/
theorem C13_counterexample :
    nestedNameCloner.originalPackageName ≠ nestedNameCloner.newPackageName
    ∧ sampleTree.find [manifestName] = some (Node.file "package=\"com.example.app\"".toList true)
    ∧ Event.written [manifestName] "package=\"com.example.app2\"".toList
        ∈ (nestedNameCloner.start sampleTree).1
    ∧ (nestedNameCloner.start sampleTree).2.find [manifestName]
        = some (Node.file "package=\"com.example.app2\"".toList true)
    ∧ nestedNameCloner.originalPackageName <:+: "package=\"com.example.app2\"".toList
    ∧ countOcc nestedNameCloner.originalPackageName "package=\"com.example.app2\"".toList = 1 := by
  decide

/-- Claim C13, amended. For identifiers `from` and `to`, different, with
`from` not empty, such that no occurrence of one can overlap an occurrence
of the other: on a well-formed tree every text the job writes holds zero
occurrences of `from`, and so does every resource or manifest file that
opens at the end of the job. If moreover neither identifier overlaps itself
and the original text of a written file held no occurrence of `to` (and,
for a file of a smali directory, none of `L` + from.path), the text written
holds `to` exactly as many times as the original held `from`. -/
theorem C13_occurrences (contentsPath oldName newName : QString) (fs : FS) (hwf : fs.WF)
    (_hne : oldName ≠ newName) (hfrom : oldName ≠ [])
    (h1 : overlaps oldName newName = false) (h2 : overlaps newName oldName = false) :
    (∀ p data, Event.written p data ∈ ((ApkCloner.new contentsPath oldName newName).start fs).1 →
      ¬ oldName <:+: data ∧ countOcc oldName data = 0)
    ∧ (∀ p text, FS.below [resName] p = true ∨ p = [manifestName] →
      fs.find p = some (Node.file text true) →
      ∃ data, ((ApkCloner.new contentsPath oldName newName).start fs).2.find p
          = some (Node.file data true)
        ∧ countOcc oldName data = 0
        ∧ (selfOverlaps oldName = false → selfOverlaps newName = false → ¬ newName <:+: text →
            countOcc newName data = countOcc oldName text))
    ∧ (∀ p data, Event.written p data ∈ ((ApkCloner.new contentsPath oldName newName).start fs).1 →
      ∃ text, (fs.find p = some (Node.file text true) ∨ (fs.find p = none ∧ text = []))
        ∧ (selfOverlaps oldName = false → selfOverlaps newName = false → ¬ newName <:+: text →
            ((∃ r ∈ fs.smaliDirs, headIs r p = true) →
              ¬ ('L' :: replaceChar '.' '/' oldName) <:+: text) →
            countOcc newName data = countOcc oldName text)) := by
  generalize hc : ApkCloner.new contentsPath oldName newName = c at *
  have hs1 : ∀ t, c.substName t = qReplace t oldName newName := by
    intro t; rw [← hc]; rfl
  have hs2 : ∀ t, c.substSmali t = qReplace (qReplace t ('L' :: replaceChar '.' '/' oldName)
      ('L' :: replaceChar '.' '/' newName)) oldName newName := by
    intro t; rw [← hc]; rfl
  have hno : ∀ t, ¬ oldName <:+: qReplace t oldName newName :=
    fun t => qReplace_no_before t oldName newName hfrom h1 h2
  have hzero : ∀ t, countOcc oldName (qReplace t oldName newName) = 0 :=
    fun t => (countOcc_eq_zero oldName hfrom _).mpr (hno t)
  refine ⟨?_, ?_, ?_⟩
  · intro p data hw
    rcases start_written c fs hwf p data hw with
      ⟨_, t, _, _, h3⟩ | ⟨_, t, _, _, h3⟩ | ⟨_, _, _, t, _, _, h3⟩
    · rw [h3, hs1]; exact ⟨hno t, hzero t⟩
    · rw [h3, hs1]; exact ⟨hno t, hzero t⟩
    · rw [h3, hs2]; exact ⟨hno _, hzero _⟩
  · intro p text hloc hf
    refine ⟨qReplace text oldName newName, ?_, hzero text,
      fun hsa hsb hn => qReplace_count text oldName newName hfrom hsa hsb hn⟩
    rcases hloc with hb | hm
    · rw [start_find_res c fs hwf p hb, hf]
      simp only [Option.map_some', rewriteNode, hs1]
    · subst hm
      rw [start_find_manifest c fs hwf text true hf]
      simp only [rewriteNode, hs1]
  · intro p data hw
    rcases start_written c fs hwf p data hw with
      ⟨_, t, hf, _, h3⟩ | ⟨_, t, hf, _, h3⟩ | ⟨r, hr, hb, t, hf, _, h3⟩
    · refine ⟨t, Or.inl hf, fun hsa hsb hn _ => ?_⟩
      rw [h3, hs1]
      exact qReplace_count t oldName newName hfrom hsa hsb hn
    · refine ⟨t, hf, fun hsa hsb hn _ => ?_⟩
      rw [h3, hs1]
      exact qReplace_count t oldName newName hfrom hsa hsb hn
    · refine ⟨t, Or.inl hf, fun hsa hsb hn hl => ?_⟩
      rw [h3, hs2, qReplace_clean t _ _ (hl ⟨r, hr, FS.below_headIs r [] p hb⟩)]
      exact qReplace_count t oldName newName hfrom hsa hsb hn

theorem C13_occurrences_witness :
    ∃ data, (sampleCloner.start sampleTree).2.find [manifestName] = some (Node.file data true)
      ∧ countOcc comExampleApp data = 0
      ∧ countOcc comExampleClone data = countOcc comExampleApp "package=\"com.example.app\"".toList :=
  Exists.imp (fun _ h => ⟨h.1, h.2.1, h.2.2 (by decide) (by decide) (by decide)⟩)
    ((C13_occurrences "/tmp/apk".toList comExampleApp comExampleClone sampleTree (by decide)
      (by decide) (by decide) (by decide) (by decide)).2.1 [manifestName]
      "package=\"com.example.app\"".toList (Or.inr rfl) (by decide))

/-! ## Rounding to the nearest element of a list -/

/-- The test on `2 * number` is the test `number <= sum / 2` on rationals. -/
theorem leHalf_iff (number sum : Int) :
    leHalf number sum = true ↔ (number : ℚ) ≤ (sum : ℚ) / 2 := by
  unfold leHalf
  rw [decide_eq_true_eq, le_div_iff₀ (by norm_num : (0 : ℚ) < 2)]
  constructor
  · intro h
    have : ((2 * number : Int) : ℚ) ≤ (sum : ℚ) := by exact_mod_cast h
    push_cast at this
    linarith
  · intro h
    have : ((number * 2 : Int) : ℚ) ≤ (sum : ℚ) := by push_cast; exact h
    have h2 : number * 2 ≤ sum := by exact_mod_cast this
    omega

theorem wrapInt_of_fits (x : Int) (h1 : -2147483648 ≤ x) (h2 : x ≤ 2147483647) :
    wrapInt x = x := by
  unfold wrapInt
  omega

theorem roundLoop_cons (number prev next : Int) (rest : List Int) :
    Utils.roundLoop number (prev :: next :: rest) =
      if number < prev ∨ number > next then Utils.roundLoop number (next :: rest)
      else if leHalf number (wrapInt (prev + next)) then some prev else some next := by
  rw [Utils.roundLoop]

/-- The loop on a sorted list whose first element is at most `number` and
which holds an element that is at least `number`: it returns, and what it
returns is nearest to `number`, the smaller element on a tie. -/
theorem roundLoop_spec (number : Int) :
    ∀ (l : List Int) (prev : Int), (prev :: l).Sorted (fun a b => a ≤ b) →
      prev ≤ number → (∃ x ∈ l, number ≤ x) → sumsFit (prev :: l) = true →
      ∃ r, Utils.roundLoop number (prev :: l) = some r ∧ r ∈ prev :: l
        ∧ (∀ x ∈ prev :: l, (r - number).natAbs ≤ (x - number).natAbs)
        ∧ (∀ x ∈ prev :: l, (x - number).natAbs = (r - number).natAbs → r ≤ x) := by
  intro l
  induction l with
  | nil =>
    intro prev _ _ h
    obtain ⟨x, hx, _⟩ := h
    simp at hx
  | cons next rest ih =>
    intro prev hs hp hex hfit
    have hpn : prev ≤ next := (List.sorted_cons.mp hs).1 next (List.mem_cons_self _ _)
    have hs2 : (next :: rest).Sorted (fun a b => a ≤ b) := (List.sorted_cons.mp hs).2
    have hrest : ∀ x ∈ rest, next ≤ x := (List.sorted_cons.mp hs2).1
    rw [sumsFit, Bool.and_eq_true, decide_eq_true_eq] at hfit
    rw [roundLoop_cons]
    by_cases hgt : number > next
    · rw [if_pos (Or.inr hgt)]
      have hex2 : ∃ x ∈ rest, number ≤ x := by
        obtain ⟨x, hx, hnx⟩ := hex
        rcases List.mem_cons.mp hx with h | h
        · rw [h] at hnx; omega
        · exact ⟨x, h, hnx⟩
      obtain ⟨r, h1, h2, h3, h4⟩ := ih next hs2 (by omega) hex2 hfit.2
      have hr := h3 next (List.mem_cons_self _ _)
      refine ⟨r, h1, List.mem_cons_of_mem _ h2, ?_, ?_⟩
      · intro x hx
        rcases List.mem_cons.mp hx with h | h
        · rw [h]; omega
        · exact h3 x h
      · intro x hx he
        rcases List.mem_cons.mp hx with h | h
        · rw [h] at he ⊢
          have := h4 next (List.mem_cons_self _ _) (by omega)
          omega
        · exact h4 x h he
    · have hle : number ≤ next := by omega
      rw [if_neg (by omega), wrapInt_of_fits _ hfit.1.1 hfit.1.2]
      by_cases hh : leHalf number (prev + next) = true
      · rw [if_pos hh]
        unfold leHalf at hh
        rw [decide_eq_true_eq] at hh
        refine ⟨prev, rfl, List.mem_cons_self _ _, ?_, ?_⟩
        · intro x hx
          rcases List.mem_cons.mp hx with h | h
          · rw [h]
          · rcases List.mem_cons.mp h with h | h
            · rw [h]; omega
            · have := hrest x h
              omega
        · intro x hx _
          rcases List.mem_cons.mp hx with h | h
          · rw [h]
          · rcases List.mem_cons.mp h with h | h
            · rw [h]; exact hpn
            · have := hrest x h
              omega
      · rw [if_neg hh]
        unfold leHalf at hh
        rw [decide_eq_true_eq] at hh
        refine ⟨next, rfl, List.mem_cons_of_mem _ (List.mem_cons_self _ _), ?_, ?_⟩
        · intro x hx
          rcases List.mem_cons.mp hx with h | h
          · rw [h]; omega
          · rcases List.mem_cons.mp h with h | h
            · rw [h]
            · have := hrest x h
              omega
        · intro x hx he
          rcases List.mem_cons.mp hx with h | h
          · rw [h] at he; omega
          · rcases List.mem_cons.mp h with h | h
            · rw [h]
            · exact hrest x h

theorem sorted_le_getLast :
    ∀ s : List Int, s.Sorted (fun a b => a ≤ b) → ∀ last, s.getLast? = some last →
      ∀ x ∈ s, x ≤ last := by
  intro s
  induction s with
  | nil => intro _ _ _ x hx; simp at hx
  | cons a t ih =>
    intro hs last hl x hx
    have ha := (List.sorted_cons.mp hs).1
    have ht := (List.sorted_cons.mp hs).2
    cases t with
    | nil =>
      simp only [List.getLast?_singleton, Option.some.injEq] at hl
      simp only [List.mem_singleton] at hx
      rw [hx, hl]
    | cons b t2 =>
      have hl2 : (b :: t2).getLast? = some last := by
        rw [← hl]; simp [List.getLast?_cons_cons]
      have hmem : last ∈ b :: t2 := List.mem_of_getLast?_eq_some hl2
      rcases List.mem_cons.mp hx with h | h
      · rw [h]; exact ha last hmem
      · exact ih ht last hl2 x h

/-- What `Utils::roundToNearest` does with a list that is not empty, on the
sorted list `s`. -/
theorem roundSearch_spec (number : Int) (numbers : List Int) (hne : numbers ≠ [])
    (hfit : sumsFit (numbers.insertionSort (fun a b => a ≤ b)) = true) :
    ∃ r, Utils.roundSearch number numbers = some r ∧ r ∈ numbers
      ∧ (∀ x ∈ numbers, (r - number).natAbs ≤ (x - number).natAbs)
      ∧ (∀ x ∈ numbers, (x - number).natAbs = (r - number).natAbs → r ≤ x) := by
  have hperm := List.perm_insertionSort (fun a b : Int => a ≤ b) numbers
  have hsorted := List.sorted_insertionSort (fun a b : Int => a ≤ b) numbers
  have hmem : ∀ x, x ∈ numbers ↔ x ∈ numbers.insertionSort (fun a b => a ≤ b) :=
    fun x => hperm.mem_iff.symm
  unfold Utils.roundSearch
  generalize numbers.insertionSort (fun a b => a ≤ b) = s at *
  have hsne : s ≠ [] := by
    intro e
    rw [e] at hperm
    exact hne (List.Perm.eq_nil hperm.symm)
  cases s with
  | nil => exact absurd rfl hsne
  | cons first rest =>
    have hfirst : ∀ x ∈ rest, first ≤ x := (List.sorted_cons.mp hsorted).1
    obtain ⟨last, hlast⟩ : ∃ last, (first :: rest).getLast? = some last :=
      ⟨(first :: rest).getLast (by simp), List.getLast?_eq_getLast _ _⟩
    have hlastmem : last ∈ first :: rest := List.mem_of_getLast?_eq_some hlast
    have hle := sorted_le_getLast _ hsorted last hlast
    rw [hlast]
    simp only [List.head?_cons]
    by_cases h1 : number ≤ first
    · rw [if_pos h1]
      refine ⟨first, rfl, (hmem _).mpr (List.mem_cons_self _ _), ?_, ?_⟩
      · intro x hx
        rcases List.mem_cons.mp ((hmem x).mp hx) with h | h
        · rw [h]
        · have := hfirst x h
          omega
      · intro x hx _
        rcases List.mem_cons.mp ((hmem x).mp hx) with h | h
        · rw [h]
        · exact hfirst x h
    · rw [if_neg h1]
      by_cases h2 : number ≥ last
      · rw [if_pos h2]
        refine ⟨last, rfl, (hmem _).mpr hlastmem, ?_, ?_⟩
        · intro x hx
          have := hle x ((hmem x).mp hx)
          omega
        · intro x hx he
          have := hle x ((hmem x).mp hx)
          omega
      · rw [if_neg h2]
        have hex : ∃ x ∈ rest, number ≤ x := by
          rcases List.mem_cons.mp hlastmem with h | h
          · have := hle first (List.mem_cons_self _ _)
            omega
          · exact ⟨last, h, by omega⟩
        obtain ⟨r, e1, e2, e3, e4⟩ := roundLoop_spec number rest first hsorted (by omega) hex hfit
        exact ⟨r, e1, (hmem r).mpr e2, fun x hx => e3 x ((hmem x).mp hx),
          fun x hx => e4 x ((hmem x).mp hx)⟩

/-- Claim C21. `Utils::roundToNearest(number, numbers)` returns `number`
when `numbers` is empty. For a list that is not empty, when `prev + next`
stays in the range of `int` for every two adjacent elements of the sorted
list, the function returns from inside its body (the final
`return number` is not reached) and what it returns is an element of the
list whose absolute distance to `number` is minimal among all elements,
the smaller element on a tie. The test `number <= (prev + next) / 2.0` of
the code is exact. -/
theorem C21_round_to_nearest (number : Int) (numbers : List Int) :
    Utils.roundToNearest number [] = number
    ∧ (numbers ≠ [] → sumsFit (numbers.insertionSort (fun a b => a ≤ b)) = true →
        ∃ r, Utils.roundSearch number numbers = some r
          ∧ Utils.roundToNearest number numbers = r
          ∧ r ∈ numbers
          ∧ (∀ x ∈ numbers, (r - number).natAbs ≤ (x - number).natAbs)
          ∧ (∀ x ∈ numbers, (x - number).natAbs = (r - number).natAbs → r ≤ x))
    ∧ (∀ sum : Int, leHalf number sum = true ↔ (number : ℚ) ≤ (sum : ℚ) / 2) := by
  refine ⟨rfl, ?_, leHalf_iff number⟩
  intro hne hfit
  obtain ⟨r, h1, h2, h3, h4⟩ := roundSearch_spec number numbers hne hfit
  refine ⟨r, h1, ?_, h2, h3, h4⟩
  unfold Utils.roundToNearest
  have : numbers.isEmpty = false := by
    cases numbers with
    | nil => exact absurd rfl hne
    | cons a t => rfl
  rw [this, h1]
  rfl

theorem C21_round_to_nearest_witness :
    Utils.roundToNearest 7 [9, 1, 5] = 5
    ∧ ∃ r, Utils.roundSearch 7 [9, 1, 5] = some r
      ∧ Utils.roundToNearest 7 [9, 1, 5] = r
      ∧ r ∈ [9, 1, (5 : Int)]
      ∧ (∀ x ∈ [9, 1, (5 : Int)], (r - 7).natAbs ≤ (x - 7).natAbs)
      ∧ (∀ x ∈ [9, 1, (5 : Int)], (x - 7).natAbs = (r - 7).natAbs → r ≤ x) :=
  ⟨by decide, (C21_round_to_nearest 7 [9, 1, 5]).2.1 (by decide) (by decide)⟩

/-! ## The link loop of the About dialog ends -/

theorem lazyDots_some {α : Type} (k : QString → Option α) :
    ∀ (s x : QString) (r : α), lazyDots k s = some (x, r) →
      ∃ rest, s = x ++ rest ∧ x ≠ [] ∧ '\n' ∉ x ∧ k rest = some r := by
  intro s
  induction s with
  | nil => intro x r h; simp [lazyDots] at h
  | cons ch cs ih =>
    intro x r h
    rw [lazyDots] at h
    by_cases hn : ch = '\n'
    · rw [if_pos hn] at h; exact Option.noConfusion h
    · rw [if_neg hn] at h
      cases hk : k cs with
      | some r2 =>
        rw [hk] at h
        simp only [Option.some.injEq, Prod.mk.injEq] at h
        refine ⟨cs, by rw [← h.1]; rfl, by rw [← h.1]; simp, ?_, by rw [← h.2]; exact hk⟩
        rw [← h.1]
        simp only [List.mem_singleton]
        exact fun e => hn e.symm
      | none =>
        rw [hk] at h
        simp only at h
        cases hl : lazyDots k cs with
        | none => rw [hl] at h; simp at h
        | some y =>
          rw [hl] at h
          simp only [Option.map_some', Option.some.injEq, Prod.mk.injEq] at h
          obtain ⟨rest, h1, _, h3, h4⟩ := ih y.1 y.2 (by rw [hl])
          refine ⟨rest, by rw [← h.1, h1]; rfl, by rw [← h.1]; simp, ?_, by rw [← h.2]; exact h4⟩
          rw [← h.1]
          intro hm
          rcases List.mem_cons.mp hm with e | e
          · exact hn e.symm
          · exact h3 e

theorem lazyDots_complete {α : Type} (k : QString → Option α) (rest : QString)
    (hk : k rest ≠ none) :
    ∀ x : QString, x ≠ [] → '\n' ∉ x → lazyDots k (x ++ rest) ≠ none := by
  intro x
  induction x with
  | nil => intro h; exact absurd rfl h
  | cons ch cs ih =>
    intro _ hn
    have hch : ¬ ch = '\n' := fun e => hn (by rw [e]; exact List.mem_cons_self _ _)
    have hcs : '\n' ∉ cs := fun e => hn (List.mem_cons_of_mem _ e)
    rw [List.cons_append, lazyDots, if_neg hch]
    cases hk2 : k (cs ++ rest) with
    | some r => simp
    | none =>
      simp only
      by_cases hnil : cs = []
      · rw [hnil, List.nil_append] at hk2
        exact absurd hk2 hk
      · have := ih hnil hcs
        cases hl : lazyDots k (cs ++ rest) with
        | none => exact absurd hl this
        | some y => simp

theorem hrefPart_some (s href post : QString) (h : hrefPart s = some (href, post)) :
    s = ']' :: '(' :: (href ++ (')' :: post)) ∧ href ≠ [] ∧ '\n' ∉ href := by
  cases s with
  | nil => simp [hrefPart] at h
  | cons c s2 =>
    cases s2 with
    | nil => simp [hrefPart] at h
    | cons d s3 =>
      rw [hrefPart] at h
      by_cases hc : c = ']' ∧ d = '('
      · rw [if_pos hc] at h
        obtain ⟨rest, h1, h2, h3, h4⟩ := lazyDots_some closeParen s3 href post h
        cases rest with
        | nil => simp [closeParen] at h4
        | cons e rest2 =>
          rw [closeParen] at h4
          by_cases he : e = ')'
          · rw [if_pos he] at h4
            simp only [Option.some.injEq] at h4
            rw [hc.1, hc.2, h1, he, h4]
            exact ⟨rfl, h2, h3⟩
          · rw [if_neg he] at h4
            exact Option.noConfusion h4
      · rw [if_neg hc] at h
        exact Option.noConfusion h

theorem matchLinkAt_some (s title href post : QString)
    (h : matchLinkAt s = some (title, href, post)) :
    s = '[' :: (title ++ (']' :: '(' :: (href ++ (')' :: post))))
      ∧ title ≠ [] ∧ href ≠ [] ∧ '\n' ∉ title ∧ '\n' ∉ href := by
  cases s with
  | nil => simp [matchLinkAt] at h
  | cons c s2 =>
    rw [matchLinkAt] at h
    by_cases hc : c = '['
    · rw [if_pos hc] at h
      obtain ⟨rest, h1, h2, h3, h4⟩ := lazyDots_some hrefPart s2 title (href, post) h
      obtain ⟨e1, e2, e3⟩ := hrefPart_some rest href post h4
      rw [hc, h1, e1]
      exact ⟨rfl, h2, e2, h3, e3⟩
    · rw [if_neg hc] at h
      exact Option.noConfusion h

/-- What `regex.match(line)` returns is a match of the pattern. -/
theorem matchLink_some :
    ∀ (s pre title href post : QString), matchLink s = some (pre, title, href, post) →
      s = pre ++ ('[' :: (title ++ (']' :: '(' :: (href ++ (')' :: post)))))
        ∧ title ≠ [] ∧ href ≠ [] ∧ '\n' ∉ title ∧ '\n' ∉ href := by
  intro s
  induction s with
  | nil => intro pre title href post h; simp [matchLink] at h
  | cons ch cs ih =>
    intro pre title href post h
    rw [matchLink] at h
    cases hm : matchLinkAt (ch :: cs) with
    | some m =>
      rw [hm] at h
      simp only [Option.some.injEq, Prod.mk.injEq] at h
      obtain ⟨hp, hm2⟩ := h
      rw [hm2] at hm
      have := matchLinkAt_some _ _ _ _ hm
      rw [← hp]
      exact this
    | none =>
      rw [hm] at h
      simp only at h
      cases hl : matchLink cs with
      | none => rw [hl] at h; simp at h
      | some y =>
        rw [hl] at h
        simp only [Option.map_some', Option.some.injEq, Prod.mk.injEq] at h
        obtain ⟨hp, hy⟩ := h
        have := ih y.1 title href post (by rw [hl, ← hy])
        rw [← hp, this.1]
        exact ⟨rfl, this.2⟩

/-- A line that holds a match of the pattern is matched. -/
theorem matchLink_complete (title href post : QString) (ht : title ≠ []) (hh : href ≠ [])
    (hnt : '\n' ∉ title) (hnh : '\n' ∉ href) :
    ∀ pre : QString,
      matchLink (pre ++ ('[' :: (title ++ (']' :: '(' :: (href ++ (')' :: post)))))) ≠ none := by
  have hat : matchLinkAt ('[' :: (title ++ (']' :: '(' :: (href ++ (')' :: post))))) ≠ none := by
    rw [matchLinkAt, if_pos rfl]
    apply lazyDots_complete hrefPart _ _ title ht hnt
    rw [hrefPart, if_pos ⟨rfl, rfl⟩]
    apply lazyDots_complete closeParen _ _ href hh hnh
    simp [closeParen]
  intro pre
  induction pre with
  | nil =>
    rw [List.nil_append, matchLink]
    cases hm : matchLinkAt ('[' :: (title ++ (']' :: '(' :: (href ++ (')' :: post))))) with
    | none => exact absurd hm hat
    | some m => simp
  | cons c pre ih =>
    rw [List.cons_append, matchLink]
    cases hm : matchLinkAt (c :: (pre ++ ('[' :: (title ++ (']' :: '(' :: (href ++ (')' :: post))))))) with
    | some m => simp
    | none =>
      simp only
      cases hl : matchLink (pre ++ ('[' :: (title ++ (']' :: '(' :: (href ++ (')' :: post)))))) with
      | none => exact absurd hl ih
      | some y => simp

theorem matchLink_none_iff (line : QString) : matchLink line = none ↔ ¬ HasLink line := by
  constructor
  · rintro h ⟨pre, title, href, post, e, ht, hh, hnt, hnh⟩
    rw [e] at h
    exact matchLink_complete title href post ht hh hnt hnh pre h
  · intro h
    cases hm : matchLink line with
    | none => rfl
    | some m =>
      obtain ⟨pre, title, href, post⟩ := m
      exact absurd ⟨pre, title, href, post, matchLink_some _ _ _ _ _ hm⟩ h

/-! ### Counting the separators `](` -/

theorem countSep_nil : countOcc linkSeparator [] = 0 := rfl

theorem countSep_single (c : Char) : countOcc linkSeparator [c] = 0 := by
  simp [countOcc, linkSeparator, List.isPrefixOf]

theorem countSep_cons_cons (c d : Char) (r : QString) :
    countOcc linkSeparator (c :: d :: r) =
      (if c = ']' ∧ d = '(' then 1 else 0) + countOcc linkSeparator (d :: r) := by
  rw [countOcc]
  congr 1
  by_cases h : c = ']' ∧ d = '('
  · rw [if_pos h, h.1, h.2]
    simp [linkSeparator, List.isPrefixOf]
  · rw [if_neg h]
    simp only [linkSeparator, List.isPrefixOf, Bool.and_true, Bool.and_eq_true, beq_iff_eq,
      ite_eq_right_iff]
    intro hh
    exact absurd ⟨hh.1.symm, hh.2.symm⟩ h

/-- A character that is not `]` opens no separator. -/
theorem countSep_cons (c : Char) (b : QString) (hc : c ≠ ']') :
    countOcc linkSeparator (c :: b) = countOcc linkSeparator b := by
  cases b with
  | nil => rw [countSep_single, countSep_nil]
  | cons d r => rw [countSep_cons_cons, if_neg (fun h => hc h.1), Nat.zero_add]

/-- The separators of a text cut at one of its characters are those of the
two parts, the character being kept in both. -/
theorem countSep_split (c : Char) (b : QString) :
    ∀ a : QString, countOcc linkSeparator (a ++ c :: b) =
      countOcc linkSeparator (a ++ [c]) + countOcc linkSeparator (c :: b) := by
  intro a
  induction a with
  | nil => rw [List.nil_append, List.nil_append, countSep_single, Nat.zero_add]
  | cons x a ih =>
    cases a with
    | nil =>
      rw [List.cons_append, List.nil_append, List.cons_append, List.nil_append,
        countSep_cons_cons, countSep_cons_cons, countSep_single]
      omega
    | cons y a2 =>
      rw [List.cons_append, List.cons_append, countSep_cons_cons, ← List.cons_append, ih,
        List.cons_append x, List.cons_append y, countSep_cons_cons, ← List.cons_append y]
      omega

/-- A last character that is not `(` closes no separator. -/
theorem countSep_concat (c : Char) (hc : c ≠ '(') :
    ∀ a : QString, countOcc linkSeparator (a ++ [c]) = countOcc linkSeparator a := by
  intro a
  induction a with
  | nil => rw [List.nil_append, countSep_single, countSep_nil]
  | cons x a ih =>
    cases a with
    | nil =>
      rw [List.cons_append, List.nil_append, countSep_cons_cons, countSep_single,
        countSep_single, if_neg (fun h => hc h.2)]
    | cons y a2 =>
      rw [List.cons_append, List.cons_append, countSep_cons_cons, ← List.cons_append, ih,
        countSep_cons_cons]

/-- A character that is neither `]` nor `(` cuts the text in two parts whose
separators add up. -/
theorem countSep_plain (c : Char) (h1 : c ≠ ']') (h2 : c ≠ '(') (a b : QString) :
    countOcc linkSeparator (a ++ c :: b) = countOcc linkSeparator a + countOcc linkSeparator b := by
  rw [countSep_split, countSep_concat c h2, countSep_cons c b h1]

/-- The separators of a line with a match of the pattern. -/
theorem countSep_match (pre title href post : QString) :
    countOcc linkSeparator (pre ++ ('[' :: (title ++ (']' :: '(' :: (href ++ (')' :: post))))))
      = countOcc linkSeparator pre + countOcc linkSeparator title + 1
        + countOcc linkSeparator href + countOcc linkSeparator post := by
  rw [countSep_plain '[' (by decide) (by decide), countSep_split, countSep_concat ']' (by decide),
    countSep_cons_cons, if_pos ⟨rfl, rfl⟩, countSep_cons '(' _ (by decide),
    countSep_plain ')' (by decide) (by decide)]
  omega

theorem linkHtml_eq (href title : QString) :
    linkHtml href title = '<' :: 'a' :: ' ' :: 'h' :: 'r' :: 'e' :: 'f' :: '=' :: '"' ::
      (href ++ ('"' :: '>' :: (title ++ ['<', '/', 'a', '>']))) := by
  simp [linkHtml]

/-- The separators of a line in which the match is replaced by the link. -/
theorem countSep_link (pre title href post : QString) :
    countOcc linkSeparator (pre ++ linkHtml href title ++ post)
      = countOcc linkSeparator pre + countOcc linkSeparator title
        + countOcc linkSeparator href + countOcc linkSeparator post := by
  rw [linkHtml_eq, List.append_assoc]
  simp only [List.cons_append, List.append_assoc, List.nil_append]
  rw [countSep_plain '<' (by decide) (by decide),
    countSep_cons 'a' _ (by decide), countSep_cons ' ' _ (by decide),
    countSep_cons 'h' _ (by decide), countSep_cons 'r' _ (by decide),
    countSep_cons 'e' _ (by decide), countSep_cons 'f' _ (by decide),
    countSep_cons '=' _ (by decide),
    ← List.nil_append ('"' :: (href ++ _)), countSep_plain '"' (by decide) (by decide),
    countSep_nil, Nat.zero_add,
    countSep_plain '"' (by decide) (by decide), countSep_cons '>' _ (by decide),
    countSep_plain '<' (by decide) (by decide), countSep_cons '/' _ (by decide),
    countSep_cons 'a' _ (by decide), countSep_cons '>' _ (by decide)]
  omega

/-- One turn of the loop takes away exactly one separator. -/
theorem linkStep_count (line next : QString) (h : linkStep line = some next) :
    countOcc linkSeparator next + 1 = countOcc linkSeparator line := by
  unfold linkStep at h
  cases hm : matchLink line with
  | none => rw [hm] at h; exact Option.noConfusion h
  | some m =>
    obtain ⟨pre, title, href, post⟩ := m
    rw [hm] at h
    simp only [Option.map_some', Option.some.injEq] at h
    rw [← h, (matchLink_some _ _ _ _ _ hm).1, countSep_match, countSep_link]
    omega

theorem linkStep_none_iff (line : QString) : linkStep line = none ↔ matchLink line = none := by
  unfold linkStep
  cases matchLink line <;> simp

/-- With more turns than the line has separators the loop ends, on a line
without match. -/
theorem parseLinks_ends :
    ∀ (fuel : Nat) (line : QString), countOcc linkSeparator line < fuel →
      ∃ result, parseLinks fuel line = some result ∧ matchLink result = none := by
  intro fuel
  induction fuel with
  | zero => intro line h; exact absurd h (Nat.not_lt_zero _)
  | succ n ih =>
    intro line h
    rw [parseLinks]
    cases hs : linkStep line with
    | none => exact ⟨line, rfl, (linkStep_none_iff line).mp hs⟩
    | some next =>
      have := linkStep_count line next hs
      exact ih next (by omega)

/-- More turns than needed change nothing. -/
theorem parseLinks_mono :
    ∀ (fuel : Nat) (line result : QString), parseLinks fuel line = some result →
      ∀ more, fuel ≤ more → parseLinks more line = some result := by
  intro fuel
  induction fuel with
  | zero => intro line result h; simp [parseLinks] at h
  | succ n ih =>
    intro line result h more hm
    obtain ⟨m, rfl⟩ : ∃ m, more = m + 1 := ⟨more - 1, by omega⟩
    rw [parseLinks] at h ⊢
    cases hs : linkStep line with
    | none => rw [hs] at h; exact h
    | some next =>
      rw [hs] at h
      exact ih next result h m (by omega)

/-- Claim C22. For every line the link loop of the About dialog ends: each
turn replaces the first match of the pattern by the link and takes away
exactly one of the substrings `](` of the line, so after at most as many
turns as the line has such substrings there is no match left and the loop
is left with `break`. The line the loop leaves is the same for any larger
number of turns allowed, `regex.match` finds nothing in it, and it holds no
match of the pattern. The line `see [a](b)` becomes
`see <a href="b">a</a>`. -/
theorem C22_link_loop_ends (line : QString) :
    (∀ next, linkStep line = some next →
      countOcc linkSeparator next + 1 = countOcc linkSeparator line)
    ∧ (∃ result,
        (∀ fuel, countOcc linkSeparator line < fuel → parseLinks fuel line = some result)
        ∧ linkStep result = none ∧ matchLink result = none ∧ ¬ HasLink result)
    ∧ parseLinks 2 "see [a](b)".toList = some "see <a href=\"b\">a</a>".toList := by
  refine ⟨linkStep_count line, ?_, by decide⟩
  obtain ⟨result, h1, h2⟩ := parseLinks_ends (countOcc linkSeparator line + 1) line
    (Nat.lt_succ_self _)
  refine ⟨result, ?_, (linkStep_none_iff result).mpr h2, h2, (matchLink_none_iff result).mp h2⟩
  intro fuel hf
  exact parseLinks_mono _ line result h1 fuel (by omega)

/-! ## What `mkpath` creates -/

theorem splitSlash_append_slash (z : QString) :
    ∀ y : QString, splitSlash (y ++ '/' :: z) = splitSlash y ++ splitSlash z := by
  intro y
  induction y with
  | nil => simp [splitSlash]
  | cons ch cs ih =>
    by_cases hch : ch = '/'
    · subst hch
      simp [splitSlash, ih]
    · have hne := splitSlash_ne_nil cs
      cases hs : splitSlash cs with
      | nil => exact absurd hs hne
      | cons s ss =>
        rw [hs] at ih
        simp [splitSlash, hch, ih, hs]

theorem beforeLastSlash_split :
    ∀ x y : QString, beforeLastSlash x = some y → ∃ z, x = y ++ '/' :: z := by
  intro x
  induction x with
  | nil => intro y h; simp [beforeLastSlash] at h
  | cons ch cs ih =>
    intro y h
    rw [beforeLastSlash] at h
    cases hb : beforeLastSlash cs with
    | some r =>
      rw [hb] at h
      simp only [Option.some.injEq] at h
      obtain ⟨z, hz⟩ := ih r hb
      exact ⟨z, by rw [← h, hz]; rfl⟩
    | none =>
      rw [hb] at h
      simp only at h
      split at h
      · rename_i hch
        simp only [Option.some.injEq] at h
        exact ⟨cs, by rw [← h, hch]; rfl⟩
      · exact Option.noConfusion h

/-- The segments of the text before the last slash begin the segments of
the whole text. -/
theorem segments_beforeLastSlash (x y : QString) (h : beforeLastSlash x = some y) :
    segments y <+: segments x := by
  obtain ⟨z, hz⟩ := beforeLastSlash_split x y h
  rw [hz]
  unfold segments
  rw [splitSlash_append_slash, List.filter_append]
  exact List.prefix_append _ _

/-- The directory handed to `mkpath` is the new-package subdirectory or one
of its ancestors. -/
theorem newParent_prefix_newDir (c : ApkCloner) (r : QString) (hr : validName r = true) :
    c.newParent r <+: c.newDir r := by
  unfold ApkCloner.newParent ApkCloner.smaliPath ApkCloner.newDir
  have e1 : c.contentsPath ++ '/' :: r ++ ['/'] ++ c.newPackagePath
      = (c.contentsPath ++ '/' :: r) ++ '/' :: c.newPackagePath := by simp
  rw [e1]
  cases hb : beforeLastSlash c.newPackagePath with
  | none =>
    rw [fileInfoPath_of_some _ (c.contentsPath ++ '/' :: r)
      (by rw [beforeLastSlash_append_slash, hb]; simp) (by simp)]
    rw [resolve_append, segments_slash, segments_name r hr]
    exact ⟨segments c.newPackagePath, rfl⟩
  | some y =>
    rw [fileInfoPath_of_some _ (c.contentsPath ++ '/' :: r ++ '/' :: y)
      (by rw [beforeLastSlash_append_slash, hb]) (by simp)]
    have e2 : c.contentsPath ++ '/' :: r ++ '/' :: y = c.contentsPath ++ '/' :: (r ++ '/' :: y) := by
      simp
    rw [e2, resolve_append, segments_slash, segments_name_slash r y hr]
    obtain ⟨w, hw⟩ := segments_beforeLastSlash _ y hb
    exact ⟨w, by rw [← hw]; rfl⟩

theorem FS.mkpathFrom_isDir_keep (segs : List QString) (fs : FS) (done q : Path)
    (h : fs.isDir q = true) : (fs.mkpathFrom done segs).isDir q = true := by
  unfold FS.isDir at *
  cases q with
  | nil => rfl
  | cons a as =>
    simp only [List.isEmpty_cons, Bool.false_or, decide_eq_true_eq] at h ⊢
    rcases FS.mkpathFrom_find segs fs done (a :: as) with h1 | h1
    · rw [h1, h]
    · rw [h] at h1
      exact absurd h1.1 (by simp)

/-- What `mkpath` creates: when the system lets entries be created and no
regular file sits on the way, every directory of the path from `done` on
is a directory afterwards. -/
theorem FS.mkpathFrom_creates :
    ∀ (segs : List QString) (fs : FS) (done : Path), fs.canCreate = true →
      fs.isDir done = true →
      (∀ k, 1 ≤ k → k ≤ segs.length → ∀ text rw,
        fs.find (done ++ segs.take k) ≠ some (Node.file text rw)) →
      ∀ k, k ≤ segs.length → (fs.mkpathFrom done segs).isDir (done ++ segs.take k) = true := by
  intro segs
  induction segs with
  | nil =>
    intro fs done _ hd _ k hk
    have : k = 0 := by simpa using hk
    subst this
    simpa [FS.mkpathFrom] using hd
  | cons s rest ih =>
    intro fs done hc hd hno k hk
    have step : ∀ g : FS, g.canCreate = true → g.isDir done = true →
        g.isDir (done ++ [s]) = true →
        (∀ j, 1 ≤ j → j ≤ rest.length → ∀ text rw,
          g.find ((done ++ [s]) ++ rest.take j) ≠ some (Node.file text rw)) →
        (g.mkpathFrom (done ++ [s]) rest).isDir (done ++ (s :: rest).take k) = true := by
      intro g hgc hgd hgs hgno
      cases k with
      | zero =>
        simp only [List.take_zero, List.append_nil]
        exact FS.mkpathFrom_isDir_keep rest g _ done hgd
      | succ j =>
        have := ih g (done ++ [s]) hgc hgs hgno j (by simpa using hk)
        simpa using this
    rw [FS.mkpathFrom]
    cases hf : fs.find (done ++ [s]) with
    | none =>
      simp only
      rw [if_pos hc]
      apply step
      · exact hc
      · exact FS.isDir_append fs _ done hd
      · unfold FS.isDir
        rw [FS.find_append_dir fs _ _ hf]
        simp
      · intro j hj1 hj text rw
        rw [FS.find_append_dir fs _ _ hf]
        split
        · simp
        · have := hno (j + 1) (by omega) (by simp; omega) text rw
          simpa using this
    | some n =>
      cases n with
      | dir =>
        simp only
        apply step fs hc hd
        · unfold FS.isDir
          rw [hf]
          simp
        · intro j hj1 hj text rw
          have := hno (j + 1) (by omega) (by simp; omega) text rw
          simpa using this
      | file x rw =>
        have := hno 1 (Nat.le_refl 1) (by simp) x rw
        simp only [List.take_succ_cons, List.take_zero] at this
        exact absurd hf this

/-- The call `mkpath(p)` creates the whole path: when the system lets
entries be created and no regular file sits on the path, `p` and all its
ancestors are directories afterwards. -/
theorem FS.mkpath_creates (fs : FS) (p : Path) (hc : fs.canCreate = true)
    (hno : ∀ d, d <+: p → d ≠ [] → ∀ text rw, fs.find d ≠ some (Node.file text rw))
    (d : Path) (hd : d <+: p) : (fs.mkpath p).isDir d = true := by
  have hk : d.length ≤ p.length := hd.length_le
  have e : d = p.take d.length := List.prefix_iff_eq_take.mp hd
  have := FS.mkpathFrom_creates p fs [] hc rfl (by
    intro k hk1 hk2 text rw
    simp only [List.nil_append]
    apply hno _ (List.take_prefix _ _)
    intro h0
    have h3 := congrArg List.length h0
    rw [List.length_take, List.length_nil] at h3
    omega) d.length hk
  simp only [List.nil_append] at this
  rw [← e] at this
  exact this

/-- A `mkpath` event of a run belongs to the body of a smali directory the
loop got to. -/
theorem start_mkpath_reached (c : ApkCloner) (fs : FS) (hwf : fs.WF) (r : QString)
    (hr : r ∈ fs.smaliDirs) (h : Event.mkpath (c.newParent r) ∈ (c.start fs).1) :
    ∃ pre post, fs.smaliDirs = pre ++ r :: post ∧ (c.loopAt fs pre).2 = true := by
  rcases mem_start c fs hwf _ h with h | h | h | h | h
  · simp at h
  · rcases mem_resourceStage c fs hwf _ h with ⟨x, hx⟩ | ⟨q, t, _, _, _, h8⟩
    · simp at hx
    · simp at h8
  · rcases mem_manifestStage c fs _ h with hx | ⟨t, _, _, h3⟩
    · simp at hx
    · simp at h3
  · obtain ⟨pre, q, post, h1, h2, h3⟩ := mem_loopAt c fs _ _ h
    obtain ⟨hq, hv⟩ := stepAt_valid fs hwf pre q post h1
    have hqr : q = r := by
      rcases mem_stepAt c fs hwf q hv _ h3 with h4 | h4 | ⟨hx, h4⟩
      · rcases mem_walkEventsAt c fs q _ h4 with ⟨x, hx⟩ | ⟨y, t, _, _, _, h8⟩
        · simp at hx
        · simp at h8
      · simp at h4
      · rcases h4 with h4 | ⟨h4, _⟩ | ⟨h4, _⟩ | ⟨h4, _⟩
        · simp only [Event.mkpath.injEq] at h4
          obtain ⟨a, ha⟩ := newParent_cons c r (fs.smaliDirs_valid hwf r hr)
          obtain ⟨b, hb⟩ := newParent_cons c q hv
          rw [ha, hb] at h4
          simp only [List.cons.injEq] at h4
          exact h4.1.symm
        · simp at h4
        · simp at h4
        · simp at h4
    subst hqr
    exact ⟨pre, post, h1, h2⟩
  · simp at h

/-- The parent path of the new-package subdirectory after the body of a
smali directory the loop got to, whatever the outcome of the move. -/
theorem stepAt_parent_created (c : ApkCloner) (fs : FS) (hwf : fs.WF) (r : QString)
    (hr : r ∈ fs.smaliDirs) (hex : fs.pathExists (c.oldDir r) = true)
    (hc : fs.canCreate = true)
    (hno : ∀ d, d <+: c.newParent r → ∀ text rw, fs.find d ≠ some (Node.file text rw))
    (d : Path) (hd : d <+: c.newParent r) (hne : d ≠ []) :
    (c.stepAt fs r).2.1.find d = some Node.dir := by
  have hv := fs.smaliDirs_valid hwf r hr
  obtain ⟨rest, hrest⟩ := newParent_cons c r hv
  have hh : ∀ q, q <+: c.newParent r → q ≠ [] → headIs r q = true := by
    intro q hq hq0
    rw [hrest] at hq
    cases q with
    | nil => exact absurd rfl hq0
    | cons a as =>
      have := List.cons_prefix_cons.mp hq
      rw [headIs_cons]
      simp [this.1]
  have hM : ((c.walkedAt fs r).mkpath (c.newParent r)).isDir d = true := by
    refine FS.mkpath_creates (c.walkedAt fs r) _ hc ?_ d hd
    intro q hq hq0 text rw
    rw [walkedAt_find c fs hwf r hr q (hh q hq hq0)]
    cases hf : fs.find q with
    | none => simp
    | some n =>
      cases n with
      | dir => simp [rewriteNode]
      | file t w => exact absurd hf (hno q hq t w)
  have hMf : ((c.walkedAt fs r).mkpath (c.newParent r)).find d = some Node.dir := by
    unfold FS.isDir at hM
    cases d with
    | nil => exact absurd rfl hne
    | cons a as => simpa using hM
  cases hm : c.movedAt fs r with
  | none =>
    rw [stepAt_fail c fs hwf r hv hex hm]
    exact hMf
  | some g =>
    rw [stepAt_moved c fs hwf r hv hex g hm]
    show g.find d = some Node.dir
    have hcl : ((c.walkedAt fs r).mkpath (c.newParent r)).Closed :=
      FS.mkpath_closed _ _ (walkedAt_closed c fs hwf r)
    unfold ApkCloner.movedAt at hm
    obtain ⟨_, h2, _, h4, _, _⟩ := FS.rename_some _ _ _ _ hm
    rw [FS.rename_find_other _ _ _ _ hm d ?_ ?_]
    · exact hMf
    · intro hp
      rw [Bool.eq_false_iff] at h4
      apply h4
      exact List.isPrefixOf_iff_prefix.mpr
        (hp.trans (hd.trans (newParent_prefix_newDir c r hv)))
    · intro hp
      have := hcl d (c.newDir r) (by rw [hMf]; simp) hp
      rw [h2] at this
      exact absurd this (by simp)

/-- C4: on a well-formed tree, for a smali directory whose old-package
subdirectory exists. First, whenever the job calls `mkpath` on the parent
path of the new-package subdirectory, which it does before every move,
and the system lets entries be created and no regular file sits on that
path, the parent path and all its ancestors are directories at the end
of the run, also those that did not exist before and whatever the outcome
of the move. Second, a job that ends with `finished(true)` has called
`mkpath` on that parent path and has made exactly one move under the smali
directory, the successful move of the old-package subdirectory to the new
one; at the end the parent of the new subdirectory is a directory, every
entry that was at or below the old subdirectory is at the matching place of
the new one (files that open rewritten), and nothing exists at or below the
old subdirectory. -/
theorem C4_directory_move (contentsPath oldName newName : QString) (fs : FS) (hwf : fs.WF)
    (r : QString) (hr : r ∈ fs.smaliDirs)
    (hex : fs.pathExists ((ApkCloner.new contentsPath oldName newName).oldDir r) = true) :
    (Event.mkpath ((ApkCloner.new contentsPath oldName newName).newParent r)
        ∈ ((ApkCloner.new contentsPath oldName newName).start fs).1 →
      fs.canCreate = true →
      (∀ d, d <+: (ApkCloner.new contentsPath oldName newName).newParent r →
        ∀ text rw, fs.find d ≠ some (Node.file text rw)) →
      ∀ d, d <+: (ApkCloner.new contentsPath oldName newName).newParent r →
        ((ApkCloner.new contentsPath oldName newName).start fs).2.isDir d = true)
    ∧ (Event.finished true ∈ ((ApkCloner.new contentsPath oldName newName).start fs).1 →
      Event.mkpath ((ApkCloner.new contentsPath oldName newName).newParent r)
        ∈ ((ApkCloner.new contentsPath oldName newName).start fs).1
    ∧ ((ApkCloner.new contentsPath oldName newName).start fs).1.count
        (Event.rename ((ApkCloner.new contentsPath oldName newName).oldDir r)
          ((ApkCloner.new contentsPath oldName newName).newDir r) true) = 1
    ∧ (∀ src dst b, Event.rename src dst b ∈ ((ApkCloner.new contentsPath oldName newName).start fs).1 →
        headIs r src = true →
        src = (ApkCloner.new contentsPath oldName newName).oldDir r ∧
        dst = (ApkCloner.new contentsPath oldName newName).newDir r ∧ b = true)
    ∧ ((ApkCloner.new contentsPath oldName newName).start fs).2.isDir
        ((ApkCloner.new contentsPath oldName newName).newDir r).dropLast = true
    ∧ (∀ x n, fs.find ((ApkCloner.new contentsPath oldName newName).oldDir r ++ x) = some n →
        ((ApkCloner.new contentsPath oldName newName).start fs).2.find
          ((ApkCloner.new contentsPath oldName newName).newDir r ++ x)
          = some (rewriteNode (ApkCloner.new contentsPath oldName newName).substSmali n))
    ∧ (∀ x, ((ApkCloner.new contentsPath oldName newName).start fs).2.find
        ((ApkCloner.new contentsPath oldName newName).oldDir r ++ x) = none)
    ∧ ((ApkCloner.new contentsPath oldName newName).start fs).2.pathExists
        ((ApkCloner.new contentsPath oldName newName).oldDir r) = false) := by
  generalize ApkCloner.new contentsPath oldName newName = c at *
  have hv := fs.smaliDirs_valid hwf r hr
  constructor
  · intro hmk hc hno d hd
    obtain ⟨pre, post, hd2, hpre⟩ := start_mkpath_reached c fs hwf r hr hmk
    unfold FS.isDir
    cases d with
    | nil => rfl
    | cons a as =>
      simp only [List.isEmpty_cons, Bool.false_or, decide_eq_true_eq]
      have hh : headIs r (a :: as) = true := by
        obtain ⟨rest, hrest⟩ := newParent_cons c r hv
        rw [hrest] at hd
        have := List.cons_prefix_cons.mp hd
        rw [headIs_cons]
        simp [this.1]
      rw [start_find_reached c fs hwf pre r post hd2 hpre _ hh]
      exact stepAt_parent_created c fs hwf r hr hex hc hno _ hd (by simp)
  intro hok
  have hl := (start_finished_true_iff c fs hwf).mp hok
  have hs : (c.stepAt fs r).2.2 = true := (loopAt_true_iff c fs _).mp hl r hr
  obtain ⟨g, hm⟩ : ∃ g, c.movedAt fs r = some g := by
    cases hm : c.movedAt fs r with
    | some g => exact ⟨g, rfl⟩
    | none =>
      have := (stepAt_ok_iff c fs hwf r hv).mpr ⟨hex, hm⟩
      rw [hs] at this
      exact absurd this (by simp)
  have hstep := stepAt_moved c fs hwf r hv hex g hm
  obtain ⟨pre, post, hd⟩ := List.append_of_mem hr
  have hpre : (c.loopAt fs pre).2 = true := loopAt_prefix_true c fs pre _ (hd ▸ hl)
  have hfin : ∀ q, headIs r q = true → (c.start fs).2.find q = g.find q := by
    intro q hq
    rw [start_find_reached c fs hwf pre r post hd hpre q hq, hstep]
  obtain ⟨m1, m2, _, m4⟩ := stepAt_find_moved c fs hwf r hr g hm
  have hin : ∀ e, e ∈ (c.stepAt fs r).1 → e ∈ (c.start fs).1 :=
    fun e he => mem_start_of_stepAt c fs hwf pre r post hd hpre e he
  refine ⟨?_, ?_, ?_, ?_, ?_, ?_, ?_⟩
  · apply hin; rw [hstep]; simp
  · rw [start_events c fs hwf, hl]
    simp only [if_true, List.count_append, List.count_cons, List.count_nil]
    have z1 : (c.resourceStage fs).1.count (Event.rename (c.oldDir r) (c.newDir r) true) = 0 := by
      rw [List.count_eq_zero]
      intro h
      rcases mem_resourceStage c fs hwf _ h with ⟨x, hx⟩ | ⟨q, t, _, _, _, h8⟩
      · simp at hx
      · simp at h8
    have z2 : (c.manifestStage (c.resourceStage fs).2).1.count
        (Event.rename (c.oldDir r) (c.newDir r) true) = 0 := by
      rw [List.count_eq_zero]
      intro h
      rcases mem_manifestStage c fs _ h with hx | ⟨t, _, _, h3⟩
      · simp at hx
      · simp at h3
    have z3 : (c.loopAt fs fs.smaliDirs).1.count (Event.rename (c.oldDir r) (c.newDir r) true)
        = 1 := by
      rw [count_loopAt c fs _ r fs.smaliDirs (fs.smaliDirs_nodup hwf.1) hr hl]
      · rw [hstep]
        simp only [List.count_append,
          List.count_eq_zero.mpr (rename_not_walk c fs r _ _ true)]
        simp [List.count_cons]
      · intro q hq hne hmem
        rcases mem_stepAt c fs hwf q (fs.smaliDirs_valid hwf q hq) _ hmem with h4 | h4 | ⟨_, h4⟩
        · exact rename_not_walk c fs q _ _ _ h4
        · simp at h4
        · rcases h4 with h4 | ⟨h4, _⟩ | ⟨h4, _⟩ | ⟨h4, _⟩
          · simp at h4
          · simp only [Event.rename.injEq] at h4
            exact hne (oldDir_inj c q r h4.1.symm)
          · simp at h4
          · simp at h4
    rw [z1, z2, z3]
    simp
  · intro src dst b hmem hh
    obtain ⟨pre2, q, post2, h1, _, h3, h4, _, h6⟩ := start_rename c fs hwf src dst b hmem
    have hq : q = r := by
      rw [h3] at hh
      simpa [ApkCloner.oldDir, headIs] using hh
    subst hq
    refine ⟨h3, h4, ?_⟩
    rw [hm] at h6
    exact h6.symm
  · unfold FS.isDir at m4 ⊢
    cases hdl : (c.newDir r).dropLast with
    | nil => rfl
    | cons a as =>
      rw [hdl] at m4
      simp only [List.isEmpty_cons, Bool.false_or, decide_eq_true_eq] at m4 ⊢
      rw [hfin _ ?_]
      · exact m4
      · have := headIs_dropLast r (c.newDir r) (newDir_headIs c r)
        rw [hdl] at this
        rcases this with h | h
        · simp at h
        · exact h
  · intro x n hn
    rw [hfin _ (by simp [ApkCloner.newDir, headIs])]
    exact m1 x n hn
  · intro x
    rw [hfin _ (by simp [ApkCloner.oldDir, headIs])]
    exact m2 x
  · unfold FS.pathExists
    have := m2 []
    rw [List.append_nil] at this
    rw [hfin _ (oldDir_headIs c r), this]
    simp [ApkCloner.oldDir]

/-- C4 on a tree where the parent path is missing: the package `x.y` is
moved to `a.a`; the directory `smali/a` does not exist before the run and
is a directory after it, `smali/x/y/` is then at `smali/a/a/` and
`smali/x/y` is gone. On the sample tree `smali/com/example/app/` is moved
to `smali/com/example/clone/`. -/
theorem C4_directory_move_witness :
    roundTripTree.find ["smali".toList, "a".toList] = none
    ∧ ((ApkCloner.new "/tmp/apk".toList "x.y".toList "a.a".toList).start roundTripTree).2.isDir
        ["smali".toList, "a".toList] = true
    ∧ ((ApkCloner.new "/tmp/apk".toList "x.y".toList "a.a".toList).start roundTripTree).2.find
        ["smali".toList, "a".toList, "a".toList] = some Node.dir
    ∧ ((ApkCloner.new "/tmp/apk".toList "x.y".toList "a.a".toList).start roundTripTree).2.pathExists
        ["smali".toList, "x".toList, "y".toList] = false
    ∧ (sampleCloner.start sampleTree).2.find
        ["smali".toList, "com".toList, "example".toList, "clone".toList] = some Node.dir
    ∧ (sampleCloner.start sampleTree).2.pathExists
        ["smali".toList, "com".toList, "example".toList, "app".toList] = false :=
  ⟨by decide,
   (C4_directory_move "/tmp/apk".toList "x.y".toList "a.a".toList roundTripTree (by decide)
      "smali".toList (by decide) (by decide)).1 (by decide) (by decide)
      (fun d hd text rw he => by
        have hq := (by decide : ∀ q ∈ List.inits ["smali".toList, "a".toList],
          roundTripTree.find q = none ∨ roundTripTree.find q = some Node.dir) d
            ((List.mem_inits d _).mpr hd)
        rw [he] at hq
        simp at hq)
      ["smali".toList, "a".toList] (by decide),
   ((C4_directory_move "/tmp/apk".toList "x.y".toList "a.a".toList roundTripTree (by decide)
      "smali".toList (by decide) (by decide)).2 (by decide)).2.2.2.2.1 [] Node.dir (by decide),
   ((C4_directory_move "/tmp/apk".toList "x.y".toList "a.a".toList roundTripTree (by decide)
      "smali".toList (by decide) (by decide)).2 (by decide)).2.2.2.2.2.2,
   (((C4_directory_move "/tmp/apk".toList comExampleApp comExampleClone sampleTree sampleTree_wf
      "smali".toList (by decide) (by decide)).2 (by decide)).2.2.2.2.1 [] Node.dir
      (by decide)).trans (by decide),
   ((C4_directory_move "/tmp/apk".toList comExampleApp comExampleClone sampleTree sampleTree_wf
      "smali".toList (by decide) (by decide)).2 (by decide)).2.2.2.2.2.2.trans (by decide)⟩

/-! ## Two replacements that do not interfere -/

end ApkEditorStudio
